import Mathlib

/-!
# K6 framework generator: the template engine and the configuration validator

A shallow embedding of `src/generator.js` (class `K6FrameworkGenerator`):
the regex-driven template engine returned by `setupHandlebars`, together with
`evaluateExpression` and `evaluateHelperFunction`; and of the methods
`autoFixIssues` and `generateSampleData` of `src/validate-and-generate.js`
(class `K6ConfigValidator`), whose conventions stand at the head of their own
section.

Conventions of the embedding.

* A JavaScript string is the list of its characters (`Str`).
* A JavaScript value is a `JVal`: the values `JSON.parse` produces.  Numbers are
  the integer-valued ones (of magnitude below `2^53`), printed in decimal.  A
  record lists its entries in enumeration order.  Arrays and records carry a
  reference number, the identity that `===` compares.
* A record may have fields named like the methods the engine calls on it.  An
  own field `hasOwnProperty` or `toString` holds a value of JSON, which is not
  callable: the call `value.hasOwnProperty(part)` and the conversion of such a
  record to a string throw.
* A computation that can throw returns an `Option`; `none` is a thrown
  `TypeError`.
* `String.prototype.toUpperCase` is a parameter `up` of the engine (the host's
  Unicode case mapping): `up c` is the text `c.charAt(0).toUpperCase() +
  c.slice(1)` of the one-character string `c`.
-/

namespace K6Gen

/-- A JavaScript string, as the list of its characters. -/
abbrev Str := List Char

/-- The values of the engine: what `JSON.parse` yields.  `ref` is the identity of
an array or record. -/
inductive JVal where
  | null : JVal
  | bool (b : Bool) : JVal
  | num (n : Int) : JVal
  | str (s : Str) : JVal
  | arr (ref : Nat) (xs : List JVal) : JVal
  | obj (ref : Nat) (kvs : List (Str × JVal)) : JVal

/-! ## Characters and character classes -/

/-- The character `{`. -/
def cOpen : Char := Char.ofNat 123

/-- The character `}`. -/
def cClose : Char := Char.ofNat 125

/-- The character `$`. -/
def cDollar : Char := Char.ofNat 36

/-- The character `&`. -/
def cAmp : Char := Char.ofNat 38

/-- The grave accent. -/
def cGrave : Char := Char.ofNat 96

/-- The apostrophe. -/
def cApos : Char := Char.ofNat 39

/-- The double quote. -/
def cQuote : Char := Char.ofNat 34

/-- The backslash. -/
def cBackslash : Char := Char.ofNat 92

/-- The line feed. -/
def cNewline : Char := Char.ofNat 10

/-- The regex class `\s`, which is also what `trim` strips: ECMAScript
WhiteSpace and LineTerminator. -/
def isJsSpace (c : Char) : Bool :=
  let n := c.toNat
  (decide (9 ≤ n) && decide (n ≤ 13)) || n == 32 || n == 160 || n == 5760 ||
    (decide (8192 ≤ n) && decide (n ≤ 8202)) || n == 8232 || n == 8233 || n == 8239 ||
    n == 8287 || n == 12288 || n == 65279

/-- ECMAScript LineTerminator: the characters the regex `.` does not match. -/
def isLineTerminator (c : Char) : Bool :=
  let n := c.toNat
  n == 10 || n == 13 || n == 8232 || n == 8233

/-- The regex class `\w`: `[A-Za-z0-9_]`. -/
def isWordChar (c : Char) : Bool :=
  let n := c.toNat
  (decide (48 ≤ n) && decide (n ≤ 57)) || (decide (65 ≤ n) && decide (n ≤ 90)) ||
    (decide (97 ≤ n) && decide (n ≤ 122)) || n == 95

/-- The regex class `[^}]`. -/
def notClose (c : Char) : Bool := c != cClose

/-! ## String primitives -/

/-- `afterLit p s` is the rest of `s` after the literal `p`, when `s` starts
with `p`. -/
def afterLit : Str → Str → Option Str
  | [], s => some s
  | _ :: _, [] => none
  | p :: ps, c :: cs => if p = c then afterLit ps cs else none

/-- `String.prototype.includes` for a one-character needle. -/
def includesChar (c : Char) (s : Str) : Bool := s.any (fun d => d == c)

/-- First occurrence of the literal `pat` in `s`: the text before it and the
text after it. -/
def findSub (pat : Str) : Str → Option (Str × Str)
  | [] => if pat = [] then some ([], []) else none
  | c :: cs =>
    match afterLit pat (c :: cs) with
    | some rest => some ([], rest)
    | none =>
      match findSub pat cs with
      | some (b, a) => some (c :: b, a)
      | none => none

/-- `String.prototype.includes` for a literal needle. -/
def includesSub (pat s : Str) : Bool := (findSub pat s).isSome

/-- `String.prototype.trim`. -/
def trim (s : Str) : Str :=
  ((s.dropWhile isJsSpace).reverse.dropWhile isJsSpace).reverse

/-- `String.prototype.split` on a one-character separator. -/
def splitChar (d : Char) : Str → List Str
  | [] => [[]]
  | c :: cs =>
    if c = d then [] :: splitChar d cs
    else
      match splitChar d cs with
      | [] => [[c]]
      | p :: ps => (c :: p) :: ps

/-- Worker of `splitSub`: `skip` characters of the separator just matched are
still to be passed over, `cur` is the current piece, reversed. -/
def splitSubGo (sep : Str) : Nat → Str → Str → List Str
  | _, cur, [] => [cur.reverse]
  | k + 1, cur, _ :: cs => splitSubGo sep k cur cs
  | 0, cur, c :: cs =>
    match afterLit sep (c :: cs) with
    | some _ => cur.reverse :: splitSubGo sep (sep.length - 1) [] cs
    | none => splitSubGo sep 0 (c :: cur) cs

/-- `String.prototype.split` on a non-empty literal separator. -/
def splitSub (sep s : Str) : List Str := splitSubGo sep 0 [] s

/-- Decimal text of a number (`ToString` of an integer-valued number). -/
def numStr (n : Int) : Str :=
  if n < 0 then Char.ofNat 45 :: Nat.toDigits 10 n.natAbs else Nat.toDigits 10 n.natAbs

/-- `ToString` of a boolean. -/
def boolStr (b : Bool) : Str := if b then "true".toList else "false".toList

/-! ## Global regex replacement -/

/-- GetSubstitution for a regex without capture groups: the `$` patterns of a
replacement *string* (`$$`, `$&`, the text before the match, the text after
it); any other `$` is literal. -/
def expandDollar (pre matched post : Str) : Str → Str
  | [] => []
  | c :: r =>
    if c = cDollar then
      match r with
      | [] => [c]
      | d :: r2 =>
        if d = cDollar then cDollar :: expandDollar pre matched post r2
        else if d = cAmp then matched ++ expandDollar pre matched post r2
        else if d = cGrave then pre ++ expandDollar pre matched post r2
        else if d = cApos then post ++ expandDollar pre matched post r2
        else c :: d :: expandDollar pre matched post r2
    else c :: expandDollar pre matched post r

/-- Worker of `replaceLit`: `skip` characters of the current match are still to
be passed over, `pre` is the text already scanned, reversed. -/
def replaceLitGo (pat repl : Str) : Nat → Str → Str → Str
  | _, _, [] => []
  | k + 1, pre, c :: cs => replaceLitGo pat repl k (c :: pre) cs
  | 0, pre, c :: cs =>
    match afterLit pat (c :: cs) with
    | some post =>
      expandDollar pre.reverse pat post repl ++ replaceLitGo pat repl (pat.length - 1) (c :: pre) cs
    | none => c :: replaceLitGo pat repl 0 (c :: pre) cs

/-- `s.replace(/pat/g, repl)` for a literal pattern `pat` and a replacement
string `repl`. -/
def replaceLit (pat repl s : Str) : Str := replaceLitGo pat repl 0 [] s

/-- Worker of `replaceFn`.  The matcher `m` is tried at every position not
inside an earlier match; it yields the capture groups and the length of the
match. -/
def replaceFnGo (m : Str → Option (List Str × Nat)) (f : List Str → Option Str) :
    Nat → Str → Option Str
  | _, [] => some []
  | k + 1, _ :: cs => replaceFnGo m f k cs
  | 0, c :: cs =>
    match m (c :: cs) with
    | some (caps, len) =>
      match f caps, replaceFnGo m f (len - 1) cs with
      | some r, some rest => some (r ++ rest)
      | _, _ => none
    | none =>
      match replaceFnGo m f 0 cs with
      | some rest => some (c :: rest)
      | none => none

/-- `s.replace(/re/g, callback)`: every match, leftmost first and
non-overlapping, is replaced by what the callback returns for its capture
groups; a callback that throws makes the whole call throw. -/
def replaceFn (m : Str → Option (List Str × Nat)) (f : List Str → Option Str) (s : Str) :
    Option Str :=
  replaceFnGo m f 0 s

/-! ## Values: own properties, coercions, JSON text -/

/-- Own field of a record, by name. -/
def lookupKey (k : Str) : List (Str × JVal) → Option JVal
  | [] => none
  | (k', v) :: r => if k' = k then some v else lookupKey k r

/-- The array index a property name denotes: a canonical decimal numeral
(no sign, no leading zero). -/
def parseIndex (s : Str) : Option Nat :=
  let n := s.foldl (fun acc c => 10 * acc + (c.toNat - 48)) 0
  if Nat.toDigits 10 n = s then some n else none

/-- The own property `k` of a value, for values that are objects (`typeof v ===
'object'` and truthy): the fields of a record, the elements and the `length` of
an array.  `none` when the built-in `hasOwnProperty(k)` is false or the value is
not an object. -/
def getOwn : JVal → Str → Option JVal
  | .obj _ kvs, k => lookupKey k kvs
  | .arr _ xs, k =>
    match parseIndex k with
    | some i => xs.get? i
    | none => if k = "length".toList then some (.num xs.length) else none
  | _, _ => none

/-- The value is a record with an own field named `hasOwnProperty`.  On such a
record `value.hasOwnProperty` is that field and not the method of
`Object.prototype`; calling it throws. -/
def shadowed : JVal → Bool
  | .obj _ kvs => (lookupKey "hasOwnProperty".toList kvs).isSome
  | _ => false

/-- The loop of `evaluateExpression` over the parts of a dotted path (source
lines 145-151): `value.hasOwnProperty(part)` is called on every value that is an
object, and the loop returns the empty string at the first part that is not an
own property.  `none` when the call throws. -/
def evalPath : List Str → JVal → Option JVal
  | [], v => some v
  | p :: ps, v =>
    if shadowed v then none
    else
      match getOwn v p with
      | some v' => evalPath ps v'
      | none => some (.str [])

/-- The value a dotted path leads to through own properties, the empty string
when a part is not an own property: the result of the loop of
`evaluateExpression` when no call of `hasOwnProperty` throws. -/
def walk : List Str → JVal → JVal
  | [], v => v
  | p :: ps, v =>
    match getOwn v p with
    | some v' => walk ps v'
    | none => .str []

/-- JavaScript truthiness (`ToBoolean`). -/
def toBoolean : JVal → Bool
  | .null => false
  | .bool b => b
  | .num n => n != 0
  | .str s => !s.isEmpty
  | .arr _ _ => true
  | .obj _ _ => true

mutual
/-- `ToString` of a value, as applied to what a replace callback returns.  An
array is converted by `join`, a record by the `toString` it inherits; a record
with an own field `toString` has no callable conversion, and `none` is the
`TypeError` thrown then. -/
def toText : JVal → Option Str
  | .null => some "null".toList
  | .bool b => some (boolStr b)
  | .num n => some (numStr n)
  | .str s => some s
  | .arr _ xs => joinTexts [Char.ofNat 44] xs
  | .obj _ kvs =>
    if (lookupKey "toString".toList kvs).isSome then none else some "[object Object]".toList
termination_by structural v => v
/-- `Array.prototype.join`: the elements converted to strings, `null` as the
empty string, with the separator between them; `none` when a conversion
throws. -/
def joinTexts (sep : Str) : List JVal → Option Str
  | [] => some []
  | x :: r =>
    match (match x with
      | .null => some []
      | v => toText v), joinTexts sep r with
    | some a, some b =>
      some (a ++
        (match r with
          | [] => []
          | _ => sep ++ b))
    | _, _ => none
termination_by structural l => l
end

mutual
/-- The text of a value whose conversion to a string does not throw. -/
def toStr : JVal → Str
  | .null => "null".toList
  | .bool b => boolStr b
  | .num n => numStr n
  | .str s => s
  | .arr _ xs => joinElems [Char.ofNat 44] xs
  | .obj _ _ => "[object Object]".toList
termination_by structural v => v
/-- The text of `Array.prototype.join` on elements whose conversion does not
throw: the elements, `null` as the empty string, with the separator between
them. -/
def joinElems (sep : Str) : List JVal → Str
  | [] => []
  | x :: r =>
    (match x with
      | .null => []
      | v => toStr v) ++
    (match r with
      | [] => []
      | _ => sep ++ joinElems sep r)
termination_by structural l => l
end

/-- Two lower-case hexadecimal digits. -/
def hexDigit (n : Nat) : Char := if n < 10 then Char.ofNat (48 + n) else Char.ofNat (87 + n)

/-- One character inside a JSON string literal (QuoteJSONString). -/
def quoteChar (c : Char) : Str :=
  let n := c.toNat
  if n = 8 then [cBackslash, Char.ofNat 98]
  else if n = 9 then [cBackslash, Char.ofNat 116]
  else if n = 10 then [cBackslash, Char.ofNat 110]
  else if n = 12 then [cBackslash, Char.ofNat 102]
  else if n = 13 then [cBackslash, Char.ofNat 114]
  else if n = 34 then [cBackslash, cQuote]
  else if n = 92 then [cBackslash, cBackslash]
  else if n < 32 then
    [cBackslash, Char.ofNat 117, Char.ofNat 48, Char.ofNat 48, hexDigit (n / 16), hexDigit (n % 16)]
  else [c]

/-- A JSON string literal. -/
def quote (s : Str) : Str := cQuote :: (s.flatMap quoteChar ++ [cQuote])

/-- Indentation of `n` spaces. -/
def spaces (n : Nat) : Str := List.replicate n (Char.ofNat 32)

mutual
/-- `JSON.stringify(v, null, gap)` at indentation `ind`; `gap = 0` is the compact
form `JSON.stringify(v)`. -/
def serialize (gap : Nat) : Nat → JVal → Str
  | _, .null => "null".toList
  | _, .bool b => boolStr b
  | _, .num n => numStr n
  | _, .str s => quote s
  | ind, .arr _ xs =>
    if xs.isEmpty then "[]".toList
    else if gap = 0 then Char.ofNat 91 :: (serializeElems gap ind xs ++ [Char.ofNat 93])
    else
      Char.ofNat 91 :: cNewline :: (spaces (ind + gap) ++ serializeElems gap (ind + gap) xs ++
        cNewline :: (spaces ind ++ [Char.ofNat 93]))
  | ind, .obj _ kvs =>
    if kvs.isEmpty then [cOpen, cClose]
    else if gap = 0 then cOpen :: (serializeMembers gap ind kvs ++ [cClose])
    else
      cOpen :: cNewline :: (spaces (ind + gap) ++ serializeMembers gap (ind + gap) kvs ++
        cNewline :: (spaces ind ++ [cClose]))
termination_by structural _ v => v
/-- The elements of an array, separated. -/
def serializeElems (gap : Nat) : Nat → List JVal → Str
  | _, [] => []
  | ind, x :: r =>
    serialize gap ind x ++
    (match r with
      | [] => []
      | _ =>
        (if gap = 0 then [Char.ofNat 44] else Char.ofNat 44 :: cNewline :: spaces ind) ++
          serializeElems gap ind r)
termination_by structural _ l => l
/-- The members of a record, separated. -/
def serializeMembers (gap : Nat) : Nat → List (Str × JVal) → Str
  | _, [] => []
  | ind, kv :: r =>
    serializeMember gap ind kv ++
    (match r with
      | [] => []
      | _ =>
        (if gap = 0 then [Char.ofNat 44] else Char.ofNat 44 :: cNewline :: spaces ind) ++
          serializeMembers gap ind r)
termination_by structural _ l => l
/-- One member of a record: the quoted key, a colon (and a space when
indenting), the value. -/
def serializeMember (gap : Nat) : Nat → Str × JVal → Str
  | ind, (k, v) =>
    quote k ++ (if gap = 0 then [Char.ofNat 58] else [Char.ofNat 58, Char.ofNat 32]) ++
      serialize gap ind v
termination_by structural _ kv => kv
end

/-- `Object.keys(item)[0] || ''`; `Object.keys(null)` throws. -/
def firstKey : JVal → Option Str
  | .null => none
  | .obj _ kvs =>
    match kvs with
    | [] => some []
    | (k, _) :: _ => some k
  | .arr _ xs => if xs.isEmpty then some [] else some [Char.ofNat 48]
  | .str s => if s.isEmpty then some [] else some [Char.ofNat 48]
  | _ => some []

/-! ## The regular expressions of the engine -/

/-- The inline marker regex `\{\{([^}]+)\}\}`, tried at the start of `s`: the
capture group and the length of the match. -/
def matchInline (s : Str) : Option (List Str × Nat) :=
  match afterLit "\x7b\x7b".toList s with
  | none => none
  | some r =>
    let t := r.takeWhile notClose
    if t.isEmpty then none
    else
      match afterLit "\x7d\x7d".toList (r.drop t.length) with
      | none => none
      | some _ => some ([t], t.length + 4)

/-- The block regex `\{\{#kw\s+([^}]+)\}\}([\s\S]*?)\{\{\/kw\}\}`, tried at the
start of `s`, for `kw` one of `each`, `if`, `unless`.

After `{{#kw`, let `t` be the text up to the first `}` and `w` its leading run of
`\s` characters.  `\s+` is greedy and `[^}]+` must end exactly where `t` ends, so
the header matches iff `w` is non-empty, `t` has at least two characters and
`}}` follows `t`; group 1 is `t` without `w`, or the last character of `w` when
`t` is all white space.  The lazy body ends at the first close marker. -/
def matchBlock (kw : Str) (s : Str) : Option (List Str × Nat) :=
  match afterLit ("\x7b\x7b#".toList ++ kw) s with
  | none => none
  | some r1 =>
    let t := r1.takeWhile notClose
    let w := t.takeWhile isJsSpace
    if w.isEmpty || decide (t.length < 2) then none
    else
      match afterLit "\x7d\x7d".toList (r1.drop t.length) with
      | none => none
      | some r2 =>
        match findSub ("\x7b\x7b/".toList ++ kw ++ "\x7d\x7d".toList) r2 with
        | none => none
        | some (body, _) =>
          let j := if w.length < t.length then w.length else w.length - 1
          some ([t.drop j, body],
            (3 + kw.length) + t.length + 2 + body.length + (5 + kw.length))

/-- The arguments `(.+)` of the helper regex once `\w+` is fixed: `\s+` gives
back white space until a character that `.` matches follows; `j` is the number
of white-space characters still held by `\s+`. -/
def pickArgs (r : Str) : Nat → Option Str
  | 0 => none
  | j + 1 =>
    match r.drop (j + 1) with
    | [] => pickArgs r j
    | c :: cs =>
      if isLineTerminator c then pickArgs r j
      else some ((c :: cs).takeWhile (fun d => !isLineTerminator d))

/-- The helper regex `(\w+)\s+(.+)` tried at the start of `s`: helper name and
argument text. -/
def helperAt (s : Str) : Option (Str × Str) :=
  let name := s.takeWhile isWordChar
  let r := s.drop name.length
  let w := r.takeWhile isJsSpace
  if name.isEmpty || w.isEmpty then none
  else
    match pickArgs r w.length with
    | some args => some (name, args)
    | none => none

/-- The call `expression.match(/(\w+)\s+(.+)/)`: the leftmost match. -/
def matchHelper : Str → Option (Str × Str)
  | [] => none
  | c :: cs =>
    match helperAt (c :: cs) with
    | some r => some r
    | none => matchHelper cs

/-! ## Expressions and helpers -/

/-- The test `expression.includes('(') && expression.includes(')')`. -/
def isHelperCall (e : Str) : Bool :=
  includesChar (Char.ofNat 40) e && includesChar (Char.ofNat 41) e

/-- Strict equality `===`: by value on primitives, by identity on arrays and
records. -/
def strictEq : JVal → JVal → Bool
  | .null, .null => true
  | .bool a, .bool b => a == b
  | .num a, .num b => a == b
  | .str a, .str b => a == b
  | .arr r _, .arr r' _ => r == r'
  | .obj r _, .obj r' _ => r == r'
  | _, _ => false

/-- The value of `data.this !== undefined ? data.this : data`; reading a
property of `null` throws. -/
def ambientThis : JVal → Option JVal
  | .null => none
  | .obj r kvs =>
    match lookupKey "this".toList kvs with
    | some v => some v
    | none => some (.obj r kvs)
  | v => some v

/-- Body of `evaluateHelperFunction`, with the recursive call of
`evaluateExpression` on an argument abstracted as `ev`.  An argument that is
absent from `argList` is `none` (JavaScript `undefined`). -/
def helperBody (up : Char → Str) (ev : Option Str → JVal → Option JVal)
    (expression : Str) (data : JVal) : Option JVal :=
  match matchHelper expression with
  | none => some (.str [])
  | some (helperName, args) =>
    let argList := (splitChar (Char.ofNat 32) args).map trim
    if helperName = "capitalize".toList then
      match ev (argList.get? 0) data with
      | none => none
      | some (.str []) => some (.str [])
      | some (.str (c :: cs)) => some (.str (up c ++ cs))
      | some _ => some (.str [])
    else if helperName = "join".toList then
      match ev (argList.get? 0) data with
      | none => none
      | some (.arr _ xs) =>
        let separator :=
          match argList.get? 1 with
          | some (c :: cs) => c :: cs
          | _ => [Char.ofNat 95]
        match joinTexts separator xs with
        | some s => some (.str s)
        | none => none
      | some _ => some (.str [])
    else if helperName = "eq".toList then
      match ev (argList.get? 0) data, ev (argList.get? 1) data with
      | some val1, some val2 => some (.bool (strictEq val1 val2))
      | _, _ => none
    else if helperName = "json".toList then
      if argList.get? 0 = some "this".toList then
        match ambientThis data with
        | some v => some (.str (serialize 2 0 v))
        | none => none
      else
        match ev (argList.get? 0) data with
        | some obj => some (.str (serialize 2 0 obj))
        | none => none
    else if helperName = "unless".toList then
      match ev (argList.get? 0) data with
      | some condition => some (.bool (!toBoolean condition))
      | none => none
    else some (.str [])

/-- The function `evaluateExpression` with a bound `fuel` on the nesting of
helper calls.  Every nested call is on a strictly shorter expression, so
`fuel = expression.length` is never exhausted (the branch at `0` with a helper
call cannot be reached from `evaluateExpression`). -/
def evaluateExpressionFuel (up : Char → Str) : Nat → Str → JVal → Option JVal
  | 0, expression, data => evalPath (splitChar (Char.ofNat 46) expression) data
  | fuel + 1, expression, data =>
    if isHelperCall expression then
      helperBody up
        (fun a d =>
          match a with
          | none => none
          | some e => evaluateExpressionFuel up fuel e d)
        expression data
    else evalPath (splitChar (Char.ofNat 46) expression) data

/-- The method `evaluateExpression(expression, data)`. -/
def evaluateExpression (up : Char → Str) (expression : Str) (data : JVal) : Option JVal :=
  evaluateExpressionFuel up expression.length expression data

/-- The method `evaluateHelperFunction(expression, data)`; evaluating an
`undefined` argument throws. -/
def evaluateHelperFunction (up : Char → Str) (expression : Str) (data : JVal) : Option JVal :=
  helperBody up
    (fun a d =>
      match a with
      | none => none
      | some e => evaluateExpression up e d)
    expression data

/-! ## The compiled template: `setupHandlebars().compile(template)(data)` -/

/-- The marker `{{this}}`. -/
def mThis : Str := "\x7b\x7bthis\x7d\x7d".toList

/-- The marker `{{@index}}`. -/
def mIndex : Str := "\x7b\x7b@index\x7d\x7d".toList

/-- The marker `{{@key}}`. -/
def mKey : Str := "\x7b\x7b@key\x7d\x7d".toList

/-- The marker `{{@last}}`. -/
def mLast : Str := "\x7b\x7b@last\x7d\x7d".toList

/-- The marker `{{else}}`. -/
def mElse : Str := "\x7b\x7belse\x7d\x7d".toList

/-- The call `xs.map((item, index) => f(index, item)).join('')`, from index `i`. -/
def mapJoin {α : Type} (f : Nat → α → Option Str) : Nat → List α → Option Str
  | _, [] => some []
  | i, x :: r =>
    match f i x, mapJoin f (i + 1) r with
    | some a, some b => some (a ++ b)
    | _, _ => none

/-- Callback of the inline pass and of the sequence-mode item pass:
`evaluateExpression(expr.trim(), ctx)`, converted to a string. -/
def inlineValue (up : Char → Str) (ctx : JVal) (caps : List Str) : Option Str :=
  match evaluateExpression up (trim (caps.getD 0 [])) ctx with
  | some v => toText v
  | none => none

/-- One iteration of a sequence-mode `each` (source lines 51-66). -/
def renderSeqItem (up : Char → Str) (templateContent : Str) (len index : Nat) (item : JVal) :
    Option Str :=
  let t1 := replaceLit mThis (serialize 0 0 item) templateContent
  let t2 := replaceLit mIndex (Nat.toDigits 10 index) t1
  match firstKey item with
  | none => none
  | some k =>
    let t3 := replaceLit mKey k t2
    let t4 := replaceLit mLast (boolStr (index == len - 1)) t3
    replaceFn matchInline (inlineValue up item) t4

/-- Callback of the inline replacement inside a keyed-mapping `each`
(source lines 79-92). -/
def keyedValue (up : Char → Str) (key : Str) (value : JVal) (caps : List Str) : Option Str :=
  let trimmedExpr := trim (caps.getD 0 [])
  if includesChar (Char.ofNat 40) trimmedExpr || includesChar (Char.ofNat 32) trimmedExpr then
    match evaluateExpression up trimmedExpr
        (.obj 0 [("key".toList, .str key), ("value".toList, value), ("this".toList, value)]) with
    | some v => toText v
    | none => none
  else if trimmedExpr = "this".toList then some (serialize 2 0 value)
  else
    match evaluateExpression up trimmedExpr
        (.obj 0 [("key".toList, .str key), ("value".toList, value)]) with
    | some v => toText v
    | none => none

/-- One iteration of a keyed-mapping `each` (source lines 70-93). -/
def renderKeyedItem (up : Char → Str) (templateContent : Str) (len index : Nat)
    (entry : Str × JVal) : Option Str :=
  let t1 := replaceLit mKey entry.1 templateContent
  let t2 := replaceLit mIndex (Nat.toDigits 10 index) t1
  let t3 := replaceLit mLast (boolStr (index == len - 1)) t2
  replaceFn matchInline (keyedValue up entry.1 entry.2) t3

/-- Callback of the `each` pass (source lines 48-97). -/
def eachBlock (up : Char → Str) (data : JVal) (caps : List Str) : Option Str :=
  let arrayPath := caps.getD 0 []
  let templateContent := caps.getD 1 []
  match evaluateExpression up (trim arrayPath) data with
  | none => none
  | some (.arr _ xs) => mapJoin (renderSeqItem up templateContent xs.length) 0 xs
  | some (.obj _ kvs) => mapJoin (renderKeyedItem up templateContent kvs.length) 0 kvs
  | some _ => some []

/-- Callback of the `if` pass (source lines 100-112). -/
def ifBlock (up : Char → Str) (data : JVal) (caps : List Str) : Option Str :=
  let condition := caps.getD 0 []
  let templateContent := caps.getD 1 []
  match evaluateExpression up (trim condition) data with
  | none => none
  | some conditionValue =>
    if includesSub mElse templateContent then
      let parts := splitSub mElse templateContent
      if toBoolean conditionValue then some (parts.getD 0 []) else some (parts.getD 1 [])
    else if toBoolean conditionValue then some templateContent
    else some []

/-- Callback of the `unless` pass (source lines 115-121). -/
def unlessBlock (up : Char → Str) (data : JVal) (caps : List Str) : Option Str :=
  let condition := caps.getD 0 []
  let templateContent := caps.getD 1 []
  match evaluateExpression up (trim condition) data with
  | none => none
  | some conditionValue => if toBoolean conditionValue then some [] else some templateContent

/-- The renderer `compile(template)(data)`: the four global passes in source
order; `none` when a callback throws. -/
def compile (up : Char → Str) (template : Str) (data : JVal) : Option Str :=
  match replaceFn (matchBlock "each".toList) (eachBlock up data) template with
  | none => none
  | some r1 =>
    match replaceFn (matchBlock "if".toList) (ifBlock up data) r1 with
    | none => none
    | some r2 =>
      match replaceFn (matchBlock "unless".toList) (unlessBlock up data) r2 with
      | none => none
      | some r3 => replaceFn matchInline (inlineValue up data) r3

/-! ## Vocabulary of the statements -/

/-- Some inline marker `{{...}}` (a match of `\{\{([^}]+)\}\}`) occurs in `s`. -/
def hasMarker : Str → Bool
  | [] => false
  | c :: cs => (matchInline (c :: cs)).isSome || hasMarker cs

/-- The text `s` starts with `{{`. -/
def startsOpen : Str → Bool
  | c :: d :: _ => c == cOpen && d == cOpen
  | _ => false

/-- The text `{{` occurs in `s`. -/
def hasOpen : Str → Bool
  | [] => false
  | c :: cs => startsOpen (c :: cs) || hasOpen cs

/-- The character `$` occurs in `s`. -/
def hasDollar (s : Str) : Bool := includesChar cDollar s

/-- A path as written in a directive: non-empty text without braces. -/
def isPathText (p : Str) : Bool :=
  !p.isEmpty && p.all (fun c => c != cOpen && c != cClose)

/-- The template text `{{#kw p}}body{{/kw}}`. -/
def blockTemplate (kw p body : Str) : Str :=
  "\x7b\x7b#".toList ++ kw ++ Char.ofNat 32 :: p ++ "\x7d\x7d".toList ++ body ++
    ("\x7b\x7b/".toList ++ kw ++ "\x7d\x7d".toList)

/-- The value reached from `v` by following own fields along a list of path
segments. -/
inductive Reaches : JVal → List Str → JVal → Prop where
  | here (v : JVal) : Reaches v [] v
  | step {v v' w : JVal} {k : Str} {ks : List Str} :
      getOwn v k = some v' → Reaches v' ks w → Reaches v (k :: ks) w

/-- The lookup of the path `ks` from `v` calls `hasOwnProperty` only on values
that inherit it: no record met on the way has an own field of that name. -/
def plainPath : List Str → JVal → Bool
  | [], _ => true
  | k :: ks, v =>
    !shadowed v &&
      (match getOwn v k with
        | some v' => plainPath ks v'
        | none => true)

/-- The lookup of the dotted path `p` in `ctx` meets no record with an own field
`hasOwnProperty`. -/
def plainAt (p : Str) (ctx : JVal) : Bool := plainPath (splitChar (Char.ofNat 46) p) ctx

mutual
/-- The conversion of the value to a string does not throw: no record that the
conversion reaches (the value itself, or an element of an array, at any depth)
has an own field `toString`. -/
def stringable : JVal → Bool
  | .arr _ xs => stringableAll xs
  | .obj _ kvs => (lookupKey "toString".toList kvs).isNone
  | _ => true
termination_by structural v => v
/-- Every element of the list can be converted to a string. -/
def stringableAll : List JVal → Bool
  | [] => true
  | x :: r => stringable x && stringableAll r
termination_by structural l => l
end

/-- A context with an own field `hasOwnProperty`, beside fields `flag`, `a` and
`c` with truthy values. -/
def ctxShadow : JVal :=
  .obj 0 [("hasOwnProperty".toList, .num 1), ("flag".toList, .bool true), ("a".toList, .num 2),
    ("c".toList, .num 1)]

/-- An instance of the case-mapping parameter: upper-casing of ASCII letters. -/
def asciiUpper (c : Char) : Str := [c.toUpper]

/-- The path `ks` leads nowhere from `v`: some segment is not an own field of the
value reached before it (the field is absent, or that value is not an object). -/
def Stuck (v : JVal) (ks : List Str) : Prop :=
  ∃ pre k post u, ks = pre ++ k :: post ∧ Reaches v pre u ∧ getOwn u k = none

/-- The test `Array.isArray(v)`. -/
def isArray : JVal → Bool
  | .arr _ _ => true
  | _ => false

/-- A keyed mapping: a record (truthy, `typeof v === 'object'`, not an array). -/
def isMapping : JVal → Bool
  | .obj _ _ => true
  | _ => false

/-- A context whose `xs` is a list with one `null` element. -/
def ctxNullList : JVal := .obj 0 [("xs".toList, .arr 1 [.null])]

/-- The template `{{#each xs}}x{{/each}}`. -/
def tplEachX : Str := blockTemplate "each".toList "xs".toList "x".toList

/-- The template `{{#if flag}}A{{else}}B{{/if}}`. -/
def tplIfElse : Str := blockTemplate "if".toList "flag".toList "A\x7b\x7belse\x7d\x7dB".toList

/-- A field name as written in a template: a non-empty run of word characters
other than the reserved name `this`. -/
def isFieldName (f : Str) : Bool :=
  !f.isEmpty && f.all isWordChar && f != "this".toList

/-- The inline marker `{{f}}`. -/
def marker (f : Str) : Str := cOpen :: cOpen :: (f ++ [cClose, cClose])

/-- The text of the own field `f` of `x`, empty when `x` has no such field. -/
def fieldText (f : Str) (x : JVal) : Str := toStr ((getOwn x f).getD (.str []))

/-- The element `x` gives a text for the marker `{{f}}`: it has no own field
`hasOwnProperty`, and the value of its field `f` can be converted to a string. -/
def hasText (f : Str) (x : JVal) : Bool :=
  !shadowed x && stringable ((getOwn x f).getD (.str []))

/-- What the lookup of the field `f` in the element `x` and the conversion of the
result give: the text of the field, or `none` when one of the two throws. -/
def renderedField (f : Str) (x : JVal) : Option Str :=
  if shadowed x then none else toText ((getOwn x f).getD (.str []))

/-- The template `{{#each xs}}{{@index}}:{{@last}}{{/each}}`. -/
def tplIndexLast : Str :=
  blockTemplate "each".toList "xs".toList "\x7b\x7b@index\x7d\x7d:\x7b\x7b@last\x7d\x7d".toList

/-- A context whose list `xs` holds one record with a field `f` of text `{{g}}`,
beside a root field `g`. -/
def ctxFieldMarker : JVal :=
  .obj 0 [("xs".toList, .arr 1 [.obj 2 [("f".toList, .str "\x7b\x7bg\x7d\x7d".toList)]]),
    ("g".toList, .str "X".toList)]

/-- A context whose list `xs` holds the one string `{{a}}`. -/
def ctxStringMarker : JVal :=
  .obj 0 [("xs".toList, .arr 1 [.str "\x7b\x7ba\x7d\x7d".toList])]

/-- A context whose mapping `m` has the one entry `x` with value `{{y}}`. -/
def ctxMappingMarker : JVal :=
  .obj 0 [("m".toList, .obj 1 [("x".toList, .str "\x7b\x7by\x7d\x7d".toList)])]

/-- The value is not `null`. -/
def notNull : JVal → Bool
  | .null => false
  | _ => true

/-- The text the claim C4 describes for a list of length `n`: for `i = 0..n-1`,
the decimal `i`, a colon, and `true` for the last index, `false` otherwise. -/
def indexLastText (n : Nat) : Str :=
  (List.range n).flatMap (fun i => Nat.toDigits 10 i ++ Char.ofNat 58 :: boolStr (i == n - 1))

/-- The text of an entry under `{{@key}}={{this}}`: key, `=`, and the 2-space
JSON dump of the value. -/
def entryText (kv : Str × JVal) : Str := kv.1 ++ Char.ofNat 61 :: serialize 2 0 kv.2

/-- A context with nested records: `a.b` is `1`. -/
def ctxNested : JVal := .obj 0 [("a".toList, .obj 1 [("b".toList, .num 1)])]

/-- A context with `flag` false, an empty list `c`, a list `xs` of records and of
scalars `ys`, a mapping `m`, and a root field `f`. -/
def ctxSample : JVal :=
  .obj 0 [("flag".toList, .bool false), ("c".toList, .arr 1 []),
    ("xs".toList, .arr 2 [.obj 3 [("f".toList, .str "a".toList)], .obj 4 [("g".toList, .num 1)]]),
    ("ys".toList, .arr 5 [.num 1, .str "a".toList, .obj 6 [("k".toList, .bool true)]]),
    ("m".toList, .obj 7 [("x".toList, .num 1), ("y".toList, .num 2)]),
    ("f".toList, .str "ROOT".toList)]

/-- No match of a `{{`-anchored pattern can start inside `a` when `a` is followed by `b`. -/
def Quiet (a b : Str) : Prop := ∀ a2, a2 <:+ a → a2 ≠ [] → startsOpen (a2 ++ b) = false

/-- A matcher that only matches at `{{`. -/
def NeedsOpen (m : Str → Option (List Str × Nat)) : Prop :=
  ∀ s, startsOpen s = false → m s = none

/-- No proper non-empty suffix of `pat` is also a prefix of it. -/
def noBorder (pat : Str) : Bool :=
  (List.range pat.length).all (fun k => k == 0 || pat.drop k != pat.take (pat.length - k))

/-! ## Vocabulary of the statements on helpers and nested blocks -/

/-- A token of a helper invocation (a path or a literal argument): non-empty,
without white space. -/
def isToken (s : Str) : Bool := !s.isEmpty && s.all (fun c => !isJsSpace c)

/-- The text `s` with its first character upper-cased and the rest unchanged. -/
def capitalizeText (up : Char → Str) : Str → Str
  | [] => []
  | c :: cs => up c ++ cs

/-- The text of an element inside `Array.prototype.join`: empty for `null`. -/
def elemText : JVal → Str
  | .null => []
  | v => toStr v

/-- Strict equality in the words of the specification: same type and same
value, without coercion; two arrays or two records are the same value when
they are the same object. -/
inductive StrictlyEqual : JVal → JVal → Prop where
  | null : StrictlyEqual .null .null
  | bool (b : Bool) : StrictlyEqual (.bool b) (.bool b)
  | num (n : Int) : StrictlyEqual (.num n) (.num n)
  | str (s : Str) : StrictlyEqual (.str s) (.str s)
  | arr (r : Nat) (xs ys : List JVal) : StrictlyEqual (.arr r xs) (.arr r ys)
  | obj (r : Nat) (kvs kvs' : List (Str × JVal)) : StrictlyEqual (.obj r kvs) (.obj r kvs')

/-- A context with a string `name`, a number `num`, a list `l`, a text `sep`, the
number `one`, the text `ones` and a field `this`. -/
def ctxHelpers : JVal :=
  .obj 0 [("name".toList, .str "abc".toList), ("num".toList, .num 42),
    ("l".toList, .arr 1 [.num 1, .null, .str "a".toList]), ("sep".toList, .str "-".toList),
    ("one".toList, .num 1), ("ones".toList, .str "1".toList), ("this".toList, .num 7)]

/-- A path argument of a helper: a token that is not itself a helper call. -/
def isPath (p : Str) : Bool := isToken p && !isHelperCall p

/-- The value at the dotted path `p` of the context (the empty string when the
path is absent). -/
def valueAt (p : Str) (ctx : JVal) : JVal := walk (splitChar (Char.ofNat 46) p) ctx

/-- The template `{{#if flag}}A{{else}}B{{else}}C{{/if}}`. -/
def tplIfElseTwice : Str :=
  blockTemplate "if".toList "flag".toList
    "A\x7b\x7belse\x7d\x7dB\x7b\x7belse\x7d\x7dC".toList

/-- The template `{{capitalize name}}`. -/
def tplCapitalize : Str := "\x7b\x7bcapitalize name\x7d\x7d".toList

/-- The body `{{#if ok}}Y{{else}}N{{/if}}`. -/
def ifOkBody : Str :=
  "\x7b\x7b#if ok\x7d\x7dY\x7b\x7belse\x7d\x7dN\x7b\x7b/if\x7d\x7d".toList

/-- The template `{{#each xs}}{{#if ok}}Y{{else}}N{{/if}}{{/each}}`. -/
def tplEachIf : Str := blockTemplate "each".toList "xs".toList ifOkBody

/-- A context whose list `xs` holds the one record `{ok: true}`. -/
def ctxOk : JVal := .obj 0 [("xs".toList, .arr 1 [.obj 2 [("ok".toList, .bool true)]])]

/-- A record with none of the fields `fs`. -/
def lacksFields (fs : List Str) (x : JVal) : Bool :=
  isMapping x && fs.all (fun f => (getOwn x f).isNone)

/-- The template `{{#each xs}}{{name}}{{#unless @last}}, {{/unless}}{{/each}}`,
as in the templates of the repository. -/
def tplEachUnlessLast : Str :=
  blockTemplate "each".toList "xs".toList
    "\x7b\x7bname\x7d\x7d\x7b\x7b#unless @last\x7d\x7d, \x7b\x7b/unless\x7d\x7d".toList

/-- A context whose list `xs` holds two records named `a` and `b`. -/
def ctxNames : JVal :=
  .obj 0 [("xs".toList, .arr 1 [.obj 2 [("name".toList, .str "a".toList)],
    .obj 3 [("name".toList, .str "b".toList)]])]

/-- A text without the character `{`. -/
def isLiteral (s : Str) : Bool := s.all (fun c => c != cOpen)

/-- The open marker `{{#each p}}`. -/
def eachOpen (p : Str) : Str := "\x7b\x7b#each ".toList ++ p ++ "\x7d\x7d".toList

/-- A context with `flag` false and a list `xs` with one `null` element. -/
def ctxGuardedNull : JVal :=
  .obj 0 [("flag".toList, .bool false), ("xs".toList, .arr 1 [.null])]

/-- The template `{{#if flag}}{{#each xs}}x{{/each}}{{/if}}`. -/
def tplIfEach : Str := blockTemplate "if".toList "flag".toList tplEachX

/-! ## Placeholder resolution: `getDataKeyForVariable`, `detectDataType`

The configuration's `testData`, when it is there (and truthy), is a record, as
`JSON.parse` builds it: its prototype is `Object.prototype`. -/

/-- The property names a record inherits from `Object.prototype`; each holds a
truthy value (a function, or the prototype itself for `__proto__`). -/
def objectPrototypeKeys : List Str :=
  ["constructor".toList, "__defineGetter__".toList, "__defineSetter__".toList,
    "hasOwnProperty".toList, "__lookupGetter__".toList, "__lookupSetter__".toList,
    "isPrototypeOf".toList, "propertyIsEnumerable".toList, "toString".toList,
    "valueOf".toList, "__proto__".toList, "toLocaleString".toList]

/-- The read `testData[k]` in a boolean position: the own field `k` of the
record when there is one, the inherited property otherwise. -/
def propTruthy (testData : List (Str × JVal)) (k : Str) : Bool :=
  match lookupKey k testData with
  | some v => toBoolean v
  | none => objectPrototypeKeys.contains k

/-- The class `\d` (without the `u` flag): the digits `0` to `9`. -/
def isDigit (c : Char) : Bool := decide (48 ≤ c.toNat) && decide (c.toNat ≤ 57)

/-- What the group `(.+)` can hold: a non-empty text without line terminator. -/
def dotPlus (b : Str) : Bool := !b.isEmpty && b.all (fun c => !isLineTerminator c)

/-- The text before the suffix `suf` of `t`, when `t` ends with `suf`. -/
def stripSuffix (suf t : Str) : Option Str :=
  match afterLit suf.reverse t.reverse with
  | some r => some r.reverse
  | none => none

/-- The text before the trailing run of digits of `t`, when that run is not
empty. -/
def stripDigits (t : Str) : Option Str :=
  if (t.reverse.takeWhile isDigit).isEmpty then none
  else some (t.reverse.dropWhile isDigit).reverse

/-- The anchored regex `^(.+)suf$` for a literal `suf`: group 1.  The match is
the whole text, so group 1 is the text before the suffix. -/
def matchSuffix (suf t : Str) : Option Str :=
  match stripSuffix suf t with
  | some b => if dotPlus b then some b else none
  | none => none

/-- The anchored regex `^(.+)suf\d+$` for a literal `suf` that ends in a
character other than a digit: group 1.  `\d+` has to reach the end of the text
and `suf` ends just before it, so `\d+` is the whole trailing run of digits. -/
def matchSuffixDigits (suf t : Str) : Option Str :=
  match stripDigits t with
  | some r => matchSuffix suf r
  | none => none

/-- The candidates tried for a base name of an id pattern, in source order. -/
def idCandidates (baseName : Str) : List Str :=
  [baseName ++ "_id".toList, baseName ++ "s".toList, baseName]

/-- The candidates tried for a base name of a name pattern, in source order. -/
def nameCandidates (baseName : Str) : List Str :=
  [baseName ++ "s".toList, baseName ++ "_names".toList, baseName]

/-- The body of a pattern loop for one pattern: when the pattern matched with
group 1 `baseName`, the first candidate that `testData` holds a truthy value
for. -/
def tryPattern (testData : List (Str × JVal)) (cands : Str → List Str) :
    Option Str → Option Str
  | some baseName => (cands baseName).find? (propTruthy testData)
  | none => none

/-- The first result of a loop that returns as soon as a round has one. -/
def firstSome : List (Option Str) → Option Str
  | [] => none
  | some r :: _ => some r
  | none :: rest => firstSome rest

/-- The loop over `idPatterns` (source lines 389-411). -/
def idStep (testData : List (Str × JVal)) (var : Str) : Option Str :=
  firstSome [tryPattern testData idCandidates (matchSuffix "_id".toList var),
    tryPattern testData idCandidates (matchSuffixDigits "_id".toList var),
    tryPattern testData idCandidates (matchSuffixDigits "_id_".toList var)]

/-- The loop over `namePatterns` (source lines 413-434). -/
def nameStep (testData : List (Str × JVal)) (var : Str) : Option Str :=
  firstSome [tryPattern testData nameCandidates (matchSuffix "_name".toList var),
    tryPattern testData nameCandidates (matchSuffix "_names".toList var)]

/-- The test of the scan over `Object.entries(testData)` (source line 438):
`key.includes(variable) || variable.includes(key)`. -/
def related (var key : Str) : Bool :=
  includesSub var key || includesSub key var

/-- The method `getDataKeyForVariable` (source lines 378-445); `testData` is
`none` when `this.config.testData` is absent or falsy. -/
def getDataKeyForVariable (testData : Option (List (Str × JVal))) (var : Str) : Str :=
  match testData with
  | none => var
  | some td =>
    if propTruthy td var then var
    else
      match idStep td var with
      | some k => k
      | none =>
        match nameStep td var with
        | some k => k
        | none =>
          match td.find? (fun kv => related var kv.1) with
          | some kv => kv.1
          | none => var

/-- The method `detectDataType` (source lines 447-472); `lower` is
`String.prototype.toLowerCase`. -/
def detectDataType (lower : Str → Str) (var : Str) : Str :=
  let lowerVar := lower var
  if includesSub "uuid".toList lowerVar || includesSub "guid".toList lowerVar then "uuid".toList
  else if includesSub "email".toList lowerVar then "email".toList
  else if includesSub "date".toList lowerVar || includesSub "time".toList lowerVar then
    "date".toList
  else if includesSub "timestamp".toList lowerVar then "timestamp".toList
  else if includesSub "id".toList lowerVar || includesSub "number".toList lowerVar ||
      includesSub "count".toList lowerVar then "number".toList
  else if includesSub "name".toList lowerVar || includesSub "title".toList lowerVar ||
      includesSub "description".toList lowerVar then "string".toList
  else "string".toList

/-- The text both substitution statements start with:
`        url = url.replace('{{variable}}', `. -/
def substitutionHead (var : Str) : Str :=
  "        url = url.replace(".toList ++ cApos :: "\x7b\x7b".toList ++ var ++
    "\x7d\x7d".toList ++ cApos :: ", ".toList

/-- The statement that looks a value up in a collection (source line 338). -/
def lookupStatement (var dataKey : Str) : Str :=
  substitutionHead var ++ "getRandomData(".toList ++ dataKey ++ "));\n".toList

/-- The statement that synthesises a value of a kind (source line 343). -/
def synthStatement (var dataType : Str) : Str :=
  substitutionHead var ++ "generateRandomData(".toList ++ cApos :: dataType ++
    cApos :: "));\n".toList

/-- The statement `generateAPIFilesDirect` emits for one placeholder token
(source lines 332-346). -/
def substitutionStatement (lower : Str → Str) (testData : Option (List (Str × JVal)))
    (var : Str) : Str :=
  let dataKey := getDataKeyForVariable testData var
  let found :=
    match testData with
    | some td => propTruthy td dataKey
    | none => false
  if found then lookupStatement var dataKey
  else synthStatement var (detectDataType lower var)

/-! ## Vocabulary of the statements on placeholder resolution -/

/-- An instance of the lower-casing parameter: lower-casing of ASCII letters. -/
def asciiLower (s : Str) : Str := s.map Char.toLower

/-- The mapping has a collection named `k`. -/
def hasCollection (testData : List (Str × JVal)) (k : Str) : Bool :=
  (lookupKey k testData).isSome

/-- Every collection of the mapping is a sequence. -/
def sequences (testData : List (Str × JVal)) : Bool := testData.all (fun kv => isArray kv.2)

/-- A non-empty run of digits. -/
def isDigits (ds : Str) : Bool := !ds.isEmpty && ds.all isDigit

/-- The kinds of synthetic data the specification lists. -/
def dataKinds : List Str :=
  ["uuid".toList, "email".toList, "date".toList, "timestamp".toList, "number".toList,
    "string".toList]

/-- The template `{{#each m}}{{json this}}{{/each}}`. -/
def tplEachJsonThis : Str :=
  blockTemplate "each".toList "m".toList "\x7b\x7bjson this\x7d\x7d".toList

/-- A token built on the base `b` by an id pattern: `b_id`, `b_id<digits>` or
`b_id_<digits>`. -/
inductive IdForm (b : Str) : Str → Prop where
  | plain : IdForm b (b ++ "_id".toList)
  | digits (ds : Str) : isDigits ds = true → IdForm b (b ++ "_id".toList ++ ds)
  | sepDigits (ds : Str) : isDigits ds = true → IdForm b (b ++ "_id_".toList ++ ds)

/-- A token built on the base `b` by a name pattern: `b_name` or `b_names`. -/
inductive NameForm (b : Str) : Str → Prop where
  | name : NameForm b (b ++ "_name".toList)
  | names : NameForm b (b ++ "_names".toList)

/-- A test-data mapping with the collections `user_id`, `products` and `city`. -/
def tdSample : List (Str × JVal) :=
  [("user_id".toList, .arr 1 [.num 1, .num 2]), ("products".toList, .arr 2 [.str "p".toList]),
    ("city".toList, .arr 3 [])]

/-! ## Placeholders of an endpoint path (`generateAPIFilesDirect`) -/

/-- Worker of `matchAll`: `skip` characters of the current match are still to be
passed over. -/
def matchAllGo (m : Str → Option (List Str × Nat)) : Nat → Str → List Str
  | _, [] => []
  | k + 1, _ :: cs => matchAllGo m k cs
  | 0, c :: cs =>
    match m (c :: cs) with
    | some (_, len) => (c :: cs).take len :: matchAllGo m (len - 1) cs
    | none => matchAllGo m 0 cs

/-- The call `s.match(/re/g)`: the matched texts, leftmost first and
non-overlapping (the empty list stands for `null`). -/
def matchAll (m : Str → Option (List Str × Nat)) (s : Str) : List Str := matchAllGo m 0 s

/-- The call `match.replace(/[{}]/g, '')`. -/
def stripBraces (s : Str) : Str := s.filter (fun c => c != cOpen && c != cClose)

/-- The placeholder tokens of an endpoint path, one per match of
`/\{\{([^}]+)\}\}/g`, in order (source lines 289, 325-333). -/
def pathVariables (path : Str) : List Str :=
  if includesSub "\x7b\x7b".toList path then (matchAll matchInline path).map stripBraces
  else []

/-- The substitution statements emitted for an endpoint path, in order (source
lines 330-348). -/
def substitutionStatements (lower : Str → Str) (testData : Option (List (Str × JVal)))
    (path : Str) : List Str :=
  (pathVariables path).map (substitutionStatement lower testData)

/-- The call `set.add(k)` on a set kept in insertion order. -/
def setAdd (acc : List Str) (k : Str) : List Str := if acc.contains k then acc else acc ++ [k]

/-- The names `generateAPIFilesDirect` puts in the import list before
`getRandomData` and `generateRandomData`, for the paths of the endpoints (source
lines 285-301). -/
def templateDataImports (testData : Option (List (Str × JVal))) (paths : List Str) :
    List Str :=
  (paths.flatMap pathVariables).foldl
    (fun acc v => setAdd acc (getDataKeyForVariable testData v)) []

/-! ## Vocabulary of the statements on data kinds and paths -/

/-- The rules of claim C28 in their order: the words searched for in the
lower-cased token, and the kind they give. -/
def typeRules : List (List Str × Str) :=
  [(["uuid".toList, "guid".toList], "uuid".toList), (["email".toList], "email".toList),
    (["date".toList, "time".toList], "date".toList),
    (["id".toList, "number".toList, "count".toList], "number".toList),
    (["name".toList, "title".toList, "description".toList], "string".toList)]

/-- The kind of the first rule of `typeRules` one of whose words occurs in the
lower-cased token; `string` when no rule matches. -/
def firstMatchingRule (lower : Str → Str) (t : Str) : Str :=
  match typeRules.find? (fun r => r.1.any (fun w => includesSub w (lower t))) with
  | some r => r.2
  | none => "string".toList

/-- A placeholder token as written in a path: non-empty, without braces. -/
def isPlaceholder (t : Str) : Bool :=
  !t.isEmpty && t.all (fun c => c != cOpen && c != cClose)

/-- The text `{{@key}}` stands for in a sequence-mode `each`: the first field
name of a record, `0` for a string or a list that is not empty, and the empty
text otherwise. -/
def keyText : JVal → Str
  | .obj _ ((k, _) :: _) => k
  | .arr _ (_ :: _) => [Char.ofNat 48]
  | .str (_ :: _) => [Char.ofNat 48]
  | _ => []

/-- The template `{{#if a}}X{{#if b}}Y{{/if}}Z{{/if}}`. -/
def tplNestedIf : Str :=
  ("\x7b\x7b#if a\x7d\x7dX\x7b\x7b#if b\x7d\x7dY\x7b\x7b/if\x7d\x7dZ" ++
    "\x7b\x7b/if\x7d\x7d").toList

/-- A context with one endpoint whose path is `/u/{{user_id}}`. -/
def ctxEndpoints : JVal :=
  .obj 0 [("apiEndpoints".toList, .arr 1 [.obj 2 [("name".toList, .str "getUser".toList),
    ("path".toList, .str "/u/\x7b\x7buser_id\x7d\x7d".toList)]])]

/-- A base with a line feed: the text `x<LF>`. -/
def lfBase : Str := [Char.ofNat 120, Char.ofNat 10]

/-- A mapping whose one collection is named `x<LF>s`. -/
def tdLineFeed : List (Str × JVal) := [(lfBase ++ "s".toList, .arr 1 [.num 1])]

/-- A context in which `a` is `false` and a field named `/if` holds the text
`Q`. -/
def ctxCloseField : JVal := .obj 0 [("a".toList, .bool false), ("/if".toList, .str "Q".toList)]

/-! ## The validator: `autoFixIssues`, `generateSampleData` (validate-and-generate.js)

The configuration is a value of `JSON.parse` (source line 97).  The method works
on two objects: the argument `config`, which it reads, and the deep clone
`fixedConfig`, which it changes and returns.  Objects live in a store, a list of
object graphs; a reference is a position in the list.  A graph is a tree:
`JSON.parse` builds its result from new objects, every value a fix assigns is a
literal or a new array, and no statement stores one object in two places.

The method is in a class body, hence strict code: an assignment to a property
of a number, a string or a boolean throws.  An assignment to a named property of
an array succeeds, so the values of the store are the values of JSON in which
an array may carry named properties beside its elements.  The messages pushed
onto `validationResults` and the console output are left out, apart from what
can throw in them: the reads of `config.project.name`, and the conversion of a
name to a string in a template literal. -/

/-- The values of the validator: what `JSON.parse` yields, where an array may in
addition carry named properties (names other than indices and `length`).
Numbers are the integer-valued ones, as in the engine; the negative zero, which
`JSON.stringify` writes as `0`, is not among them.  A record lists its fields,
an array its named properties, in enumeration order. -/
inductive CVal where
  | null : CVal
  | bool (b : Bool) : CVal
  | num (n : Int) : CVal
  | str (s : Str) : CVal
  | arr (xs : List CVal) (props : List (Str × CVal)) : CVal
  | obj (kvs : List (Str × CVal)) : CVal

/-- A named property, by name. -/
def fieldOf (k : Str) : List (Str × CVal) → Option CVal
  | [] => none
  | (k2, v) :: r => if k2 = k then some v else fieldOf k r

/-- The named properties after the assignment of `v` to the name `k`: in place
when the property exists, at the end otherwise. -/
def setField (k : Str) (v : CVal) : List (Str × CVal) → List (Str × CVal)
  | [] => [(k, v)]
  | (k2, v2) :: r => if k2 = k then (k, v) :: r else (k2, v2) :: setField k v r

/-- JavaScript truthiness (`ToBoolean`). -/
def truthy : CVal → Bool
  | .null => false
  | .bool b => b
  | .num n => n != 0
  | .str s => !s.isEmpty
  | .arr _ _ => true
  | .obj _ => true

/-- The truthiness of a value that may be `undefined`. -/
def truthyU : Option CVal → Bool
  | some v => truthy v
  | none => false

/-- The named properties of a value: the fields of a record, the properties an
array carries beside its elements; a primitive value has none. -/
def namedProps : CVal → List (Str × CVal)
  | .obj kvs => kvs
  | .arr _ props => props
  | _ => []

/-- The read `v.k` on a value other than `null`, for a name `k` that no
prototype defines; `none` is `undefined`. -/
def getProp (v : CVal) (k : Str) : Option CVal := fieldOf k (namedProps v)

/-- The assignment `v.k = x` in strict code: it sets the named property of a
record or an array and throws on any other value. -/
def setProp (k : Str) (x : CVal) : CVal → Option CVal
  | .obj kvs => some (.obj (setField k x kvs))
  | .arr xs props => some (.arr xs (setField k x props))
  | _ => none

mutual
/-- `ToString` of a value, as in a template literal; `none` when the conversion
throws.  A record, and an array, with an own property `toString` has no
callable conversion; an array with an own property `join` is converted by
`Object.prototype.toString`. -/
def cText : CVal → Option Str
  | .null => some "null".toList
  | .bool b => some (boolStr b)
  | .num n => some (numStr n)
  | .str s => some s
  | .arr xs props =>
    if (fieldOf "toString".toList props).isSome then none
    else if (fieldOf "join".toList props).isSome then some "[object Array]".toList
    else cJoin xs
  | .obj kvs =>
    if (fieldOf "toString".toList kvs).isSome then none else some "[object Object]".toList
termination_by structural v => v
/-- `Array.prototype.join` with the separator `,`: the elements converted to
strings, `null` as the empty string. -/
def cJoin : List CVal → Option Str
  | [] => some []
  | x :: r =>
    match (match x with
      | .null => some []
      | v => cText v), cJoin r with
    | some a, some b =>
      some (a ++
        (match r with
          | [] => []
          | _ => Char.ofNat 44 :: b))
    | _, _ => none
termination_by structural l => l
end

/-- `ToString` of a value that may be `undefined`. -/
def cTextU : Option CVal → Option Str
  | some v => cText v
  | none => some "undefined".toList

mutual
/-- The deep clone `JSON.parse(JSON.stringify(v))`: the content of `v` without
the named properties of arrays, which `JSON.stringify` leaves out. -/
def strip : CVal → CVal
  | .arr xs _ => .arr (stripList xs) []
  | .obj kvs => .obj (stripFields kvs)
  | v => v
termination_by structural v => v
/-- The clone of the elements of an array. -/
def stripList : List CVal → List CVal
  | [] => []
  | x :: r => strip x :: stripList r
termination_by structural l => l
/-- The clone of the fields of a record. -/
def stripFields : List (Str × CVal) → List (Str × CVal)
  | [] => []
  | kv :: r => stripField kv :: stripFields r
termination_by structural l => l
/-- The clone of one field. -/
def stripField : Str × CVal → Str × CVal
  | (k, v) => (k, strip v)
termination_by structural kv => kv
end

/-- The call `v.includes(s)` for a string `s`: `String.prototype.includes` on a
string, `Array.prototype.includes` on an array; any other value, `undefined`
included, has no such method and the call throws, as it does on an array with an
own property `includes`. -/
def jsIncludes (s : Str) : Option CVal → Option Bool
  | some (.str t) => some (includesSub s t)
  | some (.arr xs props) =>
    if (fieldOf "includes".toList props).isSome then none
    else
      some (xs.any (fun x =>
        match x with
        | .str t => t == s
        | _ => false))
  | _ => none

/-- The expression of `isRealConfig` (source lines 227-231), as the boolean it
is used for; `none` when a read or a call throws. -/
def isRealConfig (config : CVal) : Option Bool :=
  match config with
  | .null => none
  | _ =>
    match getProp config "project".toList with
    | none => some false
    | some project =>
      if !truthy project then some false
      else if !truthyU (getProp project "name".toList) then some false
      else
        match jsIncludes "Sample".toList (getProp project "name".toList) with
        | none => none
        | some true => some false
        | some false =>
          match jsIncludes "Replace this entire file".toList
              (getProp project "description".toList) with
          | none => none
          | some true => some false
          | some false =>
            match jsIncludes
                "Replace this entire file with your AI-generated configuration".toList
                (getProp project "description".toList) with
            | none => none
            | some b => some (!b)

/-- The value of `isRealConfig` once the branch that logs `config.project.name`
has run (source lines 233-239): the read throws when `config.project` is
`undefined` or `null`, and the template literal converts the name to a
string. -/
def realConfig (config : CVal) : Option Bool :=
  match isRealConfig config with
  | none => none
  | some b =>
    match getProp config "project".toList with
    | none => none
    | some .null => none
    | some project =>
      match cTextU (getProp project "name".toList) with
      | none => none
      | some _ => some b

/-- The pattern `if (!o.k) { o.k = dflt; fixes.push(... ${name} ...) }` on a
value `o` other than `null`: the message converts `name` to a string. -/
def setDefaultMsg (k : Str) (dflt : CVal) (name : Option CVal) (o : CVal) : Option CVal :=
  if truthyU (getProp o k) then some o
  else
    match setProp k dflt o with
    | none => none
    | some o2 =>
      match cTextU name with
      | none => none
      | some _ => some o2

/-- The pattern `if (!o.k) { o.k = dflt; }` on a value `o` other than `null`. -/
def setDefault (k : Str) (dflt : CVal) (o : CVal) : Option CVal :=
  if truthyU (getProp o k) then some o else setProp k dflt o

/-- The callback of `forEach` applied to every element, in order; `none` as soon
as one call throws. -/
def mapOpt (f : CVal → Option CVal) : List CVal → Option (List CVal)
  | [] => some []
  | x :: r =>
    match f x, mapOpt f r with
    | some y, some ys => some (y :: ys)
    | _, _ => none

/-- The statement `if (fixedConfig.k) { fixedConfig.k.forEach(f); }`, where the
callback changes the element it is given: only an array has `forEach` (and an
array with an own property of that name has not). -/
def fixEach (k : Str) (f : CVal → Option CVal) (fixedConfig : CVal) : Option CVal :=
  match getProp fixedConfig k with
  | none => some fixedConfig
  | some v =>
    if truthy v then
      match v with
      | .arr xs props =>
        if (fieldOf "forEach".toList props).isSome then none
        else
          match mapOpt f xs with
          | some ys => setProp k (.arr ys props) fixedConfig
          | none => none
      | _ => none
    else some fixedConfig

/-- Fix 1, the callback for one scenario (source lines 243-254). -/
def fixScenario (scenario : CVal) : Option CVal :=
  match scenario with
  | .null => none
  | _ =>
    match setDefaultMsg "weight".toList (.num 50) (getProp scenario "name".toList)
        scenario with
    | none => none
    | some s1 =>
      match setDefaultMsg "businessOps".toList (.arr [] []) (getProp scenario "name".toList)
          s1 with
      | none => none
      | some s2 =>
        if truthyU (getProp s2 "description".toList) then some s2
        else
          match cTextU (getProp scenario "name".toList) with
          | none => none
          | some name => setProp "description".toList (.str ("Test scenario: ".toList ++ name)) s2

/-- The default of `endpoint.headers`. -/
def defaultHeaders : CVal := .obj [("Content-Type".toList, .str "application/json".toList)]

/-- The default of `endpoint.assertions`. -/
def defaultAssertions : CVal :=
  .obj [("status".toList, .num 200), ("responseTime".toList, .num 1000)]

/-- Fix 2, the callback for one endpoint (source lines 261-281). -/
def fixEndpoint (endpoint : CVal) : Option CVal :=
  match endpoint with
  | .null => none
  | _ =>
    match setDefaultMsg "headers".toList defaultHeaders (getProp endpoint "name".toList)
        endpoint with
    | none => none
    | some e1 =>
      match getProp e1 "assertions".toList with
      | none =>
        setDefaultMsg "assertions".toList defaultAssertions (getProp endpoint "name".toList) e1
      | some a =>
        if truthy a then
          match setDefaultMsg "status".toList (.num 200) (getProp endpoint "name".toList) a with
          | none => none
          | some a1 =>
            match setDefaultMsg "responseTime".toList (.num 1000)
                (getProp endpoint "name".toList) a1 with
            | none => none
            | some a2 => setProp "assertions".toList a2 e1
        else
          setDefaultMsg "assertions".toList defaultAssertions (getProp endpoint "name".toList)
            e1

/-- The table of `generateSampleData` (source lines 341-351), in the order of
`Object.entries`. -/
def sampleData : List (Str × List Str) :=
  [("user_ids".toList, ["1".toList, "2".toList, "3".toList, "4".toList, "5".toList]),
    ("product_ids".toList,
      ["101".toList, "102".toList, "103".toList, "104".toList, "105".toList]),
    ("category_ids".toList, ["1".toList, "2".toList, "3".toList, "4".toList, "5".toList]),
    ("user_names".toList,
      ["John".toList, "Jane".toList, "Bob".toList, "Alice".toList, "Charlie".toList]),
    ("product_names".toList,
      ["Laptop".toList, "Phone".toList, "Tablet".toList, "Monitor".toList, "Keyboard".toList]),
    ("category_names".toList,
      ["Electronics".toList, "Clothing".toList, "Books".toList, "Home".toList, "Sports".toList]),
    ("search_terms".toList,
      ["laptop".toList, "phone".toList, "tablet".toList, "monitor".toList, "keyboard".toList]),
    ("emails".toList,
      ["user1@example.com".toList, "user2@example.com".toList, "user3@example.com".toList]),
    ("statuses".toList,
      ["active".toList, "inactive".toList, "pending".toList, "completed".toList,
        "cancelled".toList])]

/-- The fallback list of `generateSampleData` (source line 361). -/
def sampleFallback : List Str :=
  ["sample1".toList, "sample2".toList, "sample3".toList, "sample4".toList, "sample5".toList]

/-- The call `pattern.replace(c, '')` for a one-character pattern: the first
occurrence is removed. -/
def removeFirst (c : Char) : Str → Str
  | [] => []
  | d :: r => if d = c then r else d :: removeFirst c r

/-- The method `generateSampleData` (source lines 340-362); `lower` is
`String.prototype.toLowerCase`. -/
def generateSampleData (lower : Str → Str) (key : Str) : List Str :=
  match sampleData.find?
      (fun e => includesSub (removeFirst (Char.ofNat 95) e.1) (lower key)) with
  | some e => e.2
  | none => sampleFallback

/-- A list of strings as a new array. -/
def strArray (xs : List Str) : CVal := .arr (xs.map CVal.str) []

/-- Fix 3, the callback for one entry of `testData`: the value the entry has
afterwards (source lines 287-306). -/
def fixEntry (lower : Str → Str) (isReal : Bool) (key : Str) (value : CVal) : CVal :=
  match value with
  | .arr xs props =>
    if xs.isEmpty && !isReal then strArray (generateSampleData lower key) else .arr xs props
  | .str s => .arr [.str s] []
  | .num n => .arr [.str (numStr n)] []
  | v => if !isReal then strArray (generateSampleData lower key) else v

/-- Fix 3 over the elements of an array, whose keys are the indices from `i`. -/
def fixElems (lower : Str → Str) (isReal : Bool) : Nat → List CVal → List CVal
  | _, [] => []
  | i, x :: r => fixEntry lower isReal (Nat.toDigits 10 i) x :: fixElems lower isReal (i + 1) r

/-- Fix 3 over named properties: every entry is assigned under its own key. -/
def fixFields (lower : Str → Str) (isReal : Bool) (kvs : List (Str × CVal)) :
    List (Str × CVal) :=
  kvs.map (fun kv => (kv.1, fixEntry lower isReal kv.1 kv.2))

/-- Fix 3 (source lines 285-308).  `Object.entries` of a record lists its
fields, of an array its elements under their indices and then its named
properties, of a number or `true` nothing; on a non-empty string the first
assignment throws. -/
def fixTestData (lower : Str → Str) (isReal : Bool) (fixedConfig : CVal) : Option CVal :=
  match getProp fixedConfig "testData".toList with
  | none => some fixedConfig
  | some v =>
    if truthy v then
      match v with
      | .obj kvs => setProp "testData".toList (.obj (fixFields lower isReal kvs)) fixedConfig
      | .arr xs props =>
        setProp "testData".toList
          (.arr (fixElems lower isReal 0 xs) (fixFields lower isReal props)) fixedConfig
      | .str _ => none
      | _ => some fixedConfig
    else some fixedConfig

/-- Fix 4 on the value of `fixedConfig.framework` (source lines 315-326). -/
def fixFrameworkValue (framework : CVal) : Option CVal :=
  match setDefault "logLevel".toList (.str "INFO".toList) framework with
  | none => none
  | some f1 =>
    match (if (getProp f1 "htmlReporting".toList).isSome then some f1
        else setProp "htmlReporting".toList (.bool true) f1) with
    | none => none
    | some f2 => setDefault "defaultScenario".toList (.num 1) f2

/-- Fix 4 (source lines 311-326). -/
def fixFramework (fixedConfig : CVal) : Option CVal :=
  match setDefault "framework".toList (.obj []) fixedConfig with
  | none => none
  | some c1 =>
    match getProp c1 "framework".toList with
    | none => none
    | some framework =>
      match fixFrameworkValue framework with
      | none => none
      | some f3 => setProp "framework".toList f3 c1

/-- Fix 5 (source lines 329-332): the read `fixedConfig.application.timeout`
throws when there is no `application`. -/
def fixApplication (fixedConfig : CVal) : Option CVal :=
  match getProp fixedConfig "application".toList with
  | none => none
  | some .null => none
  | some application =>
    match setDefault "timeout".toList (.num 30000) application with
    | none => none
    | some a => setProp "application".toList a fixedConfig

/-- The object store of a run: a list of object graphs; a reference is a
position in the list. -/
abbrev Heap := List CVal

/-- A statement that changes the object graph at the reference `r`; `none` when
it throws. -/
def applyAt (f : CVal → Option CVal) (r : Nat) (heap : Heap) : Option Heap :=
  match heap.get? r with
  | none => none
  | some v =>
    match f v with
    | none => none
    | some v2 => some (heap.set r v2)

/-- The method `autoFixIssues` (source lines 223-335), run in the store `heap`
on the reference `config`: the store after the run and the reference that is
returned, `none` when the method throws.  The clone is a new object graph, put
at the end of the store; `isRealConfig` is read through `config`, and every fix
works through `fixedConfig`. -/
def autoFixIssues (lower : Str → Str) (heap : Heap) (config : Nat) : Option (Heap × Nat) :=
  match heap.get? config with
  | none => none
  | some c =>
    let fixedConfig := heap.length
    let h0 := heap ++ [strip c]
    match (h0.get? config).bind realConfig with
    | none => none
    | some isReal =>
      match applyAt (fixEach "testScenarios".toList fixScenario) fixedConfig h0 with
      | none => none
      | some h1 =>
        match applyAt (fixEach "apiEndpoints".toList fixEndpoint) fixedConfig h1 with
        | none => none
        | some h2 =>
          match applyAt (fixTestData lower isReal) fixedConfig h2 with
          | none => none
          | some h3 =>
            match applyAt fixFramework fixedConfig h3 with
            | none => none
            | some h4 =>
              match applyAt fixApplication fixedConfig h4 with
              | none => none
              | some h5 => some (h5, fixedConfig)

/-! ## Vocabulary of the statements on the validator -/

mutual
/-- The value is a value of JSON: no array in it carries a named property. -/
def json : CVal → Bool
  | .arr xs props => props.isEmpty && jsonList xs
  | .obj kvs => jsonFields kvs
  | _ => true
termination_by structural v => v
/-- Every element is a value of JSON. -/
def jsonList : List CVal → Bool
  | [] => true
  | x :: r => json x && jsonList r
termination_by structural l => l
/-- Every field holds a value of JSON. -/
def jsonFields : List (Str × CVal) → Bool
  | [] => true
  | kv :: r => jsonField kv && jsonFields r
termination_by structural l => l
/-- The field holds a value of JSON. -/
def jsonField : Str × CVal → Bool
  | (_, v) => json v
termination_by structural kv => kv
end

/-- The five fixes in source order, on the content of the clone. -/
def fixAll (lower : Str → Str) (isReal : Bool) (fixedConfig : CVal) : Option CVal :=
  match fixEach "testScenarios".toList fixScenario fixedConfig with
  | none => none
  | some c1 =>
    match fixEach "apiEndpoints".toList fixEndpoint c1 with
    | none => none
    | some c2 =>
      match fixTestData lower isReal c2 with
      | none => none
      | some c3 =>
        match fixFramework c3 with
        | none => none
        | some c4 => fixApplication c4

/-- The content of the configuration that a run on the content `config`
returns. -/
def fixedContent (lower : Str → Str) (config : CVal) : Option CVal :=
  match realConfig config with
  | none => none
  | some isReal => fixAll lower isReal (strip config)

/-- A configuration with a scenario of weight `0`, an endpoint, and test data
with a filled, an empty and a scalar entry. -/
def cfgSample : CVal :=
  .obj [("project".toList, .obj [("name".toList, .str "Shop".toList),
      ("description".toList, .str "Load test of the shop".toList)]),
    ("application".toList, .obj [("baseUrl".toList, .str "http://shop".toList)]),
    ("testScenarios".toList, .arr [.obj [("name".toList, .str "browse".toList),
      ("weight".toList, .num 0)]] []),
    ("apiEndpoints".toList, .arr [.obj [("name".toList, .str "getUser".toList),
      ("path".toList, .str "/u".toList)]] []),
    ("testData".toList, .obj [("user_ids".toList, .arr [.str "7".toList] []),
      ("emails".toList, .arr [] []), ("city".toList, .str "Oslo".toList)])]

/-- The configuration that `autoFixIssues` returns for `cfgSample`. -/
def cfgFixed : CVal :=
  .obj [("project".toList, .obj [("name".toList, .str "Shop".toList),
      ("description".toList, .str "Load test of the shop".toList)]),
    ("application".toList, .obj [("baseUrl".toList, .str "http://shop".toList),
      ("timeout".toList, .num 30000)]),
    ("testScenarios".toList, .arr [.obj [("name".toList, .str "browse".toList),
      ("weight".toList, .num 50), ("businessOps".toList, .arr [] []),
      ("description".toList, .str "Test scenario: browse".toList)]] []),
    ("apiEndpoints".toList, .arr [.obj [("name".toList, .str "getUser".toList),
      ("path".toList, .str "/u".toList), ("headers".toList, defaultHeaders),
      ("assertions".toList, defaultAssertions)]] []),
    ("testData".toList, .obj [("user_ids".toList, .arr [.str "7".toList] []),
      ("emails".toList, .arr [] []), ("city".toList, .arr [.str "Oslo".toList] [])]),
    ("framework".toList, .obj [("logLevel".toList, .str "INFO".toList),
      ("htmlReporting".toList, .bool true), ("defaultScenario".toList, .num 1)])]

/-- The weight of the scenario at index `i` of a configuration:
`config.testScenarios[i].weight`. -/
def scenarioWeight (config : CVal) (i : Nat) : Option CVal :=
  match getProp config "testScenarios".toList with
  | some (.arr xs _) =>
    match xs.get? i with
    | some s => getProp s "weight".toList
    | none => none
  | _ => none

/-- A configuration whose one scenario is an array. -/
def cfgArrayScenario : CVal :=
  .obj [("project".toList, .obj [("name".toList, .str "Shop".toList),
      ("description".toList, .str "Load test of the shop".toList)]),
    ("application".toList, .obj [("timeout".toList, .num 5)]),
    ("testScenarios".toList, .arr [.arr [] []] []),
    ("framework".toList, .obj [("logLevel".toList, .str "DEBUG".toList),
      ("htmlReporting".toList, .bool false), ("defaultScenario".toList, .num 2)])]

/-- The configuration that `autoFixIssues` returns for `cfgArrayScenario`: the
fixes have set three named properties on the array. -/
def cfgArrayScenarioFixed : CVal :=
  .obj [("project".toList, .obj [("name".toList, .str "Shop".toList),
      ("description".toList, .str "Load test of the shop".toList)]),
    ("application".toList, .obj [("timeout".toList, .num 5)]),
    ("testScenarios".toList, .arr [.arr [] [("weight".toList, .num 50),
      ("businessOps".toList, .arr [] []),
      ("description".toList, .str "Test scenario: undefined".toList)]] []),
    ("framework".toList, .obj [("logLevel".toList, .str "DEBUG".toList),
      ("htmlReporting".toList, .bool false), ("defaultScenario".toList, .num 2)])]

/-- A configuration that is the sample template, whose `testData` has a field
of the name `__proto__`. -/
def cfgProto : CVal :=
  .obj [("project".toList, .obj [("name".toList, .str "Sample Shop".toList)]),
    ("application".toList, .obj [("timeout".toList, .num 5)]),
    ("testData".toList, .obj [("__proto__".toList, .str "x".toList),
      ("emails".toList, .arr [] [])]),
    ("framework".toList, .obj [("logLevel".toList, .str "DEBUG".toList),
      ("htmlReporting".toList, .bool false), ("defaultScenario".toList, .num 2)])]

/-- The configuration that `autoFixIssues` returns for `cfgProto`. -/
def cfgProtoFixed : CVal :=
  .obj [("project".toList, .obj [("name".toList, .str "Sample Shop".toList)]),
    ("application".toList, .obj [("timeout".toList, .num 5)]),
    ("testData".toList, .obj [("__proto__".toList, .arr [.str "x".toList] []),
      ("emails".toList, strArray ["user1@example.com".toList, "user2@example.com".toList,
        "user3@example.com".toList])]),
    ("framework".toList, .obj [("logLevel".toList, .str "DEBUG".toList),
      ("htmlReporting".toList, .bool false), ("defaultScenario".toList, .num 2)])]

/-- Two values are arrays with the same elements, or two records. -/
def sameKind : CVal → CVal → Prop
  | .arr xs _, .arr ys _ => xs = ys
  | .obj _, .obj _ => True
  | _, _ => False

/-- The two defaults of `endpoint.assertions` (source lines 271-278) on the
value `a` of that field, `name` being `endpoint.name`. -/
def fixAssertions (name : Option CVal) (a : CVal) : Option CVal :=
  match setDefaultMsg "status".toList (.num 200) name a with
  | none => none
  | some a1 => setDefaultMsg "responseTime".toList (.num 1000) name a1

/-- The fields of `l`, cloned except for the first entry of each key in `K`. -/
def restore (K : Str → Bool) : List (Str × CVal) → List (Str × CVal)
  | [] => []
  | (k, v) :: r =>
    (k, if K k then v else strip v) :: restore (fun x => K x && !(x == k)) r

/-- Every entry of the list holds a value of JSON, the first entry of a key in
`K` apart. -/
def JsonExcept (K : Str → Bool) : List (Str × CVal) → Prop
  | [] => True
  | (k, v) :: r => (json v = true ∨ K k = true) ∧ JsonExcept (fun x => K x && !(x == k)) r

/-- A statement `fix` that works on the top-level field `k` gives that field
the value `o` again when it runs on the clone: on every record whose field `k`
is the clone of `o`, it sets the field to `o` and leaves the other fields. -/
def Refixed (fix : CVal → Option CVal) (k : Str) (o : Option CVal) : Prop :=
  ∀ m : List (Str × CVal), fieldOf k m = o.map strip →
    fix (.obj m) = some (.obj (match o with
      | some w => setField k w m
      | none => m))

/-! ## Lemmas on the string primitives -/

theorem afterLit_eq_some {p s r : Str} : afterLit p s = some r ↔ s = p ++ r := by
  induction p generalizing s with
  | nil => simp [afterLit, eq_comm]
  | cons a p ih =>
    cases s with
    | nil => simp [afterLit]
    | cons c cs =>
      simp only [afterLit]
      by_cases h : a = c
      · subst h; simp [ih]
      · simp [h]; intro h'; exact absurd h'.symm h

theorem afterLit_append (p r : Str) : afterLit p (p ++ r) = some r :=
  afterLit_eq_some.mpr rfl

theorem afterLit_none_of_not_startsOpen {q s : Str} (h : startsOpen s = false) :
    afterLit (cOpen :: cOpen :: q) s = none := by
  cases hm : afterLit (cOpen :: cOpen :: q) s with
  | none => rfl
  | some r =>
    rw [afterLit_eq_some.mp hm] at h
    simp [startsOpen] at h

theorem Quiet.tail {c : Char} {a b : Str} (h : Quiet (c :: a) b) : Quiet a b :=
  fun a2 h2 hne => h a2 (h2.trans (List.suffix_cons c a)) hne

theorem Quiet.head {c : Char} {a b : Str} (h : Quiet (c :: a) b) :
    startsOpen (c :: (a ++ b)) = false :=
  h (c :: a) (List.suffix_refl _) (List.cons_ne_nil _ _)

theorem quiet_of_no_open_char {a : Str} (b : Str) (h : ∀ c ∈ a, c ≠ cOpen) : Quiet a b := by
  intro a2 h2 hne
  cases a2 with
  | nil => exact absurd rfl hne
  | cons c r =>
    have hc : c ≠ cOpen := h c (h2.subset (List.mem_cons_self c r))
    cases hr : r ++ b with
    | nil => simp [startsOpen, hr]
    | cons d t => simp [startsOpen, hr, hc]

theorem hasOpen_of_suffix {a a2 : Str} (h2 : a2 <:+ a) (h : hasOpen a = false) :
    hasOpen a2 = false := by
  induction a with
  | nil => rw [List.suffix_nil.mp h2]; rfl
  | cons c cs ih =>
    rcases List.suffix_cons_iff.mp h2 with rfl | h3
    · exact h
    · simp only [hasOpen, Bool.or_eq_false_iff] at h
      exact ih h3 h.2

theorem hasOpen_append_left {a b : Str} (h : hasOpen (a ++ b) = false) : hasOpen a = false := by
  induction a with
  | nil => rfl
  | cons c cs ih =>
    simp only [List.cons_append, hasOpen, Bool.or_eq_false_iff] at h ⊢
    refine ⟨?_, ih h.2⟩
    have h1 := h.1
    cases cs with
    | nil => rfl
    | cons d t => simpa [startsOpen] using h1

theorem hasOpen_append_right {a b : Str} (h : hasOpen (a ++ b) = false) : hasOpen b = false :=
  hasOpen_of_suffix (List.suffix_append a b) h

theorem quiet_of_hasOpen {a b : Str} (h : hasOpen a = false) (hb : ∀ r, b ≠ cOpen :: r) :
    Quiet a b := by
  intro a2 h2 hne
  have h3 := hasOpen_of_suffix h2 h
  cases a2 with
  | nil => exact absurd rfl hne
  | cons c r =>
    cases r with
    | nil =>
      cases b with
      | nil => rfl
      | cons d t =>
        have : d ≠ cOpen := fun hd => hb t (by rw [hd])
        simp [startsOpen, this]
    | cons d t =>
      simp only [hasOpen, Bool.or_eq_false_iff] at h3
      simpa [startsOpen] using h3.1

theorem quiet_nil_right {a : Str} (h : hasOpen a = false) : Quiet a [] :=
  quiet_of_hasOpen h (fun _ hr => List.noConfusion hr)

theorem hasOpen_of_no_open_char {a : Str} (h : ∀ c ∈ a, c ≠ cOpen) : hasOpen a = false := by
  induction a with
  | nil => rfl
  | cons c cs ih =>
    have hc : c ≠ cOpen := h c (List.mem_cons_self c cs)
    simp only [hasOpen, Bool.or_eq_false_iff]
    refine ⟨?_, ih (fun x hx => h x (List.mem_cons_of_mem c hx))⟩
    cases cs with
    | nil => rfl
    | cons d t => simp [startsOpen, hc]

theorem hasOpen_cons_of_ne {c : Char} (s : Str) (h : c ≠ cOpen) :
    hasOpen (c :: s) = hasOpen s := by
  rw [hasOpen]
  cases s with
  | nil => rfl
  | cons d t => simp [startsOpen, h]

theorem hasOpen_cons_cons_of_ne {c d : Char} (s : Str) (h : d ≠ cOpen) :
    hasOpen (c :: d :: s) = hasOpen (d :: s) := by
  rw [hasOpen]
  simp [startsOpen, h]

theorem hasOpen_flatMap {α : Type} {g : α → Str} :
    ∀ {xs : List α}, hasOpen (xs.flatMap g) = false → ∀ x ∈ xs, hasOpen (g x) = false
  | [], _, x, hx => absurd hx (List.not_mem_nil x)
  | y :: r, h, x, hx => by
    rw [List.flatMap_cons] at h
    rcases List.mem_cons.mp hx with rfl | hx
    · exact hasOpen_append_left h
    · exact hasOpen_flatMap (hasOpen_append_right h) x hx

theorem needsOpen_matchInline : NeedsOpen matchInline := by
  intro s h
  unfold matchInline
  have : afterLit "\x7b\x7b".toList s = none := afterLit_none_of_not_startsOpen h
  rw [this]

theorem needsOpen_matchBlock (kw : Str) : NeedsOpen (matchBlock kw) := by
  intro s h
  unfold matchBlock
  have : afterLit ("\x7b\x7b#".toList ++ kw) s = none := afterLit_none_of_not_startsOpen h
  rw [this]

theorem drop_takeWhile_length (q : Char → Bool) (p : Str) :
    List.drop (List.takeWhile q p).length p = p.dropWhile q := by
  induction p with
  | nil => rfl
  | cons c cs ih =>
    by_cases h : q c = true
    · simp [List.takeWhile, List.dropWhile, h, ih]
    · simp [List.takeWhile, List.dropWhile, h]

theorem trim_dropWhile (p : Str) : trim (p.dropWhile isJsSpace) = trim p := by
  unfold trim
  congr 3
  induction p with
  | nil => rfl
  | cons c cs ih =>
    by_cases h : isJsSpace c = true
    · simp [List.dropWhile, h, ih]
    · simp [List.dropWhile, h]

theorem trim_all_space {p : Str} (h : ∀ c ∈ p, isJsSpace c = true) : trim p = [] := by
  unfold trim
  have : p.dropWhile isJsSpace = [] := List.dropWhile_eq_nil_iff.mpr h
  rw [this]; rfl

theorem dropWhile_id {q : Char → Bool} {l : Str} (h : ∀ c ∈ l, q c = false) :
    l.dropWhile q = l := by
  cases l with
  | nil => rfl
  | cons c r => simp [List.dropWhile, h c (List.mem_cons_self c r)]

theorem trim_id {f : Str} (h : ∀ c ∈ f, isJsSpace c = false) : trim f = f := by
  unfold trim
  rw [dropWhile_id h, dropWhile_id (fun c hc => h c (List.mem_reverse.mp hc)), List.reverse_reverse]

theorem trim_length (s : Str) : (trim s).length ≤ s.length := by
  unfold trim
  rw [List.length_reverse]
  have h1 : (List.dropWhile isJsSpace (List.dropWhile isJsSpace s).reverse).length ≤
      (List.dropWhile isJsSpace s).reverse.length := (List.dropWhile_suffix _).length_le
  have h2 : (List.dropWhile isJsSpace s).length ≤ s.length := (List.dropWhile_suffix _).length_le
  rw [List.length_reverse] at h1
  omega

theorem splitChar_id {d : Char} {f : Str} (h : ∀ c ∈ f, c ≠ d) : splitChar d f = [f] := by
  induction f with
  | nil => rfl
  | cons c r ih =>
    rw [splitChar, if_neg (h c (List.mem_cons_self c r)),
      ih (fun x hx => h x (List.mem_cons_of_mem c hx))]

theorem splitChar_length (d : Char) :
    ∀ (s : Str), ∀ a ∈ splitChar d s, a.length ≤ s.length
  | [], a, ha => by
    simp only [splitChar, List.mem_singleton] at ha
    rw [ha]
  | c :: cs, a, ha => by
    rw [splitChar] at ha
    by_cases hc : c = d
    · rw [if_pos hc] at ha
      rcases List.mem_cons.mp ha with rfl | ha
      · simp
      · have := splitChar_length d cs a ha
        simp only [List.length_cons]
        omega
    · rw [if_neg hc] at ha
      cases hs : splitChar d cs with
      | nil =>
        rw [hs] at ha
        simp only [List.mem_singleton] at ha
        rw [ha]; simp
      | cons p ps =>
        rw [hs] at ha
        simp only at ha
        rcases List.mem_cons.mp ha with rfl | ha
        · have := splitChar_length d cs p (by rw [hs]; exact List.mem_cons_self p ps)
          simp only [List.length_cons]
          omega
        · have := splitChar_length d cs a (by rw [hs]; exact List.mem_cons_of_mem p ha)
          simp only [List.length_cons]
          omega

theorem includesChar_false {d : Char} {f : Str} (h : ∀ c ∈ f, c ≠ d) :
    includesChar d f = false := by
  induction f with
  | nil => rfl
  | cons c r ih =>
    have := ih (fun x hx => h x (List.mem_cons_of_mem c hx))
    simp only [includesChar, List.any_cons, Bool.or_eq_false_iff] at this ⊢
    exact ⟨by simpa using h c (List.mem_cons_self c r), this⟩

theorem digitChar_plain : ∀ m, m < 10 →
    Nat.digitChar m ≠ cOpen ∧ Nat.digitChar m ≠ cDollar := by decide

theorem toDigitsCore_plain (P : Char → Prop) (hP : ∀ m, m < 10 → P (Nat.digitChar m)) :
    ∀ (fuel n : Nat) (ds : List Char), (∀ c ∈ ds, P c) →
      ∀ c ∈ Nat.toDigitsCore 10 fuel n ds, P c
  | 0, _, ds, h => by simpa [Nat.toDigitsCore] using h
  | fuel + 1, n, ds, h => by
    have hd : P (Nat.digitChar (n % 10)) := hP _ (Nat.mod_lt _ (by decide))
    have hds : ∀ c ∈ Nat.digitChar (n % 10) :: ds, P c := by
      intro c hc
      rcases List.mem_cons.mp hc with rfl | hc
      · exact hd
      · exact h c hc
    rw [Nat.toDigitsCore]
    by_cases h0 : n / 10 = 0
    · simp only [h0, if_true]; exact hds
    · simp only [h0, if_false]
      exact toDigitsCore_plain P hP fuel (n / 10) _ hds

theorem toDigits_plain (n : Nat) :
    ∀ c ∈ Nat.toDigits 10 n, c ≠ cOpen ∧ c ≠ cDollar :=
  toDigitsCore_plain (fun c => c ≠ cOpen ∧ c ≠ cDollar) digitChar_plain (n + 1) n []
    (fun c hc => absurd hc (List.not_mem_nil c))

theorem hasDollar_of_no_dollar_char {s : Str} (h : ∀ c ∈ s, c ≠ cDollar) :
    hasDollar s = false := by
  induction s with
  | nil => rfl
  | cons c r ih =>
    have hc := h c (List.mem_cons_self c r)
    have := ih (fun x hx => h x (List.mem_cons_of_mem c hx))
    simp only [hasDollar, includesChar, List.any_cons, Bool.or_eq_false_iff] at this ⊢
    exact ⟨by simpa using hc, this⟩

theorem hasDollar_toDigits (n : Nat) : hasDollar (Nat.toDigits 10 n) = false :=
  hasDollar_of_no_dollar_char (fun c hc => (toDigits_plain n c hc).2)

theorem boolStr_plain (b : Bool) :
    hasDollar (boolStr b) = false ∧ ∀ c ∈ boolStr b, c ≠ cOpen := by
  cases b <;> decide

theorem wordChar_plain {c : Char} (h : isWordChar c = true) :
    c ≠ cOpen ∧ notClose c = true ∧ isJsSpace c = false ∧ c ≠ Char.ofNat 46 ∧
      c ≠ Char.ofNat 40 ∧ c ≠ Char.ofNat 64 := by
  refine ⟨?_, ?_, ?_, ?_, ?_, ?_⟩
  · intro hc; rw [hc] at h; exact absurd h (by decide)
  · by_contra hn
    have : c = cClose := by simpa [notClose] using hn
    rw [this] at h; exact absurd h (by decide)
  · simp only [isWordChar, isJsSpace, Bool.or_eq_true, Bool.and_eq_true, decide_eq_true_eq,
      beq_iff_eq, Bool.or_eq_false_iff, Bool.and_eq_false_iff, decide_eq_false_iff_not,
      beq_eq_false_iff_ne] at h ⊢
    omega
  · intro hc; rw [hc] at h; exact absurd h (by decide)
  · intro hc; rw [hc] at h; exact absurd h (by decide)
  · intro hc; rw [hc] at h; exact absurd h (by decide)

theorem isPathText_spec {p : Str} (h : isPathText p = true) :
    p ≠ [] ∧ (∀ c ∈ p, notClose c = true) ∧ (∀ c ∈ p, c ≠ cOpen) := by
  simp only [isPathText, Bool.and_eq_true, Bool.not_eq_true', List.isEmpty_eq_false,
    List.all_eq_true, bne_iff_ne, ne_eq] at h
  exact ⟨h.1, fun c hc => by simpa [notClose] using (h.2 c hc).2, fun c hc => (h.2 c hc).1⟩

theorem isFieldName_spec {f : Str} (h : isFieldName f = true) :
    f ≠ [] ∧ (∀ c ∈ f, isWordChar c = true) ∧ f ≠ "this".toList := by
  simp only [isFieldName, Bool.and_eq_true, Bool.not_eq_true', List.isEmpty_eq_false,
    List.all_eq_true, bne_iff_ne, ne_eq] at h
  exact ⟨h.1.1, h.1.2, h.2⟩

/-! ## Lemmas on global replacement -/

theorem replaceFnGo_skip (m : Str → Option (List Str × Nat)) (f : List Str → Option Str) :
    ∀ (k : Nat) (s : Str), replaceFnGo m f k s = replaceFnGo m f 0 (s.drop k)
  | 0, s => by simp
  | k + 1, [] => by simp [replaceFnGo]
  | k + 1, c :: cs => by
    simp only [replaceFnGo, List.drop_succ_cons]
    exact replaceFnGo_skip m f k cs

theorem replaceFn_of_none {m : Str → Option (List Str × Nat)} {f : List Str → Option Str}
    {c : Char} {cs : Str} (h : m (c :: cs) = none) :
    replaceFn m f (c :: cs) = (replaceFn m f cs).map (fun r => c :: r) := by
  simp only [replaceFn, replaceFnGo, h]
  cases replaceFnGo m f 0 cs <;> rfl

theorem replaceFn_of_match {m : Str → Option (List Str × Nat)} {f : List Str → Option Str}
    {s : Str} {caps : List Str} {len : Nat} (h : m s = some (caps, len)) (hs : s ≠ [])
    (hlen : 0 < len) :
    replaceFn m f s =
      match f caps, replaceFn m f (s.drop len) with
      | some r, some rest => some (r ++ rest)
      | _, _ => none := by
  cases s with
  | nil => exact absurd rfl hs
  | cons c cs =>
    simp only [replaceFn, replaceFnGo, h]
    rw [replaceFnGo_skip m f (len - 1) cs]
    have : (c :: cs).drop len = cs.drop (len - 1) := by
      cases len with
      | zero => omega
      | succ n => simp
    rw [this]

theorem replaceFn_whole {m : Str → Option (List Str × Nat)} {f : List Str → Option Str}
    {s : Str} {caps : List Str} (h : m s = some (caps, s.length)) (hs : s ≠ []) :
    replaceFn m f s = f caps := by
  rw [replaceFn_of_match h hs (List.length_pos.mpr hs), List.drop_length]
  cases f caps with
  | none => rfl
  | some r => simp [replaceFn, replaceFnGo]

theorem replaceFn_skip {m : Str → Option (List Str × Nat)} (f : List Str → Option Str)
    {a b : Str} (hm : NeedsOpen m) (hq : Quiet a b) :
    replaceFn m f (a ++ b) = (replaceFn m f b).map (fun r => a ++ r) := by
  induction a with
  | nil => cases h : replaceFn m f b <;> simp [h]
  | cons c cs ih =>
    rw [List.cons_append, replaceFn_of_none (hm _ hq.head), ih hq.tail]
    cases replaceFn m f b <;> rfl

theorem replaceFn_id {m : Str → Option (List Str × Nat)} (f : List Str → Option Str)
    {s : Str} (hm : NeedsOpen m) (h : hasOpen s = false) : replaceFn m f s = some s := by
  have := replaceFn_skip f hm (quiet_nil_right h)
  simpa [replaceFn, replaceFnGo] using this

theorem replaceFn_id_of_none {m : Str → Option (List Str × Nat)} {f : List Str → Option Str}
    {s : Str} (h : ∀ b, b <:+ s → m b = none) : replaceFn m f s = some s := by
  induction s with
  | nil => rfl
  | cons c cs ih =>
    rw [replaceFn_of_none (h _ (List.suffix_refl _)),
      ih (fun b hb => h b (hb.trans (List.suffix_cons c cs)))]
    rfl

theorem replaceLitGo_skip (pat repl : Str) :
    ∀ (k : Nat) (pre s : Str),
      replaceLitGo pat repl k pre s =
        replaceLitGo pat repl 0 ((s.take k).reverse ++ pre) (s.drop k)
  | 0, pre, s => by simp
  | k + 1, pre, [] => by simp [replaceLitGo]
  | k + 1, pre, c :: cs => by
    simp only [replaceLitGo, List.drop_succ_cons, List.take_succ_cons, List.reverse_cons,
      List.append_assoc, List.singleton_append]
    exact replaceLitGo_skip pat repl k (c :: pre) cs

theorem replaceLitGo_of_none {pat repl pre : Str} {c : Char} {s : Str}
    (h : afterLit pat (c :: s) = none) :
    replaceLitGo pat repl 0 pre (c :: s) = c :: replaceLitGo pat repl 0 (c :: pre) s := by
  simp only [replaceLitGo, h]

theorem replaceLitGo_of_match {pat repl pre : Str} {c : Char} {s post : Str}
    (h : afterLit pat (c :: s) = some post) :
    replaceLitGo pat repl 0 pre (c :: s) =
      expandDollar pre.reverse pat post repl ++
        replaceLitGo pat repl (pat.length - 1) (c :: pre) s := by
  simp only [replaceLitGo, h]

theorem replaceLitGo_quiet (q repl : Str) {a b : Str} (pre : Str) (hq : Quiet a b) :
    replaceLitGo (cOpen :: cOpen :: q) repl 0 pre (a ++ b) =
      a ++ replaceLitGo (cOpen :: cOpen :: q) repl 0 (a.reverse ++ pre) b := by
  induction a generalizing pre with
  | nil => rfl
  | cons c cs ih =>
    have h0 : afterLit (cOpen :: cOpen :: q) (c :: (cs ++ b)) = none :=
      afterLit_none_of_not_startsOpen hq.head
    rw [List.cons_append, replaceLitGo_of_none h0, ih (c :: pre) hq.tail]
    simp

theorem replaceLit_id (q repl : Str) {s : Str} (h : hasOpen s = false) :
    replaceLit (cOpen :: cOpen :: q) repl s = s := by
  have := replaceLitGo_quiet q repl [] (quiet_nil_right h)
  simpa [replaceLit, replaceLitGo] using this

theorem replaceLit_id_markers (repl : Str) {s : Str} (h : hasOpen s = false) :
    replaceLit mThis repl s = s ∧ replaceLit mIndex repl s = s ∧ replaceLit mKey repl s = s ∧
      replaceLit mLast repl s = s :=
  ⟨replaceLit_id "this\x7d\x7d".toList repl h, replaceLit_id "@index\x7d\x7d".toList repl h,
    replaceLit_id "@key\x7d\x7d".toList repl h, replaceLit_id "@last\x7d\x7d".toList repl h⟩

theorem expandDollar_id (pre matched post : Str) {s : Str} (h : hasDollar s = false) :
    expandDollar pre matched post s = s := by
  induction s with
  | nil => rfl
  | cons c r ih =>
    simp only [hasDollar, includesChar, List.any_cons, Bool.or_eq_false_iff, beq_eq_false_iff_ne,
      ne_eq] at h
    have ih' := ih (by simpa [hasDollar, includesChar] using h.2)
    cases r with
    | nil => simp [expandDollar, h.1]
    | cons d r2 =>
      rw [expandDollar.eq_def]
      simp only [h.1, if_false]
      rw [ih']

/-! ## Lemmas on the regular expressions -/

theorem findSub_none_cons {pat : Str} {c : Char} {cs : Str} (h : findSub pat (c :: cs) = none) :
    afterLit pat (c :: cs) = none ∧ findSub pat cs = none := by
  rw [findSub] at h
  cases h1 : afterLit pat (c :: cs) with
  | some r => simp [h1] at h
  | none =>
    refine ⟨rfl, ?_⟩
    cases h2 : findSub pat cs with
    | none => rfl
    | some x => simp [h1, h2] at h

theorem findSub_append {pat B : Str} (rest : Str) (hne : pat ≠ []) (hb : noBorder pat = true)
    (h : findSub pat B = none) : findSub pat (B ++ (pat ++ rest)) = some (B, rest) := by
  induction B with
  | nil =>
    cases pat with
    | nil => exact absurd rfl hne
    | cons a p =>
      have := afterLit_append (a :: p) rest
      simp only [List.nil_append, List.cons_append] at this ⊢
      rw [findSub, this]
  | cons c B ih =>
    obtain ⟨h1, h2⟩ := findSub_none_cons h
    have h3 : afterLit pat (c :: (B ++ (pat ++ rest))) = none := by
      cases hm : afterLit pat (c :: (B ++ (pat ++ rest))) with
      | none => rfl
      | some r =>
        exfalso
        have he : (c :: B) ++ (pat ++ rest) = pat ++ r := afterLit_eq_some.mp hm
        rcases List.append_eq_append_iff.mp he with ⟨a', hp, hr⟩ | ⟨c', hB, _⟩
        · -- pat = (c :: B) ++ a'
          have hk1 : 0 < (c :: B).length := by simp
          by_cases ha : a' = []
          · have h7 : afterLit pat (c :: B) = some [] :=
              afterLit_eq_some.mpr (by rw [hp, ha]; simp)
            rw [h7] at h1
            exact Option.noConfusion h1
          · have hlen : pat.length = (c :: B).length + a'.length := by rw [hp, List.length_append]
            have ha' : 0 < a'.length := List.length_pos.mpr ha
            have hk2 : (c :: B).length < pat.length := by omega
            have hdrop : pat.drop (c :: B).length = a' := by
              rw [hp, List.drop_left]
            have htake : pat.take (pat.length - (c :: B).length) = a' := by
              have h5 : pat.length - (c :: B).length = a'.length := by omega
              have h6 : (pat ++ rest).take a'.length = a' := by rw [hr, List.take_left]
              rw [List.take_append_of_le_length (by omega)] at h6
              rw [h5]; exact h6
            have hnb := hb
            simp only [noBorder, List.all_eq_true, List.mem_range] at hnb
            have := hnb _ hk2
            rw [hdrop, htake] at this
            simp at this
        · rw [hB, afterLit_append] at h1
          exact Option.noConfusion h1
    rw [List.cons_append, findSub, h3, ih h2]

theorem findSub_none_of_hasOpen (q : Str) {s : Str} (h : hasOpen s = false) :
    findSub (cOpen :: cOpen :: q) s = none := by
  induction s with
  | nil => rfl
  | cons c cs ih =>
    simp only [hasOpen, Bool.or_eq_false_iff] at h
    rw [findSub, afterLit_none_of_not_startsOpen h.1, ih h.2]

theorem noBorder_close :
    noBorder ("\x7b\x7b/".toList ++ "each".toList ++ "\x7d\x7d".toList) = true ∧
    noBorder ("\x7b\x7b/".toList ++ "if".toList ++ "\x7d\x7d".toList) = true ∧
    noBorder ("\x7b\x7b/".toList ++ "unless".toList ++ "\x7d\x7d".toList) = true := by decide

/-- The block regex on the text `{{#kw p}}body{{/kw}}`: it matches the whole
text, with a first group that trims to `p.trim()` and `body` as second group. -/
theorem matchBlock_whole {kw p body : Str} (hp : p ≠ []) (hpc : ∀ c ∈ p, notClose c = true)
    (hnb : noBorder ("\x7b\x7b/".toList ++ kw ++ "\x7d\x7d".toList) = true)
    (hbody : findSub ("\x7b\x7b/".toList ++ kw ++ "\x7d\x7d".toList) body = none) :
    ∃ cap, trim cap = trim p ∧
      matchBlock kw (blockTemplate kw p body) =
        some ([cap, body], (blockTemplate kw p body).length) := by
  have hsp : isJsSpace (Char.ofNat 32) = true := by decide
  have hnc : notClose (Char.ofNat 32) = true := by decide
  have hall : ∀ c ∈ (Char.ofNat 32 :: p), notClose c = true := by
    intro c hc
    rcases List.mem_cons.mp hc with rfl | hc
    · exact hnc
    · exact hpc c hc
  have ht : List.takeWhile notClose
      (Char.ofNat 32 :: p ++ ("\x7d\x7d".toList ++ (body ++
        ("\x7b\x7b/".toList ++ kw ++ "\x7d\x7d".toList)))) = Char.ofNat 32 :: p := by
    rw [List.takeWhile_append_of_pos hall]
    simp [List.takeWhile, notClose, cClose]
  have hfs := findSub_append (B := body) [] (by simp) hnb hbody
  rw [List.append_nil] at hfs
  have hmain : ∀ cap, cap = (Char.ofNat 32 :: p).drop
      (if (List.takeWhile isJsSpace (Char.ofNat 32 :: p)).length < (Char.ofNat 32 :: p).length
        then (List.takeWhile isJsSpace (Char.ofNat 32 :: p)).length
        else (List.takeWhile isJsSpace (Char.ofNat 32 :: p)).length - 1) →
      matchBlock kw (blockTemplate kw p body) =
        some ([cap, body], (blockTemplate kw p body).length) := by
    intro cap hcap
    have h0 : afterLit ("\x7b\x7b#".toList ++ kw) (blockTemplate kw p body) =
        some (Char.ofNat 32 :: p ++ ("\x7d\x7d".toList ++ (body ++
          ("\x7b\x7b/".toList ++ kw ++ "\x7d\x7d".toList)))) :=
      afterLit_eq_some.mpr (by simp [blockTemplate])
    unfold matchBlock
    rw [h0]
    simp only [ht]
    have hw : (List.takeWhile isJsSpace (Char.ofNat 32 :: p)).isEmpty = false := by
      simp [List.takeWhile, hsp]
    have hl : decide ((Char.ofNat 32 :: p).length < 2) = false := by
      have := List.length_pos.mpr hp
      simp; omega
    simp only [hw, hl, Bool.or_self, Bool.false_eq_true, if_false]
    rw [List.drop_left, afterLit_append]
    simp only [hfs, ← hcap]
    congr 2
    simp [blockTemplate, List.length_append]
    omega
  refine ⟨_, ?_, hmain _ rfl⟩
  -- the first group trims to the trimmed path
  have hw2 : List.takeWhile isJsSpace (Char.ofNat 32 :: p) =
      Char.ofNat 32 :: List.takeWhile isJsSpace p := by
    simp [List.takeWhile, hsp]
  rw [hw2]
  by_cases hlt : (List.takeWhile isJsSpace p).length < p.length
  · have h1 : (Char.ofNat 32 :: List.takeWhile isJsSpace p).length <
        (Char.ofNat 32 :: p).length := by simpa using hlt
    rw [if_pos h1]
    simp only [List.length_cons, List.drop_succ_cons]
    rw [drop_takeWhile_length, trim_dropWhile]
  · have h1 : ¬ (Char.ofNat 32 :: List.takeWhile isJsSpace p).length <
        (Char.ofNat 32 :: p).length := by simpa using hlt
    rw [if_neg h1]
    have hle : (List.takeWhile isJsSpace p).length ≤ p.length :=
      (List.takeWhile_prefix isJsSpace).length_le
    have heq : (List.takeWhile isJsSpace p).length = p.length := by omega
    have hall2 : ∀ c ∈ p, isJsSpace c = true := by
      have h2 : List.takeWhile isJsSpace p = p := by
        have hpre : List.takeWhile isJsSpace p <+: p := List.takeWhile_prefix _
        exact hpre.eq_of_length heq
      exact List.takeWhile_eq_self_iff.mp h2
    simp only [List.length_cons, heq, Nat.add_sub_cancel]
    rw [List.drop_length_cons hp, trim_all_space hall2]
    apply trim_all_space
    intro c hc
    rw [List.mem_singleton.mp hc]
    exact hall2 _ (List.getLast_mem hp)

theorem blockTemplate_ne_nil (kw p body : Str) : blockTemplate kw p body ≠ [] := by
  simp [blockTemplate]

theorem replaceFn_block {kw p body : Str} (f : List Str → Option Str) (hp : p ≠ [])
    (hpc : ∀ c ∈ p, notClose c = true)
    (hnb : noBorder ("\x7b\x7b/".toList ++ kw ++ "\x7d\x7d".toList) = true)
    (hbody : findSub ("\x7b\x7b/".toList ++ kw ++ "\x7d\x7d".toList) body = none) :
    ∃ cap, trim cap = trim p ∧
      replaceFn (matchBlock kw) f (blockTemplate kw p body) = f [cap, body] := by
  obtain ⟨cap, hcap, hm⟩ := matchBlock_whole hp hpc hnb hbody
  exact ⟨cap, hcap, replaceFn_whole hm (blockTemplate_ne_nil kw p body)⟩

theorem notClose_of_keyword :
    (∀ c ∈ "each".toList, notClose c = true) ∧ (∀ c ∈ "if".toList, notClose c = true) ∧
      (∀ c ∈ "unless".toList, notClose c = true) := by decide

theorem matchBlock_none_of_inline {kw s : Str} (hkw : ∀ c ∈ kw, notClose c = true)
    (h : matchInline s = none) : matchBlock kw s = none := by
  unfold matchBlock
  cases h1 : afterLit ("\x7b\x7b#".toList ++ kw) s with
  | none => rfl
  | some r1 =>
    have hs : s = "\x7b\x7b".toList ++ ((Char.ofNat 35 :: kw) ++ r1) := by
      have := afterLit_eq_some.mp h1
      simpa using this
    simp only
    cases h2 : afterLit "\x7d\x7d".toList (List.drop (List.takeWhile notClose r1).length r1) with
    | none => split <;> rfl
    | some r2 =>
      exfalso
      have hall : ∀ c ∈ (Char.ofNat 35 :: kw), notClose c = true := by
        intro c hc
        rcases List.mem_cons.mp hc with rfl | hc
        · decide
        · exact hkw c hc
      unfold matchInline at h
      rw [hs, afterLit_append] at h
      simp only [List.takeWhile_append_of_pos hall] at h
      have hd : List.drop ((Char.ofNat 35 :: kw) ++ List.takeWhile notClose r1).length
          ((Char.ofNat 35 :: kw) ++ r1) = List.drop (List.takeWhile notClose r1).length r1 := by
        rw [List.length_append, List.drop_append]
      rw [hd, h2] at h
      simp at h

theorem hasMarker_false {s : Str} (h : hasMarker s = false) :
    ∀ b, b <:+ s → matchInline b = none := by
  induction s with
  | nil =>
    intro b hb
    rw [List.suffix_nil.mp hb]; rfl
  | cons c cs ih =>
    simp only [hasMarker, Bool.or_eq_false_iff] at h
    intro b hb
    rcases List.suffix_cons_iff.mp hb with rfl | hb'
    · cases hm : matchInline (c :: cs) with
      | none => rfl
      | some x => simp [hm] at h
    · exact ih h.2 b hb'

theorem hasOpen_marker_tail {f : Str} (hf : isFieldName f = true) :
    hasOpen (cOpen :: (f ++ [cClose, cClose])) = false := by
  obtain ⟨hne, hw, _⟩ := isFieldName_spec hf
  cases f with
  | nil => exact absurd rfl hne
  | cons c r =>
    rw [List.cons_append, hasOpen_cons_cons_of_ne _ (wordChar_plain (hw c (List.mem_cons_self c r))).1]
    apply hasOpen_of_no_open_char
    intro x hx
    rw [← List.cons_append] at hx
    rcases List.mem_append.mp hx with hx | hx
    · exact (wordChar_plain (hw x hx)).1
    · intro hc
      rw [hc] at hx
      exact absurd hx (by decide)

theorem replaceLit_marker_id {q : Str} (repl : Str) {f : Str} (hf : isFieldName f = true)
    (h0 : afterLit q (f ++ [cClose, cClose]) = none) :
    replaceLit (cOpen :: cOpen :: q) repl (marker f) = marker f := by
  have h1 : afterLit (cOpen :: cOpen :: q) (cOpen :: cOpen :: (f ++ [cClose, cClose])) = none := by
    simpa [afterLit] using h0
  unfold replaceLit marker
  rw [replaceLitGo_of_none h1]
  have := replaceLitGo_quiet q repl [cOpen] (quiet_nil_right (hasOpen_marker_tail hf))
  rw [List.append_nil] at this
  rw [this]
  simp [replaceLitGo]

theorem afterLit_at_none {q : Str} {f : Str} (hf : isFieldName f = true) :
    afterLit (Char.ofNat 64 :: q) (f ++ [cClose, cClose]) = none := by
  obtain ⟨hne, hw, _⟩ := isFieldName_spec hf
  cases f with
  | nil => exact absurd rfl hne
  | cons c r =>
    have : Char.ofNat 64 ≠ c := fun h =>
      (wordChar_plain (hw c (List.mem_cons_self c r))).2.2.2.2.2 h.symm
    simp [afterLit, this]

theorem afterLit_this_none {f : Str} (hf : isFieldName f = true) :
    afterLit "this\x7d\x7d".toList (f ++ [cClose, cClose]) = none := by
  obtain ⟨hne, hw, hthis⟩ := isFieldName_spec hf
  cases hm : afterLit "this\x7d\x7d".toList (f ++ [cClose, cClose]) with
  | none => rfl
  | some r =>
    exfalso
    have he := afterLit_eq_some.mp hm
    have h1 : List.takeWhile isWordChar (f ++ [cClose, cClose]) = f := by
      rw [List.takeWhile_append_of_pos hw]
      simp [List.takeWhile, isWordChar, cClose]
    have h2 : List.takeWhile isWordChar ("this\x7d\x7d".toList ++ r) = "this".toList := by
      simp [List.takeWhile, isWordChar]
    rw [he, h2] at h1
    exact hthis h1.symm

theorem matchInline_marker {f : Str} (hf : isFieldName f = true) :
    matchInline (marker f) = some ([f], (marker f).length) := by
  obtain ⟨hne, hw, _⟩ := isFieldName_spec hf
  have ht : List.takeWhile notClose (f ++ [cClose, cClose]) = f := by
    rw [List.takeWhile_append_of_pos (fun c hc => (wordChar_plain (hw c hc)).2.1)]
    simp [List.takeWhile, notClose]
  have h0 : afterLit "\x7b\x7b".toList (marker f) = some (f ++ [cClose, cClose]) :=
    afterLit_eq_some.mpr rfl
  unfold matchInline
  rw [h0]
  simp only [ht]
  have he : f.isEmpty = false := by simpa using hne
  rw [he]
  have hd : List.drop f.length (f ++ [cClose, cClose]) = "\x7d\x7d".toList := by
    rw [List.drop_left]; rfl
  rw [hd]
  simp [afterLit, marker]

theorem findSub_close_marker {f : Str} (hf : isFieldName f = true) :
    findSub ("\x7b\x7b/".toList ++ "each".toList ++ "\x7d\x7d".toList) (marker f) = none := by
  obtain ⟨hne, hw, _⟩ := isFieldName_spec hf
  have h1 : afterLit ("\x7b\x7b/".toList ++ "each".toList ++ "\x7d\x7d".toList) (marker f) =
      none := by
    cases f with
    | nil => exact absurd rfl hne
    | cons c r =>
      have : Char.ofNat 47 ≠ c := by
        intro h
        have := hw c (List.mem_cons_self c r)
        rw [← h] at this
        exact absurd this (by decide)
      simp [afterLit, marker, cOpen, this]
  have h2 := findSub_none_of_hasOpen "/each\x7d\x7d".toList (hasOpen_marker_tail hf)
  unfold marker at h1 ⊢
  rw [findSub, h1]
  have h3 : findSub ("\x7b\x7b/".toList ++ "each".toList ++ "\x7d\x7d".toList)
      (cOpen :: (f ++ [cClose, cClose])) = none := h2
  rw [h3]

/-! ## Expression evaluation -/

theorem walk_of_reaches {v w : JVal} {ks : List Str} (h : Reaches v ks w) : walk ks v = w := by
  induction h with
  | here v => rfl
  | step hk _ ih => simp only [walk, hk]; exact ih

theorem walk_of_stuck {v : JVal} {ks : List Str} (h : Stuck v ks) : walk ks v = .str [] := by
  obtain ⟨pre, k, post, u, rfl, hu, hk⟩ := h
  induction hu with
  | here v => simp only [List.nil_append, walk, hk]
  | step hk' _ ih => simp only [List.cons_append, walk, hk']; exact ih hk

theorem reaches_or_stuck (v : JVal) (ks : List Str) : (∃ w, Reaches v ks w) ∨ Stuck v ks := by
  induction ks generalizing v with
  | nil => exact Or.inl ⟨v, Reaches.here v⟩
  | cons k ks ih =>
    cases hk : getOwn v k with
    | none => exact Or.inr ⟨[], k, ks, v, rfl, Reaches.here v, hk⟩
    | some v' =>
      rcases ih v' with ⟨w, hw⟩ | ⟨pre, k', post, u, he, hu, hk'⟩
      · exact Or.inl ⟨w, Reaches.step hk hw⟩
      · exact Or.inr ⟨k :: pre, k', post, u, by rw [he]; rfl, Reaches.step hk hu, hk'⟩

theorem evalPath_eq : ∀ (ks : List Str) (v : JVal),
    evalPath ks v = if plainPath ks v then some (walk ks v) else none
  | [], _ => rfl
  | k :: ks, v => by
    rw [evalPath, plainPath, walk]
    cases hs : shadowed v with
    | true => rfl
    | false =>
      cases hk : getOwn v k with
      | none => rfl
      | some v2 =>
        simp only [Bool.false_eq_true, if_false, Bool.not_false, Bool.true_and]
        exact evalPath_eq ks v2

theorem evalPath_of_plain {ks : List Str} {v : JVal} (h : plainPath ks v = true) :
    evalPath ks v = some (walk ks v) := by
  rw [evalPath_eq, if_pos h]

theorem evalPath_of_shadowed {k : Str} {ks : List Str} {v : JVal} (h : shadowed v = true) :
    evalPath (k :: ks) v = none := by
  rw [evalPath, if_pos h]

theorem plainPath_one {k : Str} {v : JVal} (h : shadowed v = false) :
    plainPath [k] v = true := by
  rw [plainPath, h]
  cases getOwn v k <;> rfl

theorem shadowed_of_plainPath {k : Str} {ks : List Str} {v : JVal}
    (h : plainPath (k :: ks) v = true) : shadowed v = false := by
  rw [plainPath, Bool.and_eq_true] at h
  simpa using h.1

mutual
theorem toText_eq : ∀ v : JVal, toText v = if stringable v then some (toStr v) else none
  | .null => rfl
  | .bool _ => rfl
  | .num _ => rfl
  | .str _ => rfl
  | .arr _ xs => by
    rw [toText, stringable, toStr]
    exact joinTexts_eq _ xs
  | .obj _ kvs => by
    rw [toText, stringable, toStr]
    cases lookupKey "toString".toList kvs <;> rfl
theorem joinTexts_eq (sep : Str) : ∀ xs : List JVal,
    joinTexts sep xs = if stringableAll xs then some (joinElems sep xs) else none
  | [] => rfl
  | x :: r => by
    have key : ∀ (o : Option Str) (b : Bool) (t : Str), (o = if b then some t else none) →
        ∀ (j : Option Str) (c : Bool) (u : Str), (j = if c then some u else none) →
        (match o, j with
          | some a, some b =>
            some (a ++
              (match r with
                | [] => []
                | _ => sep ++ b))
          | _, _ => none) =
          if (b && c) then
            some (t ++
              (match r with
                | [] => []
                | _ => sep ++ u))
          else none := by
      intro o b t ho j c u hj
      rw [ho, hj]
      cases b <;> cases c <;> rfl
    cases x with
    | null => exact key (some []) true [] rfl _ _ _ (joinTexts_eq sep r)
    | bool b => exact key _ _ _ (toText_eq (.bool b)) _ _ _ (joinTexts_eq sep r)
    | num n => exact key _ _ _ (toText_eq (.num n)) _ _ _ (joinTexts_eq sep r)
    | str s => exact key _ _ _ (toText_eq (.str s)) _ _ _ (joinTexts_eq sep r)
    | arr a ys => exact key _ _ _ (toText_eq (.arr a ys)) _ _ _ (joinTexts_eq sep r)
    | obj a kvs => exact key _ _ _ (toText_eq (.obj a kvs)) _ _ _ (joinTexts_eq sep r)
end

theorem toText_of_stringable {v : JVal} (h : stringable v = true) : toText v = some (toStr v) := by
  rw [toText_eq, if_pos h]

theorem stringableAll_eq_all : ∀ xs : List JVal, stringableAll xs = xs.all stringable
  | [] => rfl
  | x :: r => by rw [stringableAll, List.all_cons, stringableAll_eq_all r]

theorem evaluateExpression_path (up : Char → Str) {e : Str} (data : JVal)
    (h : isHelperCall e = false) :
    evaluateExpression up e data = evalPath (splitChar (Char.ofNat 46) e) data := by
  unfold evaluateExpression
  cases e.length with
  | zero => rfl
  | succ n => simp only [evaluateExpressionFuel, h]; rfl

theorem evaluateExpression_walk (up : Char → Str) {e : Str} (data : JVal)
    (h : isHelperCall e = false) (hpl : plainAt e data = true) :
    evaluateExpression up e data = some (walk (splitChar (Char.ofNat 46) e) data) := by
  rw [evaluateExpression_path up data h]
  exact evalPath_of_plain hpl

theorem evaluateExpression_field (up : Char → Str) {f : Str} (x : JVal)
    (hf : isFieldName f = true) :
    evaluateExpression up (trim f) x =
      if shadowed x then none else some ((getOwn x f).getD (.str [])) := by
  obtain ⟨_, hw, _⟩ := isFieldName_spec hf
  rw [trim_id (fun c hc => (wordChar_plain (hw c hc)).2.2.1)]
  have hh : isHelperCall f = false := by
    rw [isHelperCall, includesChar_false (fun c hc => (wordChar_plain (hw c hc)).2.2.2.2.1)]
    rfl
  rw [evaluateExpression_path up x hh,
    splitChar_id (fun c hc => (wordChar_plain (hw c hc)).2.2.2.1)]
  simp only [evalPath]
  cases shadowed x with
  | true => rfl
  | false => cases getOwn x f <;> rfl

theorem toBoolean_eq_true_iff (v : JVal) :
    toBoolean v = true ↔ v ≠ .str [] ∧ v ≠ .num 0 ∧ v ≠ .bool false ∧ v ≠ .null := by
  cases v with
  | null => simp [toBoolean]
  | bool b => cases b <;> simp [toBoolean]
  | num n => simp [toBoolean]
  | str s => cases s <;> simp [toBoolean]
  | arr r xs => simp [toBoolean]
  | obj r kvs => simp [toBoolean]

/-! ## The fuel of `evaluateExpression` is never exhausted -/

theorem pickArgs_length {r args : Str} :
    ∀ {j : Nat}, pickArgs r j = some args → args.length ≤ r.length
  | 0, h => by simp [pickArgs] at h
  | j + 1, h => by
    rw [pickArgs] at h
    cases hd : r.drop (j + 1) with
    | nil =>
      rw [hd] at h
      exact pickArgs_length h
    | cons c cs =>
      rw [hd] at h
      simp only at h
      by_cases hl : isLineTerminator c = true
      · rw [if_pos hl] at h
        exact pickArgs_length h
      · rw [if_neg hl] at h
        have he : args = List.takeWhile (fun d => !isLineTerminator d) (c :: cs) :=
          (Option.some.inj h).symm
        have h1 : args.length ≤ (c :: cs).length := by
          rw [he]; exact (List.takeWhile_prefix _).length_le
        have h2 : (c :: cs).length ≤ r.length := by
          rw [← hd, List.length_drop]; omega
        omega

theorem helperAt_length {s name args : Str} (h : helperAt s = some (name, args)) :
    args.length < s.length := by
  unfold helperAt at h
  simp only at h
  by_cases hn : (List.takeWhile isWordChar s).isEmpty = true
  · simp [hn] at h
  · by_cases hw : (List.takeWhile isJsSpace
        (List.drop (List.takeWhile isWordChar s).length s)).isEmpty = true
    · simp [hw] at h
    · have hwf : (List.takeWhile isJsSpace
          (List.drop (List.takeWhile isWordChar s).length s)).isEmpty = false := by
        simpa using hw
      have hnf : (List.takeWhile isWordChar s).isEmpty = false := by simpa using hn
      rw [hnf, hwf] at h
      simp only [Bool.or_self, Bool.false_eq_true, if_false] at h
      cases hp : pickArgs (List.drop (List.takeWhile isWordChar s).length s)
          (List.takeWhile isJsSpace
            (List.drop (List.takeWhile isWordChar s).length s)).length with
      | none => rw [hp] at h; exact Option.noConfusion h
      | some a =>
        rw [hp] at h
        have ha : a = args := (Prod.mk.inj (Option.some.inj h)).2
        have h1 := pickArgs_length hp
        have h2 : 0 < (List.takeWhile isWordChar s).length := by
          cases ht : List.takeWhile isWordChar s with
          | nil => rw [ht] at hnf; exact absurd hnf (by decide)
          | cons x t => simp
        have h3 : (List.takeWhile isWordChar s).length ≤ s.length :=
          (List.takeWhile_prefix _).length_le
        rw [List.length_drop] at h1
        rw [← ha]
        omega

theorem matchHelper_length {name args : Str} :
    ∀ {e : Str}, matchHelper e = some (name, args) → args.length < e.length
  | [], h => by simp [matchHelper] at h
  | c :: cs, h => by
    rw [matchHelper] at h
    cases ha : helperAt (c :: cs) with
    | some x =>
      rw [ha] at h
      simp only at h
      rw [Option.some.inj h] at ha
      exact helperAt_length ha
    | none =>
      rw [ha] at h
      simp only at h
      have := matchHelper_length (e := cs) h
      simp only [List.length_cons]
      omega

theorem argList_length {e name args : Str} (h : matchHelper e = some (name, args)) (i : Nat)
    {a : Str} (ha : ((splitChar (Char.ofNat 32) args).map trim).get? i = some a) :
    a.length < e.length := by
  have hm : a ∈ (splitChar (Char.ofNat 32) args).map trim := List.get?_mem ha
  obtain ⟨b, hb, rfl⟩ := List.mem_map.mp hm
  have h1 := trim_length b
  have h2 := splitChar_length _ args b hb
  have h3 := matchHelper_length h
  omega

/-- The helper body only consults `ev` on arguments shorter than the expression. -/
theorem helperBody_congr (up : Char → Str) {ev1 ev2 : Option Str → JVal → Option JVal}
    (e : Str) (d : JVal) (h0 : ev1 none d = ev2 none d)
    (h : ∀ a : Str, a.length < e.length → ev1 (some a) d = ev2 (some a) d) :
    helperBody up ev1 e d = helperBody up ev2 e d := by
  have key : ∀ name args, matchHelper e = some (name, args) → ∀ i,
      ev1 (((splitChar (Char.ofNat 32) args).map trim).get? i) d =
        ev2 (((splitChar (Char.ofNat 32) args).map trim).get? i) d := by
    intro name args hm i
    cases ha : ((splitChar (Char.ofNat 32) args).map trim).get? i with
    | none => exact h0
    | some a => exact h a (argList_length hm i ha)
  unfold helperBody
  cases hm : matchHelper e with
  | none => rfl
  | some na =>
    obtain ⟨name, args⟩ := na
    simp only [key name args hm]

theorem isHelperCall_nil_of_length {e : Str} (h : e.length = 0) : isHelperCall e = false := by
  rw [List.length_eq_zero.mp h]; rfl

/-- Fuel adequacy: any fuel of at least the length of the expression gives the
result of `evaluateExpression`. -/
theorem evaluateExpressionFuel_stable (up : Char → Str) :
    ∀ (n : Nat) (e : Str) (d : JVal), e.length ≤ n →
      evaluateExpressionFuel up n e d = evaluateExpression up e d := by
  have aux : ∀ (n m : Nat) (e : Str) (d : JVal), e.length ≤ n → e.length ≤ m →
      evaluateExpressionFuel up n e d = evaluateExpressionFuel up m e d := by
    intro n
    induction n with
    | zero =>
      intro m e d hn _
      have hh := isHelperCall_nil_of_length (Nat.le_zero.mp hn)
      cases m with
      | zero => rfl
      | succ m => simp only [evaluateExpressionFuel, hh]; rfl
    | succ n ih =>
      intro m e d hn hm
      cases m with
      | zero =>
        have hh := isHelperCall_nil_of_length (Nat.le_zero.mp hm)
        simp only [evaluateExpressionFuel, hh]; rfl
      | succ m =>
        simp only [evaluateExpressionFuel]
        by_cases hh : isHelperCall e = true
        · rw [if_pos hh, if_pos hh]
          refine helperBody_congr up e d ?_ ?_
          · rfl
          · intro a ha
            exact ih m a d (by omega) (by omega)
        · rw [if_neg hh, if_neg hh]
  intro n e d hn
  exact aux n e.length e d hn (Nat.le_refl _)

/-- The method `evaluateHelperFunction` is the helper branch of
`evaluateExpression`. -/
theorem evaluateExpression_helper (up : Char → Str) {e : Str} (d : JVal)
    (h : isHelperCall e = true) :
    evaluateExpression up e d = evaluateHelperFunction up e d := by
  unfold evaluateExpression evaluateHelperFunction
  cases hl : e.length with
  | zero =>
    rw [isHelperCall_nil_of_length hl] at h
    exact absurd h (by decide)
  | succ n =>
    simp only [evaluateExpressionFuel, h, if_true]
    refine helperBody_congr up e d ?_ ?_
    · rfl
    · intro a ha
      exact evaluateExpressionFuel_stable up n a d (by omega)

/-! ## The passes of `compile` -/

/-- The passes after `each` leave a text without `{{` unchanged. -/
theorem compile_of_each {up : Char → Str} {template r1 : Str} {data : JVal}
    (h1 : replaceFn (matchBlock "each".toList) (eachBlock up data) template = some r1)
    (h2 : hasOpen r1 = false) : compile up template data = some r1 := by
  unfold compile
  rw [h1]
  simp only
  rw [replaceFn_id _ (needsOpen_matchBlock _) h2]
  simp only
  rw [replaceFn_id _ (needsOpen_matchBlock _) h2]
  simp only
  rw [replaceFn_id _ needsOpen_matchInline h2]

theorem compile_of_each_none {up : Char → Str} {template : Str} {data : JVal}
    (h1 : replaceFn (matchBlock "each".toList) (eachBlock up data) template = none) :
    compile up template data = none := by
  unfold compile
  rw [h1]

theorem eachBlock_caps (up : Char → Str) (data : JVal) (cap body : Str) :
    eachBlock up data [cap, body] =
      match evaluateExpression up (trim cap) data with
      | none => none
      | some (.arr _ xs) => mapJoin (renderSeqItem up body xs.length) 0 xs
      | some (.obj _ kvs) => mapJoin (renderKeyedItem up body kvs.length) 0 kvs
      | some _ => some [] := rfl

theorem ifBlock_caps (up : Char → Str) (data : JVal) (cap body : Str) :
    ifBlock up data [cap, body] =
      match evaluateExpression up (trim cap) data with
      | none => none
      | some conditionValue =>
        if includesSub mElse body then
          if toBoolean conditionValue then some ((splitSub mElse body).getD 0 [])
          else some ((splitSub mElse body).getD 1 [])
        else if toBoolean conditionValue then some body
        else some [] := rfl

/-- The `each` pass finds nothing in the text `{{#if c}}...` up to the end of `c`. -/
theorem eachPass_if_header (f : List Str → Option Str) {c tail : Str}
    (hc : ∀ x ∈ c, x ≠ cOpen) (ht : ∀ r, tail ≠ cOpen :: r) :
    replaceFn (matchBlock "each".toList) f ("\x7b\x7b#if ".toList ++ (c ++ tail)) =
      (replaceFn (matchBlock "each".toList) f tail).map
        (fun r => "\x7b\x7b#if ".toList ++ (c ++ r)) := by
  have h0 : matchBlock "each".toList ("\x7b\x7b#if ".toList ++ (c ++ tail)) = none := by
    have : afterLit ("\x7b\x7b#".toList ++ "each".toList)
        ("\x7b\x7b#if ".toList ++ (c ++ tail)) = none := by
      cases hm : afterLit ("\x7b\x7b#".toList ++ "each".toList)
          ("\x7b\x7b#if ".toList ++ (c ++ tail)) with
      | none => rfl
      | some r =>
        have := afterLit_eq_some.mp hm
        simp at this
    unfold matchBlock
    rw [this]
  have hq : Quiet ("\x7b#if ".toList ++ c) tail := by
    apply quiet_of_hasOpen _ ht
    have h1 : hasOpen c = false := hasOpen_of_no_open_char hc
    show hasOpen (Char.ofNat 123 :: Char.ofNat 35 :: Char.ofNat 105 :: Char.ofNat 102 ::
      Char.ofNat 32 :: c) = false
    rw [hasOpen_cons_cons_of_ne _ (by decide), hasOpen_cons_of_ne _ (by decide),
      hasOpen_cons_of_ne _ (by decide), hasOpen_cons_of_ne _ (by decide),
      hasOpen_cons_of_ne _ (by decide)]
    exact h1
  have e1 : "\x7b\x7b#if ".toList ++ (c ++ tail) =
      Char.ofNat 123 :: ("\x7b#if ".toList ++ c ++ tail) := by simp
  rw [e1, replaceFn_of_none (by rw [← e1]; exact h0), replaceFn_skip f (needsOpen_matchBlock _) hq]
  cases replaceFn (matchBlock "each".toList) f tail <;> simp

theorem blockTemplate_if (c body : Str) :
    blockTemplate "if".toList c body =
      "\x7b\x7b#if ".toList ++ (c ++ ("\x7d\x7d".toList ++ body ++ "\x7b\x7b/if\x7d\x7d".toList)) := by
  simp [blockTemplate]

theorem compile_if_block (up : Char → Str) (ctx : JVal) (c : Str) (hc : isPathText c = true)
    (hh : isHelperCall (trim c) = false) :
    compile up (blockTemplate "if".toList c "A".toList) ctx =
      (evalPath (splitChar (Char.ofNat 46) (trim c)) ctx).map
        (fun v => if toBoolean v then "A".toList else []) := by
  obtain ⟨hne, hpc, hno⟩ := isPathText_spec hc
  have h1 : replaceFn (matchBlock "each".toList) (eachBlock up ctx)
      (blockTemplate "if".toList c "A".toList) = some (blockTemplate "if".toList c "A".toList) := by
    rw [blockTemplate_if, eachPass_if_header _ hno (by intro r hr; simp [cOpen] at hr)]
    have : replaceFn (matchBlock "each".toList) (eachBlock up ctx)
        ("\x7d\x7d".toList ++ "A".toList ++ "\x7b\x7b/if\x7d\x7d".toList) =
        some ("\x7d\x7d".toList ++ "A".toList ++ "\x7b\x7b/if\x7d\x7d".toList) := rfl
    rw [this]; rfl
  obtain ⟨cap, hcap, hrep⟩ :=
    @replaceFn_block "if".toList c "A".toList (ifBlock up ctx) hne hpc
      noBorder_close.2.1 (by decide)
  have h4 : includesSub mElse "A".toList = false := by decide
  unfold compile
  rw [h1]
  simp only
  rw [hrep, ifBlock_caps, hcap, evaluateExpression_path up ctx hh, h4]
  simp only [Bool.false_eq_true, if_false]
  cases evalPath (splitChar (Char.ofNat 46) (trim c)) ctx with
  | none => rfl
  | some v =>
    simp only [Option.map_some']
    by_cases hb : toBoolean v = true
    · rw [if_pos hb, if_pos hb]; rfl
    · rw [if_neg hb, if_neg hb]; rfl

/-- The `each` pass over `{{#each p}}body{{/each}}` when `p` resolves to a list. -/
theorem eachPass_seq (up : Char → Str) (ctx : JVal) {p body : Str} {r : Nat} {xs : List JVal}
    (hp : isPathText p = true)
    (hbody : findSub ("\x7b\x7b/".toList ++ "each".toList ++ "\x7d\x7d".toList) body = none)
    (hv : evaluateExpression up (trim p) ctx = some (.arr r xs)) :
    replaceFn (matchBlock "each".toList) (eachBlock up ctx) (blockTemplate "each".toList p body) =
      mapJoin (renderSeqItem up body xs.length) 0 xs := by
  obtain ⟨hne, hpc, -⟩ := isPathText_spec hp
  obtain ⟨cap, hcap, hrep⟩ := replaceFn_block (eachBlock up ctx) hne hpc noBorder_close.1 hbody
  rw [hrep, eachBlock_caps, hcap, hv]

/-- The `each` pass over `{{#each p}}body{{/each}}` when `p` resolves to a mapping. -/
theorem eachPass_keyed (up : Char → Str) (ctx : JVal) {p body : Str} {r : Nat}
    {kvs : List (Str × JVal)} (hp : isPathText p = true)
    (hbody : findSub ("\x7b\x7b/".toList ++ "each".toList ++ "\x7d\x7d".toList) body = none)
    (hv : evaluateExpression up (trim p) ctx = some (.obj r kvs)) :
    replaceFn (matchBlock "each".toList) (eachBlock up ctx) (blockTemplate "each".toList p body) =
      mapJoin (renderKeyedItem up body kvs.length) 0 kvs := by
  obtain ⟨hne, hpc, -⟩ := isPathText_spec hp
  obtain ⟨cap, hcap, hrep⟩ := replaceFn_block (eachBlock up ctx) hne hpc noBorder_close.1 hbody
  rw [hrep, eachBlock_caps, hcap, hv]

/-! ## Iterations of `each` -/

theorem mapJoin_flatMap {α : Type} {f : Nat → α → Option Str} {g : α → Str} :
    ∀ (xs : List α) (i : Nat), (∀ k, ∀ x ∈ xs, f k x = some (g x)) →
      mapJoin f i xs = some (xs.flatMap g)
  | [], _, _ => rfl
  | x :: r, i, h => by
    rw [mapJoin, h i x (List.mem_cons_self x r),
      mapJoin_flatMap r (i + 1) (fun k y hy => h k y (List.mem_cons_of_mem x hy))]
    rfl

theorem mapJoin_guard {α : Type} {f : Nat → α → Option Str} {ok : α → Bool} {g : α → Str} :
    ∀ (xs : List α) (i : Nat), (∀ k, ∀ x ∈ xs, f k x = if ok x then some (g x) else none) →
      mapJoin f i xs = if xs.all ok then some (xs.flatMap g) else none
  | [], _, _ => rfl
  | x :: r, i, h => by
    rw [mapJoin, h i x (List.mem_cons_self x r),
      mapJoin_guard r (i + 1) (fun k y hy => h k y (List.mem_cons_of_mem x hy)), List.all_cons]
    cases ok x <;> cases r.all ok <;> rfl

theorem mapJoin_range {α : Type} {f : Nat → α → Option Str} {g : Nat → Str} :
    ∀ (xs : List α) (i : Nat), (∀ k, ∀ x ∈ xs, f k x = some (g k)) →
      mapJoin f i xs = some ((List.range' i xs.length).flatMap g)
  | [], _, _ => rfl
  | x :: r, i, h => by
    rw [mapJoin, h i x (List.mem_cons_self x r),
      mapJoin_range r (i + 1) (fun k y hy => h k y (List.mem_cons_of_mem x hy))]
    rfl

theorem firstKey_of_notNull {x : JVal} (h : notNull x = true) : ∃ key, firstKey x = some key := by
  cases x with
  | null => exact absurd h (by decide)
  | bool b => exact ⟨_, rfl⟩
  | num n => exact ⟨_, rfl⟩
  | str s => cases s <;> exact ⟨_, rfl⟩
  | arr r xs => cases xs <;> exact ⟨_, rfl⟩
  | obj r kvs =>
    cases kvs with
    | nil => exact ⟨_, rfl⟩
    | cons kv t => exact ⟨kv.1, rfl⟩

theorem notNull_of_isMapping {x : JVal} (h : isMapping x = true) : notNull x = true := by
  cases x <;> first | rfl | exact absurd h (by decide)

theorem hasOpen_indexLastText (n : Nat) : hasOpen (indexLastText n) = false := by
  apply hasOpen_of_no_open_char
  intro c hc
  obtain ⟨i, _, hi⟩ := List.mem_flatMap.mp hc
  rcases List.mem_append.mp hi with hi | hi
  · exact (toDigits_plain i c hi).1
  · rcases List.mem_cons.mp hi with rfl | hi
    · decide
    · exact (boolStr_plain _).2 c hi

/-- One iteration of `{{@index}}:{{@last}}` over an element other than `null`. -/
theorem renderSeqItem_index_last (up : Char → Str) (len k : Nat) (x : JVal) (key : Str)
    (hx : firstKey x = some key) :
    renderSeqItem up "\x7b\x7b@index\x7d\x7d:\x7b\x7b@last\x7d\x7d".toList len k x =
      some (Nat.toDigits 10 k ++ Char.ofNat 58 :: boolStr (k == len - 1)) := by
  have hD := toDigits_plain k
  have hq : ∀ b, Quiet (Nat.toDigits 10 k) b :=
    fun b => quiet_of_no_open_char b (fun c hc => (hD c hc).1)
  have e1 : ∀ J, replaceLit mThis J "\x7b\x7b@index\x7d\x7d:\x7b\x7b@last\x7d\x7d".toList =
      "\x7b\x7b@index\x7d\x7d:\x7b\x7b@last\x7d\x7d".toList := fun _ => rfl
  have e2 : ∀ D, replaceLit mIndex D "\x7b\x7b@index\x7d\x7d:\x7b\x7b@last\x7d\x7d".toList =
      expandDollar [] mIndex ":\x7b\x7b@last\x7d\x7d".toList D ++ ":\x7b\x7b@last\x7d\x7d".toList :=
    fun _ => rfl
  have e3 : ∀ K pre, replaceLitGo mKey K 0 pre ":\x7b\x7b@last\x7d\x7d".toList =
      ":\x7b\x7b@last\x7d\x7d".toList := fun _ _ => rfl
  have e4 : ∀ B pre, replaceLitGo mLast B 0 pre ":\x7b\x7b@last\x7d\x7d".toList =
      Char.ofNat 58 :: (expandDollar (Char.ofNat 58 :: pre).reverse mLast [] B ++ []) :=
    fun _ _ => rfl
  unfold renderSeqItem
  simp only [hx, e1, e2, expandDollar_id _ _ _ (hasDollar_toDigits k)]
  have e5 : replaceLit mKey key (Nat.toDigits 10 k ++ ":\x7b\x7b@last\x7d\x7d".toList) =
      Nat.toDigits 10 k ++ ":\x7b\x7b@last\x7d\x7d".toList := by
    show replaceLitGo (cOpen :: cOpen :: "@key\x7d\x7d".toList) key 0 [] _ = _
    rw [replaceLitGo_quiet _ _ _ (hq _)]
    exact congrArg _ (e3 _ _)
  have e6 : replaceLit mLast (boolStr (k == len - 1))
      (Nat.toDigits 10 k ++ ":\x7b\x7b@last\x7d\x7d".toList) =
      Nat.toDigits 10 k ++ Char.ofNat 58 :: boolStr (k == len - 1) := by
    show replaceLitGo (cOpen :: cOpen :: "@last\x7d\x7d".toList) _ 0 [] _ = _
    rw [replaceLitGo_quiet _ _ _ (hq _)]
    have := e4 (boolStr (k == len - 1)) ((Nat.toDigits 10 k).reverse ++ [])
    rw [expandDollar_id _ _ _ (boolStr_plain _).1, List.append_nil (boolStr _)] at this
    exact congrArg _ this
  rw [e5, e6]
  apply replaceFn_id _ needsOpen_matchInline
  apply hasOpen_of_no_open_char
  intro c hc
  rcases List.mem_append.mp hc with hc | hc
  · exact (hD c hc).1
  · rcases List.mem_cons.mp hc with rfl | hc
    · decide
    · exact (boolStr_plain _).2 c hc

theorem renderedField_eq (f : Str) (x : JVal) :
    renderedField f x = if hasText f x then some (fieldText f x) else none := by
  unfold renderedField hasText fieldText
  cases shadowed x with
  | true => rfl
  | false => simp only [Bool.false_eq_true, if_false, Bool.not_false, Bool.true_and, toText_eq]

/-- One iteration of the body `{{f}}` over an element other than `null`. -/
theorem renderSeqItem_field (up : Char → Str) {f : Str} (len k : Nat) (x : JVal) (key : Str)
    (hf : isFieldName f = true) (hx : firstKey x = some key) :
    renderSeqItem up (marker f) len k x = renderedField f x := by
  unfold renderSeqItem
  simp only [hx]
  have e1 : ∀ J, replaceLit mThis J (marker f) = marker f :=
    fun J => replaceLit_marker_id J hf (afterLit_this_none hf)
  have e2 : ∀ J, replaceLit mIndex J (marker f) = marker f :=
    fun J => replaceLit_marker_id J hf (afterLit_at_none hf)
  have e3 : ∀ J, replaceLit mKey J (marker f) = marker f :=
    fun J => replaceLit_marker_id J hf (afterLit_at_none hf)
  have e4 : ∀ J, replaceLit mLast J (marker f) = marker f :=
    fun J => replaceLit_marker_id J hf (afterLit_at_none hf)
  rw [e1, e2, e3, e4, replaceFn_whole (matchInline_marker hf) (by simp [marker])]
  unfold inlineValue
  simp only [List.getD_cons_zero]
  rw [evaluateExpression_field up x hf]
  unfold renderedField
  cases shadowed x <;> rfl

/-- One iteration of the body `{{this}}` over an element other than `null`
whose JSON text has no `$` and no `{{`. -/
theorem renderSeqItem_this (up : Char → Str) (len k : Nat) (x : JVal) (key : Str)
    (hx : firstKey x = some key) (hd : hasDollar (serialize 0 0 x) = false)
    (ho : hasOpen (serialize 0 0 x) = false) :
    renderSeqItem up mThis len k x = some (serialize 0 0 x) := by
  have e1 : ∀ J, replaceLit mThis J mThis = expandDollar [] mThis [] J ++ [] := fun _ => rfl
  unfold renderSeqItem
  simp only [hx, e1, expandDollar_id _ _ _ hd, List.append_nil]
  rw [(replaceLit_id_markers _ ho).2.1, (replaceLit_id_markers _ ho).2.2.1,
    (replaceLit_id_markers _ ho).2.2.2]
  exact replaceFn_id _ needsOpen_matchInline ho

/-- One iteration of the body `{{@key}}={{this}}` over an entry whose key has no
`$` and no `{{`. -/
theorem renderKeyedItem_key_this (up : Char → Str) (len k : Nat) (key : Str) (value : JVal)
    (hd : hasDollar key = false) (ho : hasOpen key = false) :
    renderKeyedItem up "\x7b\x7b@key\x7d\x7d=\x7b\x7bthis\x7d\x7d".toList len k (key, value) =
      some (key ++ Char.ofNat 61 :: serialize 2 0 value) := by
  have hq : Quiet key "=\x7b\x7bthis\x7d\x7d".toList :=
    quiet_of_hasOpen ho (by intro r hr; exact absurd (List.cons.inj hr).1 (by decide))
  have e1 : ∀ K, replaceLit mKey K "\x7b\x7b@key\x7d\x7d=\x7b\x7bthis\x7d\x7d".toList =
      expandDollar [] mKey "=\x7b\x7bthis\x7d\x7d".toList K ++ "=\x7b\x7bthis\x7d\x7d".toList :=
    fun _ => rfl
  have e2 : ∀ D pre, replaceLitGo mIndex D 0 pre "=\x7b\x7bthis\x7d\x7d".toList =
      "=\x7b\x7bthis\x7d\x7d".toList := fun _ _ => rfl
  have e3 : ∀ D pre, replaceLitGo mLast D 0 pre "=\x7b\x7bthis\x7d\x7d".toList =
      "=\x7b\x7bthis\x7d\x7d".toList := fun _ _ => rfl
  have e4 : ∀ D, replaceLit mIndex D (key ++ "=\x7b\x7bthis\x7d\x7d".toList) =
      key ++ "=\x7b\x7bthis\x7d\x7d".toList := by
    intro D
    show replaceLitGo (cOpen :: cOpen :: "@index\x7d\x7d".toList) D 0 [] _ = _
    rw [replaceLitGo_quiet _ _ _ hq]
    exact congrArg _ (e2 _ _)
  have e5 : ∀ D, replaceLit mLast D (key ++ "=\x7b\x7bthis\x7d\x7d".toList) =
      key ++ "=\x7b\x7bthis\x7d\x7d".toList := by
    intro D
    show replaceLitGo (cOpen :: cOpen :: "@last\x7d\x7d".toList) D 0 [] _ = _
    rw [replaceLitGo_quiet _ _ _ hq]
    exact congrArg _ (e3 _ _)
  have e6 : matchInline mThis = some (["this".toList], mThis.length) := by decide
  have e7 : keyedValue up key value ["this".toList] = some (serialize 2 0 value) := rfl
  have e8 : replaceFn matchInline (keyedValue up key value) "=\x7b\x7bthis\x7d\x7d".toList =
      some (Char.ofNat 61 :: serialize 2 0 value) := by
    show replaceFn matchInline (keyedValue up key value) (Char.ofNat 61 :: mThis) = _
    rw [replaceFn_of_none (by decide), replaceFn_whole e6 (by decide), e7]
    rfl
  unfold renderKeyedItem
  simp only [e1, expandDollar_id _ _ _ hd, e4, e5]
  rw [replaceFn_skip _ needsOpen_matchInline hq, e8]
  rfl

/-! ## Claim C1: literal templates -/

/-- C1. A template in which no `{{...}}` marker occurs renders to itself, for
every context. -/
theorem compile_literal_unchanged (up : Char → Str) (template : Str) (data : JVal)
    (h : hasMarker template = false) : compile up template data = some template := by
  have hi := hasMarker_false h
  unfold compile
  rw [replaceFn_id_of_none
    (fun b hb => matchBlock_none_of_inline notClose_of_keyword.1 (hi b hb))]
  simp only
  rw [replaceFn_id_of_none
    (fun b hb => matchBlock_none_of_inline notClose_of_keyword.2.1 (hi b hb))]
  simp only
  rw [replaceFn_id_of_none
    (fun b hb => matchBlock_none_of_inline notClose_of_keyword.2.2 (hi b hb))]
  simp only
  exact replaceFn_id_of_none hi

/-- C1, witness: the literal text `a {b} {{}} c` renders to itself. -/
theorem compile_literal_unchanged_witness :
    hasMarker "a \x7bb\x7d \x7b\x7b\x7d\x7d c".toList = false ∧
      compile asciiUpper "a \x7bb\x7d \x7b\x7b\x7d\x7d c".toList JVal.null =
        some "a \x7bb\x7d \x7b\x7b\x7d\x7d c".toList :=
  ⟨by decide, compile_literal_unchanged asciiUpper _ _ (by decide)⟩

/-! ## Claim C2: dotted paths -/

/-- C2, counterexample: the context `ctxShadow` has an own field `a`, and an own
field `hasOwnProperty`; the lookup of the path `a` throws. -/
theorem evaluateExpression_shadowed_counterexample :
    includesChar (Char.ofNat 40) "a".toList = false ∧
      includesChar (Char.ofNat 41) "a".toList = false ∧
      getOwn ctxShadow "a".toList = some (.num 2) ∧
      evaluateExpression asciiUpper "a".toList ctxShadow = none :=
  ⟨by decide, by decide, rfl, rfl⟩

/-- C2, amended. For an expression without parentheses, `evaluateExpression`
throws exactly when the lookup meets a record with an own field
`hasOwnProperty`; when it meets none, it returns the value reached by following
the dotted path through own fields when every segment is one, and the empty
string as soon as a segment is not an own field of the value reached so far. -/
theorem evaluateExpression_dotted_path (up : Char → Str) (e : Str) (ctx : JVal)
    (hl : includesChar (Char.ofNat 40) e = false) (hr : includesChar (Char.ofNat 41) e = false) :
    ((∃ v, evaluateExpression up e ctx = some v) ↔ plainAt e ctx = true) ∧
    (plainAt e ctx = true →
      (∀ w, Reaches ctx (splitChar (Char.ofNat 46) e) w →
        evaluateExpression up e ctx = some w) ∧
      (Stuck ctx (splitChar (Char.ofNat 46) e) →
        evaluateExpression up e ctx = some (.str []))) := by
  have hh : isHelperCall e = false := by simp [isHelperCall, hl, hr]
  rw [evaluateExpression_path up ctx hh, evalPath_eq]
  change ((∃ v, (if plainAt e ctx = true then some (walk (splitChar (Char.ofNat 46) e) ctx)
      else none) = some v) ↔ plainAt e ctx = true) ∧
    (plainAt e ctx = true →
      (∀ w, Reaches ctx (splitChar (Char.ofNat 46) e) w →
        (if plainAt e ctx = true then some (walk (splitChar (Char.ofNat 46) e) ctx)
          else none) = some w) ∧
      (Stuck ctx (splitChar (Char.ofNat 46) e) →
        (if plainAt e ctx = true then some (walk (splitChar (Char.ofNat 46) e) ctx)
          else none) = some (.str [])))
  refine ⟨?_, ?_⟩
  · by_cases hp : plainAt e ctx = true
    · refine ⟨fun _ => hp, fun _ => ?_⟩
      rw [if_pos hp]
      exact ⟨_, rfl⟩
    · refine ⟨fun h => ?_, fun h => absurd h hp⟩
      rw [if_neg hp] at h
      obtain ⟨v, hv⟩ := h
      cases hv
  · intro hp
    rw [if_pos hp]
    refine ⟨?_, ?_⟩
    · intro w hw
      rw [walk_of_reaches hw]
    · intro hs
      rw [walk_of_stuck hs]

/-- C2, witness: in the context `{a: {b: 1}}` the path `a.b` evaluates to `1`. -/
theorem evaluateExpression_dotted_path_witness :
    includesChar (Char.ofNat 40) "a.b".toList = false ∧
      evaluateExpression asciiUpper "a.b".toList ctxNested = some (.num 1) :=
  ⟨by decide,
    ((evaluateExpression_dotted_path asciiUpper "a.b".toList ctxNested (by decide)
      (by decide)).2 (by decide)).1
      (.num 1) (Reaches.step (k := "a".toList) rfl (Reaches.step (k := "b".toList) rfl
        (Reaches.here _)))⟩

/-! ## Claim C3: rendering never throws -/

/-- The text of `tplEachX`. -/
theorem tplEachX_text : tplEachX = "\x7b\x7b#each xs\x7d\x7dx\x7b\x7b/each\x7d\x7d".toList := by
  decide

/-- C3, at the failing input: `{{#each xs}}x{{/each}}` over a list holding
`null` throws (`Object.keys(null)`). -/
theorem compile_each_null_element_throws (up : Char → Str) :
    compile up tplEachX ctxNullList = none := rfl

/-! ## Claim C4: `@index` and `@last` in sequence mode -/

/-- The text of `tplIndexLast`. -/
theorem tplIndexLast_text :
    tplIndexLast =
      "\x7b\x7b#each xs\x7d\x7d\x7b\x7b@index\x7d\x7d:\x7b\x7b@last\x7d\x7d\x7b\x7b/each\x7d\x7d".toList := by
  decide

/-- C4, at the failing input: over a list holding `null` the template
`{{#each xs}}{{@index}}:{{@last}}{{/each}}` throws instead of yielding `0:true`. -/
theorem each_index_last_null_throws (up : Char → Str) :
    compile up tplIndexLast ctxNullList = none ∧ indexLastText 1 = "0:true".toList :=
  ⟨rfl, by decide⟩

/-- The property of C4 on lists without a `null` element: the body
`{{@index}}:{{@last}}` yields, for `i = 0..n-1`, the decimal `i`, a colon and
whether `i` is the last index, with nothing in between. -/
theorem each_index_last_of_notNull (up : Char → Str) (ctx : JVal) (p : Str) (r : Nat)
    (xs : List JVal) (hp : isPathText p = true)
    (hv : evaluateExpression up (trim p) ctx = some (.arr r xs))
    (hnn : xs.all notNull = true) :
    compile up
        (blockTemplate "each".toList p "\x7b\x7b@index\x7d\x7d:\x7b\x7b@last\x7d\x7d".toList) ctx =
      some (indexLastText xs.length) := by
  refine compile_of_each ?_ (hasOpen_indexLastText _)
  rw [eachPass_seq up ctx hp (by decide) hv]
  rw [indexLastText, List.range_eq_range']
  apply mapJoin_range
  intro k x hx
  obtain ⟨key, hkey⟩ := firstKey_of_notNull (List.all_eq_true.mp hnn x hx)
  exact renderSeqItem_index_last up _ k x key hkey

/-- A list of three elements renders `0:false1:false2:true` under
`{{@index}}:{{@last}}`. -/
theorem each_index_last_of_notNull_witness :
    compile asciiUpper
        (blockTemplate "each".toList "ys".toList
          "\x7b\x7b@index\x7d\x7d:\x7b\x7b@last\x7d\x7d".toList) ctxSample =
      some "0:false1:false2:true".toList :=
  each_index_last_of_notNull asciiUpper ctxSample "ys".toList 5
    [.num 1, .str "a".toList, .obj 6 [("k".toList, .bool true)]] (by decide) rfl rfl

/-! ## Claim C5: fields of the element in sequence mode -/

/-- The text of a block template, on an instance: `{{#each a.b}}{{f}}{{/each}}`. -/
theorem blockTemplate_text :
    blockTemplate "each".toList "a.b".toList (marker "f".toList) =
      "\x7b\x7b#each a.b\x7d\x7d\x7b\x7bf\x7d\x7d\x7b\x7b/each\x7d\x7d".toList := by
  decide

/-- C5, counterexample: an element whose field `f` holds the text `{{g}}` is not
rendered as that text; the marker is re-scanned and the root field `g` is used. -/
theorem each_field_counterexample :
    compile asciiUpper (blockTemplate "each".toList "xs".toList (marker "f".toList))
        ctxFieldMarker = some "X".toList ∧
      fieldText "f".toList (.obj 2 [("f".toList, .str "\x7b\x7bg\x7d\x7d".toList)]) =
        "\x7b\x7bg\x7d\x7d".toList := by
  constructor <;> rfl

/-- C5, amended. For a list of records at `p` and a field name `f` (word
characters, not `this`), `{{#each p}}{{f}}{{/each}}` yields the texts of each
element's own field `f` in order (empty when the element lacks it), looked up
in the element only, provided the texts contain no `{{`.  The rendering throws
when some element gives no text: it has an own field `hasOwnProperty`, or the
value of its field `f` cannot be converted to a string. -/
theorem each_field_of_records (up : Char → Str) (ctx : JVal) (p f : Str) (r : Nat)
    (xs : List JVal) (hp : isPathText p = true) (hf : isFieldName f = true)
    (hv : evaluateExpression up (trim p) ctx = some (.arr r xs))
    (hrec : xs.all isMapping = true)
    (hout : hasOpen (xs.flatMap (fieldText f)) = false) :
    compile up (blockTemplate "each".toList p (marker f)) ctx =
      if xs.all (hasText f) then some (xs.flatMap (fieldText f)) else none := by
  have hm : replaceFn (matchBlock "each".toList) (eachBlock up ctx)
      (blockTemplate "each".toList p (marker f)) =
      if xs.all (hasText f) then some (xs.flatMap (fieldText f)) else none := by
    rw [eachPass_seq up ctx hp (findSub_close_marker hf) hv]
    apply mapJoin_guard
    intro k x hx
    obtain ⟨key, hkey⟩ :=
      firstKey_of_notNull (notNull_of_isMapping (List.all_eq_true.mp hrec x hx))
    rw [renderSeqItem_field up _ k x key hf hkey, renderedField_eq]
  by_cases hall : xs.all (hasText f) = true
  · rw [if_pos hall] at hm ⊢
    exact compile_of_each hm hout
  · rw [if_neg hall] at hm ⊢
    exact compile_of_each_none hm

/-- C5, witness: two records, one lacking `f`; the root field `f` is not used. -/
theorem each_field_of_records_witness :
    compile asciiUpper (blockTemplate "each".toList "xs".toList (marker "f".toList)) ctxSample =
      some "a".toList :=
  each_field_of_records asciiUpper ctxSample "xs".toList "f".toList 2
    [.obj 3 [("f".toList, .str "a".toList)], .obj 4 [("g".toList, .num 1)]]
    (by decide) (by decide) rfl rfl (by decide)

/-- In sequence mode `{{this}}` is the JSON text of the element, not its field
named `this`. -/
theorem each_this_is_not_a_field (up : Char → Str) :
    compile up (blockTemplate "each".toList "xs".toList mThis)
        (.obj 0 [("xs".toList, .arr 1 [.obj 2 [("this".toList, .num 7)]])]) =
      some "\x7b\"this\":7\x7d".toList := rfl

/-! ## Claim C6: `this` in sequence mode -/

/-- C6, counterexample: the string element `{{a}}` is not rendered as its JSON
text `"{{a}}"`; the marker inside it is re-scanned and replaced. -/
theorem each_this_counterexample :
    compile asciiUpper (blockTemplate "each".toList "xs".toList mThis) ctxStringMarker =
        some [cQuote, cQuote] ∧
      serialize 0 0 (.str "\x7b\x7ba\x7d\x7d".toList) =
        cQuote :: ("\x7b\x7ba\x7d\x7d".toList ++ [cQuote]) := by
  constructor <;> rfl

/-- C6, amended. For a list at `p` with no `null` element, `{{#each p}}{{this}}{{/each}}`
yields the compact JSON texts of the elements in order, provided these texts
contain no `$` and no `{{`. -/
theorem each_this_json (up : Char → Str) (ctx : JVal) (p : Str) (r : Nat) (xs : List JVal)
    (hp : isPathText p = true)
    (hv : evaluateExpression up (trim p) ctx = some (.arr r xs))
    (hnn : xs.all notNull = true)
    (hd : xs.all (fun x => !hasDollar (serialize 0 0 x)) = true)
    (hout : hasOpen (xs.flatMap (serialize 0 0)) = false) :
    compile up (blockTemplate "each".toList p mThis) ctx = some (xs.flatMap (serialize 0 0)) := by
  refine compile_of_each ?_ hout
  rw [eachPass_seq up ctx hp (by decide) hv]
  apply mapJoin_flatMap
  intro k x hx
  obtain ⟨key, hkey⟩ := firstKey_of_notNull (List.all_eq_true.mp hnn x hx)
  have hdx : hasDollar (serialize 0 0 x) = false := by
    simpa using List.all_eq_true.mp hd x hx
  exact renderSeqItem_this up _ k x key hkey hdx (hasOpen_flatMap hout x hx)

/-- C6, witness: a number, a string and a record. -/
theorem each_this_json_witness :
    compile asciiUpper (blockTemplate "each".toList "ys".toList mThis) ctxSample =
      some "1\"a\"\x7b\"k\":true\x7d".toList :=
  each_this_json asciiUpper ctxSample "ys".toList 5
    [.num 1, .str "a".toList, .obj 6 [("k".toList, .bool true)]]
    (by decide) rfl rfl (by decide) (by decide)

/-- In sequence mode the JSON text of an element is a replacement *string*: the
element `"$$"` is rendered with a single `$`. -/
theorem each_this_dollar_collapses (up : Char → Str) :
    compile up (blockTemplate "each".toList "xs".toList mThis)
        (.obj 0 [("xs".toList, .arr 1 [.str "$$".toList])]) =
      some (cQuote :: ("$".toList ++ [cQuote])) := rfl

/-! ## Claim C7: keyed-mapping mode -/

/-- C7, counterexample: an entry whose value is the text `{{y}}` is not rendered
with the JSON dump `"{{y}}"`; the marker inside it is re-scanned and replaced. -/
theorem each_keyed_counterexample :
    compile asciiUpper
        (blockTemplate "each".toList "m".toList "\x7b\x7b@key\x7d\x7d=\x7b\x7bthis\x7d\x7d".toList)
        ctxMappingMarker = some ("x=".toList ++ [cQuote, cQuote]) ∧
      entryText ("x".toList, .str "\x7b\x7by\x7d\x7d".toList) =
        "x=".toList ++ cQuote :: ("\x7b\x7by\x7d\x7d".toList ++ [cQuote]) := by
  constructor <;> rfl

/-- C7, amended. For a mapping at `p`, `{{#each p}}{{@key}}={{this}}{{/each}}`
yields, in enumeration order, key, `=` and the 2-space JSON dump of the value,
provided no key contains `$` and the text contains no `{{`. -/
theorem each_keyed_entries (up : Char → Str) (ctx : JVal) (p : Str) (r : Nat)
    (kvs : List (Str × JVal)) (hp : isPathText p = true)
    (hv : evaluateExpression up (trim p) ctx = some (.obj r kvs))
    (hd : kvs.all (fun kv => !hasDollar kv.1) = true)
    (hout : hasOpen (kvs.flatMap entryText) = false) :
    compile up
        (blockTemplate "each".toList p "\x7b\x7b@key\x7d\x7d=\x7b\x7bthis\x7d\x7d".toList) ctx =
      some (kvs.flatMap entryText) := by
  refine compile_of_each ?_ hout
  rw [eachPass_keyed up ctx hp (by decide) hv]
  apply mapJoin_flatMap
  intro k kv hkv
  have hdk : hasDollar kv.1 = false := by
    simpa using List.all_eq_true.mp hd kv hkv
  exact renderKeyedItem_key_this up _ k kv.1 kv.2 hdk
    (hasOpen_append_left (hasOpen_flatMap hout kv hkv))

/-- C7, witness: the mapping `{x:1,y:2}` renders `x=1y=2`. -/
theorem each_keyed_entries_witness :
    compile asciiUpper
        (blockTemplate "each".toList "m".toList "\x7b\x7b@key\x7d\x7d=\x7b\x7bthis\x7d\x7d".toList)
        ctxSample = some "x=1y=2".toList :=
  each_keyed_entries asciiUpper ctxSample "m".toList 7
    [("x".toList, .num 1), ("y".toList, .num 2)] (by decide) rfl (by decide) (by decide)

/-- In keyed mode the key is a replacement *string*: the key `$$` is rendered as
a single `$`. -/
theorem each_keyed_dollar_collapses (up : Char → Str) :
    compile up
        (blockTemplate "each".toList "m".toList "\x7b\x7b@key\x7d\x7d=\x7b\x7bthis\x7d\x7d".toList)
        (.obj 0 [("m".toList, .obj 1 [("$$".toList, .num 1)])]) = some "$=1".toList := rfl

/-! ## Claim C8: `each` over a target that is neither list nor mapping -/

/-- C8, counterexample: the context `ctxShadow` has no field `zzz`, and the block
`{{#each zzz}}x{{/each}}` does not render the empty string: the lookup of `zzz`
throws on the own field `hasOwnProperty` of the context. -/
theorem each_absent_shadowed_counterexample :
    getOwn ctxShadow "zzz".toList = none ∧
      compile asciiUpper (blockTemplate "each".toList "zzz".toList "x".toList) ctxShadow =
        none :=
  ⟨rfl, rfl⟩

/-- C8, amended. An `each` block whose target is absent, the lookup meeting no
record with an own field `hasOwnProperty`, or resolves to a value that is
neither a list nor a mapping, renders to the empty string, whatever its body
(a body that does not contain `{{/each}}`). -/
theorem each_non_iterable_renders_empty (up : Char → Str) (ctx : JVal) (p B : Str)
    (hp : isPathText p = true)
    (hB : includesSub "\x7b\x7b/each\x7d\x7d".toList B = false)
    (h : (isHelperCall (trim p) = false ∧ plainAt (trim p) ctx = true ∧
        Stuck ctx (splitChar (Char.ofNat 46) (trim p))) ∨
      (∃ v, evaluateExpression up (trim p) ctx = some v ∧ isArray v = false ∧
        isMapping v = false)) :
    compile up (blockTemplate "each".toList p B) ctx = some [] := by
  obtain ⟨hne, hpc, -⟩ := isPathText_spec hp
  have hbody : findSub ("\x7b\x7b/".toList ++ "each".toList ++ "\x7d\x7d".toList) B = none := by
    have : (findSub "\x7b\x7b/each\x7d\x7d".toList B).isSome = false := hB
    cases hf : findSub "\x7b\x7b/each\x7d\x7d".toList B with
    | none => exact hf
    | some x => rw [hf] at this; exact absurd this (by simp)
  obtain ⟨cap, hcap, hrep⟩ :=
    replaceFn_block (eachBlock up ctx) hne hpc noBorder_close.1 hbody
  have hv : ∃ v, evaluateExpression up (trim p) ctx = some v ∧ isArray v = false ∧
      isMapping v = false := by
    rcases h with ⟨hh, hpl, hs⟩ | hv
    · exact ⟨.str [], by rw [evaluateExpression_walk up ctx hh hpl, walk_of_stuck hs], rfl, rfl⟩
    · exact hv
  obtain ⟨v, hv, ha, hm⟩ := hv
  refine @compile_of_each up _ [] ctx ?_ rfl
  rw [hrep, eachBlock_caps, hcap, hv]
  cases v with
  | arr r xs => exact absurd ha (by simp [isArray])
  | obj r kvs => exact absurd hm (by simp [isMapping])
  | null => rfl
  | bool b => rfl
  | num n => rfl
  | str s => rfl

/-- C8, witness: `flag` is `false`, so `{{#each flag}}x{{/each}}` renders nothing. -/
theorem each_non_iterable_renders_empty_witness :
    compile asciiUpper (blockTemplate "each".toList "flag".toList "x".toList) ctxSample =
      some [] :=
  each_non_iterable_renders_empty asciiUpper ctxSample "flag".toList "x".toList (by decide)
    (by decide) (Or.inr ⟨.bool false, rfl, rfl, rfl⟩)

/-! ## Claim C9: `if` with `else` -/

/-- The text of `tplIfElse`. -/
theorem tplIfElse_text :
    tplIfElse = "\x7b\x7b#if flag\x7d\x7dA\x7b\x7belse\x7d\x7dB\x7b\x7b/if\x7d\x7d".toList := by
  decide

/-- C9, counterexample: the context `ctxShadow` has an own field `flag` with the
value `true`, and the template does not render `A`: the lookup of `flag` throws
on the own field `hasOwnProperty` of the context. -/
theorem if_else_shadowed_counterexample :
    getOwn ctxShadow "flag".toList = some (.bool true) ∧
      compile asciiUpper tplIfElse ctxShadow = none :=
  ⟨rfl, rfl⟩

/-- C9, amended. For a context without an own field `hasOwnProperty`, the
template `{{#if flag}}A{{else}}B{{/if}}` renders `A` when the context has an own
field `flag` with a truthy value, and `B` when that value is falsy (`false` in
particular) or the field is absent. -/
theorem if_else_renders_branch (up : Char → Str) (ctx : JVal) (hs : shadowed ctx = false) :
    compile up tplIfElse ctx =
      some (match getOwn ctx "flag".toList with
        | some v => if toBoolean v then "A".toList else "B".toList
        | none => "B".toList) := by
  have h1 : replaceFn (matchBlock "each".toList) (eachBlock up ctx) tplIfElse =
      some tplIfElse := rfl
  have h2 : matchBlock "if".toList tplIfElse =
      some (["flag".toList, "A\x7b\x7belse\x7d\x7dB".toList], tplIfElse.length) := by decide
  have h3 : evaluateExpression up (trim "flag".toList) ctx =
      some (walk ["flag".toList] ctx) :=
    evaluateExpression_walk up ctx (by decide) (plainPath_one hs)
  have h4 : includesSub mElse "A\x7b\x7belse\x7d\x7dB".toList = true := by decide
  have h5 : splitSub mElse "A\x7b\x7belse\x7d\x7dB".toList = ["A".toList, "B".toList] := by
    decide
  have h6 : ∀ o : Option JVal,
      (if toBoolean (match o with
          | some v => v
          | none => JVal.str []) then "A".toList else "B".toList) =
        (match o with
          | some v => if toBoolean v then "A".toList else "B".toList
          | none => "B".toList) := by
    intro o
    cases o <;> rfl
  rw [← h6]
  unfold compile
  rw [h1]
  simp only
  rw [replaceFn_whole h2 (by decide), ifBlock_caps, h3, h4, h5]
  simp only [walk, if_true]
  by_cases hb : toBoolean (match getOwn ctx "flag".toList with
    | some v => v
    | none => JVal.str []) = true
  · rw [if_pos hb, if_pos hb]; rfl
  · rw [if_neg hb, if_neg hb]; rfl

/-- C9, witness: in `ctxSample` the field `flag` is `false`, and `B` is rendered. -/
theorem if_else_renders_branch_witness :
    compile asciiUpper tplIfElse ctxSample = some "B".toList :=
  if_else_renders_branch asciiUpper ctxSample rfl

/-! ## Claim C10: truthiness of the `if` condition -/

/-- C10, counterexample: in the context `ctxShadow` the path `c` has the value
`1`, and the block `{{#if c}}A{{/if}}` does not render `A`: the lookup throws on
the own field `hasOwnProperty` of the context. -/
theorem if_truthy_shadowed_counterexample :
    (∃ v, Reaches ctxShadow (splitChar (Char.ofNat 46) (trim "c".toList)) v ∧
        v ≠ .str [] ∧ v ≠ .num 0 ∧ v ≠ .bool false ∧ v ≠ .null) ∧
      compile asciiUpper (blockTemplate "if".toList "c".toList "A".toList) ctxShadow = none :=
  ⟨⟨.num 1, Reaches.step (k := "c".toList) rfl (Reaches.here _),
      fun h => JVal.noConfusion h, fun h => absurd (JVal.num.inj h) (by decide),
      fun h => JVal.noConfusion h, fun h => JVal.noConfusion h⟩, rfl⟩

/-- C10, amended. When the lookup of the dotted path `c` meets no record with an
own field `hasOwnProperty`, the block `{{#if c}}A{{/if}}` renders `A` if and
only if `c` has a value (it is not absent) and that value is none of the empty
string, `0`, `false`, `null`; in particular every non-zero number, non-empty
string, record and array (empty ones included) takes the true branch. -/
theorem if_renders_iff_truthy (up : Char → Str) (ctx : JVal) (c : Str)
    (hc : isPathText c = true) (hh : isHelperCall (trim c) = false)
    (hpl : plainAt (trim c) ctx = true) :
    compile up (blockTemplate "if".toList c "A".toList) ctx = some "A".toList ↔
      ∃ v, Reaches ctx (splitChar (Char.ofNat 46) (trim c)) v ∧
        v ≠ .str [] ∧ v ≠ .num 0 ∧ v ≠ .bool false ∧ v ≠ .null := by
  rw [compile_if_block up ctx c hc hh, evalPath_of_plain hpl, Option.map_some']
  constructor
  · intro h
    have hb : toBoolean (walk (splitChar (Char.ofNat 46) (trim c)) ctx) = true := by
      by_contra hb
      rw [if_neg hb] at h
      exact absurd h (by decide)
    rcases reaches_or_stuck ctx (splitChar (Char.ofNat 46) (trim c)) with ⟨w, hw⟩ | hs
    · rw [walk_of_reaches hw] at hb
      exact ⟨w, hw, (toBoolean_eq_true_iff w).mp hb⟩
    · rw [walk_of_stuck hs] at hb
      exact absurd hb (by decide)
  · rintro ⟨v, hv, hne⟩
    rw [walk_of_reaches hv, if_pos ((toBoolean_eq_true_iff v).mpr hne)]

/-- C10, witness: an empty list is truthy, so `{{#if c}}A{{/if}}` renders `A`. -/
theorem if_renders_iff_truthy_witness :
    compile asciiUpper (blockTemplate "if".toList "c".toList "A".toList) ctxSample =
      some "A".toList :=
  (if_renders_iff_truthy asciiUpper ctxSample "c".toList (by decide) (by decide) rfl).mpr
    ⟨.arr 1 [], Reaches.step (k := "c".toList) rfl (Reaches.here _),
      fun h => JVal.noConfusion h, fun h => JVal.noConfusion h, fun h => JVal.noConfusion h,
      fun h => JVal.noConfusion h⟩

/-! ## Lemmas on `split` -/

theorem splitSubGo_skip (sep : Str) :
    ∀ (k : Nat) (cur s : Str), splitSubGo sep k cur s = splitSubGo sep 0 cur (s.drop k)
  | 0, cur, s => by simp
  | k + 1, cur, [] => by simp [splitSubGo]
  | k + 1, cur, c :: cs => by
    simp only [splitSubGo, List.drop_succ_cons]
    exact splitSubGo_skip sep k cur cs

/-- The first piece of `split` is the text before the first occurrence of the
separator; the other pieces are the pieces of the text after it. -/
theorem splitSubGo_of_findSub {sep : Str} (hne : sep ≠ []) :
    ∀ (s a b cur : Str), findSub sep s = some (a, b) →
      splitSubGo sep 0 cur s = (cur.reverse ++ a) :: splitSubGo sep 0 [] b
  | [], a, b, cur, h => by simp [findSub, hne] at h
  | c :: cs, a, b, cur, h => by
    rw [findSub] at h
    cases h1 : afterLit sep (c :: cs) with
    | some rest =>
      rw [h1] at h
      simp only [Option.some.injEq, Prod.mk.injEq] at h
      obtain ⟨rfl, rfl⟩ := h
      have hs := afterLit_eq_some.mp h1
      cases sep with
      | nil => exact absurd rfl hne
      | cons p ps =>
        have hcs : cs = ps ++ rest := by
          simp only [List.cons_append, List.cons.injEq] at hs
          exact hs.2
        simp only [splitSubGo, h1, List.length_cons, Nat.add_sub_cancel, List.append_nil]
        rw [splitSubGo_skip, hcs, List.drop_left]
    | none =>
      rw [h1] at h
      cases h2 : findSub sep cs with
      | none => simp [h2] at h
      | some x =>
        obtain ⟨b2, a2⟩ := x
        rw [h2] at h
        simp only [Option.some.injEq, Prod.mk.injEq] at h
        obtain ⟨rfl, rfl⟩ := h
        simp only [splitSubGo, h1]
        rw [splitSubGo_of_findSub hne cs b2 a2 (c :: cur) h2]
        simp

theorem splitSub_of_findSub {sep s a b : Str} (hne : sep ≠ [])
    (h : findSub sep s = some (a, b)) : splitSub sep s = a :: splitSub sep b := by
  have := splitSubGo_of_findSub hne s a b [] h
  simpa [splitSub] using this

theorem findSub_none_of_includesSub {pat s : Str} (h : includesSub pat s = false) :
    findSub pat s = none := by
  cases hf : findSub pat s with
  | none => rfl
  | some x => simp [includesSub, hf] at h

theorem noBorder_mElse : noBorder mElse = true := by decide

/-- The pieces of a body with two `else` markers: the text before the first
marker, then the text between the two markers. -/
theorem splitSub_else_twice {A B : Str} (C : Str) (hA : includesSub mElse A = false)
    (hB : includesSub mElse B = false) :
    includesSub mElse (A ++ mElse ++ B ++ mElse ++ C) = true ∧
      ∃ rest, splitSub mElse (A ++ mElse ++ B ++ mElse ++ C) = A :: B :: rest := by
  have hne : mElse ≠ [] := by decide
  have h1 : findSub mElse (A ++ (mElse ++ (B ++ (mElse ++ C)))) = some (A, B ++ (mElse ++ C)) :=
    findSub_append _ hne noBorder_mElse (findSub_none_of_includesSub hA)
  have h2 : findSub mElse (B ++ (mElse ++ C)) = some (B, C) :=
    findSub_append _ hne noBorder_mElse (findSub_none_of_includesSub hB)
  simp only [List.append_assoc]
  refine ⟨by simp [includesSub, h1], splitSub mElse C, ?_⟩
  rw [splitSub_of_findSub hne h1, splitSub_of_findSub hne h2]

/-! ## Claim C11: an `if` body with more than one `else` marker -/

/-- The text of `tplIfElseTwice`. -/
theorem tplIfElseTwice_text :
    tplIfElseTwice =
      "\x7b\x7b#if flag\x7d\x7dA\x7b\x7belse\x7d\x7dB\x7b\x7belse\x7d\x7dC\x7b\x7b/if\x7d\x7d".toList := by
  decide

/-- C11, counterexample: with `flag` false, the body `A{{else}}B{{else}}C` does
not select all of the text after the first marker (`B{{else}}C`, which the
inline pass would turn into `BC`): the callback of the `if` pass returns `B`
and the template renders `B`. -/
theorem if_else_twice_counterexample :
    ifBlock asciiUpper ctxSample
        ["flag".toList, "A\x7b\x7belse\x7d\x7dB\x7b\x7belse\x7d\x7dC".toList] =
        some "B".toList ∧
      compile asciiUpper tplIfElseTwice ctxSample = some "B".toList ∧
      compile asciiUpper tplIfElseTwice ctxSample ≠ some "BC".toList := by
  decide

/-- C11, amended. For an `if` block whose body is `A{{else}}B{{else}}C` (with no
`else` marker inside `A` or `B`), the callback of the `if` pass selects `A` when
the condition is truthy and `B`, the text between the first and the second
marker, when it is falsy; the text after the second marker is dropped. -/
theorem if_else_between_markers (up : Char → Str) (data : JVal) (cond A B C : Str) (v : JVal)
    (hv : evaluateExpression up (trim cond) data = some v)
    (hA : includesSub mElse A = false) (hB : includesSub mElse B = false) :
    ifBlock up data [cond, A ++ mElse ++ B ++ mElse ++ C] =
      some (if toBoolean v then A else B) := by
  obtain ⟨h1, rest, h2⟩ := splitSub_else_twice C hA hB
  rw [ifBlock_caps, hv]
  simp only [h1, h2, if_true, List.getD_cons_zero, List.getD_cons_succ]
  by_cases hb : toBoolean v = true
  · rw [if_pos hb, if_pos hb]
  · rw [if_neg hb, if_neg hb]

/-- C11, witness: with `flag` false the body `A{{else}}B{{else}}C` selects `B`. -/
theorem if_else_between_markers_witness :
    ifBlock asciiUpper ctxSample ["flag".toList, "A".toList ++ mElse ++ "B".toList ++ mElse ++
        "C".toList] =
      some (if toBoolean (.bool false) then "A".toList else "B".toList) :=
  if_else_between_markers asciiUpper ctxSample "flag".toList "A".toList "B".toList "C".toList
    (.bool false) rfl (by decide) (by decide)

/-- The template `{{#if flag}}A{{else}}B{{else}}C{{/if}}` renders `A` when the
context has an own field `flag` with a truthy value and `B` otherwise, for a
context without an own field `hasOwnProperty`. -/
theorem if_else_twice_renders (up : Char → Str) (ctx : JVal) (hs : shadowed ctx = false) :
    compile up tplIfElseTwice ctx =
      some (match getOwn ctx "flag".toList with
        | some v => if toBoolean v then "A".toList else "B".toList
        | none => "B".toList) := by
  have h1 : replaceFn (matchBlock "each".toList) (eachBlock up ctx) tplIfElseTwice =
      some tplIfElseTwice := rfl
  have h2 : matchBlock "if".toList tplIfElseTwice =
      some (["flag".toList, "A\x7b\x7belse\x7d\x7dB\x7b\x7belse\x7d\x7dC".toList],
        tplIfElseTwice.length) := by decide
  have h3 : evaluateExpression up (trim "flag".toList) ctx =
      some (walk ["flag".toList] ctx) :=
    evaluateExpression_walk up ctx (by decide) (plainPath_one hs)
  have h4 : includesSub mElse "A\x7b\x7belse\x7d\x7dB\x7b\x7belse\x7d\x7dC".toList = true := by
    decide
  have h5 : splitSub mElse "A\x7b\x7belse\x7d\x7dB\x7b\x7belse\x7d\x7dC".toList =
      ["A".toList, "B".toList, "C".toList] := by decide
  have h7 : ∀ o : Option JVal,
      (if toBoolean (match o with
          | some v => v
          | none => JVal.str []) then "A".toList else "B".toList) =
        (match o with
          | some v => if toBoolean v then "A".toList else "B".toList
          | none => "B".toList) := by
    intro o
    cases o <;> rfl
  rw [← h7]
  unfold compile
  rw [h1]
  simp only
  rw [replaceFn_whole h2 (by decide), ifBlock_caps, h3, h4, h5]
  simp only [walk, if_true]
  by_cases hb : toBoolean (match getOwn ctx "flag".toList with
    | some v => v
    | none => JVal.str []) = true
  · rw [if_pos hb, if_pos hb]; rfl
  · rw [if_neg hb, if_neg hb]; rfl

/-! ## Passing over text that a pass does not match -/

theorem quiet_append {a a2 b : Str} (h1 : Quiet a (a2 ++ b)) (h2 : Quiet a2 b) :
    Quiet (a ++ a2) b := by
  induction a with
  | nil => exact h2
  | cons c cs ih =>
    intro x hx hne
    rcases List.suffix_cons_iff.mp hx with rfl | hx
    · have := h1 (c :: cs) (List.suffix_refl _) (by simp)
      simpa [List.append_assoc] using this
    · exact ih h1.tail x hx hne

theorem hasOpen_append_of_quiet {a b : Str} (hq : Quiet a b) (hb : hasOpen b = false) :
    hasOpen (a ++ b) = false := by
  induction a with
  | nil => exact hb
  | cons c cs ih =>
    rw [List.cons_append, hasOpen, Bool.or_eq_false_iff]
    exact ⟨hq (c :: cs) (List.suffix_refl _) (by simp), ih hq.tail⟩

/-- A text without `{{` is passed over by a `{{`-anchored matcher, also when a
text `Y` follows it, as long as the matcher fails on `{` followed by `Y`. -/
theorem replaceFn_skip_body {m : Str → Option (List Str × Nat)} (f : List Str → Option Str)
    {A Y : Str} (hm : NeedsOpen m) (hA : hasOpen A = false) (h1 : m (cOpen :: Y) = none) :
    replaceFn m f (A ++ Y) = (replaceFn m f Y).map (fun r => A ++ r) := by
  induction A with
  | nil => cases h : replaceFn m f Y <;> simp [h]
  | cons c cs ih =>
    have hcs : hasOpen cs = false := hasOpen_of_suffix (List.suffix_cons c cs) hA
    have h0 : m (c :: (cs ++ Y)) = none := by
      by_cases hs : startsOpen (c :: (cs ++ Y)) = true
      · cases cs with
        | nil =>
          cases Y with
          | nil => simp [startsOpen] at hs
          | cons d t =>
            simp only [List.nil_append, startsOpen, Bool.and_eq_true, beq_iff_eq] at hs
            rw [List.nil_append, hs.1]
            exact h1
        | cons d t =>
          simp only [List.cons_append, startsOpen, Bool.and_eq_true, beq_iff_eq] at hs
          simp only [hasOpen, startsOpen, Bool.or_eq_false_iff, Bool.and_eq_false_iff] at hA
          rcases hA.1 with h | h
          · simp [hs.1] at h
          · simp [hs.2] at h
      · exact hm _ (by simpa using hs)
    rw [List.cons_append, replaceFn_of_none h0, ih hcs]
    cases replaceFn m f Y <;> rfl

theorem quiet_header (kw p rest : Str) (hkw : ∀ c ∈ kw, c ≠ cOpen) (hp : ∀ c ∈ p, c ≠ cOpen) :
    Quiet (cOpen :: Char.ofNat 35 :: (kw ++ Char.ofNat 32 :: p) ++ "\x7d\x7d".toList) rest := by
  refine quiet_append (quiet_of_hasOpen ?_ ?_) (quiet_of_no_open_char _ (by decide))
  · rw [hasOpen_cons_cons_of_ne _ (by decide)]
    apply hasOpen_of_no_open_char
    intro c hc
    rcases List.mem_cons.mp hc with rfl | hc
    · decide
    · rcases List.mem_append.mp hc with hc | hc
      · exact hkw c hc
      · rcases List.mem_cons.mp hc with rfl | hc
        · decide
        · exact hp c hc
  · intro r hr
    exact absurd (List.cons.inj hr).1 (by decide)

theorem blockTemplate_open (kw p body : Str) :
    blockTemplate kw p body =
      cOpen :: ((cOpen :: Char.ofNat 35 :: (kw ++ Char.ofNat 32 :: p) ++ "\x7d\x7d".toList) ++
        (body ++ ("\x7b\x7b/".toList ++ kw ++ "\x7d\x7d".toList))) := by
  simp [blockTemplate, cOpen]

/-- A pass leaves a block of another directive alone when the body of the block
has no `{{`. -/
theorem replaceFn_foreign_block {m : Str → Option (List Str × Nat)} (f : List Str → Option Str)
    {kw p A : Str} (hm : NeedsOpen m) (h0 : m (blockTemplate kw p A) = none)
    (h1 : m (cOpen :: ("\x7b\x7b/".toList ++ kw ++ "\x7d\x7d".toList)) = none)
    (h2 : replaceFn m f ("\x7b\x7b/".toList ++ kw ++ "\x7d\x7d".toList) =
      some ("\x7b\x7b/".toList ++ kw ++ "\x7d\x7d".toList))
    (hkw : ∀ c ∈ kw, c ≠ cOpen) (hp : ∀ c ∈ p, c ≠ cOpen) (hA : hasOpen A = false) :
    replaceFn m f (blockTemplate kw p A) = some (blockTemplate kw p A) := by
  rw [blockTemplate_open] at h0 ⊢
  rw [replaceFn_of_none h0, replaceFn_skip f hm (quiet_header kw p _ hkw hp),
    replaceFn_skip_body f hm hA h1, h2]
  rfl

theorem matchBlock_none_of_header {kw s : Str}
    (h : afterLit ("\x7b\x7b#".toList ++ kw) s = none) : matchBlock kw s = none := by
  unfold matchBlock
  rw [h]

theorem keyword_plain :
    (∀ c ∈ "each".toList, c ≠ cOpen) ∧ (∀ c ∈ "if".toList, c ≠ cOpen) ∧
      (∀ c ∈ "unless".toList, c ≠ cOpen) := by decide

/-! ## Claim C12: `unless` -/

/-- The block `{{#unless c}}A{{/unless}}`, for a dotted path `c` and a body `A`
without `{{`, renders `A` when the value that the lookup of `c` gives is falsy
and the empty string when it is truthy; it throws when the lookup throws. -/
theorem compile_unless_block (up : Char → Str) (ctx : JVal) (c A : Str)
    (hc : isPathText c = true) (hh : isHelperCall (trim c) = false) (hA : hasOpen A = false) :
    compile up (blockTemplate "unless".toList c A) ctx =
      (evalPath (splitChar (Char.ofNat 46) (trim c)) ctx).map
        (fun v => if toBoolean v then [] else A) := by
  obtain ⟨hne, hpc, hno⟩ := isPathText_spec hc
  have h1 : replaceFn (matchBlock "each".toList) (eachBlock up ctx)
      (blockTemplate "unless".toList c A) = some (blockTemplate "unless".toList c A) :=
    replaceFn_foreign_block _ (needsOpen_matchBlock _) (matchBlock_none_of_header rfl) rfl rfl
      keyword_plain.2.2 hno hA
  have h2 : replaceFn (matchBlock "if".toList) (ifBlock up ctx)
      (blockTemplate "unless".toList c A) = some (blockTemplate "unless".toList c A) :=
    replaceFn_foreign_block _ (needsOpen_matchBlock _) (matchBlock_none_of_header rfl) rfl rfl
      keyword_plain.2.2 hno hA
  obtain ⟨cap, hcap, h3⟩ := replaceFn_block (unlessBlock up ctx) hne hpc noBorder_close.2.2
    (findSub_none_of_hasOpen _ hA)
  have h4 : unlessBlock up ctx [cap, A] =
      (evalPath (splitChar (Char.ofNat 46) (trim c)) ctx).map
        (fun v => if toBoolean v then [] else A) := by
    unfold unlessBlock
    simp only [List.getD_cons_zero, List.getD_cons_succ, hcap, evaluateExpression_path up ctx hh]
    cases evalPath (splitChar (Char.ofNat 46) (trim c)) ctx with
    | none => rfl
    | some v =>
      simp only [Option.map_some']
      by_cases hb : toBoolean v = true
      · rw [if_pos hb, if_pos hb]
      · rw [if_neg hb, if_neg hb]
  unfold compile
  rw [h1]
  simp only
  rw [h2]
  simp only
  rw [h3, h4]
  cases evalPath (splitChar (Char.ofNat 46) (trim c)) ctx with
  | none => rfl
  | some v =>
    simp only [Option.map_some']
    by_cases hb : toBoolean v = true
    · rw [if_pos hb]; rfl
    · rw [if_neg hb]
      exact replaceFn_id _ needsOpen_matchInline hA

/-- C12, counterexample: the context `ctxShadow` has an own field `flag` with the
value `true`, and the template `{{#unless flag}}A{{/unless}}` does not render
the empty string: the lookup of `flag` throws on the own field `hasOwnProperty`
of the context. -/
theorem unless_shadowed_counterexample :
    getOwn ctxShadow "flag".toList = some (.bool true) ∧
      compile asciiUpper (blockTemplate "unless".toList "flag".toList "A".toList) ctxShadow =
        none :=
  ⟨rfl, rfl⟩

/-- C12, amended. For every context without an own field `hasOwnProperty` and
every literal body `A` (a text without `{{`), the template
`{{#unless flag}}A{{/unless}}` renders `A` when the field `flag` of the context
is falsy or absent, and the empty string when it is truthy. -/
theorem unless_renders_iff_falsy (up : Char → Str) (ctx : JVal) (A : Str)
    (hA : hasOpen A = false) (hsh : shadowed ctx = false) :
    compile up (blockTemplate "unless".toList "flag".toList A) ctx =
      some (match getOwn ctx "flag".toList with
        | some v => if toBoolean v then [] else A
        | none => A) := by
  rw [compile_unless_block up ctx "flag".toList A (by decide) (by decide) hA]
  have ht : trim "flag".toList = "flag".toList := by decide
  have hs : splitChar (Char.ofNat 46) "flag".toList = ["flag".toList] := by decide
  rw [ht, hs, evalPath_of_plain (plainPath_one hsh), Option.map_some']
  simp only [walk]
  have h7 : ∀ o : Option JVal,
      (if toBoolean (match o with
          | some v => v
          | none => JVal.str []) then [] else A) =
        (match o with
          | some v => if toBoolean v then [] else A
          | none => A) := by
    intro o
    cases o <;> rfl
  exact congrArg some (h7 _)

/-- C12, witness: with `flag` false the body is rendered. -/
theorem unless_renders_iff_falsy_witness :
    compile asciiUpper (blockTemplate "unless".toList "flag".toList "A \x7bb\x7d".toList)
        ctxSample = some "A \x7bb\x7d".toList :=
  unless_renders_iff_falsy asciiUpper ctxSample "A \x7bb\x7d".toList (by decide) rfl

/-- With `flag` true the `unless` block renders the empty string, and with no
field `flag` it renders its body. -/
theorem unless_renders_examples (up : Char → Str) :
    compile up (blockTemplate "unless".toList "flag".toList "A".toList)
        (.obj 0 [("flag".toList, .bool true)]) = some [] ∧
      compile up (blockTemplate "unless".toList "flag".toList "A".toList) (.obj 0 []) =
        some "A".toList :=
  ⟨rfl, rfl⟩

/-! ## Replacement with callbacks that agree on the matches -/

theorem replaceFnGo_congr {m : Str → Option (List Str × Nat)} {f g : List Str → Option Str} :
    ∀ (s : Str) (k : Nat),
      (∀ b caps len, b <:+ s → m b = some (caps, len) → f caps = g caps) →
      replaceFnGo m f k s = replaceFnGo m g k s
  | [], k, _ => by cases k <;> rfl
  | c :: cs, k + 1, h => by
    simp only [replaceFnGo]
    exact replaceFnGo_congr cs k (fun b caps len hb => h b caps len (hb.trans (List.suffix_cons c cs)))
  | c :: cs, 0, h => by
    have ih := fun k => replaceFnGo_congr cs k
      (fun b caps len hb => h b caps len (hb.trans (List.suffix_cons c cs)))
    simp only [replaceFnGo]
    cases hm : m (c :: cs) with
    | none => simp only [ih]
    | some x =>
      obtain ⟨caps, len⟩ := x
      simp only [ih, h (c :: cs) caps len (List.suffix_refl _) hm]

/-- Two callbacks that agree on the capture groups of every match in `s` give
the same replacement; `caps` lists those groups. -/
theorem replaceFn_congr {m : Str → Option (List Str × Nat)} {f g : List Str → Option Str}
    {s : Str} (caps : List (List Str))
    (hs : s.tails.all (fun b =>
      match m b with
      | some (c, _) => decide (c ∈ caps)
      | none => true) = true)
    (hfg : ∀ c ∈ caps, f c = g c) : replaceFn m f s = replaceFn m g s := by
  apply replaceFnGo_congr
  intro b c len hb hm
  have := List.all_eq_true.mp hs b ((List.mem_tails b s).mpr hb)
  rw [hm] at this
  exact hfg c (by simpa using this)

/-- The inline callback on a path that is not an own field gives the empty text,
for a value without an own field `hasOwnProperty`. -/
theorem inlineValue_absent (up : Char → Str) (x : JVal) (e : Str)
    (he : isHelperCall (trim e) = false)
    (hs : splitChar (Char.ofNat 46) (trim e) = [trim e]) (hx : getOwn x (trim e) = none)
    (hsh : shadowed x = false) :
    inlineValue up x [e] = some [] := by
  unfold inlineValue
  simp only [List.getD_cons_zero, evaluateExpression_path up x he, hs, evalPath, hx, hsh]
  rfl

/-! ## Claim C13: `if` nested inside a sequence-mode `each` -/

/-- The text of `tplEachIf`. -/
theorem tplEachIf_text :
    tplEachIf =
      ("\x7b\x7b#each xs\x7d\x7d\x7b\x7b#if ok\x7d\x7dY\x7b\x7belse\x7d\x7dN\x7b\x7b/if\x7d\x7d" ++
        "\x7b\x7b/each\x7d\x7d").toList := by
  decide

/-- One iteration over the body `{{#if ok}}Y{{else}}N{{/if}}`: the three markers
of the `if` block are looked up as fields of the element and vanish, so both
branches are rendered, whatever the field `ok` holds. -/
theorem renderSeqItem_ifOkBody (up : Char → Str) (len k : Nat) (x : JVal)
    (hx : lacksFields ["#if ok".toList, "else".toList, "/if".toList] x = true)
    (hsh : shadowed x = false) :
    renderSeqItem up ifOkBody len k x = some "YN".toList := by
  simp only [lacksFields, Bool.and_eq_true, List.all_cons, List.all_nil, Bool.and_true,
    Option.isNone_iff_eq_none] at hx
  obtain ⟨key, hkey⟩ := firstKey_of_notNull (notNull_of_isMapping hx.1)
  have e1 : ∀ J, replaceLit mThis J ifOkBody = ifOkBody := fun _ => rfl
  have e2 : ∀ J, replaceLit mIndex J ifOkBody = ifOkBody := fun _ => rfl
  have e3 : ∀ J, replaceLit mKey J ifOkBody = ifOkBody := fun _ => rfl
  have e4 : ∀ J, replaceLit mLast J ifOkBody = ifOkBody := fun _ => rfl
  unfold renderSeqItem
  simp only [hkey, e1, e2, e3, e4]
  have hc : replaceFn matchInline (inlineValue up x) ifOkBody =
      replaceFn matchInline (fun _ => some []) ifOkBody := by
    apply replaceFn_congr [["#if ok".toList], ["else".toList], ["/if".toList]] (by decide)
    intro c hc
    simp only [List.mem_cons, List.mem_singleton, List.not_mem_nil, or_false] at hc
    rcases hc with rfl | rfl | rfl
    · exact inlineValue_absent up x _ (by decide) (by decide) hx.2.1 hsh
    · exact inlineValue_absent up x _ (by decide) (by decide) hx.2.2.1 hsh
    · exact inlineValue_absent up x _ (by decide) (by decide) hx.2.2.2 hsh
  rw [hc]
  rfl

/-- For every list of records (without fields named `#if ok`, `else`, `/if` or
`hasOwnProperty`), the block `{{#each p}}{{#if ok}}Y{{else}}N{{/if}}{{/each}}`
renders `YN` once per element: the nested `if` is not evaluated. -/
theorem each_if_renders_both_branches (up : Char → Str) (ctx : JVal) (p : Str) (r : Nat)
    (xs : List JVal) (hp : isPathText p = true)
    (hv : evaluateExpression up (trim p) ctx = some (.arr r xs))
    (hrec : xs.all (lacksFields ["#if ok".toList, "else".toList, "/if".toList]) = true)
    (hsh : xs.all (fun x => !shadowed x) = true) :
    compile up (blockTemplate "each".toList p ifOkBody) ctx =
      some (xs.flatMap (fun _ => "YN".toList)) := by
  refine compile_of_each ?_ ?_
  · rw [eachPass_seq up ctx hp (by decide) hv]
    apply mapJoin_flatMap
    intro k x hx
    exact renderSeqItem_ifOkBody up _ k x (List.all_eq_true.mp hrec x hx)
      (by simpa using List.all_eq_true.mp hsh x hx)
  · apply hasOpen_of_no_open_char
    intro c hc
    obtain ⟨_, _, hi⟩ := List.mem_flatMap.mp hc
    have hyn : ∀ d ∈ "YN".toList, d ≠ cOpen := by decide
    exact hyn c hi

/-- C13. On the list with the one record `{ok: true}` the template
`{{#each xs}}{{#if ok}}Y{{else}}N{{/if}}{{/each}}` renders `YN`, not `Y`: the
item pass of a sequence-mode `each` replaces the markers of the nested `if` by
the empty text before the `if` pass runs. -/
theorem each_if_nested_renders_both (up : Char → Str) :
    compile up tplEachIf ctxOk = some "YN".toList := rfl

/-- A nested `unless` fares the same: the repository's own idiom
`{{#unless @last}}, {{/unless}}` keeps the separator after the last element. -/
theorem each_unless_last_keeps_separator (up : Char → Str) :
    compile up tplEachUnlessLast ctxNames = some "a, b, ".toList := rfl

/-! ## The header of a block, followed by any text -/

theorem isLiteral_spec {s : Str} (h : isLiteral s = true) : ∀ c ∈ s, c ≠ cOpen := by
  intro c hc
  have := List.all_eq_true.mp h c hc
  simpa using this

/-- The block regex on a text that starts with the header `{{#kw p}}`: it
matches iff a close marker follows, the body being the text up to the first
one; the first group trims to `p.trim()`. -/
theorem matchBlock_header {kw p : Str} (R : Str) (hp : p ≠ [])
    (hpc : ∀ c ∈ p, notClose c = true) :
    ∃ cap, trim cap = trim p ∧
      matchBlock kw (("\x7b\x7b#".toList ++ kw) ++
          (Char.ofNat 32 :: p ++ ("\x7d\x7d".toList ++ R))) =
        match findSub ("\x7b\x7b/".toList ++ kw ++ "\x7d\x7d".toList) R with
        | none => none
        | some (body, _) =>
          some ([cap, body],
            (3 + kw.length) + (Char.ofNat 32 :: p).length + 2 + body.length + (5 + kw.length)) := by
  have hsp : isJsSpace (Char.ofNat 32) = true := by decide
  have hnc : notClose (Char.ofNat 32) = true := by decide
  have hall : ∀ c ∈ (Char.ofNat 32 :: p), notClose c = true := by
    intro c hc
    rcases List.mem_cons.mp hc with rfl | hc
    · exact hnc
    · exact hpc c hc
  have ht : List.takeWhile notClose (Char.ofNat 32 :: p ++ ("\x7d\x7d".toList ++ R)) =
      Char.ofNat 32 :: p := by
    rw [List.takeWhile_append_of_pos hall]
    simp [List.takeWhile, notClose, cClose]
  have hmain : ∀ cap, cap = (Char.ofNat 32 :: p).drop
      (if (List.takeWhile isJsSpace (Char.ofNat 32 :: p)).length < (Char.ofNat 32 :: p).length
        then (List.takeWhile isJsSpace (Char.ofNat 32 :: p)).length
        else (List.takeWhile isJsSpace (Char.ofNat 32 :: p)).length - 1) →
      matchBlock kw (("\x7b\x7b#".toList ++ kw) ++
          (Char.ofNat 32 :: p ++ ("\x7d\x7d".toList ++ R))) =
        match findSub ("\x7b\x7b/".toList ++ kw ++ "\x7d\x7d".toList) R with
        | none => none
        | some (body, _) =>
          some ([cap, body],
            (3 + kw.length) + (Char.ofNat 32 :: p).length + 2 + body.length + (5 + kw.length)) := by
    intro cap hcap
    unfold matchBlock
    rw [afterLit_append]
    simp only [ht]
    have hw : (List.takeWhile isJsSpace (Char.ofNat 32 :: p)).isEmpty = false := by
      simp [List.takeWhile, hsp]
    have hl : decide ((Char.ofNat 32 :: p).length < 2) = false := by
      have := List.length_pos.mpr hp
      simp; omega
    simp only [hw, hl, Bool.or_self, Bool.false_eq_true, if_false]
    rw [List.drop_left, afterLit_append]
    simp only [← hcap]
  refine ⟨_, ?_, hmain _ rfl⟩
  have hw2 : List.takeWhile isJsSpace (Char.ofNat 32 :: p) =
      Char.ofNat 32 :: List.takeWhile isJsSpace p := by
    simp [List.takeWhile, hsp]
  rw [hw2]
  by_cases hlt : (List.takeWhile isJsSpace p).length < p.length
  · have h1 : (Char.ofNat 32 :: List.takeWhile isJsSpace p).length <
        (Char.ofNat 32 :: p).length := by simpa using hlt
    rw [if_pos h1]
    simp only [List.length_cons, List.drop_succ_cons]
    rw [drop_takeWhile_length, trim_dropWhile]
  · have h1 : ¬ (Char.ofNat 32 :: List.takeWhile isJsSpace p).length <
        (Char.ofNat 32 :: p).length := by simpa using hlt
    rw [if_neg h1]
    have hle : (List.takeWhile isJsSpace p).length ≤ p.length :=
      (List.takeWhile_prefix isJsSpace).length_le
    have heq : (List.takeWhile isJsSpace p).length = p.length := by omega
    have hall2 : ∀ c ∈ p, isJsSpace c = true := by
      have h2 : List.takeWhile isJsSpace p = p := by
        have hpre : List.takeWhile isJsSpace p <+: p := List.takeWhile_prefix _
        exact hpre.eq_of_length heq
      exact List.takeWhile_eq_self_iff.mp h2
    simp only [List.length_cons, heq, Nat.add_sub_cancel]
    rw [List.drop_length_cons hp, trim_all_space hall2]
    apply trim_all_space
    intro c hc
    rw [List.mem_singleton.mp hc]
    exact hall2 _ (List.getLast_mem hp)

/-- An inline marker `{{e}}` followed by any text: the inline regex matches it
with `e` as its group. -/
theorem matchInline_open {e : Str} (R : Str) (hne : e ≠ []) (he : ∀ c ∈ e, notClose c = true) :
    matchInline (cOpen :: cOpen :: (e ++ ("\x7d\x7d".toList ++ R))) =
      some ([e], e.length + 4) := by
  have ht : List.takeWhile notClose (e ++ ("\x7d\x7d".toList ++ R)) = e := by
    rw [List.takeWhile_append_of_pos he]
    simp [List.takeWhile, notClose, cClose]
  have h0 : afterLit "\x7b\x7b".toList (cOpen :: cOpen :: (e ++ ("\x7d\x7d".toList ++ R))) =
      some (e ++ ("\x7d\x7d".toList ++ R)) := afterLit_eq_some.mpr rfl
  unfold matchInline
  rw [h0]
  simp only [ht]
  have h1 : e.isEmpty = false := by
    cases e with
    | nil => exact absurd rfl hne
    | cons c r => rfl
  simp only [h1, Bool.false_eq_true, if_false]
  rw [List.drop_left, afterLit_append]

/-- A pass leaves alone a marker it does not match, between a text without `{`
and a text without `{{`. -/
theorem replaceFn_unmatched {m : Str → Option (List Str × Nat)} (f : List Str → Option Str)
    {L M R : Str} (hm : NeedsOpen m) (hL : ∀ c ∈ L, c ≠ cOpen)
    (h0 : m (cOpen :: (M ++ R)) = none) (hq : hasOpen (M ++ R) = false) :
    replaceFn m f (L ++ cOpen :: (M ++ R)) = some (L ++ cOpen :: (M ++ R)) := by
  rw [replaceFn_skip f hm (quiet_of_no_open_char _ hL), replaceFn_of_none h0,
    replaceFn_id f hm hq]
  rfl

/-! ## Iterations over a body without markers -/

theorem mapJoin_forall {α : Type} {f : Nat → α → Option Str} {P : Char → Prop}
    (h : ∀ i x r, f i x = some r → ∀ c ∈ r, P c) :
    ∀ (xs : List α) (i : Nat) (out : Str), mapJoin f i xs = some out → ∀ c ∈ out, P c
  | [], _, out, ho => by
    simp only [mapJoin, Option.some.injEq] at ho
    subst ho
    intro c hc
    cases hc
  | x :: r, i, out, ho => by
    rw [mapJoin] at ho
    cases h1 : f i x with
    | none => simp [h1] at ho
    | some a =>
      cases h2 : mapJoin f (i + 1) r with
      | none => simp [h1, h2] at ho
      | some b =>
        simp only [h1, h2, Option.some.injEq] at ho
        subst ho
        intro c hc
        rcases List.mem_append.mp hc with hc | hc
        · exact h i x a h1 c hc
        · exact mapJoin_forall h r (i + 1) b h2 c hc

theorem renderSeqItem_literal (up : Char → Str) {B : Str} (len k : Nat) (x : JVal)
    (hB : hasOpen B = false) :
    renderSeqItem up B len k x = (firstKey x).map (fun _ => B) := by
  unfold renderSeqItem
  simp only [(replaceLit_id_markers _ hB).1, (replaceLit_id_markers _ hB).2.1]
  cases firstKey x with
  | none => rfl
  | some key =>
    simp only [(replaceLit_id_markers _ hB).2.2.1, (replaceLit_id_markers _ hB).2.2.2,
      Option.map_some']
    exact replaceFn_id _ needsOpen_matchInline hB

theorem renderKeyedItem_literal (up : Char → Str) {B : Str} (len k : Nat) (kv : Str × JVal)
    (hB : hasOpen B = false) : renderKeyedItem up B len k kv = some B := by
  unfold renderKeyedItem
  simp only [(replaceLit_id_markers _ hB).2.1, (replaceLit_id_markers _ hB).2.2.1,
    (replaceLit_id_markers _ hB).2.2.2]
  exact replaceFn_id _ needsOpen_matchInline hB

/-- What an `each` block with a body without `{` renders has no `{`. -/
theorem eachBlock_literal (up : Char → Str) (ctx : JVal) (cap B out : Str)
    (hB : isLiteral B = true) (h : eachBlock up ctx [cap, B] = some out) :
    isLiteral out = true := by
  have hB2 := isLiteral_spec hB
  have hBo : hasOpen B = false := hasOpen_of_no_open_char hB2
  suffices hs : ∀ c ∈ out, c ≠ cOpen by
    simpa [isLiteral] using hs
  rw [eachBlock_caps] at h
  cases hv : evaluateExpression up (trim cap) ctx with
  | none => simp [hv] at h
  | some v =>
    rw [hv] at h
    cases v with
    | arr r xs =>
      refine mapJoin_forall ?_ xs 0 out h
      intro i x s hs
      rw [renderSeqItem_literal up _ i x hBo] at hs
      cases hk : firstKey x with
      | none => simp [hk] at hs
      | some key =>
        simp only [hk, Option.map_some', Option.some.injEq] at hs
        subst hs
        exact hB2
    | obj r kvs =>
      refine mapJoin_forall ?_ kvs 0 out h
      intro i kv s hs
      rw [renderKeyedItem_literal up _ i kv hBo] at hs
      simp only [Option.some.injEq] at hs
      subst hs
      exact hB2
    | null => simp only [Option.some.injEq] at h; subst h; intro c hc; cases hc
    | bool b => simp only [Option.some.injEq] at h; subst h; intro c hc; cases hc
    | num n => simp only [Option.some.injEq] at h; subst h; intro c hc; cases hc
    | str s => simp only [Option.some.injEq] at h; subst h; intro c hc; cases hc

/-- The passes after `each` on a template that the `each` pass turns into
`{{#if c}}E{{/if}}` with a text `E` without `{{`. -/
theorem compile_of_each_if {up : Char → Str} {template c E : Str} {ctx : JVal}
    (h1 : replaceFn (matchBlock "each".toList) (eachBlock up ctx) template =
      some (blockTemplate "if".toList c E))
    (hc : isPathText c = true) (hh : isHelperCall (trim c) = false) (hE : hasOpen E = false)
    (hpl : plainAt (trim c) ctx = true) :
    compile up template ctx = some (if toBoolean (valueAt (trim c) ctx) then E else []) := by
  obtain ⟨hne, hpc, hno⟩ := isPathText_spec hc
  obtain ⟨cap, hcap, h2⟩ := replaceFn_block (ifBlock up ctx) hne hpc noBorder_close.2.1
    (findSub_none_of_hasOpen _ hE)
  have h3 : includesSub mElse E = false := by
    have : findSub mElse E = none := findSub_none_of_hasOpen _ hE
    simp [includesSub, this]
  have h4 : ifBlock up ctx [cap, E] =
      some (if toBoolean (valueAt (trim c) ctx) then E else []) := by
    rw [ifBlock_caps, hcap, evaluateExpression_walk up ctx hh hpl]
    simp only [h3, Bool.false_eq_true, if_false, valueAt]
    by_cases hb : toBoolean (walk (splitChar (Char.ofNat 46) (trim c)) ctx) = true
    · rw [if_pos hb, if_pos hb]
    · rw [if_neg hb, if_neg hb]
  unfold compile
  rw [h1]
  simp only
  rw [h2, h4]
  simp only
  by_cases hb : toBoolean (valueAt (trim c) ctx) = true
  · rw [if_pos hb, replaceFn_id _ (needsOpen_matchBlock _) hE]
    exact replaceFn_id _ needsOpen_matchInline hE
  · rw [if_neg hb]
    rfl

/-- The `each` pass on `{{#if c}}{{#each p}}B{{/each}}{{/if}}` resolves the inner
block, against the context of the pass, and keeps the `if` markers around. -/
theorem eachPass_inside_if (up : Char → Str) (ctx : JVal) {c p B : Str}
    (hc : isPathText c = true) (hp : isPathText p = true)
    (hB : findSub ("\x7b\x7b/".toList ++ "each".toList ++ "\x7d\x7d".toList) B = none) :
    ∃ cap, trim cap = trim p ∧
      replaceFn (matchBlock "each".toList) (eachBlock up ctx)
          (blockTemplate "if".toList c (blockTemplate "each".toList p B)) =
        (eachBlock up ctx [cap, B]).map (fun E => blockTemplate "if".toList c E) := by
  obtain ⟨-, -, hno⟩ := isPathText_spec hc
  obtain ⟨hne, hpc, -⟩ := isPathText_spec hp
  obtain ⟨cap, hcap, hm⟩ := @matchBlock_header "each".toList p
    (B ++ (("\x7b\x7b/".toList ++ "each".toList ++ "\x7d\x7d".toList) ++
      "\x7b\x7b/if\x7d\x7d".toList)) hne hpc
  rw [findSub_append _ (by decide) noBorder_close.1 hB] at hm
  simp only at hm
  refine ⟨cap, hcap, ?_⟩
  have hE : blockTemplate "each".toList p B ++ "\x7b\x7b/if\x7d\x7d".toList =
      ("\x7b\x7b#".toList ++ "each".toList) ++ (Char.ofNat 32 :: p ++ ("\x7d\x7d".toList ++
        (B ++ (("\x7b\x7b/".toList ++ "each".toList ++ "\x7d\x7d".toList) ++
          "\x7b\x7b/if\x7d\x7d".toList)))) := by
    simp [blockTemplate]
  rw [← hE] at hm
  have hlen : (3 + "each".toList.length) + (Char.ofNat 32 :: p).length + 2 + B.length +
      (5 + "each".toList.length) = (blockTemplate "each".toList p B).length := by
    simp [blockTemplate, List.length_append]
    omega
  rw [hlen] at hm
  have hq : Quiet "\x7d\x7d".toList
      (blockTemplate "each".toList p B ++ "\x7b\x7b/if\x7d\x7d".toList) :=
    quiet_of_no_open_char _ (by decide)
  have hcl : replaceFn (matchBlock "each".toList) (eachBlock up ctx) "\x7b\x7b/if\x7d\x7d".toList =
      some "\x7b\x7b/if\x7d\x7d".toList := rfl
  have hT : blockTemplate "if".toList c (blockTemplate "each".toList p B) =
      "\x7b\x7b#if ".toList ++ (c ++ ("\x7d\x7d".toList ++
        (blockTemplate "each".toList p B ++ "\x7b\x7b/if\x7d\x7d".toList))) := by
    rw [blockTemplate_if]
    simp
  rw [hT, eachPass_if_header _ hno (by intro r hr; simp [cOpen] at hr),
    replaceFn_skip _ (needsOpen_matchBlock _) hq,
    replaceFn_of_match hm (by simp [blockTemplate]) (List.length_pos.mpr (blockTemplate_ne_nil _ _ _)),
    List.drop_left, hcl]
  cases eachBlock up ctx [cap, B] with
  | none => rfl
  | some E =>
    simp only [Option.map_some', Option.some.injEq]
    rw [blockTemplate_if]
    simp

/-! ## Claim C14: `each` nested inside `if` -/

/-- For paths `c` and `p` and a body `B` without `{`, the template
`{{#if c}}{{#each p}}B{{/each}}{{/if}}` behaves as `{{#each p}}B{{/each}}` does
against the same context, followed by the choice on `c`: it raises when the
inner block raises, whatever `c` holds; otherwise it renders what the inner
block renders when `c` is truthy and the empty string when `c` is falsy.  The
lookup of `c` is one that meets no record with an own field `hasOwnProperty`. -/
theorem if_each_renders (up : Char → Str) (ctx : JVal) (c p B : Str)
    (hc : isPathText c = true) (hh : isHelperCall (trim c) = false)
    (hp : isPathText p = true) (hB : isLiteral B = true)
    (hpl : plainAt (trim c) ctx = true) :
    compile up (blockTemplate "if".toList c (blockTemplate "each".toList p B)) ctx =
      (compile up (blockTemplate "each".toList p B) ctx).map
        (fun E => if toBoolean (valueAt (trim c) ctx) then E else []) := by
  obtain ⟨hne, hpc, -⟩ := isPathText_spec hp
  have hBo : hasOpen B = false := hasOpen_of_no_open_char (isLiteral_spec hB)
  have hBc := findSub_none_of_hasOpen "/each\x7d\x7d".toList hBo
  obtain ⟨cap1, hcap1, h1⟩ := replaceFn_block (eachBlock up ctx) hne hpc noBorder_close.1 hBc
  obtain ⟨cap2, hcap2, h2⟩ := eachPass_inside_if up ctx hc hp hBc
  have h12 : eachBlock up ctx [cap2, B] = eachBlock up ctx [cap1, B] := by
    rw [eachBlock_caps, eachBlock_caps, hcap1, hcap2]
  rw [h12] at h2
  cases ho : eachBlock up ctx [cap1, B] with
  | none =>
    rw [ho] at h1 h2
    rw [compile_of_each_none h1, compile_of_each_none h2]
    rfl
  | some E =>
    rw [ho] at h1 h2
    have hEo : hasOpen E = false :=
      hasOpen_of_no_open_char (isLiteral_spec (eachBlock_literal up ctx cap1 B E hB ho))
    rw [compile_of_each h1 hEo, compile_of_each_if h2 hc hh hEo hpl]
    rfl

/-- C14. With `flag` false and a list `xs` that holds `null`, the template
`{{#if flag}}{{#each xs}}x{{/each}}{{/if}}` does not render the empty string: the
`each` pass runs first, whatever `flag` holds, and raises on the `null` element
(the defect of claim C3). -/
theorem if_each_null_element_throws (up : Char → Str) :
    compile up tplIfEach ctxGuardedNull = none := rfl

/-- On lists without `null` the claim C14 holds: `xs` with two elements renders
`xx` under a truthy guard and the empty string under a falsy one. -/
theorem if_each_examples (up : Char → Str) :
    compile up (blockTemplate "if".toList "f".toList tplEachX) ctxSample = some "xx".toList ∧
      compile up tplIfEach ctxSample = some [] :=
  ⟨rfl, rfl⟩

/-! ## Claim C15: an `each` open marker without close marker -/

theorem eachOpen_text (L p R : Str) :
    L ++ eachOpen p ++ R =
      L ++ cOpen :: ((cOpen :: Char.ofNat 35 :: ("each".toList ++ Char.ofNat 32 :: p) ++
        "\x7d\x7d".toList) ++ R) := by
  simp [eachOpen, cOpen]

/-- C15, counterexample: the template `a{{#each xs}}x`, whose open marker has no
close marker after it, renders `ax`; the open marker is not in the output. -/
theorem unclosed_each_counterexample :
    compile asciiUpper ("a".toList ++ eachOpen "xs".toList ++ "x".toList) ctxSample =
        some "ax".toList ∧
      includesSub (eachOpen "xs".toList) "ax".toList = false := by
  decide

/-- C15, amended. For a text `L` without `{`, a path `p` and a text `R` without
`{{` (so that no close marker follows), the template `L{{#each p}}R` renders `L`,
the text of the value of the expression `#each p`, and `R`: the inline pass
consumes the open marker as an inline expression.  It throws when the
evaluation of that expression or the conversion of its value to a string
throws. -/
theorem unclosed_each_is_consumed (up : Char → Str) (ctx : JVal) (L p R : Str)
    (hL : isLiteral L = true) (hp : isPathText p = true) (hR : hasOpen R = false) :
    compile up (L ++ eachOpen p ++ R) ctx =
      (evaluateExpression up (trim ("#each ".toList ++ p)) ctx).bind
        (fun v => (toText v).map (fun t => L ++ t ++ R)) := by
  obtain ⟨hne, hpc, hno⟩ := isPathText_spec hp
  have hL2 := isLiteral_spec hL
  have hq : hasOpen ((cOpen :: Char.ofNat 35 :: ("each".toList ++ Char.ofNat 32 :: p) ++
      "\x7d\x7d".toList) ++ R) = false :=
    hasOpen_append_of_quiet (quiet_header _ p R keyword_plain.1 hno) hR
  have h1 : matchBlock "each".toList (cOpen :: ((cOpen :: Char.ofNat 35 ::
      ("each".toList ++ Char.ofNat 32 :: p) ++ "\x7d\x7d".toList) ++ R)) = none := by
    obtain ⟨cap, -, hm⟩ := @matchBlock_header "each".toList p R hne hpc
    have hf : findSub ("\x7b\x7b/".toList ++ "each".toList ++ "\x7d\x7d".toList) R = none :=
      findSub_none_of_hasOpen _ hR
    rw [hf] at hm
    simpa [cOpen] using hm
  have e1 := replaceFn_unmatched (eachBlock up ctx) (needsOpen_matchBlock _) hL2 h1 hq
  have h2 : matchBlock "if".toList (cOpen :: ((cOpen :: Char.ofNat 35 ::
      ("each".toList ++ Char.ofNat 32 :: p) ++ "\x7d\x7d".toList) ++ R)) = none :=
    matchBlock_none_of_header rfl
  have h3 : matchBlock "unless".toList (cOpen :: ((cOpen :: Char.ofNat 35 ::
      ("each".toList ++ Char.ofNat 32 :: p) ++ "\x7d\x7d".toList) ++ R)) = none :=
    matchBlock_none_of_header rfl
  have e2 := replaceFn_unmatched (ifBlock up ctx) (needsOpen_matchBlock "if".toList) hL2 h2 hq
  have e3 := replaceFn_unmatched (unlessBlock up ctx) (needsOpen_matchBlock "unless".toList) hL2
    h3 hq
  have hec : ∀ c ∈ "#each ".toList ++ p, notClose c = true := by
    intro c hc
    rcases List.mem_append.mp hc with hc | hc
    · have hk : ∀ d ∈ "#each ".toList, notClose d = true := by decide
      exact hk c hc
    · exact hpc c hc
  have h4 := matchInline_open R (by simp) hec
  have h5 : cOpen :: cOpen :: ("#each ".toList ++ p ++ ("\x7d\x7d".toList ++ R)) =
      cOpen :: ((cOpen :: Char.ofNat 35 :: ("each".toList ++ Char.ofNat 32 :: p) ++
        "\x7d\x7d".toList) ++ R) := by simp
  rw [h5] at h4
  have h6 : List.drop (("#each ".toList ++ p).length + 4)
      (cOpen :: ((cOpen :: Char.ofNat 35 :: ("each".toList ++ Char.ofNat 32 :: p) ++
        "\x7d\x7d".toList) ++ R)) = R := by
    rw [← h5]
    have : cOpen :: cOpen :: ("#each ".toList ++ p ++ ("\x7d\x7d".toList ++ R)) =
        (cOpen :: cOpen :: ("#each ".toList ++ p ++ "\x7d\x7d".toList)) ++ R := by simp
    rw [this]
    apply List.drop_left'
    simp
  rw [eachOpen_text]
  unfold compile
  rw [e1]
  simp only
  rw [e2]
  simp only
  rw [e3]
  simp only
  rw [replaceFn_skip _ needsOpen_matchInline (quiet_of_no_open_char _ hL2),
    replaceFn_of_match h4 (by simp) (by omega), h6,
    replaceFn_id _ needsOpen_matchInline hR]
  unfold inlineValue
  simp only [List.getD_cons_zero]
  cases evaluateExpression up (trim ("#each ".toList ++ p)) ctx with
  | none => rfl
  | some v =>
    simp only [Option.some_bind]
    cases toText v with
    | none => rfl
    | some t => simp

/-- C15, witness: the template `a{{#each xs}}x`. -/
theorem unclosed_each_is_consumed_witness :
    compile asciiUpper ("a".toList ++ eachOpen "xs".toList ++ "x".toList) ctxSample =
      (evaluateExpression asciiUpper (trim ("#each ".toList ++ "xs".toList)) ctxSample).bind
        (fun v => (toText v).map (fun t => "a".toList ++ t ++ "x".toList)) :=
  unclosed_each_is_consumed asciiUpper ctxSample "a".toList "xs".toList "x".toList
    (by decide) (by decide) (by decide)

/-! ## Claim C16: helpers in inline expressions -/

/-- The template `{{capitalize name}}` renders what the lookup of the field
whose name is `capitalize name` gives: an expression without parentheses is a
path lookup. -/
theorem capitalize_inline_is_lookup (up : Char → Str) (ctx : JVal) :
    compile up tplCapitalize ctx = renderedField "capitalize name".toList ctx := by
  have h1 : replaceFn (matchBlock "each".toList) (eachBlock up ctx) tplCapitalize =
      some tplCapitalize := rfl
  have h2 : replaceFn (matchBlock "if".toList) (ifBlock up ctx) tplCapitalize =
      some tplCapitalize := rfl
  have h3 : replaceFn (matchBlock "unless".toList) (unlessBlock up ctx) tplCapitalize =
      some tplCapitalize := rfl
  have h4 : matchInline tplCapitalize = some (["capitalize name".toList], tplCapitalize.length) := by
    decide
  unfold compile
  rw [h1]
  simp only
  rw [h2]
  simp only
  rw [h3]
  simp only
  rw [replaceFn_whole h4 (by decide)]
  unfold inlineValue
  have ht : trim "capitalize name".toList = "capitalize name".toList := by decide
  have hs : splitChar (Char.ofNat 46) "capitalize name".toList = ["capitalize name".toList] := by
    decide
  have he : evaluateExpression up "capitalize name".toList ctx =
      evalPath (splitChar (Char.ofNat 46) "capitalize name".toList) ctx :=
    evaluateExpression_path up ctx (by decide)
  have key : ∀ (b : Bool) (o : Option JVal),
      (match (if b then none
          else
            match o with
            | some v2 => some v2
            | none => some (JVal.str [])) with
        | some v => toText v
        | none => none) = if b then none else toText (o.getD (.str [])) := by
    intro b o
    cases b <;> cases o <;> rfl
  simp only [List.getD_cons_zero, ht, he, hs, evalPath, renderedField]
  exact key _ _

/-- C16. In the context in which `name` is the string `abc`, the template
`{{capitalize name}}` renders the empty string, not `Abc`: the inline pass
treats an expression as a helper invocation only when it contains both
parentheses. -/
theorem capitalize_inline_renders_empty (up : Char → Str) :
    compile up tplCapitalize ctxHelpers = some [] := rfl

/-- With both parentheses in the expression the helper is invoked:
`{{capitalize name ()}}` renders `Abc`. -/
theorem capitalize_inline_with_parentheses :
    compile asciiUpper "\x7b\x7bcapitalize name ()\x7d\x7d".toList ctxHelpers =
      some "Abc".toList := by
  decide

/-! ## Helper invocations -/

theorem isToken_spec {s : Str} (h : isToken s = true) :
    s ≠ [] ∧ ∀ c ∈ s, isJsSpace c = false := by
  simp only [isToken, Bool.and_eq_true, Bool.not_eq_true', List.isEmpty_eq_false,
    List.all_eq_true] at h
  exact ⟨h.1, h.2⟩

theorem lineTerminator_is_space {c : Char} (h : isJsSpace c = false) :
    isLineTerminator c = false := by
  simp only [isLineTerminator, isJsSpace, Bool.or_eq_false_iff, Bool.and_eq_false_iff,
    decide_eq_false_iff_not, beq_eq_false_iff_ne] at h ⊢
  omega

theorem wordChar_not_space {c : Char} (h : isJsSpace c = true) : isWordChar c = false := by
  cases hw : isWordChar c with
  | false => rfl
  | true => rw [(wordChar_plain hw).2.2.1] at h; exact absurd h (by decide)

theorem takeWhile_id {q : Char → Bool} {l : Str} (h : ∀ c ∈ l, q c = true) :
    l.takeWhile q = l := List.takeWhile_eq_self_iff.mpr h

/-- The helper regex on `name args`: a word, one space, and an argument text
that starts with a character other than white space and holds no line
terminator. -/
theorem matchHelper_call {name args : Str} (hn : name ≠ []) (hw : ∀ c ∈ name, isWordChar c = true)
    (ha : ∀ c r, args = c :: r → isJsSpace c = false) (hne : args ≠ [])
    (hl : ∀ c ∈ args, isLineTerminator c = false) :
    matchHelper (name ++ Char.ofNat 32 :: args) = some (name, args) := by
  have h1 : List.takeWhile isWordChar (name ++ Char.ofNat 32 :: args) = name := by
    rw [List.takeWhile_append_of_pos hw]
    simp [List.takeWhile, isWordChar]
  obtain ⟨c, r, hcr⟩ : ∃ c r, args = c :: r := by
    cases args with
    | nil => exact absurd rfl hne
    | cons c r => exact ⟨c, r, rfl⟩
  have hc : isJsSpace c = false := ha c r hcr
  have h2 : List.takeWhile isJsSpace (Char.ofNat 32 :: args) = [Char.ofNat 32] := by
    rw [hcr]
    have : isJsSpace (Char.ofNat 32) = true := by decide
    simp [List.takeWhile, this, hc]
  have h3 : helperAt (name ++ Char.ofNat 32 :: args) = some (name, args) := by
    unfold helperAt
    simp only [h1, List.drop_left, h2]
    have he : name.isEmpty = false := by simpa using hn
    rw [he]
    simp only [List.isEmpty_cons, Bool.or_self, Bool.false_eq_true, if_false, List.length_singleton]
    have hp : pickArgs (Char.ofNat 32 :: args) 1 = some args := by
      rw [pickArgs]
      simp only [List.drop_succ_cons, List.drop_zero]
      rw [hcr]
      simp only
      have hlc : isLineTerminator c = false := lineTerminator_is_space hc
      rw [if_neg (by rw [hlc]; decide)]
      rw [← hcr, takeWhile_id (fun d hd => by rw [hl d hd]; rfl)]
    rw [hp]
  cases name with
  | nil => exact absurd rfl hn
  | cons x t =>
    rw [List.cons_append, matchHelper]
    rw [List.cons_append] at h3
    rw [h3]

theorem splitChar_append {d : Char} {a : Str} (b : Str) (h : ∀ c ∈ a, c ≠ d) :
    splitChar d (a ++ d :: b) = a :: splitChar d b := by
  induction a with
  | nil => simp [splitChar]
  | cons c r ih =>
    rw [List.cons_append, splitChar, if_neg (h c (List.mem_cons_self c r)),
      ih (fun x hx => h x (List.mem_cons_of_mem c hx))]

theorem token_no_blank {s : Str} (h : isToken s = true) : ∀ c ∈ s, c ≠ Char.ofNat 32 := by
  intro c hc he
  have := (isToken_spec h).2 c hc
  rw [he] at this
  exact absurd this (by decide)

theorem argList_one {p : Str} (hp : isToken p = true) :
    (splitChar (Char.ofNat 32) p).map trim = [p] := by
  rw [splitChar_id (token_no_blank hp)]
  simp [trim_id (isToken_spec hp).2]

theorem argList_two {a b : Str} (ha : isToken a = true) (hb : isToken b = true) :
    (splitChar (Char.ofNat 32) (a ++ Char.ofNat 32 :: b)).map trim = [a, b] := by
  rw [splitChar_append b (token_no_blank ha), splitChar_id (token_no_blank hb)]
  simp [trim_id (isToken_spec ha).2, trim_id (isToken_spec hb).2]

theorem matchHelper_one {name p : Str} (hn : name ≠ []) (hw : ∀ c ∈ name, isWordChar c = true)
    (hp : isToken p = true) :
    matchHelper (name ++ Char.ofNat 32 :: p) = some (name, p) := by
  obtain ⟨hne, hs⟩ := isToken_spec hp
  exact matchHelper_call hn hw
    (fun c r hcr => hs c (by rw [hcr]; exact List.mem_cons_self c r)) hne
    (fun c hc => lineTerminator_is_space (hs c hc))

theorem matchHelper_two {name a b : Str} (hn : name ≠ []) (hw : ∀ c ∈ name, isWordChar c = true)
    (ha : isToken a = true) (hb : isToken b = true) :
    matchHelper (name ++ Char.ofNat 32 :: (a ++ Char.ofNat 32 :: b)) =
      some (name, a ++ Char.ofNat 32 :: b) := by
  obtain ⟨hane, has⟩ := isToken_spec ha
  obtain ⟨_, hbs⟩ := isToken_spec hb
  refine matchHelper_call hn hw ?_ (by simp) ?_
  · intro c r hcr
    cases a with
    | nil => exact absurd rfl hane
    | cons x t =>
      rw [List.cons_append] at hcr
      rw [← (List.cons.inj hcr).1]
      exact has x (List.mem_cons_self x t)
  · intro c hc
    rcases List.mem_append.mp hc with hc | hc
    · exact lineTerminator_is_space (has c hc)
    · rcases List.mem_cons.mp hc with rfl | hc
      · decide
      · exact lineTerminator_is_space (hbs c hc)

theorem joinElems_intercalate (sep : Str) (xs : List JVal) :
    joinElems sep xs = List.intercalate sep (xs.map elemText) := by
  induction xs with
  | nil => rfl
  | cons x r ih =>
    cases r with
    | nil =>
      have h0 : joinElems sep [x] = elemText x ++ [] := by cases x <;> rfl
      rw [h0]
      simp [List.intercalate]
    | cons y t =>
      have h1 : joinElems sep (x :: y :: t) = elemText x ++ (sep ++ joinElems sep (y :: t)) := by
        cases x <;> rfl
      rw [h1, ih]
      simp [List.intercalate, List.intersperse]

theorem strictEq_iff (v w : JVal) : strictEq v w = true ↔ StrictlyEqual v w := by
  constructor
  · intro h
    cases v <;> cases w <;> simp [strictEq] at h
    · exact StrictlyEqual.null
    · subst h; exact StrictlyEqual.bool _
    · subst h; exact StrictlyEqual.num _
    · subst h; exact StrictlyEqual.str _
    · subst h; exact StrictlyEqual.arr _ _ _
    · subst h; exact StrictlyEqual.obj _ _ _
  · intro h
    cases h <;> simp [strictEq]

theorem helperName_word :
    (∀ c ∈ "capitalize".toList, isWordChar c = true) ∧ (∀ c ∈ "join".toList, isWordChar c = true) ∧
      (∀ c ∈ "eq".toList, isWordChar c = true) ∧ (∀ c ∈ "json".toList, isWordChar c = true) := by
  decide

theorem isPath_spec {p : Str} (h : isPath p = true) :
    isToken p = true ∧ isHelperCall p = false := by
  simpa [isPath] using h

theorem evaluateExpression_valueAt (up : Char → Str) {p : Str} (ctx : JVal)
    (h : isPath p = true) :
    evaluateExpression up p ctx = if plainAt p ctx then some (valueAt p ctx) else none := by
  rw [evaluateExpression_path up ctx (isPath_spec h).2, evalPath_eq]
  rfl

theorem parseIndex_this : parseIndex "this".toList = none := by decide

/-! ## Claim C17: the helper `capitalize` -/

/-- C17. For every context and path `p`, `evaluateHelperFunction` on
`capitalize p` returns the value at `p` with its first character upper-cased
and the rest unchanged when that value is a string, and the empty string when
the value is not a string.  The value at `p` is the one the lookup of
`evaluateExpression` gives; when that lookup throws (it meets a record with an
own field `hasOwnProperty`), so does the helper. -/
theorem capitalize_helper (up : Char → Str) (ctx : JVal) (p : Str) (hp : isPath p = true) :
    evaluateHelperFunction up ("capitalize ".toList ++ p) ctx =
      if plainAt p ctx then
        some (match valueAt p ctx with
          | .str s => .str (capitalizeText up s)
          | _ => .str [])
      else none := by
  have ht := (isPath_spec hp).1
  have hm : matchHelper ("capitalize ".toList ++ p) = some ("capitalize".toList, p) :=
    matchHelper_one (by decide) helperName_word.1 ht
  unfold evaluateHelperFunction helperBody
  rw [hm]
  simp only [argList_one ht, List.get?_cons_zero, if_true, evaluateExpression_valueAt up ctx hp]
  cases plainAt p ctx with
  | false => rfl
  | true =>
    simp only [if_true]
    cases valueAt p ctx with
    | str s => cases s <;> rfl
    | null => rfl
    | bool b => rfl
    | num n => rfl
    | arr r xs => rfl
    | obj r kvs => rfl

/-- C17, witness: `capitalize name` gives `Abc` for the string `abc`. -/
theorem capitalize_helper_witness :
    evaluateHelperFunction asciiUpper "capitalize name".toList ctxHelpers =
      some (.str "Abc".toList) :=
  capitalize_helper asciiUpper ctxHelpers "name".toList (by decide)

/-- The helper `capitalize` on the number `42` gives the empty string. -/
theorem capitalize_of_number :
    evaluateHelperFunction asciiUpper "capitalize num".toList ctxHelpers = some (.str []) :=
  rfl

/-! ## Claim C18: the helper `join` -/

theorem joinTexts_intercalate (sep : Str) (xs : List JVal) :
    (match joinTexts sep xs with
      | some s => some (JVal.str s)
      | none => none) =
      if xs.all stringable then some (.str (List.intercalate sep (xs.map elemText)))
      else none := by
  rw [joinTexts_eq, stringableAll_eq_all, joinElems_intercalate]
  cases xs.all stringable <;> rfl

/-- C18. For every context and path `p`, `evaluateHelperFunction` on `join p`
returns the elements of the list at `p` joined with `_` and on `join p sep` the
elements joined with the separator token `sep`; it returns the empty string
whenever the value at `p` is not a list.  An element that is `null` contributes
the empty text, as in `Array.prototype.join`.  The value at `p` is the one the
lookup of `evaluateExpression` gives, and the texts of the elements are their
conversions to strings; when the lookup or a conversion throws, so does the
helper. -/
theorem join_helper (up : Char → Str) (ctx : JVal) (p sep : Str)
    (hp : isPath p = true) (hs : isToken sep = true) :
    evaluateHelperFunction up ("join ".toList ++ p) ctx =
        (if plainAt p ctx then
          (match valueAt p ctx with
            | .arr _ xs =>
              if xs.all stringable then
                some (.str (List.intercalate "_".toList (xs.map elemText)))
              else none
            | _ => some (.str []))
        else none) ∧
      evaluateHelperFunction up ("join ".toList ++ (p ++ Char.ofNat 32 :: sep)) ctx =
        (if plainAt p ctx then
          (match valueAt p ctx with
            | .arr _ xs =>
              if xs.all stringable then some (.str (List.intercalate sep (xs.map elemText)))
              else none
            | _ => some (.str []))
        else none) := by
  have ht := (isPath_spec hp).1
  have hm1 : matchHelper ("join ".toList ++ p) = some ("join".toList, p) :=
    matchHelper_one (by decide) helperName_word.2.1 ht
  have hm2 : matchHelper ("join ".toList ++ (p ++ Char.ofNat 32 :: sep)) =
      some ("join".toList, p ++ Char.ofNat 32 :: sep) :=
    matchHelper_two (by decide) helperName_word.2.1 ht hs
  have hn : ¬ ("join".toList = "capitalize".toList) := by decide
  obtain ⟨c, cs, hsep⟩ : ∃ c cs, sep = c :: cs := by
    cases sep with
    | nil => exact absurd hs (by decide)
    | cons c cs => exact ⟨c, cs, rfl⟩
  constructor
  · unfold evaluateHelperFunction helperBody
    rw [hm1]
    simp only [argList_one ht, List.get?_cons_zero, if_neg hn, if_true,
      evaluateExpression_valueAt up ctx hp]
    cases plainAt p ctx with
    | false => rfl
    | true =>
      simp only [if_true]
      cases valueAt p ctx with
      | arr r xs =>
        simp only [List.get?_cons_succ, List.get?_nil]
        exact joinTexts_intercalate _ xs
      | null => rfl
      | bool b => rfl
      | num n => rfl
      | str s => rfl
      | obj r kvs => rfl
  · unfold evaluateHelperFunction helperBody
    rw [hm2]
    simp only [argList_two ht hs, List.get?_cons_zero, if_neg hn, if_true,
      evaluateExpression_valueAt up ctx hp]
    cases plainAt p ctx with
    | false => rfl
    | true =>
      simp only [if_true]
      cases valueAt p ctx with
      | arr r xs =>
        simp only [List.get?_cons_succ, List.get?_cons_zero, hsep]
        exact joinTexts_intercalate _ xs
      | null => rfl
      | bool b => rfl
      | num n => rfl
      | str s => rfl
      | obj r kvs => rfl

/-- C18, witness: the list `[1, null, "a"]` joins to `1__a` by default and to
`1++a` with the separator `+`. -/
theorem join_helper_witness :
    evaluateHelperFunction asciiUpper "join l".toList ctxHelpers = some (.str "1__a".toList) ∧
      evaluateHelperFunction asciiUpper "join l +".toList ctxHelpers =
        some (.str "1++a".toList) :=
  join_helper asciiUpper ctxHelpers "l".toList "+".toList (by decide) (by decide)

/-- The separator of `join` is the token as written, not the value of a path:
with `sep` bound to `-` in the context, `join l sep` joins with the text `sep`;
and `join` on a string gives the empty string. -/
theorem join_separator_is_literal (up : Char → Str) :
    evaluateHelperFunction up "join l sep".toList ctxHelpers = some (.str "1sepsepa".toList) ∧
      evaluateHelperFunction up "join name".toList ctxHelpers = some (.str []) :=
  ⟨rfl, rfl⟩

/-! ## Claim C19: the helper `eq` -/

/-- C19. For every context and paths `a` and `b`, `evaluateHelperFunction` on
`eq a b` returns a boolean, which is `true` exactly when the values at `a` and
at `b` are strictly equal (same type and same value, no coercion) and `false`
otherwise.  The values are the ones the lookup of `evaluateExpression` gives;
when one of the two lookups throws (it meets a record with an own field
`hasOwnProperty`), so does the helper. -/
theorem eq_helper (up : Char → Str) (ctx : JVal) (a b : Str)
    (ha : isPath a = true) (hb : isPath b = true) :
    ∃ t : Bool, evaluateHelperFunction up ("eq ".toList ++ (a ++ Char.ofNat 32 :: b)) ctx =
        (if plainAt a ctx && plainAt b ctx then some (.bool t) else none) ∧
      (t = true ↔ StrictlyEqual (valueAt a ctx) (valueAt b ctx)) := by
  have hta := (isPath_spec ha).1
  have htb := (isPath_spec hb).1
  have hm : matchHelper ("eq ".toList ++ (a ++ Char.ofNat 32 :: b)) =
      some ("eq".toList, a ++ Char.ofNat 32 :: b) :=
    matchHelper_two (by decide) helperName_word.2.2.1 hta htb
  have hn1 : ¬ ("eq".toList = "capitalize".toList) := by decide
  have hn2 : ¬ ("eq".toList = "join".toList) := by decide
  refine ⟨strictEq (valueAt a ctx) (valueAt b ctx), ?_, strictEq_iff _ _⟩
  unfold evaluateHelperFunction helperBody
  rw [hm]
  simp only [argList_two hta htb, List.get?_cons_zero, List.get?_cons_succ, if_neg hn1,
    if_neg hn2, if_true, evaluateExpression_valueAt up ctx ha,
    evaluateExpression_valueAt up ctx hb]
  cases plainAt a ctx <;> cases plainAt b ctx <;> rfl

/-- C19, witness: on the number `1` and the string `1` the helper returns a
boolean that is `true` only if the two are strictly equal. -/
theorem eq_helper_witness :
    ∃ t : Bool, evaluateHelperFunction asciiUpper "eq one ones".toList ctxHelpers =
        some (.bool t) ∧
      (t = true ↔ StrictlyEqual (valueAt "one".toList ctxHelpers)
        (valueAt "ones".toList ctxHelpers)) :=
  eq_helper asciiUpper ctxHelpers "one".toList "ones".toList (by decide) (by decide)

/-- The helper `eq` on the number `1` and the string `1` gives `false`, on the
number `1` twice `true`. -/
theorem eq_without_coercion (up : Char → Str) :
    evaluateHelperFunction up "eq one ones".toList ctxHelpers = some (.bool false) ∧
      evaluateHelperFunction up "eq one one".toList ctxHelpers = some (.bool true) :=
  ⟨rfl, rfl⟩

/-! ## Claim C20: the helper `json` -/

/-- C20, counterexample: the context `null` has no field `this`, and `json this`
does not return the dump `null` of the whole context: reading `data.this`
throws. -/
theorem json_this_null_counterexample :
    getOwn .null "this".toList = none ∧
      serialize 2 0 .null = "null".toList ∧
      evaluateHelperFunction asciiUpper "json this".toList .null = none :=
  ⟨rfl, rfl, rfl⟩

/-- C20, amended. For every context and path `p` other than `this`,
`evaluateHelperFunction` on `json p` returns the 2-space-indented JSON dump of
the value at `p` (the value the lookup of `evaluateExpression` gives; the helper
throws when that lookup throws); on `json this` it returns the dump of the field
`this` of the context when one is set, and, for a context other than `null`
without such a field, the dump of the whole context. -/
theorem json_helper (up : Char → Str) (ctx : JVal) (p : Str)
    (hp : isPath p = true) (hne : p ≠ "this".toList) :
    evaluateHelperFunction up ("json ".toList ++ p) ctx =
        (if plainAt p ctx then some (.str (serialize 2 0 (valueAt p ctx))) else none) ∧
      (∀ t, getOwn ctx "this".toList = some t →
        evaluateHelperFunction up "json this".toList ctx = some (.str (serialize 2 0 t))) ∧
      (getOwn ctx "this".toList = none → notNull ctx = true →
        evaluateHelperFunction up "json this".toList ctx = some (.str (serialize 2 0 ctx))) := by
  have ht := (isPath_spec hp).1
  have hm : matchHelper ("json ".toList ++ p) = some ("json".toList, p) :=
    matchHelper_one (by decide) helperName_word.2.2.2 ht
  have hn1 : ¬ ("json".toList = "capitalize".toList) := by decide
  have hn2 : ¬ ("json".toList = "join".toList) := by decide
  have hn3 : ¬ ("json".toList = "eq".toList) := by decide
  have hthis : evaluateHelperFunction up "json this".toList ctx =
      match ambientThis ctx with
      | some v => some (.str (serialize 2 0 v))
      | none => none := rfl
  refine ⟨?_, ?_, ?_⟩
  · unfold evaluateHelperFunction helperBody
    rw [hm]
    have hne2 : ¬ (some p = some "this".toList) := fun h => hne (Option.some.inj h)
    simp only [argList_one ht, List.get?_cons_zero, if_neg hn1, if_neg hn2, if_neg hn3, if_true,
      if_neg hne2, evaluateExpression_valueAt up ctx hp]
    cases plainAt p ctx <;> rfl
  · intro t h
    rw [hthis]
    cases ctx with
    | obj r kvs =>
      have h2 : lookupKey "this".toList kvs = some t := h
      simp only [ambientThis, h2]
    | arr r xs =>
      have h0 : getOwn (.arr r xs) "this".toList = none := by
        simp only [getOwn, parseIndex_this]
        rfl
      rw [h0] at h
      cases h
    | null => simp [getOwn] at h
    | bool b => simp [getOwn] at h
    | num n => simp [getOwn] at h
    | str s => simp [getOwn] at h
  · intro h hnn
    rw [hthis]
    cases ctx with
    | obj r kvs =>
      have h2 : lookupKey "this".toList kvs = none := h
      simp only [ambientThis, h2]
    | arr r xs => rfl
    | null => exact absurd hnn (by decide)
    | bool b => rfl
    | num n => rfl
    | str s => rfl

/-- C20, witness: `json l` dumps the list `l`, and `json this` dumps the field
`this` of the context. -/
theorem json_helper_witness :
    evaluateHelperFunction asciiUpper "json l".toList ctxHelpers =
        some (.str "[\n  1,\n  null,\n  \"a\"\n]".toList) ∧
      evaluateHelperFunction asciiUpper "json this".toList ctxHelpers = some (.str "7".toList) :=
  ⟨(json_helper asciiUpper ctxHelpers "l".toList (by decide) (by decide)).1,
    (json_helper asciiUpper ctxHelpers "l".toList (by decide) (by decide)).2.1 (.num 7) rfl⟩

/-- Without a field `this`, `json this` dumps the whole context; on the context
`null` it raises. -/
theorem json_this_whole_context (up : Char → Str) :
    evaluateHelperFunction up "json this".toList (.arr 3 [.num 1, .bool true]) =
        some (.str "[\n  1,\n  true\n]".toList) ∧
      evaluateHelperFunction up "json this".toList .null = none :=
  ⟨rfl, rfl⟩

/-! ## Claim C21: the argument tokens of a helper -/

/-- C21, counterexample: in a context where `l` is the list `[1, null, "a"]` and
`sep` is the string `-`, `join l sep` joins with the text `sep`, not with `-`. -/
theorem join_separator_counterexample :
    valueAt "sep".toList ctxHelpers = .str "-".toList ∧
      evaluateHelperFunction asciiUpper "join l sep".toList ctxHelpers =
        some (.str "1sepsepa".toList) :=
  ⟨rfl, rfl⟩

/-- C21, amended. For every context where the path `p` is a list and every
token `s`, `evaluateHelperFunction` on `join p s` joins the elements of the list
with the text `s` as written, whatever the path `s` holds in the context: the
list path is evaluated against the context, the separator token is not.  The
helper throws when the lookup of `p` or the conversion of an element to a
string throws. -/
theorem join_separator_not_evaluated (up : Char → Str) (ctx : JVal) (p s : Str) (r : Nat)
    (xs : List JVal) (hp : isPath p = true) (hs : isToken s = true)
    (hv : valueAt p ctx = .arr r xs) :
    evaluateHelperFunction up ("join ".toList ++ (p ++ Char.ofNat 32 :: s)) ctx =
      if plainAt p ctx && xs.all stringable then
        some (.str (List.intercalate s (xs.map elemText)))
      else none := by
  have ht := (isPath_spec hp).1
  have hm : matchHelper ("join ".toList ++ (p ++ Char.ofNat 32 :: s)) =
      some ("join".toList, p ++ Char.ofNat 32 :: s) :=
    matchHelper_two (by decide) helperName_word.2.1 ht hs
  have hn : ¬ ("join".toList = "capitalize".toList) := by decide
  obtain ⟨c, cs, hsep⟩ : ∃ c cs, s = c :: cs := by
    cases s with
    | nil => exact absurd hs (by decide)
    | cons c cs => exact ⟨c, cs, rfl⟩
  unfold evaluateHelperFunction helperBody
  rw [hm]
  simp only [argList_two ht hs, List.get?_cons_zero, if_neg hn, if_true,
    evaluateExpression_valueAt up ctx hp, hv]
  cases plainAt p ctx with
  | false => rfl
  | true =>
    simp only [if_true, Bool.true_and, List.get?_cons_succ, List.get?_cons_zero, hsep]
    exact joinTexts_intercalate _ xs

/-- C21, witness: `join l sep` in the context where `sep` is `-`. -/
theorem join_separator_not_evaluated_witness :
    evaluateHelperFunction asciiUpper "join l sep".toList ctxHelpers =
      some (.str (List.intercalate "sep".toList
        ([.num 1, .null, .str "a".toList].map elemText))) :=
  join_separator_not_evaluated asciiUpper ctxHelpers "l".toList "sep".toList 1
    [.num 1, .null, .str "a".toList] (by decide) (by decide) rfl

/-- The tokens that name a value are evaluated: both arguments of `eq`, here
the numbers at `one` and at `num`. -/
theorem eq_arguments_evaluated (up : Char → Str) :
    evaluateHelperFunction up "eq one num".toList ctxHelpers = some (.bool false) ∧
      evaluateHelperFunction up "eq num num".toList ctxHelpers = some (.bool true) :=
  ⟨rfl, rfl⟩

/-! ## Claim C22: `json this` inside a keyed-mapping `each` -/

/-- The text of `tplEachJsonThis`. -/
theorem tplEachJsonThis_text :
    tplEachJsonThis = "\x7b\x7b#each m\x7d\x7d\x7b\x7bjson this\x7d\x7d\x7b\x7b/each\x7d\x7d".toList := by
  decide

/-- One entry under the body `{{json this}}`: the expression has a space, so it
is evaluated against the record `{key, value, this}`, where, for want of
parentheses, it is looked up as a field named `json this`; there is none. -/
theorem renderKeyedItem_json_this (up : Char → Str) (len k : Nat) (entry : Str × JVal) :
    renderKeyedItem up "\x7b\x7bjson this\x7d\x7d".toList len k entry = some [] := by
  have e1 : ∀ K, replaceLit mKey K "\x7b\x7bjson this\x7d\x7d".toList =
      "\x7b\x7bjson this\x7d\x7d".toList := fun _ => rfl
  have e2 : ∀ K, replaceLit mIndex K "\x7b\x7bjson this\x7d\x7d".toList =
      "\x7b\x7bjson this\x7d\x7d".toList := fun _ => rfl
  have e3 : ∀ K, replaceLit mLast K "\x7b\x7bjson this\x7d\x7d".toList =
      "\x7b\x7bjson this\x7d\x7d".toList := fun _ => rfl
  have h4 : matchInline "\x7b\x7bjson this\x7d\x7d".toList =
      some (["json this".toList], "\x7b\x7bjson this\x7d\x7d".toList.length) := by decide
  have ht : trim "json this".toList = "json this".toList := by decide
  have hi : (includesChar (Char.ofNat 40) "json this".toList ||
      includesChar (Char.ofNat 32) "json this".toList) = true := by decide
  have hs : splitChar (Char.ofNat 46) "json this".toList = ["json this".toList] := by decide
  have he : ∀ d, evaluateExpression up "json this".toList d =
      evalPath (splitChar (Char.ofNat 46) "json this".toList) d :=
    fun d => evaluateExpression_path up d (by decide)
  have hk : keyedValue up entry.1 entry.2 ["json this".toList] = some [] := by
    unfold keyedValue
    simp only [List.getD_cons_zero, ht, hi, if_true, he, hs]
    rfl
  unfold renderKeyedItem
  simp only [e1, e2, e3]
  rw [replaceFn_whole h4 (by decide), hk]

/-- For every mapping bound at `p`, the block `{{#each p}}{{json this}}{{/each}}`
renders the empty string. -/
theorem each_json_this_renders_empty (up : Char → Str) (ctx : JVal) (p : Str) (r : Nat)
    (kvs : List (Str × JVal)) (hp : isPathText p = true)
    (hv : evaluateExpression up (trim p) ctx = some (.obj r kvs)) :
    compile up (blockTemplate "each".toList p "\x7b\x7bjson this\x7d\x7d".toList) ctx =
      some [] := by
  have h : mapJoin (renderKeyedItem up "\x7b\x7bjson this\x7d\x7d".toList kvs.length) 0 kvs =
      some (kvs.flatMap (fun _ => [])) :=
    mapJoin_flatMap kvs 0 (fun k x _ => renderKeyedItem_json_this up _ k x)
  have h0 : kvs.flatMap (fun _ => ([] : Str)) = [] := by
    induction kvs with
    | nil => rfl
    | cons kv t ih => simp
  rw [h0] at h
  refine compile_of_each ?_ rfl
  rw [eachPass_keyed up ctx hp (by decide) hv]
  exact h

/-- C22. On the mapping `{x: 1, y: 2}` the template
`{{#each m}}{{json this}}{{/each}}` renders the empty string, not the dumps `12`
of the entry values: the keyed-mode callback sends `json this` to
`evaluateExpression`, which takes the helper branch only for an expression with
both parentheses (the defect of claim C16). -/
theorem each_json_this_keyed_renders_empty (up : Char → Str) :
    compile up tplEachJsonThis ctxSample = some [] := rfl

/-- In the same mode `{{this}}` alone renders the dumps of the entry values. -/
theorem each_this_keyed_renders_dumps (up : Char → Str) :
    compile up (blockTemplate "each".toList "m".toList mThis) ctxSample = some "12".toList :=
  rfl

/-! ## Lemmas on suffixes and trailing digits -/

theorem stripSuffix_append (b suf : Str) : stripSuffix suf (b ++ suf) = some b := by
  unfold stripSuffix
  rw [List.reverse_append, afterLit_append]
  simp

theorem stripSuffix_eq_some {suf t b : Str} (h : stripSuffix suf t = some b) : t = b ++ suf := by
  unfold stripSuffix at h
  cases hm : afterLit suf.reverse t.reverse with
  | none => simp [hm] at h
  | some r =>
    rw [hm] at h
    simp only [Option.some.injEq] at h
    have := afterLit_eq_some.mp hm
    have h2 := congrArg List.reverse this
    simp only [List.reverse_reverse, List.reverse_append] at h2
    rw [h2, h]

/-- A text does not end with a suffix whose last character is another one. -/
theorem stripSuffix_none_of_last (suf t : Str) {c d : Char} (h : c ≠ d) :
    stripSuffix (suf ++ [c]) (t ++ [d]) = none := by
  unfold stripSuffix
  simp [afterLit, h]

theorem stripDigits_none_of_last (x : Str) {c : Char} (hc : isDigit c = false) :
    stripDigits (x ++ [c]) = none := by
  unfold stripDigits
  simp [List.takeWhile, hc]

theorem isDigits_spec {ds : Str} (h : isDigits ds = true) :
    ds ≠ [] ∧ ∀ c ∈ ds, isDigit c = true := by
  simpa [isDigits] using h

theorem stripDigits_append (x : Str) {c : Char} {ds : Str} (hc : isDigit c = false)
    (hds : isDigits ds = true) : stripDigits (x ++ [c] ++ ds) = some (x ++ [c]) := by
  obtain ⟨hne, hall⟩ := isDigits_spec hds
  have hr : ∀ d ∈ ds.reverse, isDigit d = true := fun d hd => hall d (List.mem_reverse.mp hd)
  have h1 : (x ++ [c] ++ ds).reverse = ds.reverse ++ (c :: x.reverse) := by simp
  have h2 : List.takeWhile isDigit (ds.reverse ++ (c :: x.reverse)) = ds.reverse := by
    rw [List.takeWhile_append_of_pos hr]
    simp [List.takeWhile, hc]
  have h3 : List.dropWhile isDigit (ds.reverse ++ (c :: x.reverse)) = c :: x.reverse := by
    rw [List.dropWhile_append_of_pos hr]
    simp [List.dropWhile, hc]
  unfold stripDigits
  rw [h1, h2, h3]
  have h4 : ds.reverse.isEmpty = false := by
    cases ds with
    | nil => exact absurd rfl hne
    | cons d t => simp
  simp [h4]

theorem digits_last {ds : Str} (hds : isDigits ds = true) :
    ∃ pre d, ds = pre ++ [d] ∧ isDigit d = true := by
  obtain ⟨hne, hall⟩ := isDigits_spec hds
  refine ⟨ds.dropLast, ds.getLast hne, (List.dropLast_append_getLast hne).symm, ?_⟩
  exact hall _ (List.getLast_mem hne)

theorem matchSuffix_append {b : Str} (suf : Str) (hb : dotPlus b = true) :
    matchSuffix suf (b ++ suf) = some b := by
  unfold matchSuffix
  rw [stripSuffix_append]
  simp [hb]

theorem matchSuffix_none_of_last (suf t : Str) {c d : Char} (h : c ≠ d) :
    matchSuffix (suf ++ [c]) (t ++ [d]) = none := by
  unfold matchSuffix
  rw [stripSuffix_none_of_last suf t h]

theorem matchSuffixDigits_none_of_last (suf x : Str) {c : Char} (hc : isDigit c = false) :
    matchSuffixDigits suf (x ++ [c]) = none := by
  unfold matchSuffixDigits
  rw [stripDigits_none_of_last x hc]

/-- A text that ends with a digit does not match `^(.+)suf$` when `suf` ends
with a character that is not a digit. -/
theorem matchSuffix_none_of_digits (suf x : Str) {c : Char} {ds : Str} (hc : isDigit c = false)
    (hds : isDigits ds = true) : matchSuffix (suf ++ [c]) (x ++ ds) = none := by
  obtain ⟨pre, d, rfl, hd⟩ := digits_last hds
  rw [← List.append_assoc]
  apply matchSuffix_none_of_last
  intro h
  rw [h, hd] at hc
  exact absurd hc (by decide)

theorem matchSuffixDigits_append {b : Str} (suf : Str) {c : Char} {ds : Str}
    (hb : dotPlus b = true) (hc : isDigit c = false) (hds : isDigits ds = true) :
    matchSuffixDigits (suf ++ [c]) (b ++ (suf ++ [c]) ++ ds) = some b := by
  unfold matchSuffixDigits
  have h : b ++ (suf ++ [c]) ++ ds = (b ++ suf) ++ [c] ++ ds := by simp
  rw [h, stripDigits_append _ hc hds]
  have h2 : b ++ suf ++ [c] = b ++ (suf ++ [c]) := by simp
  rw [h2]
  exact matchSuffix_append _ hb

/-! ## Lemmas on the lookups in `testData` -/

theorem lookupKey_mem {k : Str} {v : JVal} :
    ∀ {td : List (Str × JVal)}, lookupKey k td = some v → (k, v) ∈ td
  | [], h => by simp [lookupKey] at h
  | (k2, v2) :: r, h => by
    rw [lookupKey] at h
    by_cases hk : k2 = k
    · rw [if_pos hk] at h
      simp only [Option.some.injEq] at h
      rw [hk, h]
      exact List.mem_cons_self _ _
    · rw [if_neg hk] at h
      exact List.mem_cons_of_mem _ (lookupKey_mem h)

/-- In a mapping whose collections are sequences, `testData[k]` is truthy
exactly when `k` names a collection or a property of `Object.prototype`. -/
theorem propTruthy_of_sequences {td : List (Str × JVal)} (hseq : sequences td = true) (k : Str) :
    propTruthy td k = (hasCollection td k || objectPrototypeKeys.contains k) := by
  unfold propTruthy hasCollection
  cases h : lookupKey k td with
  | none => simp
  | some v =>
    have hv : isArray v = true := List.all_eq_true.mp hseq (k, v) (lookupKey_mem h)
    cases v with
    | arr r xs => rfl
    | null => simp [isArray] at hv
    | bool b => simp [isArray] at hv
    | num n => simp [isArray] at hv
    | str s => simp [isArray] at hv
    | obj r kvs => simp [isArray] at hv

/-- No property of `Object.prototype` has a name that ends with one of the
suffixes of the patterns, or with a digit. -/
theorem objectPrototypeKeys_suffix :
    ∀ k ∈ objectPrototypeKeys, stripSuffix "_id".toList k = none ∧
      stripSuffix "s".toList k = none ∧ stripSuffix "_name".toList k = none ∧
      stripSuffix "_names".toList k = none ∧ stripDigits k = none := by
  decide

theorem not_inherited_of_suffix (b : Str) {suf : Str}
    (h : ∀ k ∈ objectPrototypeKeys, stripSuffix suf k = none) :
    objectPrototypeKeys.contains (b ++ suf) = false := by
  rw [Bool.eq_false_iff]
  intro hc
  have hm : b ++ suf ∈ objectPrototypeKeys := by simpa using hc
  have := h _ hm
  rw [stripSuffix_append] at this
  exact absurd this (by simp)

theorem not_inherited_of_digits (x : Str) {c : Char} {ds : Str} (hc : isDigit c = false)
    (hds : isDigits ds = true) : objectPrototypeKeys.contains (x ++ [c] ++ ds) = false := by
  rw [Bool.eq_false_iff]
  intro h
  have hm : x ++ [c] ++ ds ∈ objectPrototypeKeys := by simpa using h
  have := (objectPrototypeKeys_suffix _ hm).2.2.2.2
  rw [stripDigits_append x hc hds] at this
  exact absurd this (by simp)

theorem not_inherited_idForm {b t : Str} (h : IdForm b t) :
    objectPrototypeKeys.contains t = false := by
  cases h with
  | plain => exact not_inherited_of_suffix b (fun k hk => (objectPrototypeKeys_suffix k hk).1)
  | digits ds hds =>
    have : b ++ "_id".toList ++ ds = (b ++ "_i".toList) ++ [Char.ofNat 100] ++ ds := by simp
    rw [this]
    exact not_inherited_of_digits _ (by decide) hds
  | sepDigits ds hds =>
    have : b ++ "_id_".toList ++ ds = (b ++ "_id".toList) ++ [Char.ofNat 95] ++ ds := by simp
    rw [this]
    exact not_inherited_of_digits _ (by decide) hds

theorem not_inherited_nameForm {b t : Str} (h : NameForm b t) :
    objectPrototypeKeys.contains t = false := by
  cases h with
  | name => exact not_inherited_of_suffix b (fun k hk => (objectPrototypeKeys_suffix k hk).2.2.1)
  | names => exact not_inherited_of_suffix b (fun k hk => (objectPrototypeKeys_suffix k hk).2.2.2.1)

/-- The first truthy candidate among `x`, `y`, `b` is the first one that names a
collection, when `x` and `y` are not inherited names and some candidate names a
collection. -/
theorem find_candidates {td : List (Str × JVal)} (hseq : sequences td = true) {x y b : Str}
    (hx : objectPrototypeKeys.contains x = false) (hy : objectPrototypeKeys.contains y = false)
    (hex : ∃ k ∈ [x, y, b], hasCollection td k = true) :
    [x, y, b].find? (propTruthy td) = [x, y, b].find? (hasCollection td) := by
  have px := propTruthy_of_sequences hseq x
  have py := propTruthy_of_sequences hseq y
  have pb := propTruthy_of_sequences hseq b
  rw [hx, Bool.or_false] at px
  rw [hy, Bool.or_false] at py
  simp only [List.find?, px, py]
  cases h1 : hasCollection td x with
  | true => rfl
  | false =>
    cases h2 : hasCollection td y with
    | true => rfl
    | false =>
      have h3 : hasCollection td b = true := by
        obtain ⟨k, hk, hc⟩ := hex
        simp only [List.mem_cons, List.mem_singleton, List.not_mem_nil, or_false] at hk
        rcases hk with rfl | rfl | rfl
        · rw [h1] at hc; exact absurd hc (by decide)
        · rw [h2] at hc; exact absurd hc (by decide)
        · exact hc
      simp only [pb, h3, Bool.true_or]

/-! ## The pattern loops on tokens of the claimed forms -/

/-- After the trailing digits are taken off, the text must end with the suffix
of the pattern. -/
theorem matchSuffixDigits_none_of_mismatch (suf x : Str) {c d : Char} {ds : Str} (h : c ≠ d)
    (hd : isDigit d = false) (hds : isDigits ds = true) :
    matchSuffixDigits (suf ++ [c]) (x ++ [d] ++ ds) = none := by
  unfold matchSuffixDigits
  rw [stripDigits_append x hd hds]
  exact matchSuffix_none_of_last suf x h

theorem firstSome_one (o : Option Str) :
    firstSome [o, none, none] = o ∧ firstSome [none, o, none] = o ∧
      firstSome [none, none, o] = o ∧ firstSome [o, none] = o ∧ firstSome [none, o] = o := by
  cases o <;> exact ⟨rfl, rfl, rfl, rfl, rfl⟩

theorem idStep_of_form (td : List (Str × JVal)) {b t : Str} (hb : dotPlus b = true)
    (h : IdForm b t) : idStep td t = (idCandidates b).find? (propTruthy td) := by
  have hd : isDigit (Char.ofNat 100) = false := by decide
  have hu : isDigit (Char.ofNat 95) = false := by decide
  unfold idStep
  cases h with
  | plain =>
    have e1 := @matchSuffix_append b "_id".toList hb
    have e2 : matchSuffixDigits "_id".toList (b ++ "_id".toList) = none := by
      have := matchSuffixDigits_none_of_last "_id".toList (b ++ "_i".toList) hd
      simpa using this
    have e3 : matchSuffixDigits "_id_".toList (b ++ "_id".toList) = none := by
      have := matchSuffixDigits_none_of_last "_id_".toList (b ++ "_i".toList) hd
      simpa using this
    rw [e1, e2, e3]
    exact (firstSome_one _).1
  | digits ds hds =>
    have e1 : matchSuffix "_id".toList (b ++ "_id".toList ++ ds) = none :=
      matchSuffix_none_of_digits "_i".toList (b ++ "_id".toList) hd hds
    have e2 : matchSuffixDigits "_id".toList (b ++ "_id".toList ++ ds) = some b :=
      @matchSuffixDigits_append b "_i".toList _ ds hb hd hds
    have e3 : matchSuffixDigits "_id_".toList (b ++ "_id".toList ++ ds) = none := by
      have := @matchSuffixDigits_none_of_mismatch "_id".toList (b ++ "_i".toList)
        (Char.ofNat 95) (Char.ofNat 100) ds (by decide) hd hds
      simpa using this
    rw [e1, e2, e3]
    exact (firstSome_one _).2.1
  | sepDigits ds hds =>
    have e1 : matchSuffix "_id".toList (b ++ "_id_".toList ++ ds) = none :=
      matchSuffix_none_of_digits "_i".toList (b ++ "_id_".toList) hd hds
    have e2 : matchSuffixDigits "_id".toList (b ++ "_id_".toList ++ ds) = none := by
      have := @matchSuffixDigits_none_of_mismatch "_i".toList (b ++ "_id".toList)
        (Char.ofNat 100) (Char.ofNat 95) ds (by decide) hu hds
      simpa using this
    have e3 : matchSuffixDigits "_id_".toList (b ++ "_id_".toList ++ ds) = some b :=
      @matchSuffixDigits_append b "_id".toList _ ds hb hu hds
    rw [e1, e2, e3]
    exact (firstSome_one _).2.2.1

theorem idStep_of_nameForm (td : List (Str × JVal)) {b t : Str} (h : NameForm b t) :
    idStep td t = none := by
  have he : isDigit (Char.ofNat 101) = false := by decide
  have hs : isDigit (Char.ofNat 115) = false := by decide
  unfold idStep
  cases h with
  | name =>
    have e1 : matchSuffix "_id".toList (b ++ "_name".toList) = none := by
      have := @matchSuffix_none_of_last "_i".toList (b ++ "_nam".toList) (Char.ofNat 100)
        (Char.ofNat 101) (by decide)
      simpa using this
    have e2 : ∀ suf, matchSuffixDigits suf (b ++ "_name".toList) = none := by
      intro suf
      have := matchSuffixDigits_none_of_last suf (b ++ "_nam".toList) he
      simpa using this
    rw [e1, e2, e2]
    rfl
  | names =>
    have e1 : matchSuffix "_id".toList (b ++ "_names".toList) = none := by
      have := @matchSuffix_none_of_last "_i".toList (b ++ "_name".toList) (Char.ofNat 100)
        (Char.ofNat 115) (by decide)
      simpa using this
    have e2 : ∀ suf, matchSuffixDigits suf (b ++ "_names".toList) = none := by
      intro suf
      have := matchSuffixDigits_none_of_last suf (b ++ "_name".toList) hs
      simpa using this
    rw [e1, e2, e2]
    rfl

theorem nameStep_of_form (td : List (Str × JVal)) {b t : Str} (hb : dotPlus b = true)
    (h : NameForm b t) : nameStep td t = (nameCandidates b).find? (propTruthy td) := by
  unfold nameStep
  cases h with
  | name =>
    have e1 := @matchSuffix_append b "_name".toList hb
    have e2 : matchSuffix "_names".toList (b ++ "_name".toList) = none := by
      have := @matchSuffix_none_of_last "_name".toList (b ++ "_nam".toList) (Char.ofNat 115)
        (Char.ofNat 101) (by decide)
      simpa using this
    rw [e1, e2]
    exact (firstSome_one _).2.2.2.1
  | names =>
    have e1 : matchSuffix "_name".toList (b ++ "_names".toList) = none := by
      have := @matchSuffix_none_of_last "_nam".toList (b ++ "_name".toList) (Char.ofNat 101)
        (Char.ofNat 115) (by decide)
      simpa using this
    have e2 := @matchSuffix_append b "_names".toList hb
    rw [e1, e2]
    exact (firstSome_one _).2.2.2.2

theorem not_inherited_of_token {td : List (Str × JVal)} (hseq : sequences td = true) {t : Str}
    (hp : objectPrototypeKeys.contains t = false) (hnot : hasCollection td t = false) :
    propTruthy td t = false := by
  rw [propTruthy_of_sequences hseq, hp, hnot]
  rfl

theorem find_of_exists {p : Str → Bool} {l : List Str} (h : ∃ k ∈ l, p k = true) :
    ∃ k, l.find? p = some k := by
  cases hf : l.find? p with
  | some k => exact ⟨k, rfl⟩
  | none =>
    obtain ⟨k, hk, hpk⟩ := h
    have := List.find?_eq_none.mp hf k hk
    rw [hpk] at this
    exact absurd rfl this

/-! ## Claim C23: exact match -/

/-- C23. For every token `t` and every test-data mapping that has a collection
(a sequence) named exactly `t`, `getDataKeyForVariable` returns `t`, whatever
other collections the mapping has. -/
theorem exact_match_first (td : List (Str × JVal)) (t : Str) (r : Nat) (xs : List JVal)
    (h : lookupKey t td = some (.arr r xs)) : getDataKeyForVariable (some td) t = t := by
  have hp : propTruthy td t = true := by
    unfold propTruthy
    rw [h]
    rfl
  unfold getDataKeyForVariable
  simp only [hp, if_true]

/-- C23, witness: `user_id` names a collection of `tdSample`. -/
theorem exact_match_first_witness :
    getDataKeyForVariable (some tdSample) "user_id".toList = "user_id".toList :=
  exact_match_first tdSample "user_id".toList 1 [.num 1, .num 2] rfl

/-! ## Claim C24: the id patterns -/

/-- C24, counterexample: for the base `x<LF>` and the token `x<LF>_id`, the
mapping `tdLineFeed` has the collection `x<LF>s`, the second candidate, and
`getDataKeyForVariable` returns the token: the group `(.+)` of the id patterns
does not match a line feed. -/
theorem id_pattern_line_feed_counterexample :
    (idCandidates lfBase).find? (hasCollection tdLineFeed) = some (lfBase ++ "s".toList) ∧
      hasCollection tdLineFeed (lfBase ++ "_id".toList) = false ∧
      getDataKeyForVariable (some tdLineFeed) (lfBase ++ "_id".toList) =
        lfBase ++ "_id".toList := by
  decide

/-- C24, amended. For every base `b` that is a non-empty text without line
terminator (what `(.+)` matches) and every token `t` of the form `b_id`,
`b_id<digits>` or `b_id_<digits>` that is not itself a collection name,
`getDataKeyForVariable` returns the first of `b_id`, `bs`, `b` that names a
collection of the mapping (a mapping of sequences), when at least one of them
does. -/
theorem id_pattern_candidates (td : List (Str × JVal)) (b t : Str) (hb : dotPlus b = true)
    (ht : IdForm b t) (hseq : sequences td = true) (hnot : hasCollection td t = false)
    (hex : ∃ k ∈ idCandidates b, hasCollection td k = true) :
    some (getDataKeyForVariable (some td) t) = (idCandidates b).find? (hasCollection td) := by
  have h1 : propTruthy td t = false :=
    not_inherited_of_token hseq (not_inherited_idForm ht) hnot
  have h2 : idStep td t = (idCandidates b).find? (hasCollection td) := by
    rw [idStep_of_form td hb ht]
    exact find_candidates hseq
      (not_inherited_of_suffix b (fun k hk => (objectPrototypeKeys_suffix k hk).1))
      (not_inherited_of_suffix b (fun k hk => (objectPrototypeKeys_suffix k hk).2.1)) hex
  obtain ⟨k, hk⟩ := find_of_exists hex
  rw [hk] at h2 ⊢
  unfold getDataKeyForVariable
  simp only [h1, h2, Bool.false_eq_true, if_false]

/-- C24, witness: the token `user_id2` on the base `user`. -/
theorem id_pattern_candidates_witness :
    some (getDataKeyForVariable (some tdSample) ("user".toList ++ "_id".toList ++ "2".toList)) =
      (idCandidates "user".toList).find? (hasCollection tdSample) :=
  id_pattern_candidates tdSample "user".toList _ (by decide) (IdForm.digits "2".toList (by decide))
    (by decide) (by decide) ⟨"user_id".toList, by decide, by decide⟩

/-- The token `user_id2` resolves to the collection `user_id`, `user_id_22`
too, and `product_id` to `products`. -/
theorem id_pattern_examples :
    getDataKeyForVariable (some tdSample) "user_id2".toList = "user_id".toList ∧
      getDataKeyForVariable (some tdSample) "user_id_22".toList = "user_id".toList ∧
      getDataKeyForVariable (some tdSample) "product_id".toList = "products".toList := by
  decide

/-! ## Claim C25: the name patterns -/

/-- C25, counterexample: for the base `x<LF>` and the token `x<LF>_name`, the
mapping `tdLineFeed` has the collection `x<LF>s`, the first candidate, and
`getDataKeyForVariable` returns the token: the group `(.+)` of the name patterns
does not match a line feed. -/
theorem name_pattern_line_feed_counterexample :
    (nameCandidates lfBase).find? (hasCollection tdLineFeed) = some (lfBase ++ "s".toList) ∧
      hasCollection tdLineFeed (lfBase ++ "_name".toList) = false ∧
      getDataKeyForVariable (some tdLineFeed) (lfBase ++ "_name".toList) =
        lfBase ++ "_name".toList := by
  decide

/-- C25, amended. For every base `b` that is a non-empty text without line
terminator and every token `t` of the form `b_name` or `b_names` that is not
itself a collection name, `getDataKeyForVariable` returns the first of `bs`,
`b_names`, `b` that names a collection of the mapping (a mapping of sequences),
when at least one of them does; the id patterns never match such a token. -/
theorem name_pattern_candidates (td : List (Str × JVal)) (b t : Str) (hb : dotPlus b = true)
    (ht : NameForm b t) (hseq : sequences td = true) (hnot : hasCollection td t = false)
    (hex : ∃ k ∈ nameCandidates b, hasCollection td k = true) :
    idStep td t = none ∧
      some (getDataKeyForVariable (some td) t) = (nameCandidates b).find? (hasCollection td) := by
  have h1 : propTruthy td t = false :=
    not_inherited_of_token hseq (not_inherited_nameForm ht) hnot
  have h2 : idStep td t = none := idStep_of_nameForm td ht
  have h3 : nameStep td t = (nameCandidates b).find? (hasCollection td) := by
    rw [nameStep_of_form td hb ht]
    exact find_candidates hseq
      (not_inherited_of_suffix b (fun k hk => (objectPrototypeKeys_suffix k hk).2.1))
      (not_inherited_of_suffix b (fun k hk => (objectPrototypeKeys_suffix k hk).2.2.2.1)) hex
  obtain ⟨k, hk⟩ := find_of_exists hex
  rw [hk] at h3 ⊢
  refine ⟨h2, ?_⟩
  unfold getDataKeyForVariable
  simp only [h1, h2, h3, Bool.false_eq_true, if_false]

/-- C25, witness: the token `product_name` on the base `product`. -/
theorem name_pattern_candidates_witness :
    idStep tdSample ("product".toList ++ "_name".toList) = none ∧
      some (getDataKeyForVariable (some tdSample) ("product".toList ++ "_name".toList)) =
        (nameCandidates "product".toList).find? (hasCollection tdSample) :=
  name_pattern_candidates tdSample "product".toList _ (by decide) NameForm.name (by decide)
    (by decide) ⟨"products".toList, by decide, by decide⟩

/-- The tokens `product_name` and `product_names` resolve to the collection
`products`. -/
theorem name_pattern_examples :
    getDataKeyForVariable (some tdSample) "product_name".toList = "products".toList ∧
      getDataKeyForVariable (some tdSample) "product_names".toList = "products".toList := by
  decide

/-! ## Claim C26: the substring scan -/

/-- C26. For every token `t` that the exact, id-pattern and name-pattern steps
do not resolve, if some collection name is a substring of `t` or contains `t`,
`getDataKeyForVariable` returns the first such name in the enumeration order of
the mapping: the name of the entry `kv` before which no entry has such a name. -/
theorem substring_scan_first (td pre post : List (Str × JVal)) (kv : Str × JVal) (t : Str)
    (h1 : propTruthy td t = false) (h2 : idStep td t = none) (h3 : nameStep td t = none)
    (htd : td = pre ++ kv :: post) (hrel : related t kv.1 = true)
    (hpre : ∀ x ∈ pre, related t x.1 = false) :
    getDataKeyForVariable (some td) t = kv.1 := by
  have hf : td.find? (fun x => related t x.1) = some kv := by
    rw [htd]
    clear htd h1 h2 h3
    induction pre with
    | nil => simp [List.find?, hrel]
    | cons x r ih =>
      have hx := hpre x (List.mem_cons_self x r)
      rw [List.cons_append, List.find?, hx]
      exact ih (fun y hy => hpre y (List.mem_cons_of_mem x hy))
  unfold getDataKeyForVariable
  simp only [h1, h2, h3, hf, Bool.false_eq_true, if_false]

/-- C26, witness: the token `duct` is a substring of `products`, the second
collection name. -/
theorem substring_scan_first_witness :
    getDataKeyForVariable (some tdSample) "duct".toList = "products".toList :=
  substring_scan_first tdSample [("user_id".toList, .arr 1 [.num 1, .num 2])]
    [("city".toList, .arr 3 [])] ("products".toList, .arr 2 [.str "p".toList]) "duct".toList
    (by decide) (by decide) (by decide) rfl (by decide) (by decide)

/-- The scan is symmetric: `my_city_code` contains the collection name `city`. -/
theorem substring_scan_examples :
    getDataKeyForVariable (some tdSample) "my_city_code".toList = "city".toList := by
  decide

/-! ## Claim C27: the fallback -/

/-- C27. For every token `t`, `getDataKeyForVariable` returns `t` itself when the
configuration has no test-data mapping, and when none of the exact, id-pattern,
name-pattern and substring steps resolves the token. -/
theorem fallback_returns_token (td : List (Str × JVal)) (t : Str) :
    getDataKeyForVariable none t = t ∧
      (propTruthy td t = false → idStep td t = none → nameStep td t = none →
        (∀ kv ∈ td, related t kv.1 = false) → getDataKeyForVariable (some td) t = t) := by
  refine ⟨rfl, ?_⟩
  intro h1 h2 h3 h4
  have hf : td.find? (fun x => related t x.1) = none := by
    apply List.find?_eq_none.mpr
    intro x hx
    rw [h4 x hx]
    exact Bool.false_ne_true
  unfold getDataKeyForVariable
  simp only [h1, h2, h3, hf, Bool.false_eq_true, if_false]

/-- C27, witness: the token `zzz` on `tdSample`. -/
theorem fallback_returns_token_witness :
    getDataKeyForVariable (some tdSample) "zzz".toList = "zzz".toList :=
  (fallback_returns_token tdSample "zzz".toList).2 (by decide) (by decide) (by decide)
    (by decide)

/-- A step also resolves a token through a property every record inherits: on
the empty mapping the id-pattern step sends `constructor_id` to `constructor`. -/
theorem inherited_name_resolves :
    getDataKeyForVariable (some []) "constructor_id".toList = "constructor".toList := by
  decide

/-! ## Lemmas on `includes` -/

theorem includesSub_append (a pat b : Str) : includesSub pat (a ++ (pat ++ b)) = true := by
  unfold includesSub
  induction a with
  | nil =>
    cases pat with
    | nil =>
      cases b with
      | nil => rfl
      | cons c cs => simp [findSub, afterLit]
    | cons p ps =>
      have := afterLit_append (p :: ps) b
      simp only [List.nil_append, List.cons_append] at this ⊢
      rw [findSub, this]
      rfl
  | cons c cs ih =>
    rw [List.cons_append, findSub]
    cases afterLit pat (c :: (cs ++ (pat ++ b))) with
    | some r => rfl
    | none =>
      cases hf : findSub pat (cs ++ (pat ++ b)) with
      | none => rw [hf] at ih; exact absurd ih (by decide)
      | some x => rfl

theorem exists_of_includesSub {pat : Str} :
    ∀ {s : Str}, includesSub pat s = true → ∃ a b, s = a ++ (pat ++ b)
  | [], h => by
    unfold includesSub at h
    rw [findSub] at h
    by_cases hp : pat = []
    · exact ⟨[], [], by simp [hp]⟩
    · rw [if_neg hp] at h
      exact absurd h (by decide)
  | c :: cs, h => by
    unfold includesSub at h
    rw [findSub] at h
    cases ha : afterLit pat (c :: cs) with
    | some r => exact ⟨[], r, by simpa using afterLit_eq_some.mp ha⟩
    | none =>
      rw [ha] at h
      have h2 : includesSub pat cs = true := by
        unfold includesSub
        cases hf : findSub pat cs with
        | none => simp [hf] at h
        | some x => rfl
      obtain ⟨a, b, hab⟩ := exists_of_includesSub h2
      exact ⟨c :: a, b, by rw [hab]; rfl⟩

/-- A text that contains `p ++ q` contains `p`. -/
theorem includesSub_of_longer (p q : Str) {s : Str} (h : includesSub (p ++ q) s = true) :
    includesSub p s = true := by
  obtain ⟨a, b, hab⟩ := exists_of_includesSub h
  rw [hab, List.append_assoc]
  exact includesSub_append a p (q ++ b)

theorem includesSub_self (t : Str) : includesSub t t = true := by
  have := includesSub_append [] t []
  simpa using this

/-! ## Claim C28: the kind of synthetic data -/

/-- The kind `detectDataType` returns is the kind of the first matching rule. -/
theorem detectDataType_eq_first (lower : Str → Str) (t : Str) :
    detectDataType lower t = firstMatchingRule lower t := by
  have hts : includesSub "time".toList (lower t) = false →
      includesSub "timestamp".toList (lower t) = false := by
    intro h
    cases h2 : includesSub "timestamp".toList (lower t) with
    | false => rfl
    | true =>
      have := @includesSub_of_longer "time".toList "stamp".toList (lower t) h2
      rw [this] at h
      exact absurd h (by decide)
  unfold detectDataType firstMatchingRule typeRules
  simp only [List.find?, List.any_cons, List.any_nil, Bool.or_false]
  cases h1 : (includesSub "uuid".toList (lower t) || includesSub "guid".toList (lower t)) with
  | true => rfl
  | false =>
    cases h2 : includesSub "email".toList (lower t) with
    | true => rfl
    | false =>
      cases h3 : includesSub "date".toList (lower t) with
      | true => rfl
      | false =>
        cases h4 : includesSub "time".toList (lower t) with
        | true => rfl
        | false =>
          have h5 := hts h4
          simp only [h5, Bool.or_self, Bool.false_eq_true, if_false]
          cases h6 : (includesSub "id".toList (lower t) ||
              (includesSub "number".toList (lower t) || includesSub "count".toList (lower t))) with
          | true =>
            have h6b : (includesSub "id".toList (lower t) ||
                includesSub "number".toList (lower t) ||
                includesSub "count".toList (lower t)) = true := by
              rw [Bool.or_assoc]; exact h6
            simp only [h6b, if_true]
          | false =>
            have h6b : (includesSub "id".toList (lower t) ||
                includesSub "number".toList (lower t) ||
                includesSub "count".toList (lower t)) = false := by
              rw [Bool.or_assoc]; exact h6
            simp only [h6b, Bool.false_eq_true, if_false]
            cases h7 : (includesSub "name".toList (lower t) ||
                (includesSub "title".toList (lower t) ||
                  includesSub "description".toList (lower t))) with
            | true => simp
            | false => simp

/-- C28. For every token, `detectDataType` is the kind of the first rule of the
list (uuid or guid: `uuid`; email: `email`; date or time: `date`; id, number or
count: `number`; name, title or description: `string`) that matches the
lower-cased token, and `string` when no rule matches. -/
theorem detectDataType_first_rule (lower : Str → Str) (t : Str) :
    detectDataType lower t = firstMatchingRule lower t :=
  detectDataType_eq_first lower t

/-- The tokens `order_uuid` and `widget_id`, as in claim C28. -/
theorem detectDataType_examples :
    detectDataType asciiLower "order_uuid".toList = "uuid".toList ∧
      detectDataType asciiLower "widget_id".toList = "number".toList ∧
      detectDataType asciiLower "Created_Date".toList = "date".toList ∧
      detectDataType asciiLower "zone".toList = "string".toList := by
  decide

/-! ## Claim C29: tokens that contain `timestamp` -/

/-- For every token whose lower-cased form contains `timestamp` and none of
`uuid`, `guid`, `email`, `detectDataType` returns `date`: the test for `time`
comes first. -/
theorem detectDataType_timestamp_is_date (lower : Str → Str) (t : Str)
    (hts : includesSub "timestamp".toList (lower t) = true)
    (h1 : includesSub "uuid".toList (lower t) = false)
    (h2 : includesSub "guid".toList (lower t) = false)
    (h3 : includesSub "email".toList (lower t) = false) :
    detectDataType lower t = "date".toList := by
  have h4 := @includesSub_of_longer "time".toList "stamp".toList (lower t) hts
  unfold detectDataType
  simp only [h1, h2, h3, h4, Bool.or_self, Bool.or_true, Bool.false_eq_true, if_false, if_true]

/-- The kind `timestamp` is never returned. -/
theorem detectDataType_never_timestamp (lower : Str → Str) (t : Str) :
    detectDataType lower t ≠ "timestamp".toList := by
  rw [detectDataType_eq_first]
  unfold firstMatchingRule
  cases hf : typeRules.find? (fun r => r.1.any (fun w => includesSub w (lower t))) with
  | none => decide
  | some r =>
    have hm := List.mem_of_find?_eq_some hf
    have hall : ∀ x ∈ typeRules, x.2 ≠ "timestamp".toList := by decide
    exact hall r hm

/-- C29. The token `created_timestamp`, whose lower-cased form contains
`timestamp` and none of `uuid`, `guid`, `email`, gets the kind `date`, not
`timestamp`: the branch for `timestamp` stands after the test for `time` and is
never reached. -/
theorem detectDataType_created_timestamp :
    includesSub "timestamp".toList (asciiLower "created_timestamp".toList) = true ∧
      detectDataType asciiLower "created_timestamp".toList = "date".toList := by
  decide

/-! ## Claim C30: one resolution per token -/

/-- The two statements are different texts. -/
theorem lookupStatement_ne_synthStatement (v k kind : Str) :
    lookupStatement v k ≠ synthStatement v kind := by
  unfold lookupStatement synthStatement
  intro h
  simp only [List.append_assoc] at h
  have h2 := List.append_cancel_left h
  simp at h2

theorem detectDataType_kind (lower : Str → Str) (t : Str) :
    detectDataType lower t ∈ dataKinds := by
  rw [detectDataType_eq_first]
  unfold firstMatchingRule
  cases hf : typeRules.find? (fun r => r.1.any (fun w => includesSub w (lower t))) with
  | none => decide
  | some r =>
    have hm := List.mem_of_find?_eq_some hf
    have hall : ∀ x ∈ typeRules, x.2 ∈ dataKinds := by decide
    exact hall r hm

/-- The statement emitted for a token is a lookup in a name that is either a
collection of the mapping or a property inherited from `Object.prototype`, or
else a synthesis of one of the listed kinds. -/
theorem substitution_outcome (lower : Str → Str) (td : List (Str × JVal)) (t : Str)
    (hseq : sequences td = true) :
    (∃ k, substitutionStatement lower (some td) t = lookupStatement t k ∧
        (hasCollection td k = true ∨ k ∈ objectPrototypeKeys)) ∨
      (∃ kind ∈ dataKinds, substitutionStatement lower (some td) t = synthStatement t kind) := by
  unfold substitutionStatement
  simp only
  by_cases hf : propTruthy td (getDataKeyForVariable (some td) t) = true
  · left
    refine ⟨getDataKeyForVariable (some td) t, by rw [if_pos hf], ?_⟩
    rw [propTruthy_of_sequences hseq, Bool.or_eq_true] at hf
    rcases hf with h | h
    · exact Or.inl h
    · exact Or.inr (by simpa using h)
  · right
    exact ⟨detectDataType lower t, detectDataType_kind lower t, by rw [if_neg hf]⟩

/-- C30. For the token `constructor` the emitted substitution is the lookup
`getRandomData(constructor)`, although the mapping has no collection of that
name: `testData['constructor']` reads the property every record inherits from
`Object.prototype`, which is truthy. -/
theorem substitution_inherited_name :
    substitutionStatement asciiLower (some tdSample) "constructor".toList =
        lookupStatement "constructor".toList "constructor".toList ∧
      hasCollection tdSample "constructor".toList = false := by
  decide

/-- The statements of `tdSample`: a lookup for `user_id2`, a synthesis for
`zone_time`. -/
theorem substitution_examples :
    substitutionStatement asciiLower (some tdSample) "user_id2".toList =
        lookupStatement "user_id2".toList "user_id".toList ∧
      substitutionStatement asciiLower (some tdSample) "zone_time".toList =
        synthStatement "zone_time".toList "date".toList := by
  decide

/-! ## Claim C34: a synthesis means that no collection name is related -/

theorem firstSome_mem {l : List (Option Str)} {k : Str} (h : firstSome l = some k) :
    some k ∈ l := by
  induction l with
  | nil => simp [firstSome] at h
  | cons o r ih =>
    cases o with
    | some x =>
      simp only [firstSome, Option.some.injEq] at h
      rw [h]
      exact List.mem_cons_self _ _
    | none =>
      simp only [firstSome] at h
      exact List.mem_cons_of_mem _ (ih h)

theorem tryPattern_truthy {td : List (Str × JVal)} {cands : Str → List Str} {m : Option Str}
    {k : Str} (h : tryPattern td cands m = some k) : propTruthy td k = true := by
  cases m with
  | none => simp [tryPattern] at h
  | some b =>
    simp only [tryPattern] at h
    have := List.find?_some h
    exact this

theorem idStep_truthy {td : List (Str × JVal)} {t k : Str} (h : idStep td t = some k) :
    propTruthy td k = true := by
  unfold idStep at h
  have hm := firstSome_mem h
  simp only [List.mem_cons, List.mem_singleton, List.not_mem_nil, or_false] at hm
  rcases hm with hm | hm | hm <;> exact tryPattern_truthy hm.symm

theorem nameStep_truthy {td : List (Str × JVal)} {t k : Str} (h : nameStep td t = some k) :
    propTruthy td k = true := by
  unfold nameStep at h
  have hm := firstSome_mem h
  simp only [List.mem_cons, List.mem_singleton, List.not_mem_nil, or_false] at hm
  rcases hm with hm | hm <;> exact tryPattern_truthy hm.symm

theorem hasCollection_of_mem {td : List (Str × JVal)} {kv : Str × JVal} (h : kv ∈ td) :
    hasCollection td kv.1 = true := by
  unfold hasCollection
  induction td with
  | nil => cases h
  | cons x r ih =>
    obtain ⟨k2, v2⟩ := x
    rw [lookupKey]
    by_cases hk : k2 = kv.1
    · rw [if_pos hk]; rfl
    · rw [if_neg hk]
      rcases List.mem_cons.mp h with rfl | h
      · exact absurd rfl hk
      · exact ih h

/-- When some collection name is related to the token, the key the token
resolves to has a truthy value in the mapping. -/
theorem resolved_of_related {td : List (Str × JVal)} (hseq : sequences td = true) {t : Str}
    (h : ∃ kv ∈ td, related t kv.1 = true) :
    propTruthy td (getDataKeyForVariable (some td) t) = true := by
  unfold getDataKeyForVariable
  by_cases h1 : propTruthy td t = true
  · simp only [h1, if_true]
  · simp only [h1, Bool.false_eq_true, if_false]
    cases h2 : idStep td t with
    | some k => exact idStep_truthy h2
    | none =>
      cases h3 : nameStep td t with
      | some k => exact nameStep_truthy h3
      | none =>
        cases h4 : td.find? (fun kv => related t kv.1) with
        | some kv =>
          simp only
          rw [propTruthy_of_sequences hseq, hasCollection_of_mem (List.mem_of_find?_eq_some h4)]
          rfl
        | none =>
          obtain ⟨kv, hkv, hr⟩ := h
          have := List.find?_eq_none.mp h4 kv hkv
          exact absurd hr this

/-- C34. For every token `t` and every test-data mapping whose collections are
all sequences, if the statement emitted for `t` is a synthesis, then no
collection name equals `t`, is a substring of `t`, or contains `t`. -/
theorem synthesis_means_unrelated (lower : Str → Str) (td : List (Str × JVal)) (t kind : Str)
    (hseq : sequences td = true)
    (hs : substitutionStatement lower (some td) t = synthStatement t kind) :
    ∀ kv ∈ td, kv.1 ≠ t ∧ includesSub kv.1 t = false ∧ includesSub t kv.1 = false := by
  have hno : ∀ kv ∈ td, related t kv.1 = false := by
    intro kv hkv
    cases hr : related t kv.1 with
    | false => rfl
    | true =>
      exfalso
      have hf := resolved_of_related hseq ⟨kv, hkv, hr⟩
      unfold substitutionStatement at hs
      simp only [hf, if_true] at hs
      exact lookupStatement_ne_synthStatement _ _ _ hs
  intro kv hkv
  have hr := hno kv hkv
  simp only [related, Bool.or_eq_false_iff] at hr
  refine ⟨?_, hr.2, hr.1⟩
  intro he
  have := includesSub_self t
  rw [← he] at this
  rw [he] at hr
  rw [he] at this
  rw [this] at hr
  exact absurd hr.1 (by decide)

/-- C34, witness: the token `zone_time` on `tdSample` is synthesised, and the
collection `user_id` is unrelated to it. -/
theorem synthesis_means_unrelated_witness :
    "user_id".toList ≠ "zone_time".toList ∧
      includesSub "user_id".toList "zone_time".toList = false ∧
      includesSub "zone_time".toList "user_id".toList = false :=
  synthesis_means_unrelated asciiLower tdSample "zone_time".toList "date".toList (by decide)
    (by decide) ("user_id".toList, .arr 1 [.num 1, .num 2]) (List.mem_cons_self _ _)

/-! ## Lemmas on `matchAll` -/

theorem matchAllGo_skip (m : Str → Option (List Str × Nat)) :
    ∀ (k : Nat) (s : Str), matchAllGo m k s = matchAllGo m 0 (s.drop k)
  | 0, s => by simp
  | k + 1, [] => by simp [matchAllGo]
  | k + 1, c :: cs => by
    simp only [matchAllGo, List.drop_succ_cons]
    exact matchAllGo_skip m k cs

theorem matchAll_quiet {m : Str → Option (List Str × Nat)} {a b : Str} (hm : NeedsOpen m)
    (hq : Quiet a b) : matchAll m (a ++ b) = matchAll m b := by
  induction a with
  | nil => rfl
  | cons c cs ih =>
    have h0 : m (c :: (cs ++ b)) = none := hm _ hq.head
    unfold matchAll at ih ⊢
    rw [List.cons_append, matchAllGo, h0]
    exact ih hq.tail

theorem matchAll_of_match {m : Str → Option (List Str × Nat)} {s : Str} {caps : List Str}
    {len : Nat} (h : m s = some (caps, len)) (hs : s ≠ []) (hlen : 0 < len) :
    matchAll m s = s.take len :: matchAll m (s.drop len) := by
  cases s with
  | nil => exact absurd rfl hs
  | cons c cs =>
    unfold matchAll
    rw [matchAllGo, h]
    simp only
    rw [matchAllGo_skip]
    obtain ⟨n, rfl⟩ : ∃ n, len = n + 1 := ⟨len - 1, by omega⟩
    simp

theorem matchAll_none {m : Str → Option (List Str × Nat)} {s : Str} (hm : NeedsOpen m)
    (h : hasOpen s = false) : matchAll m s = [] := by
  have := matchAll_quiet hm (quiet_nil_right h)
  simpa [matchAll, matchAllGo] using this

theorem isPlaceholder_spec {t : Str} (h : isPlaceholder t = true) :
    t ≠ [] ∧ (∀ c ∈ t, notClose c = true) ∧ stripBraces t = t := by
  simp only [isPlaceholder, Bool.and_eq_true, Bool.not_eq_true', List.isEmpty_eq_false,
    List.all_eq_true, bne_iff_ne, ne_eq] at h
  refine ⟨h.1, fun c hc => by simpa [notClose] using (h.2 c hc).2, ?_⟩
  unfold stripBraces
  apply List.filter_eq_self.mpr
  intro c hc
  simp [h.2 c hc]

theorem stripBraces_marker {t : Str} (h : isPlaceholder t = true) : stripBraces (marker t) = t := by
  have h3 := (isPlaceholder_spec h).2.2
  unfold stripBraces at h3 ⊢
  unfold marker
  simp only [List.filter_cons, List.filter_append, h3]
  simp [cOpen, cClose]

/-- The matches of the inline regex in a marker `{{t}}` followed by `rest`: the
marker, then the matches of `rest`. -/
theorem matchAll_marker {t : Str} (rest : Str) (h : isPlaceholder t = true) :
    matchAll matchInline (marker t ++ rest) = marker t :: matchAll matchInline rest := by
  obtain ⟨hne, hnc, -⟩ := isPlaceholder_spec h
  have hm := matchInline_open rest hne hnc
  have he : marker t ++ rest = cOpen :: cOpen :: (t ++ ("\x7d\x7d".toList ++ rest)) := by
    simp [marker, cClose]
  have hl : (marker t).length = t.length + 4 := by simp [marker]
  rw [he, matchAll_of_match hm (by simp) (by omega), ← he, ← hl, List.take_left, List.drop_left]

/-! ## Claim C31: a token that occurs twice in a path -/

/-- C31, counterexample: the path `/u/{{user_id}}/v/{{user_id}}` repeats one
token and yields two statements, not one. -/
theorem repeated_token_counterexample :
    substitutionStatements asciiLower (some tdSample)
        "/u/\x7b\x7buser_id\x7d\x7d/v/\x7b\x7buser_id\x7d\x7d".toList =
      [lookupStatement "user_id".toList "user_id".toList,
        lookupStatement "user_id".toList "user_id".toList] := by
  decide

/-- C31, amended. Every occurrence of a placeholder in an endpoint path yields
one emitted statement, the same one for the same token: a path `L{{t}}M{{t}}R`
that repeats the token `t` (with `L` and `M` without `{` and `R` without `{{`)
yields two identical statements for it. -/
theorem repeated_token_two_statements (lower : Str → Str) (td : Option (List (Str × JVal)))
    (L M R t : Str) (hL : isLiteral L = true) (hM : isLiteral M = true)
    (hR : hasOpen R = false) (ht : isPlaceholder t = true) :
    substitutionStatements lower td (L ++ marker t ++ M ++ marker t ++ R) =
      [substitutionStatement lower td t, substitutionStatement lower td t] := by
  have hp : L ++ marker t ++ M ++ marker t ++ R =
      L ++ (marker t ++ (M ++ (marker t ++ R))) := by simp
  have hi : includesSub "\x7b\x7b".toList (L ++ (marker t ++ (M ++ (marker t ++ R)))) = true := by
    have := includesSub_append L "\x7b\x7b".toList (t ++ [cClose, cClose] ++ (M ++ (marker t ++ R)))
    simpa [marker, cOpen] using this
  have hv : pathVariables (L ++ (marker t ++ (M ++ (marker t ++ R)))) = [t, t] := by
    unfold pathVariables
    rw [if_pos hi, matchAll_quiet needsOpen_matchInline (quiet_of_no_open_char _ (isLiteral_spec hL)),
      matchAll_marker _ ht,
      matchAll_quiet needsOpen_matchInline (quiet_of_no_open_char _ (isLiteral_spec hM)),
      matchAll_marker _ ht, matchAll_none needsOpen_matchInline hR]
    simp [stripBraces_marker ht]
  unfold substitutionStatements
  rw [hp, hv]
  rfl

/-- C31, witness: the path `/u/{{id}}/v/{{id}}`. -/
theorem repeated_token_two_statements_witness :
    substitutionStatements asciiLower none
        ("/u/".toList ++ marker "id".toList ++ "/v/".toList ++ marker "id".toList ++ []) =
      [substitutionStatement asciiLower none "id".toList,
        substitutionStatement asciiLower none "id".toList] :=
  repeated_token_two_statements asciiLower none "/u/".toList "/v/".toList [] "id".toList
    (by decide) (by decide) (by decide) (by decide)

/-! ## Claim C35: the names of the import list -/

/-- C35. For an endpoint whose path is `/x/{{zone}}` and the mapping `tdSample`,
the import list holds the name `zone`, which names no collection of the
mapping: the data key of every placeholder is added to the list, also when it
is the fallback (the token itself). -/
theorem import_of_missing_collection :
    templateDataImports (some tdSample) ["/x/\x7b\x7bzone\x7d\x7d".toList] = ["zone".toList] ∧
      hasCollection tdSample "zone".toList = false := by
  decide

/-- A placeholder that resolves to a collection is imported under the name of
that collection, once for all its occurrences. -/
theorem import_examples :
    templateDataImports (some tdSample)
        ["/u/\x7b\x7buser_id\x7d\x7d/v/\x7b\x7buser_id2\x7d\x7d".toList,
          "/p/\x7b\x7bproduct_name\x7d\x7d".toList, "/plain".toList] =
      ["user_id".toList, "products".toList] := by
  decide

/-! ## Claim C32: `@key` in sequence mode -/

theorem firstKey_eq_keyText {x : JVal} (h : notNull x = true) : firstKey x = some (keyText x) := by
  cases x with
  | null => exact absurd h (by decide)
  | bool b => rfl
  | num n => rfl
  | str s => cases s <;> rfl
  | arr r xs => cases xs <;> rfl
  | obj r kvs =>
    cases kvs with
    | nil => rfl
    | cons kv t => rfl

/-- One iteration of the body `{{@key}}` over an element whose key text has no
`$` and no `{{`. -/
theorem renderSeqItem_key (up : Char → Str) (len k : Nat) (x : JVal) (key : Str)
    (hx : firstKey x = some key) (hd : hasDollar key = false) (ho : hasOpen key = false) :
    renderSeqItem up mKey len k x = some key := by
  have e1 : ∀ J, replaceLit mThis J mKey = mKey := fun _ => rfl
  have e2 : ∀ J, replaceLit mIndex J mKey = mKey := fun _ => rfl
  have e3 : ∀ J, replaceLit mKey J mKey = expandDollar [] mKey [] J ++ [] := fun _ => rfl
  unfold renderSeqItem
  simp only [hx, e1, e2, e3, expandDollar_id _ _ _ hd, List.append_nil]
  rw [(replaceLit_id_markers _ ho).2.2.2]
  exact replaceFn_id _ needsOpen_matchInline ho

/-- C32, counterexample: over the list `[1, "a", {k: true}]` the template
`{{#each ys}}{{@key}}{{/each}}` renders `0k`: the string element gives `0`, not
the empty string. -/
theorem each_key_counterexample :
    compile asciiUpper (blockTemplate "each".toList "ys".toList mKey) ctxSample =
      some "0k".toList := by
  rfl

/-- C32, amended. For every list at `p` without `null` element,
`{{#each p}}{{@key}}{{/each}}` renders, per element in order, the first field
name of a record, `0` for a string or a list that is not empty, and the empty
string for every other element (number, boolean, empty string, empty list,
empty record), provided the field names have no `$` and the text has no `{{`. -/
theorem each_key_first_key (up : Char → Str) (ctx : JVal) (p : Str) (r : Nat) (xs : List JVal)
    (hp : isPathText p = true)
    (hv : evaluateExpression up (trim p) ctx = some (.arr r xs))
    (hnn : xs.all notNull = true)
    (hd : xs.all (fun x => !hasDollar (keyText x)) = true)
    (hout : hasOpen (xs.flatMap keyText) = false) :
    compile up (blockTemplate "each".toList p mKey) ctx = some (xs.flatMap keyText) := by
  refine compile_of_each ?_ hout
  rw [eachPass_seq up ctx hp (by decide) hv]
  apply mapJoin_flatMap
  intro k x hx
  have hdx : hasDollar (keyText x) = false := by
    simpa using List.all_eq_true.mp hd x hx
  exact renderSeqItem_key up _ k x _ (firstKey_eq_keyText (List.all_eq_true.mp hnn x hx)) hdx
    (hasOpen_flatMap hout x hx)

/-- C32, witness: the list `[1, "a", {k: true}]`. -/
theorem each_key_first_key_witness :
    compile asciiUpper (blockTemplate "each".toList "ys".toList mKey) ctxSample =
      some ([.num 1, .str "a".toList, .obj 6 [("k".toList, .bool true)]].flatMap keyText) :=
  each_key_first_key asciiUpper ctxSample "ys".toList 5
    [.num 1, .str "a".toList, .obj 6 [("k".toList, .bool true)]]
    (by decide) rfl rfl (by decide) (by decide)

/-! ## Claim C33: an `if` nested inside an `if` -/

/-- The text of `tplNestedIf` after the match of the outer open marker with the
first close marker. -/
theorem tplNestedIf_match :
    matchBlock "if".toList tplNestedIf =
        some (["a".toList, "X\x7b\x7b#if b\x7d\x7dY".toList], 27) ∧
      tplNestedIf.drop 27 = "Z\x7b\x7b/if\x7d\x7d".toList := by
  decide

/-- C33, counterexample: in the context `ctxCloseField`, where `a` is `false` and
a field named `/if` holds the text `Q`, the template renders `ZQ`, not `Z`: the
inline pass looks the close marker that is left up as a field of the
context. -/
theorem nested_if_counterexample :
    toBoolean (valueAt "a".toList ctxCloseField) = false ∧
      compile asciiUpper tplNestedIf ctxCloseField = some "ZQ".toList := by
  decide

/-- C33, amended. For every context without own fields named `#if b`, `/if` or
`hasOwnProperty`, the template `{{#if a}}X{{#if b}}Y{{/if}}Z{{/if}}` renders
`XYZ` when `a` is truthy and `Z` when `a` is falsy or absent, whatever `b`
holds: the outer open marker pairs with the first close marker, and the inline
pass removes the two markers that are left. -/
theorem nested_if_pairs_lazily (up : Char → Str) (ctx : JVal)
    (h1 : getOwn ctx "#if b".toList = none) (h2 : getOwn ctx "/if".toList = none)
    (h0 : shadowed ctx = false) :
    compile up tplNestedIf ctx =
      some (if toBoolean (valueAt "a".toList ctx) then "XYZ".toList else "Z".toList) := by
  have e1 : replaceFn (matchBlock "each".toList) (eachBlock up ctx) tplNestedIf =
      some tplNestedIf := rfl
  have e2 : replaceFn (matchBlock "if".toList) (ifBlock up ctx) "Z\x7b\x7b/if\x7d\x7d".toList =
      some "Z\x7b\x7b/if\x7d\x7d".toList := rfl
  have e3 : evaluateExpression up (trim "a".toList) ctx = some (valueAt "a".toList ctx) :=
    evaluateExpression_walk up ctx (by decide) (plainPath_one h0)
  have e4 : includesSub mElse "X\x7b\x7b#if b\x7d\x7dY".toList = false := by decide
  have e5 : ∀ s, replaceFn matchInline (inlineValue up ctx) s =
      replaceFn matchInline (fun _ => some []) s ∨
        s.tails.all (fun b =>
          match matchInline b with
          | some (c, _) => decide (c ∈ [["#if b".toList], ["/if".toList]])
          | none => true) = false := by
    intro s
    by_cases hs : s.tails.all (fun b =>
        match matchInline b with
        | some (c, _) => decide (c ∈ [["#if b".toList], ["/if".toList]])
        | none => true) = true
    · left
      apply replaceFn_congr [["#if b".toList], ["/if".toList]] hs
      intro c hc
      simp only [List.mem_cons, List.mem_singleton, List.not_mem_nil, or_false] at hc
      rcases hc with rfl | rfl
      · exact inlineValue_absent up ctx _ (by decide) (by decide) h1 h0
      · exact inlineValue_absent up ctx _ (by decide) (by decide) h2 h0
    · right
      simpa using hs
  unfold compile
  rw [e1]
  simp only
  rw [replaceFn_of_match tplNestedIf_match.1 (by decide) (by decide), tplNestedIf_match.2, e2,
    ifBlock_caps, e3]
  simp only [e4, Bool.false_eq_true, if_false]
  by_cases hb : toBoolean (valueAt "a".toList ctx) = true
  · simp only [hb, if_true]
    have u : replaceFn (matchBlock "unless".toList) (unlessBlock up ctx)
        ("X\x7b\x7b#if b\x7d\x7dY".toList ++ "Z\x7b\x7b/if\x7d\x7d".toList) =
        some "X\x7b\x7b#if b\x7d\x7dYZ\x7b\x7b/if\x7d\x7d".toList := rfl
    rw [u]
    simp only
    rcases e5 "X\x7b\x7b#if b\x7d\x7dYZ\x7b\x7b/if\x7d\x7d".toList with h | h
    · rw [h]; rfl
    · exact absurd h (by decide)
  · simp only [hb, Bool.false_eq_true, if_false]
    have u : replaceFn (matchBlock "unless".toList) (unlessBlock up ctx)
        ([] ++ "Z\x7b\x7b/if\x7d\x7d".toList) = some "Z\x7b\x7b/if\x7d\x7d".toList := rfl
    rw [u]
    simp only
    rcases e5 "Z\x7b\x7b/if\x7d\x7d".toList with h | h
    · rw [h]; rfl
    · exact absurd h (by decide)

/-- C33, witness: a context in which `a` is truthy and `b` is falsy renders
`XYZ`. -/
theorem nested_if_pairs_lazily_witness :
    compile asciiUpper tplNestedIf (.obj 0 [("a".toList, .num 1), ("b".toList, .bool false)]) =
      some "XYZ".toList :=
  nested_if_pairs_lazily asciiUpper (.obj 0 [("a".toList, .num 1), ("b".toList, .bool false)])
    rfl rfl rfl

/-- The four cases of `a` and `b`. -/
theorem nested_if_examples (up : Char → Str) :
    compile up tplNestedIf (.obj 0 [("a".toList, .bool true), ("b".toList, .bool true)]) =
        some "XYZ".toList ∧
      compile up tplNestedIf (.obj 0 [("a".toList, .bool true), ("b".toList, .bool false)]) =
        some "XYZ".toList ∧
      compile up tplNestedIf (.obj 0 [("a".toList, .bool false), ("b".toList, .bool true)]) =
        some "Z".toList ∧
      compile up tplNestedIf (.obj 0 [("b".toList, .bool true)]) = some "Z".toList :=
  ⟨rfl, rfl, rfl, rfl⟩

/-! ## Claim C36: placeholders in the data of a sequence-mode `each` -/

/-- C36. For the one endpoint whose path is `/u/{{user_id}}`, the template
`{{#each apiEndpoints}}{{path}}{{/each}}` renders `/u/`, not the path: the text
the `each` pass has produced is scanned by the later passes, and the inline
pass replaces the placeholder by the value of `user_id` in the root context,
here the empty string. -/
theorem each_path_placeholder_lost (up : Char → Str) :
    compile up (blockTemplate "each".toList "apiEndpoints".toList (marker "path".toList))
        ctxEndpoints = some "/u/".toList ∧
      fieldText "path".toList (.obj 2 [("name".toList, .str "getUser".toList),
        ("path".toList, .str "/u/\x7b\x7buser_id\x7d\x7d".toList)]) =
        "/u/\x7b\x7buser_id\x7d\x7d".toList :=
  ⟨rfl, rfl⟩

/-- The statement `generateAPIFilesDirect` emits for that path replaces the
placeholder `{{user_id}}` in the endpoint text at run time: it relies on the
placeholder being there. -/
theorem placeholder_expected_by_statement :
    substitutionStatements asciiLower none "/u/\x7b\x7buser_id\x7d\x7d".toList =
      [synthStatement "user_id".toList "number".toList] := by
  decide

/-! ## Lemmas on named properties -/

theorem fieldOf_setField_same (k : Str) (v : CVal) :
    ∀ kvs : List (Str × CVal), fieldOf k (setField k v kvs) = some v
  | [] => by simp [setField, fieldOf]
  | (k2, v2) :: r => by
    rw [setField]
    by_cases h : k2 = k
    · rw [if_pos h, fieldOf, if_pos rfl]
    · rw [if_neg h, fieldOf, if_neg h]
      exact fieldOf_setField_same k v r

theorem fieldOf_setField_ne {k k2 : Str} (v : CVal) (h : k2 ≠ k) :
    ∀ kvs : List (Str × CVal), fieldOf k2 (setField k v kvs) = fieldOf k2 kvs
  | [] => by
    have hk : ¬ k = k2 := fun e => h e.symm
    simp [setField, fieldOf, hk]
  | (k3, v3) :: r => by
    have hk : ¬ k = k2 := fun e => h e.symm
    by_cases h3 : k3 = k
    · simp [setField, fieldOf, h3, hk]
    · simp [setField, fieldOf, h3, fieldOf_setField_ne v h r]

theorem setField_same {k : Str} {v : CVal} :
    ∀ {kvs : List (Str × CVal)}, fieldOf k kvs = some v → setField k v kvs = kvs
  | [], h => by simp [fieldOf] at h
  | (k2, v2) :: r, h => by
    rw [fieldOf] at h
    rw [setField]
    by_cases h2 : k2 = k
    · rw [if_pos h2] at h ⊢
      rw [h2, Option.some.inj h]
    · rw [if_neg h2] at h ⊢
      rw [setField_same h]

theorem setField_twice (k : Str) (a b : CVal) :
    ∀ kvs : List (Str × CVal), setField k a (setField k b kvs) = setField k a kvs
  | [] => by simp [setField]
  | (k2, v2) :: r => by
    rw [setField]
    by_cases h2 : k2 = k
    · rw [if_pos h2, setField, if_pos rfl, setField, if_pos h2]
    · rw [if_neg h2, setField, if_neg h2, setField, if_neg h2, setField_twice k a b r]

/-! ## The clone of a value of JSON -/

mutual
theorem strip_of_json : ∀ v : CVal, json v = true → strip v = v
  | .null, _ => rfl
  | .bool _, _ => rfl
  | .num _, _ => rfl
  | .str _, _ => rfl
  | .arr xs props, h => by
    rw [json, Bool.and_eq_true] at h
    rw [strip, stripList_of_json xs h.2]
    cases props with
    | nil => rfl
    | cons p ps => exact absurd h.1 (by simp)
  | .obj kvs, h => by
    rw [json] at h
    rw [strip, stripFields_of_json kvs h]
theorem stripList_of_json : ∀ xs : List CVal, jsonList xs = true → stripList xs = xs
  | [], _ => rfl
  | x :: r, h => by
    rw [jsonList, Bool.and_eq_true] at h
    rw [stripList, strip_of_json x h.1, stripList_of_json r h.2]
theorem stripFields_of_json : ∀ kvs : List (Str × CVal), jsonFields kvs = true →
    stripFields kvs = kvs
  | [], _ => rfl
  | kv :: r, h => by
    rw [jsonFields, Bool.and_eq_true] at h
    rw [stripFields, stripField_of_json kv h.1, stripFields_of_json r h.2]
theorem stripField_of_json : ∀ kv : Str × CVal, jsonField kv = true → stripField kv = kv
  | (k, v), h => by
    rw [jsonField] at h
    rw [stripField, strip_of_json v h]
end

theorem fieldOf_stripFields (k : Str) :
    ∀ kvs : List (Str × CVal), fieldOf k (stripFields kvs) = (fieldOf k kvs).map strip
  | [] => rfl
  | (k2, v) :: r => by
    rw [stripFields, stripField, fieldOf, fieldOf]
    by_cases h : k2 = k
    · rw [if_pos h, if_pos h]; rfl
    · rw [if_neg h, if_neg h]
      exact fieldOf_stripFields k r

theorem json_of_fieldOf {k : Str} {v : CVal} :
    ∀ {kvs : List (Str × CVal)}, jsonFields kvs = true → fieldOf k kvs = some v → json v = true
  | [], _, h => by simp [fieldOf] at h
  | (k2, v2) :: r, hj, h => by
    rw [jsonFields, Bool.and_eq_true, jsonField] at hj
    rw [fieldOf] at h
    by_cases h2 : k2 = k
    · rw [if_pos h2] at h
      rw [← Option.some.inj h]
      exact hj.1
    · rw [if_neg h2] at h
      exact json_of_fieldOf hj.2 h

theorem jsonFields_setField {k : Str} {v : CVal} (hv : json v = true) :
    ∀ {kvs : List (Str × CVal)}, jsonFields kvs = true → jsonFields (setField k v kvs) = true
  | [], _ => by
    rw [setField, jsonFields, jsonField, hv]
    rfl
  | (k2, v2) :: r, hj => by
    rw [jsonFields, Bool.and_eq_true, jsonField] at hj
    rw [setField]
    by_cases h2 : k2 = k
    · rw [if_pos h2, jsonFields, jsonField, hv, hj.2]
      rfl
    · rw [if_neg h2, jsonFields, jsonField, hj.1, jsonFields_setField hv hj.2]
      rfl

theorem json_of_mem {x : CVal} :
    ∀ {xs : List CVal}, jsonList xs = true → x ∈ xs → json x = true
  | [], _, h => by cases h
  | y :: r, hj, h => by
    rw [jsonList, Bool.and_eq_true] at hj
    rcases List.mem_cons.mp h with rfl | h
    · exact hj.1
    · exact json_of_mem hj.2 h

/-! ## The fields of a record after a second run -/

theorem restore_congr {K K2 : Str → Bool} (h : ∀ x, K x = K2 x) (l : List (Str × CVal)) :
    restore K l = restore K2 l := by
  have : K = K2 := funext h
  rw [this]

theorem restore_none : ∀ l : List (Str × CVal), restore (fun _ => false) l = stripFields l
  | [] => rfl
  | (k, v) :: r => by
    rw [restore, stripFields, stripField]
    have h : restore (fun x => (fun _ => false) x && !(x == k)) r = restore (fun _ => false) r :=
      restore_congr (fun x => by simp) r
    rw [h, restore_none r]
    rfl

theorem fieldOf_restore {k : Str} :
    ∀ (l : List (Str × CVal)) (K : Str → Bool), K k = false →
      fieldOf k (restore K l) = (fieldOf k l).map strip
  | [], _, _ => rfl
  | (k2, v) :: r, K, h => by
    rw [restore, fieldOf, fieldOf]
    by_cases h2 : k2 = k
    · rw [if_pos h2, if_pos h2, h2, h]
      rfl
    · rw [if_neg h2, if_neg h2]
      exact fieldOf_restore r _ (by simp [h])

theorem restore_add (k : Str) :
    ∀ (l : List (Str × CVal)) (K : Str → Bool),
      restore (fun x => K x || x == k) l =
        match fieldOf k l with
        | some w => setField k w (restore K l)
        | none => restore K l
  | [], _ => rfl
  | (k2, v) :: r, K => by
    rw [restore, restore, fieldOf]
    by_cases h2 : k2 = k
    · rw [if_pos h2]
      simp only
      rw [setField, if_pos h2, h2]
      have e1 : (K k || k == k) = true := by simp
      rw [e1, if_pos rfl]
      have e2 : restore (fun x => (K x || x == k) && !(x == k)) r =
          restore (fun x => K x && !(x == k)) r :=
        restore_congr (fun x => by cases K x <;> cases h : (x == k) <;> simp [h]) r
      rw [e2]
    · rw [if_neg h2]
      have hb : (k2 == k) = false := by simpa using h2
      have e1 : (K k2 || k2 == k) = K k2 := by rw [hb]; simp
      rw [e1]
      have e2 : restore (fun x => (K x || x == k) && !(x == k2)) r =
          restore (fun x => (K x && !(x == k2)) || x == k) r := by
        apply restore_congr
        intro x
        by_cases hx : x = k
        · have hx2 : (x == k2) = false := by
            rw [hx]; simpa using fun e : k = k2 => h2 e.symm
          simp [hx] at hx2 ⊢
          simp [hx2]
        · have hxb : (x == k) = false := by simpa using hx
          simp [hxb]
      rw [e2, restore_add k r (fun x => K x && !(x == k2))]
      cases fieldOf k r with
      | none => rfl
      | some w =>
        simp only
        rw [setField, if_neg h2]

theorem restore_eq :
    ∀ (l : List (Str × CVal)) (K : Str → Bool), JsonExcept K l → restore K l = l
  | [], _, _ => rfl
  | (k, v) :: r, K, h => by
    obtain ⟨h1, h2⟩ := h
    rw [restore, restore_eq r _ h2]
    by_cases hk : K k = true
    · rw [if_pos hk]
    · rw [if_neg hk]
      rcases h1 with h1 | h1
      · rw [strip_of_json v h1]
      · exact absurd h1 hk

theorem jsonExcept_mono {K K2 : Str → Bool} (h : ∀ x, K x = true → K2 x = true) :
    ∀ l : List (Str × CVal), JsonExcept K l → JsonExcept K2 l
  | [], _ => trivial
  | (k, v) :: r, hj => by
    obtain ⟨h1, h2⟩ := hj
    refine ⟨h1.imp id (h k), ?_⟩
    refine jsonExcept_mono ?_ r h2
    intro x hx
    simp only [Bool.and_eq_true] at hx ⊢
    exact ⟨h x hx.1, hx.2⟩

theorem jsonExcept_of_json : ∀ (l : List (Str × CVal)) (K : Str → Bool),
    jsonFields l = true → JsonExcept K l
  | [], _, _ => trivial
  | (k, v) :: r, K, h => by
    rw [jsonFields, Bool.and_eq_true, jsonField] at h
    exact ⟨Or.inl h.1, jsonExcept_of_json r _ h.2⟩

theorem jsonExcept_setField {k : Str} (w : CVal) :
    ∀ (l : List (Str × CVal)) (K : Str → Bool), K k = true → JsonExcept K l →
      JsonExcept K (setField k w l)
  | [], K, hk, _ => ⟨Or.inr hk, trivial⟩
  | (k2, v) :: r, K, hk, h => by
    obtain ⟨h1, h2⟩ := h
    rw [setField]
    by_cases h2k : k2 = k
    · rw [if_pos h2k]
      refine ⟨Or.inr hk, ?_⟩
      rw [← h2k]
      exact h2
    · rw [if_neg h2k]
      refine ⟨h1, jsonExcept_setField w r _ ?_ h2⟩
      have : (k == k2) = false := by simpa using fun e : k = k2 => h2k e.symm
      simp [hk, this]

/-! ## The defaults of a record or an array -/

theorem sameKind_of_prop {x : CVal} {k : Str} (h : truthyU (getProp x k) = true) :
    sameKind x x := by
  cases x with
  | arr xs ps => exact rfl
  | obj l => exact trivial
  | null => exact absurd (show false = true from h) (by decide)
  | bool b => exact absurd (show false = true from h) (by decide)
  | num n => exact absurd (show false = true from h) (by decide)
  | str s => exact absurd (show false = true from h) (by decide)

theorem sameKind_of_isSome {x : CVal} {k : Str} (h : (getProp x k).isSome = true) :
    sameKind x x := by
  cases x with
  | arr xs ps => exact rfl
  | obj l => exact trivial
  | null => exact absurd (show false = true from h) (by decide)
  | bool b => exact absurd (show false = true from h) (by decide)
  | num n => exact absurd (show false = true from h) (by decide)
  | str s => exact absurd (show false = true from h) (by decide)

theorem sameKind_trans {x y z : CVal} (h1 : sameKind x y) (h2 : sameKind y z) :
    sameKind x z := by
  cases x <;> cases y <;> cases z <;>
    first
    | exact h1.elim
    | exact h2.elim
    | exact trivial
    | exact Eq.trans h1 h2

theorem setProp_sameKind {k : Str} {v x y : CVal} (h : setProp k v x = some y) :
    sameKind x y := by
  cases x with
  | arr xs ps =>
    rw [setProp] at h
    rw [← Option.some.inj h]
    exact rfl
  | obj l =>
    rw [setProp] at h
    rw [← Option.some.inj h]
    exact trivial
  | null => cases h
  | bool b => cases h
  | num n => cases h
  | str s => cases h

theorem setDefault_sameKind {k : Str} {d x y : CVal} (h : setDefault k d x = some y) :
    sameKind x y := by
  unfold setDefault at h
  by_cases ht : truthyU (getProp x k) = true
  · rw [if_pos ht] at h
    rw [← Option.some.inj h]
    exact sameKind_of_prop ht
  · rw [if_neg ht] at h
    exact setProp_sameKind h

theorem setDefaultMsg_sameKind {k : Str} {d : CVal} {n : Option CVal} {x y : CVal}
    (h : setDefaultMsg k d n x = some y) : sameKind x y := by
  unfold setDefaultMsg at h
  by_cases ht : truthyU (getProp x k) = true
  · rw [if_pos ht] at h
    rw [← Option.some.inj h]
    exact sameKind_of_prop ht
  · rw [if_neg ht] at h
    cases hs : setProp k d x with
    | none => rw [hs] at h; cases h
    | some o2 =>
      rw [hs] at h
      cases hn : cTextU n with
      | none => rw [hn] at h; cases h
      | some t =>
        rw [hn] at h
        rw [← Option.some.inj h]
        exact setProp_sameKind hs

theorem setDefaultMsg_of_truthy {k : Str} {d : CVal} {n : Option CVal} {x : CVal}
    (h : truthyU (getProp x k) = true) : setDefaultMsg k d n x = some x := by
  unfold setDefaultMsg
  rw [if_pos h]

theorem setDefault_of_truthy {k : Str} {d x : CVal}
    (h : truthyU (getProp x k) = true) : setDefault k d x = some x := by
  unfold setDefault
  rw [if_pos h]

/-- The default on a record: the field is truthy afterwards, the other fields
are as before, and a record of JSON stays one. -/
theorem setDefaultMsg_obj {k : Str} {d : CVal} {n : Option CVal} {l : List (Str × CVal)}
    {s : CVal} (hd : truthy d = true) (hjd : json d = true)
    (h : setDefaultMsg k d n (.obj l) = some s) :
    ∃ l1, s = .obj l1 ∧ truthyU (fieldOf k l1) = true ∧
      (∀ k2, k2 ≠ k → fieldOf k2 l1 = fieldOf k2 l) ∧
      (jsonFields l = true → jsonFields l1 = true) := by
  unfold setDefaultMsg at h
  by_cases ht : truthyU (getProp (.obj l) k) = true
  · rw [if_pos ht] at h
    exact ⟨l, (Option.some.inj h).symm, ht, fun _ _ => rfl, id⟩
  · rw [if_neg ht] at h
    rw [setProp] at h
    simp only at h
    cases hn : cTextU n with
    | none => rw [hn] at h; cases h
    | some t =>
      rw [hn] at h
      refine ⟨setField k d l, (Option.some.inj h).symm, ?_, ?_, jsonFields_setField hjd⟩
      · rw [fieldOf_setField_same]; exact hd
      · intro k2 h2
        exact fieldOf_setField_ne d h2 l

theorem setDefault_obj {k : Str} {d : CVal} {l : List (Str × CVal)}
    {s : CVal} (hd : truthy d = true) (hjd : json d = true)
    (h : setDefault k d (.obj l) = some s) :
    ∃ l1, s = .obj l1 ∧ truthyU (fieldOf k l1) = true ∧
      (∀ k2, k2 ≠ k → fieldOf k2 l1 = fieldOf k2 l) ∧
      (jsonFields l = true → jsonFields l1 = true) ∧ (l1 = l ∨ l1 = setField k d l) := by
  unfold setDefault at h
  by_cases ht : truthyU (getProp (.obj l) k) = true
  · rw [if_pos ht] at h
    exact ⟨l, (Option.some.inj h).symm, ht, fun _ _ => rfl, id, Or.inl rfl⟩
  · rw [if_neg ht] at h
    rw [setProp] at h
    refine ⟨setField k d l, (Option.some.inj h).symm, ?_, ?_, jsonFields_setField hjd,
      Or.inr rfl⟩
    · rw [fieldOf_setField_same]; exact hd
    · intro k2 h2
      exact fieldOf_setField_ne d h2 l

/-- A chain of defaults, run on the clone of its own result, gives that result
again: an array gets its named properties back, a record has them all. -/
theorem refix_of_chain (G : CVal → Option CVal)
    (hk : ∀ x y, G x = some y → sameKind x y)
    (ho : ∀ l y, jsonFields l = true → G (.obj l) = some y → json y = true ∧ G y = some y)
    (x y : CVal) (hj : json x = true) (h : G x = some y) : G (strip y) = some y := by
  have hs := hk x y h
  cases x with
  | arr xs ps =>
    cases y with
    | arr ys qs =>
      have e : xs = ys := hs
      subst e
      rw [json, Bool.and_eq_true] at hj
      have hp : ps = [] := by
        cases ps with
        | nil => rfl
        | cons p r => exact absurd hj.1 (by simp)
      rw [hp] at h
      rw [strip, stripList_of_json xs hj.2]
      exact h
    | null => exact hs.elim
    | bool b => exact hs.elim
    | num n => exact hs.elim
    | str s => exact hs.elim
    | obj l => exact hs.elim
  | obj l =>
    rw [json] at hj
    obtain ⟨h1, h2⟩ := ho l y hj h
    rw [strip_of_json y h1]
    exact h2
  | null => cases y <;> exact hs.elim
  | bool b => cases y <;> exact hs.elim
  | num n => cases y <;> exact hs.elim
  | str s => cases y <;> exact hs.elim

theorem truthy_of_sameKind {x y : CVal} (h : sameKind x y) : truthy y = true := by
  cases x <;> cases y <;> first | exact h.elim | rfl

theorem truthy_strip_of_sameKind {x y : CVal} (h : sameKind x y) : truthy (strip y) = true := by
  cases x <;> cases y <;> first | exact h.elim | rfl

/-! ## Fix 1 on one scenario -/

theorem fixScenario_steps {x y : CVal} (h : fixScenario x = some y) :
    ∃ s1 s2, setDefaultMsg "weight".toList (.num 50) (getProp x "name".toList) x = some s1 ∧
      setDefaultMsg "businessOps".toList (.arr [] []) (getProp x "name".toList) s1 = some s2 ∧
      ((truthyU (getProp s2 "description".toList) = true ∧ y = s2) ∨
        (truthyU (getProp s2 "description".toList) = false ∧
          ∃ t, cTextU (getProp x "name".toList) = some t ∧
            setProp "description".toList (.str ("Test scenario: ".toList ++ t)) s2 = some y)) := by
  have h2 : (match setDefaultMsg "weight".toList (.num 50) (getProp x "name".toList) x with
      | none => none
      | some s1 =>
        match setDefaultMsg "businessOps".toList (.arr [] []) (getProp x "name".toList)
            s1 with
        | none => none
        | some s2 =>
          if truthyU (getProp s2 "description".toList) then some s2
          else
            match cTextU (getProp x "name".toList) with
            | none => none
            | some name =>
              setProp "description".toList (.str ("Test scenario: ".toList ++ name)) s2) =
        some y := by
    cases x with
    | null => cases h
    | _ => exact h
  cases h1 : setDefaultMsg "weight".toList (.num 50) (getProp x "name".toList) x with
  | none => rw [h1] at h2; cases h2
  | some s1 =>
    rw [h1] at h2
    simp only at h2
    cases h3 : setDefaultMsg "businessOps".toList (.arr [] []) (getProp x "name".toList)
        s1 with
    | none => rw [h3] at h2; cases h2
    | some s2 =>
      rw [h3] at h2
      simp only at h2
      refine ⟨s1, s2, rfl, h3, ?_⟩
      by_cases ht : truthyU (getProp s2 "description".toList) = true
      · rw [if_pos ht] at h2
        exact Or.inl ⟨ht, (Option.some.inj h2).symm⟩
      · rw [if_neg ht] at h2
        cases hn : cTextU (getProp x "name".toList) with
        | none => rw [hn] at h2; cases h2
        | some t =>
          rw [hn] at h2
          exact Or.inr ⟨by simpa using ht, t, rfl, h2⟩

theorem fixScenario_sameKind (x y : CVal) (h : fixScenario x = some y) : sameKind x y := by
  obtain ⟨s1, s2, h1, h2, h3⟩ := fixScenario_steps h
  refine sameKind_trans (setDefaultMsg_sameKind h1) (sameKind_trans (setDefaultMsg_sameKind h2) ?_)
  rcases h3 with ⟨ht, e⟩ | ⟨-, t, -, hs⟩
  · rw [e]
    exact sameKind_of_prop ht
  · exact setProp_sameKind hs

/-- A scenario with the three fields truthy is left as it is. -/
theorem fixScenario_of_truthy {x : CVal}
    (hw : truthyU (getProp x "weight".toList) = true)
    (hb : truthyU (getProp x "businessOps".toList) = true)
    (hd : truthyU (getProp x "description".toList) = true) : fixScenario x = some x := by
  have e : fixScenario x =
      (match setDefaultMsg "weight".toList (.num 50) (getProp x "name".toList) x with
      | none => none
      | some s1 =>
        match setDefaultMsg "businessOps".toList (.arr [] []) (getProp x "name".toList)
            s1 with
        | none => none
        | some s2 =>
          if truthyU (getProp s2 "description".toList) then some s2
          else
            match cTextU (getProp x "name".toList) with
            | none => none
            | some name =>
              setProp "description".toList (.str ("Test scenario: ".toList ++ name)) s2) := by
    cases x with
    | null => exact absurd (show false = true from hw) (by decide)
    | _ => rfl
  rw [e, setDefaultMsg_of_truthy hw]
  simp only
  rw [setDefaultMsg_of_truthy hb]
  simp only
  rw [if_pos hd]

theorem fixScenario_obj (l : List (Str × CVal)) (y : CVal) (hj : jsonFields l = true)
    (h : fixScenario (.obj l) = some y) : json y = true ∧ fixScenario y = some y := by
  obtain ⟨s1, s2, h1, h2, h3⟩ := fixScenario_steps h
  obtain ⟨l1, e1, t1, o1, j1⟩ := setDefaultMsg_obj (by rfl) (by rfl) h1
  rw [e1] at h2
  obtain ⟨l2, e2, t2, o2, j2⟩ := setDefaultMsg_obj (by rfl) (by rfl) h2
  rw [e2] at h3
  have w2 : truthyU (fieldOf "weight".toList l2) = true := by
    rw [o2 _ (by decide)]; exact t1
  rcases h3 with ⟨ht, e⟩ | ⟨-, t, -, hs⟩
  · rw [e]
    exact ⟨j2 (j1 hj), fixScenario_of_truthy w2 t2 ht⟩
  · rw [setProp] at hs
    rw [← Option.some.inj hs]
    refine ⟨jsonFields_setField (by rfl) (j2 (j1 hj)), fixScenario_of_truthy ?_ ?_ ?_⟩
    · show truthyU (fieldOf _ (setField _ _ l2)) = true
      rw [fieldOf_setField_ne _ (by decide)]; exact w2
    · show truthyU (fieldOf _ (setField _ _ l2)) = true
      rw [fieldOf_setField_ne _ (by decide)]; exact t2
    · show truthyU (fieldOf _ (setField _ _ l2)) = true
      rw [fieldOf_setField_same]
      rfl

/-- Fix 1 on the clone of a scenario it has fixed gives that scenario again. -/
theorem fixScenario_refix (x y : CVal) (hj : json x = true) (h : fixScenario x = some y) :
    fixScenario (strip y) = some y :=
  refix_of_chain fixScenario fixScenario_sameKind fixScenario_obj x y hj h

/-! ## Fix 2 on one endpoint -/

theorem fixAssertions_steps {n : Option CVal} {a y : CVal} (h : fixAssertions n a = some y) :
    ∃ a1, setDefaultMsg "status".toList (.num 200) n a = some a1 ∧
      setDefaultMsg "responseTime".toList (.num 1000) n a1 = some y := by
  unfold fixAssertions at h
  cases h1 : setDefaultMsg "status".toList (.num 200) n a with
  | none => rw [h1] at h; cases h
  | some a1 =>
    rw [h1] at h
    exact ⟨a1, rfl, h⟩

theorem fixAssertions_sameKind (n : Option CVal) (a y : CVal)
    (h : fixAssertions n a = some y) : sameKind a y := by
  obtain ⟨a1, h1, h2⟩ := fixAssertions_steps h
  exact sameKind_trans (setDefaultMsg_sameKind h1) (setDefaultMsg_sameKind h2)

theorem fixAssertions_of_truthy {n : Option CVal} {a : CVal}
    (hs : truthyU (getProp a "status".toList) = true)
    (hr : truthyU (getProp a "responseTime".toList) = true) : fixAssertions n a = some a := by
  unfold fixAssertions
  rw [setDefaultMsg_of_truthy hs]
  simp only
  rw [setDefaultMsg_of_truthy hr]

theorem fixAssertions_obj (n : Option CVal) (l : List (Str × CVal)) (y : CVal)
    (hj : jsonFields l = true) (h : fixAssertions n (.obj l) = some y) :
    json y = true ∧ fixAssertions n y = some y := by
  obtain ⟨a1, h1, h2⟩ := fixAssertions_steps h
  obtain ⟨l1, e1, t1, o1, j1⟩ := setDefaultMsg_obj (by rfl) (by rfl) h1
  rw [e1] at h2
  obtain ⟨l2, e2, t2, o2, j2⟩ := setDefaultMsg_obj (by rfl) (by rfl) h2
  rw [e2]
  refine ⟨j2 (j1 hj), fixAssertions_of_truthy ?_ t2⟩
  show truthyU (fieldOf _ l2) = true
  rw [o2 _ (by decide)]
  exact t1

theorem fixAssertions_refix (n : Option CVal) (a y : CVal) (hj : json a = true)
    (h : fixAssertions n a = some y) : fixAssertions n (strip y) = some y :=
  refix_of_chain (fixAssertions n) (fixAssertions_sameKind n) (fixAssertions_obj n) a y hj h

/-- Fix 2 on one endpoint, in two steps: the default of `headers`, then the
defaults of `assertions`. -/
theorem fixEndpoint_steps {x y : CVal} (h : fixEndpoint x = some y) :
    ∃ e1, setDefaultMsg "headers".toList defaultHeaders (getProp x "name".toList) x = some e1 ∧
      ((truthyU (getProp e1 "assertions".toList) = false ∧
          setDefaultMsg "assertions".toList defaultAssertions (getProp x "name".toList) e1 =
            some y) ∨
        (∃ a a2, getProp e1 "assertions".toList = some a ∧ truthy a = true ∧
          fixAssertions (getProp x "name".toList) a = some a2 ∧
          setProp "assertions".toList a2 e1 = some y)) := by
  have h2 : (match setDefaultMsg "headers".toList defaultHeaders (getProp x "name".toList)
        x with
      | none => none
      | some e1 =>
        match getProp e1 "assertions".toList with
        | none =>
          setDefaultMsg "assertions".toList defaultAssertions (getProp x "name".toList) e1
        | some a =>
          if truthy a then
            match setDefaultMsg "status".toList (.num 200) (getProp x "name".toList) a with
            | none => none
            | some a1 =>
              match setDefaultMsg "responseTime".toList (.num 1000)
                  (getProp x "name".toList) a1 with
              | none => none
              | some a2 => setProp "assertions".toList a2 e1
          else
            setDefaultMsg "assertions".toList defaultAssertions (getProp x "name".toList)
              e1) = some y := by
    cases x with
    | null => cases h
    | _ => exact h
  cases h1 : setDefaultMsg "headers".toList defaultHeaders (getProp x "name".toList) x with
  | none => rw [h1] at h2; cases h2
  | some e1 =>
    rw [h1] at h2
    simp only at h2
    refine ⟨e1, rfl, ?_⟩
    cases ha : getProp e1 "assertions".toList with
    | none =>
      rw [ha] at h2
      exact Or.inl ⟨rfl, h2⟩
    | some a =>
      rw [ha] at h2
      simp only at h2
      by_cases ht : truthy a = true
      · rw [if_pos ht] at h2
        right
        cases h3 : setDefaultMsg "status".toList (.num 200) (getProp x "name".toList) a with
        | none => rw [h3] at h2; cases h2
        | some a1 =>
          rw [h3] at h2
          simp only at h2
          cases h4 : setDefaultMsg "responseTime".toList (.num 1000)
              (getProp x "name".toList) a1 with
          | none => rw [h4] at h2; cases h2
          | some a2 =>
            rw [h4] at h2
            refine ⟨a, a2, rfl, ht, ?_, h2⟩
            unfold fixAssertions
            rw [h3]
            exact h4
      · rw [if_neg ht] at h2
        exact Or.inl ⟨by simpa [truthyU] using ht, h2⟩

/-- The converse of `fixEndpoint_steps` for an endpoint with truthy `headers`
and truthy `assertions`. -/
theorem fixEndpoint_of_truthy {x a a2 y : CVal}
    (hh : truthyU (getProp x "headers".toList) = true)
    (ha : getProp x "assertions".toList = some a) (ht : truthy a = true)
    (hf : fixAssertions (getProp x "name".toList) a = some a2)
    (hs : setProp "assertions".toList a2 x = some y) : fixEndpoint x = some y := by
  have e : fixEndpoint x =
      (match setDefaultMsg "headers".toList defaultHeaders (getProp x "name".toList)
        x with
      | none => none
      | some e1 =>
        match getProp e1 "assertions".toList with
        | none =>
          setDefaultMsg "assertions".toList defaultAssertions (getProp x "name".toList) e1
        | some a =>
          if truthy a then
            match setDefaultMsg "status".toList (.num 200) (getProp x "name".toList) a with
            | none => none
            | some a1 =>
              match setDefaultMsg "responseTime".toList (.num 1000)
                  (getProp x "name".toList) a1 with
              | none => none
              | some a2 => setProp "assertions".toList a2 e1
          else
            setDefaultMsg "assertions".toList defaultAssertions (getProp x "name".toList)
              e1) := by
    cases x with
    | null => exact absurd (show false = true from hh) (by decide)
    | _ => rfl
  obtain ⟨a1, h1, h2⟩ := fixAssertions_steps hf
  rw [e, setDefaultMsg_of_truthy hh]
  simp only
  rw [ha]
  simp only
  rw [if_pos ht, h1]
  simp only
  rw [h2]
  exact hs

theorem fixEndpoint_sameKind (x y : CVal) (h : fixEndpoint x = some y) : sameKind x y := by
  obtain ⟨e1, h1, h2⟩ := fixEndpoint_steps h
  refine sameKind_trans (setDefaultMsg_sameKind h1) ?_
  rcases h2 with ⟨-, h2⟩ | ⟨a, a2, -, -, -, h2⟩
  · exact setDefaultMsg_sameKind h2
  · exact setProp_sameKind h2

theorem stripFields_setField (k : Str) (v : CVal) :
    ∀ l : List (Str × CVal), stripFields (setField k v l) = setField k (strip v) (stripFields l)
  | [] => rfl
  | (k2, v2) :: r => by
    rw [setField]
    by_cases h : k2 = k
    · rw [if_pos h, stripFields, stripField, stripFields, stripField, setField, if_pos h]
    · rw [if_neg h, stripFields, stripField, stripFields, stripField, setField, if_neg h,
        stripFields_setField k v r]

/-- Fix 2 on the clone of an endpoint it has fixed gives that endpoint again. -/
theorem fixEndpoint_refix (x y : CVal) (hj : json x = true) (h : fixEndpoint x = some y) :
    fixEndpoint (strip y) = some y := by
  have hs := fixEndpoint_sameKind x y h
  cases x with
  | null => cases y <;> exact hs.elim
  | bool b => cases y <;> exact hs.elim
  | num n => cases y <;> exact hs.elim
  | str s => cases y <;> exact hs.elim
  | arr xs ps =>
    cases y with
    | arr ys qs =>
      have e : xs = ys := hs
      subst e
      rw [json, Bool.and_eq_true] at hj
      have hp : ps = [] := by
        cases ps with
        | nil => rfl
        | cons p r => exact absurd hj.1 (by simp)
      rw [hp] at h
      rw [strip, stripList_of_json xs hj.2]
      exact h
    | null => exact hs.elim
    | bool b => exact hs.elim
    | num n => exact hs.elim
    | str s => exact hs.elim
    | obj l => exact hs.elim
  | obj l =>
    rw [json] at hj
    obtain ⟨e1, h1, h2⟩ := fixEndpoint_steps h
    obtain ⟨l1, e, t1, o1, j1⟩ := setDefaultMsg_obj (by rfl) (by rfl) h1
    rw [e] at h2
    have hn : fieldOf "name".toList l1 = fieldOf "name".toList l := o1 _ (by decide)
    rcases h2 with ⟨hf, h2⟩ | ⟨a, a2, ha, ht, hf, h2⟩
    · -- the default record of assertions has been set
      have h3 : y = .obj (setField "assertions".toList defaultAssertions l1) := by
        unfold setDefaultMsg at h2
        rw [hf] at h2
        simp only [Bool.false_eq_true, if_false] at h2
        rw [setProp] at h2
        simp only at h2
        cases hc : cTextU (getProp (.obj l) "name".toList) with
        | none => rw [hc] at h2; cases h2
        | some t =>
          rw [hc] at h2
          exact (Option.some.inj h2).symm
      have jy : json y = true := by
        rw [h3, json]
        exact jsonFields_setField (by rfl) (j1 hj)
      rw [strip_of_json y jy, h3]
      refine @fixEndpoint_of_truthy _ defaultAssertions defaultAssertions _ ?_ ?_ rfl
        (fixAssertions_of_truthy rfl rfl) ?_
      · show truthyU (fieldOf _ (setField _ _ l1)) = true
        rw [fieldOf_setField_ne _ (by decide)]
        exact t1
      · show fieldOf _ (setField _ _ l1) = _
        rw [fieldOf_setField_same]
      · rw [setProp, setField_twice]
    · -- the value of assertions has got its two defaults
      have ha1 : fieldOf "assertions".toList l1 = some a := ha
      have ja : json a = true := json_of_fieldOf (j1 hj) ha1
      rw [setProp] at h2
      have h3 : y = .obj (setField "assertions".toList a2 l1) := (Option.some.inj h2).symm
      have hk := fixAssertions_sameKind _ _ _ hf
      rw [h3, strip, stripFields_setField, stripFields_of_json l1 (j1 hj)]
      refine @fixEndpoint_of_truthy _ (strip a2) a2 _ ?_ ?_
        (truthy_strip_of_sameKind hk) ?_ ?_
      · show truthyU (fieldOf _ (setField _ _ l1)) = true
        rw [fieldOf_setField_ne _ (by decide)]
        exact t1
      · show fieldOf _ (setField _ _ l1) = _
        rw [fieldOf_setField_same]
      · have e2 : getProp (.obj (setField "assertions".toList (strip a2) l1)) "name".toList =
            getProp (.obj l) "name".toList := by
          show fieldOf _ (setField _ _ l1) = fieldOf _ l
          rw [fieldOf_setField_ne _ (by decide)]
          exact hn
        rw [e2]
        exact fixAssertions_refix _ a a2 ja hf
      · rw [setProp, setField_twice]

/-! ## Fix 4 and Fix 5 on the value of the field -/

theorem fixFrameworkValue_steps {x y : CVal} (h : fixFrameworkValue x = some y) :
    ∃ f1 f2, setDefault "logLevel".toList (.str "INFO".toList) x = some f1 ∧
      (((getProp f1 "htmlReporting".toList).isSome = true ∧ f2 = f1) ∨
        ((getProp f1 "htmlReporting".toList).isSome = false ∧
          setProp "htmlReporting".toList (.bool true) f1 = some f2)) ∧
      setDefault "defaultScenario".toList (.num 1) f2 = some y := by
  unfold fixFrameworkValue at h
  cases h1 : setDefault "logLevel".toList (.str "INFO".toList) x with
  | none => rw [h1] at h; cases h
  | some f1 =>
    rw [h1] at h
    simp only at h
    by_cases hs : (getProp f1 "htmlReporting".toList).isSome = true
    · rw [if_pos hs] at h
      exact ⟨f1, f1, rfl, Or.inl ⟨hs, rfl⟩, h⟩
    · rw [if_neg hs] at h
      cases h2 : setProp "htmlReporting".toList (.bool true) f1 with
      | none => rw [h2] at h; cases h
      | some f2 =>
        rw [h2] at h
        exact ⟨f1, f2, rfl, Or.inr ⟨by simpa using hs, h2⟩, h⟩

theorem fixFrameworkValue_sameKind (x y : CVal) (h : fixFrameworkValue x = some y) :
    sameKind x y := by
  obtain ⟨f1, f2, h1, h2, h3⟩ := fixFrameworkValue_steps h
  refine sameKind_trans (setDefault_sameKind h1) (sameKind_trans ?_ (setDefault_sameKind h3))
  rcases h2 with ⟨hs, e⟩ | ⟨-, hs⟩
  · rw [e]
    exact sameKind_of_isSome hs
  · exact setProp_sameKind hs

theorem fixFrameworkValue_of_set {x : CVal}
    (hl : truthyU (getProp x "logLevel".toList) = true)
    (hh : (getProp x "htmlReporting".toList).isSome = true)
    (hd : truthyU (getProp x "defaultScenario".toList) = true) :
    fixFrameworkValue x = some x := by
  unfold fixFrameworkValue
  rw [setDefault_of_truthy hl]
  simp only
  rw [if_pos hh]
  simp only
  rw [setDefault_of_truthy hd]

theorem fixFrameworkValue_obj (l : List (Str × CVal)) (y : CVal) (hj : jsonFields l = true)
    (h : fixFrameworkValue (.obj l) = some y) :
    json y = true ∧ fixFrameworkValue y = some y := by
  obtain ⟨f1, f2, h1, h2, h3⟩ := fixFrameworkValue_steps h
  obtain ⟨l1, e1, t1, o1, j1, -⟩ := setDefault_obj (by rfl) (by rfl) h1
  rw [e1] at h2
  have key : ∃ l2, f2 = .obj l2 ∧ (fieldOf "htmlReporting".toList l2).isSome = true ∧
      truthyU (fieldOf "logLevel".toList l2) = true ∧ jsonFields l2 = true := by
    rcases h2 with ⟨hs, e⟩ | ⟨-, hs⟩
    · exact ⟨l1, e, hs, t1, j1 hj⟩
    · rw [setProp] at hs
      refine ⟨_, (Option.some.inj hs).symm, ?_, ?_, jsonFields_setField (by rfl) (j1 hj)⟩
      · rw [fieldOf_setField_same]; rfl
      · rw [fieldOf_setField_ne _ (by decide)]; exact t1
  obtain ⟨l2, e2, s2, t2, j2⟩ := key
  rw [e2] at h3
  obtain ⟨l3, e3, t3, o3, j3, -⟩ := setDefault_obj (by rfl) (by rfl) h3
  rw [e3]
  refine ⟨j3 j2, fixFrameworkValue_of_set ?_ ?_ t3⟩
  · show truthyU (fieldOf _ l3) = true
    rw [o3 _ (by decide)]
    exact t2
  · show (fieldOf _ l3).isSome = true
    rw [o3 _ (by decide)]
    exact s2

/-- Fix 4 on the clone of a value it has fixed gives that value again. -/
theorem fixFrameworkValue_refix (x y : CVal) (hj : json x = true)
    (h : fixFrameworkValue x = some y) : fixFrameworkValue (strip y) = some y :=
  refix_of_chain fixFrameworkValue fixFrameworkValue_sameKind fixFrameworkValue_obj x y hj h

/-- Fix 5 on the clone of a value it has fixed gives that value again. -/
theorem timeout_refix (x y : CVal) (hj : json x = true)
    (h : setDefault "timeout".toList (.num 30000) x = some y) :
    setDefault "timeout".toList (.num 30000) (strip y) = some y := by
  refine refix_of_chain (setDefault "timeout".toList (.num 30000))
    (fun _ _ h => setDefault_sameKind h) ?_ x y hj h
  intro l y hj h
  obtain ⟨l1, e1, t1, -, j1, -⟩ := setDefault_obj (by rfl) (by rfl) h
  rw [e1]
  exact ⟨j1 hj, setDefault_of_truthy t1⟩

/-! ## Fix 3 on one entry -/

theorem sample_nonempty (lower : Str → Str) (key : Str) :
    generateSampleData lower key ≠ [] := by
  unfold generateSampleData
  cases hf : sampleData.find?
      (fun e => includesSub (removeFirst (Char.ofNat 95) e.1) (lower key)) with
  | none => decide
  | some e =>
    have hm := List.mem_of_find?_eq_some hf
    have hall : ∀ x ∈ sampleData, x.2 ≠ [] := by decide
    exact hall e hm

/-- An array with an element is left as it is by Fix 3. -/
theorem fixEntry_of_filled (lower : Str → Str) (isReal : Bool) (key : Str) (x : CVal)
    (xs : List CVal) (ps : List (Str × CVal)) :
    fixEntry lower isReal key (.arr (x :: xs) ps) = .arr (x :: xs) ps := by
  simp [fixEntry]

theorem strArray_filled (lower : Str → Str) (key : Str) :
    ∃ x xs, strArray (generateSampleData lower key) = .arr (x :: xs) [] := by
  have h := sample_nonempty lower key
  cases hs : generateSampleData lower key with
  | nil => exact absurd hs h
  | cons a t => exact ⟨.str a, t.map CVal.str, by simp [strArray]⟩

theorem jsonList_strs : ∀ xs : List Str, jsonList (xs.map CVal.str) = true
  | [] => rfl
  | x :: r => by
    rw [List.map, jsonList, jsonList_strs r]
    rfl

theorem json_strArray (xs : List Str) : json (strArray xs) = true := by
  rw [strArray, json, jsonList_strs]
  rfl

/-- A second run of Fix 3 on an entry changes nothing. -/
theorem fixEntry_idem (lower : Str → Str) (isReal : Bool) (key : Str) (v : CVal) :
    fixEntry lower isReal key (fixEntry lower isReal key v) = fixEntry lower isReal key v := by
  obtain ⟨sx, sxs, hsa⟩ := strArray_filled lower key
  cases v with
  | arr xs ps =>
    cases xs with
    | nil =>
      cases isReal with
      | true => simp [fixEntry]
      | false =>
        have : fixEntry lower false key (.arr [] ps) =
            strArray (generateSampleData lower key) := by
          simp [fixEntry]
        rw [this, hsa, fixEntry_of_filled]
    | cons x t => rw [fixEntry_of_filled, fixEntry_of_filled]
  | str s =>
    have : fixEntry lower isReal key (.str s) = .arr [.str s] [] := rfl
    rw [this, fixEntry_of_filled]
  | num n =>
    have : fixEntry lower isReal key (.num n) = .arr [.str (numStr n)] [] := rfl
    rw [this, fixEntry_of_filled]
  | null =>
    cases isReal with
    | true => rfl
    | false =>
      have : fixEntry lower false key .null = strArray (generateSampleData lower key) := rfl
      rw [this, hsa, fixEntry_of_filled]
  | bool b =>
    cases isReal with
    | true => rfl
    | false =>
      have : fixEntry lower false key (.bool b) = strArray (generateSampleData lower key) := rfl
      rw [this, hsa, fixEntry_of_filled]
  | obj l =>
    cases isReal with
    | true => rfl
    | false =>
      have : fixEntry lower false key (.obj l) = strArray (generateSampleData lower key) := rfl
      rw [this, hsa, fixEntry_of_filled]

/-- Fix 3 takes an entry of JSON to an entry of JSON. -/
theorem json_fixEntry (lower : Str → Str) (isReal : Bool) (key : Str) (v : CVal)
    (h : json v = true) : json (fixEntry lower isReal key v) = true := by
  cases v with
  | arr xs ps =>
    show json (if (xs.isEmpty && !isReal) = true then strArray (generateSampleData lower key)
      else .arr xs ps) = true
    by_cases hc : (xs.isEmpty && !isReal) = true
    · rw [if_pos hc]; exact json_strArray _
    · rw [if_neg hc]; exact h
  | str s => rfl
  | num n => rfl
  | null =>
    cases isReal with
    | true => rfl
    | false => exact json_strArray _
  | bool b =>
    cases isReal with
    | true => rfl
    | false => exact json_strArray _
  | obj l =>
    cases isReal with
    | true => exact h
    | false => exact json_strArray _

theorem fixFields_idem (lower : Str → Str) (isReal : Bool) :
    ∀ l : List (Str × CVal),
      fixFields lower isReal (fixFields lower isReal l) = fixFields lower isReal l
  | [] => rfl
  | (k, v) :: r => by
    have ih := fixFields_idem lower isReal r
    unfold fixFields at ih ⊢
    rw [List.map, List.map, ih]
    simp only [fixEntry_idem]

theorem jsonFields_fixFields (lower : Str → Str) (isReal : Bool) :
    ∀ l : List (Str × CVal), jsonFields l = true → jsonFields (fixFields lower isReal l) = true
  | [], _ => rfl
  | (k, v) :: r, h => by
    rw [jsonFields, Bool.and_eq_true, jsonField] at h
    have ih := jsonFields_fixFields lower isReal r h.2
    unfold fixFields at ih ⊢
    rw [List.map, jsonFields, jsonField, ih, json_fixEntry lower isReal k v h.1]
    rfl

theorem fieldOf_fixFields (lower : Str → Str) (isReal : Bool) (k : Str) :
    ∀ l : List (Str × CVal),
      fieldOf k (fixFields lower isReal l) = (fieldOf k l).map (fixEntry lower isReal k)
  | [] => rfl
  | (k2, v) :: r => by
    have ih := fieldOf_fixFields lower isReal k r
    unfold fixFields at ih ⊢
    rw [List.map, fieldOf, fieldOf]
    by_cases h : k2 = k
    · rw [if_pos h, if_pos h, h]; rfl
    · rw [if_neg h, if_neg h]
      exact ih

theorem fixElems_idem (lower : Str → Str) (isReal : Bool) :
    ∀ (l : List CVal) (i : Nat),
      fixElems lower isReal i (fixElems lower isReal i l) = fixElems lower isReal i l
  | [], _ => rfl
  | x :: r, i => by
    rw [fixElems, fixElems, fixEntry_idem, fixElems_idem lower isReal r (i + 1)]

theorem jsonList_fixElems (lower : Str → Str) (isReal : Bool) :
    ∀ (l : List CVal) (i : Nat), jsonList l = true → jsonList (fixElems lower isReal i l) = true
  | [], _, _ => rfl
  | x :: r, i, h => by
    rw [jsonList, Bool.and_eq_true] at h
    rw [fixElems, jsonList, json_fixEntry lower isReal _ x h.1,
      jsonList_fixElems lower isReal r (i + 1) h.2]
    rfl

theorem fixElems_keeps_filled (lower : Str → Str) (isReal : Bool) (x : CVal)
    (r : List CVal) (ps : List (Str × CVal)) :
    ∀ (xs : List CVal) (i j : Nat), xs.get? j = some (.arr (x :: r) ps) →
      (fixElems lower isReal i xs).get? j = some (.arr (x :: r) ps)
  | [], _, _, h => by cases h
  | y :: ys, i, 0, h => by
    simp only [List.get?, Option.some.injEq] at h
    rw [h, fixElems, fixEntry_of_filled]
    rfl
  | y :: ys, i, j + 1, h => by
    rw [fixElems]
    exact fixElems_keeps_filled lower isReal x r ps ys (i + 1) j h

/-! ## The five fixes, one top-level field each -/

theorem fieldOf_of_shape {k : Str} {l l2 : List (Str × CVal)}
    (h : l2 = l ∨ ∃ w, l2 = setField k w l) {k2 : Str} (hk : k2 ≠ k) :
    fieldOf k2 l2 = fieldOf k2 l := by
  rcases h with h | ⟨w, h⟩
  · rw [h]
  · rw [h, fieldOf_setField_ne w hk]

theorem jsonExcept_of_shape {k : Str} {l l2 : List (Str × CVal)}
    (h : l2 = l ∨ ∃ w, l2 = setField k w l) {K : Str → Bool} (hk : K k = true)
    (hj : JsonExcept K l) : JsonExcept K l2 := by
  rcases h with h | ⟨w, h⟩
  · rw [h]; exact hj
  · rw [h]; exact jsonExcept_setField w l K hk hj

theorem mapOpt_refix {f : CVal → Option CVal}
    (Hf : ∀ x y, json x = true → f x = some y → f (strip y) = some y) :
    ∀ (xs ys : List CVal), jsonList xs = true → mapOpt f xs = some ys →
      mapOpt f (stripList ys) = some ys
  | [], ys, _, h => by
    rw [mapOpt] at h
    rw [← Option.some.inj h]
    rfl
  | x :: r, ys, hj, h => by
    rw [jsonList, Bool.and_eq_true] at hj
    rw [mapOpt] at h
    cases h1 : f x with
    | none => rw [h1] at h; cases h
    | some y =>
      cases h2 : mapOpt f r with
      | none => rw [h1, h2] at h; cases h
      | some zs =>
        rw [h1, h2] at h
        rw [← Option.some.inj h, stripList, mapOpt, Hf x y hj.1 h1,
          mapOpt_refix Hf r zs hj.2 h2]

/-- Fix 1 and Fix 2 on a record: the fix changes at most the field `k`, and on
the clone of the result it gives the field the same value again. -/
theorem fixEach_top {k : Str} {f : CVal → Option CVal}
    (Hf : ∀ x y, json x = true → f x = some y → f (strip y) = some y)
    {l : List (Str × CVal)} {r : CVal} (h : fixEach k f (.obj l) = some r) :
    ∃ l2, r = .obj l2 ∧ (l2 = l ∨ ∃ w, l2 = setField k w l) ∧
      ((∀ v, fieldOf k l = some v → json v = true) → Refixed (fixEach k f) k (fieldOf k l2)) := by
  unfold fixEach at h
  have hg : getProp (.obj l) k = fieldOf k l := rfl
  rw [hg] at h
  cases hv : fieldOf k l with
  | none =>
    rw [hv] at h
    refine ⟨l, (Option.some.inj h).symm, Or.inl rfl, ?_⟩
    intro _ m hm
    rw [hv] at hm ⊢
    unfold fixEach
    have hg2 : getProp (.obj m) k = none := hm
    rw [hg2]
  | some v =>
    rw [hv] at h
    simp only at h
    by_cases ht : truthy v = true
    · rw [if_pos ht] at h
      cases v with
      | null => cases h
      | bool b => cases h
      | num n => cases h
      | str s => cases h
      | obj kvs => cases h
      | arr xs ps =>
        simp only at h
        by_cases hs : (fieldOf "forEach".toList ps).isSome = true
        · rw [if_pos hs] at h; cases h
        · rw [if_neg hs] at h
          cases hm : mapOpt f xs with
          | none => rw [hm] at h; cases h
          | some ys =>
            rw [hm] at h
            have h2 : some (CVal.obj (setField k (.arr ys ps) l)) = some r := h
            refine ⟨_, (Option.some.inj h2).symm, Or.inr ⟨_, rfl⟩, ?_⟩
            intro hj m hmm
            rw [fieldOf_setField_same] at hmm ⊢
            have jv := hj _ rfl
            rw [json, Bool.and_eq_true] at jv
            have hp : ps = [] := by
              cases ps with
              | nil => rfl
              | cons p r => exact absurd jv.1 (by simp)
            subst hp
            have hg2 : getProp (.obj m) k = some (.arr (stripList ys) []) := hmm
            unfold fixEach
            rw [hg2]
            simp only
            have ht2 : truthy (.arr (stripList ys) []) = true := rfl
            rw [if_pos ht2]
            have hs2 : ¬ (fieldOf "forEach".toList ([] : List (Str × CVal))).isSome = true := by
              decide
            rw [if_neg hs2, mapOpt_refix Hf xs ys jv.2 hm]
            rfl
    · rw [if_neg ht] at h
      refine ⟨l, (Option.some.inj h).symm, Or.inl rfl, ?_⟩
      intro hj m hm
      rw [hv] at hm ⊢
      have e : strip v = v := strip_of_json v (hj v rfl)
      have hm2 : fieldOf k m = some v := by rw [hm]; simp [e]
      have hg2 : getProp (.obj m) k = some v := hm2
      unfold fixEach
      rw [hg2]
      simp only
      rw [if_neg ht, setField_same hm2]

/-- Fix 3 on a record: the fix changes at most the field `testData`, and on
the clone of the result it gives the field the same value again. -/
theorem fixTestData_top {lower : Str → Str} {b : Bool}
    {l : List (Str × CVal)} {r : CVal} (h : fixTestData lower b (.obj l) = some r) :
    ∃ l2, r = .obj l2 ∧ (l2 = l ∨ ∃ w, l2 = setField "testData".toList w l) ∧
      ((∀ v, fieldOf "testData".toList l = some v → json v = true) →
        Refixed (fixTestData lower b) "testData".toList (fieldOf "testData".toList l2)) := by
  unfold fixTestData at h
  have hg : getProp (.obj l) "testData".toList = fieldOf "testData".toList l := rfl
  rw [hg] at h
  have same : ∀ v, fieldOf "testData".toList l = some v → json v = true →
      (∀ m : List (Str × CVal), fieldOf "testData".toList m = some v →
        fixTestData lower b (.obj m) = some (.obj m)) →
      Refixed (fixTestData lower b) "testData".toList (fieldOf "testData".toList l) := by
    intro v hv jv hsame m hm
    rw [hv] at hm ⊢
    have e : strip v = v := strip_of_json v jv
    have hm2 : fieldOf "testData".toList m = some v := by rw [hm]; simp [e]
    simp only
    rw [setField_same hm2]
    exact hsame m hm2
  cases hv : fieldOf "testData".toList l with
  | none =>
    rw [hv] at h
    refine ⟨l, (Option.some.inj h).symm, Or.inl rfl, ?_⟩
    intro _ m hm
    rw [hv] at hm ⊢
    unfold fixTestData
    have hg2 : getProp (.obj m) "testData".toList = none := hm
    rw [hg2]
  | some v =>
    rw [hv] at h
    simp only at h
    by_cases ht : truthy v = true
    · rw [if_pos ht] at h
      cases v with
      | null => exact absurd ht (by decide)
      | str s => cases h
      | bool c =>
        refine ⟨l, (Option.some.inj h).symm, Or.inl rfl, ?_⟩
        intro hj
        refine same _ hv (hj _ rfl) ?_
        intro m hm
        unfold fixTestData
        have hg2 : getProp (.obj m) "testData".toList = some (.bool c) := hm
        rw [hg2]
        simp only
        rw [if_pos ht]
      | num n =>
        refine ⟨l, (Option.some.inj h).symm, Or.inl rfl, ?_⟩
        intro hj
        refine same _ hv (hj _ rfl) ?_
        intro m hm
        unfold fixTestData
        have hg2 : getProp (.obj m) "testData".toList = some (.num n) := hm
        rw [hg2]
        simp only
        rw [if_pos ht]
      | obj kvs =>
        have h2 : some (CVal.obj (setField "testData".toList
            (.obj (fixFields lower b kvs)) l)) = some r := h
        refine ⟨_, (Option.some.inj h2).symm, Or.inr ⟨_, rfl⟩, ?_⟩
        intro hj m hmm
        rw [fieldOf_setField_same] at hmm ⊢
        have jv : jsonFields kvs = true := hj _ rfl
        have e : strip (.obj (fixFields lower b kvs)) = .obj (fixFields lower b kvs) :=
          strip_of_json _ (jsonFields_fixFields lower b kvs jv)
        have hg2 : getProp (.obj m) "testData".toList = some (.obj (fixFields lower b kvs)) := by
          show fieldOf _ m = _
          rw [hmm]; simp [e]
        unfold fixTestData
        rw [hg2]
        simp only
        rw [if_pos (show truthy (CVal.obj (fixFields lower b kvs)) = true from rfl),
          fixFields_idem]
        rfl
      | arr xs ps =>
        have h2 : some (CVal.obj (setField "testData".toList
            (.arr (fixElems lower b 0 xs) (fixFields lower b ps)) l)) = some r := h
        refine ⟨_, (Option.some.inj h2).symm, Or.inr ⟨_, rfl⟩, ?_⟩
        intro hj m hmm
        rw [fieldOf_setField_same] at hmm ⊢
        have jv := hj _ rfl
        rw [json, Bool.and_eq_true] at jv
        have hp : ps = [] := by
          cases ps with
          | nil => rfl
          | cons p r => exact absurd jv.1 (by simp)
        subst hp
        have jr : json (.arr (fixElems lower b 0 xs) (fixFields lower b [])) = true := by
          rw [json, jsonList_fixElems lower b xs 0 jv.2]
          rfl
        have hg2 : getProp (.obj m) "testData".toList =
            some (.arr (fixElems lower b 0 xs) (fixFields lower b [])) := by
          show fieldOf _ m = _
          rw [hmm]; simp [strip_of_json _ jr]
        unfold fixTestData
        rw [hg2]
        simp only
        rw [if_pos (show truthy (CVal.arr (fixElems lower b 0 xs) (fixFields lower b [])) = true
          from rfl), fixElems_idem, fixFields_idem]
        rfl
    · rw [if_neg ht] at h
      refine ⟨l, (Option.some.inj h).symm, Or.inl rfl, ?_⟩
      intro hj
      refine same _ hv (hj _ rfl) ?_
      intro m hm
      unfold fixTestData
      have hg2 : getProp (.obj m) "testData".toList = some v := hm
      rw [hg2]
      simp only
      rw [if_neg ht]

/-- Fix 4 on a record: the fix sets the field `framework`, and on the clone of
the result it gives the field the same value again. -/
theorem fixFramework_top {l : List (Str × CVal)} {r : CVal}
    (h : fixFramework (.obj l) = some r) :
    ∃ l2, r = .obj l2 ∧ (l2 = l ∨ ∃ w, l2 = setField "framework".toList w l) ∧
      ((∀ v, fieldOf "framework".toList l = some v → json v = true) →
        Refixed fixFramework "framework".toList (fieldOf "framework".toList l2)) := by
  unfold fixFramework at h
  cases h1 : setDefault "framework".toList (.obj []) (.obj l) with
  | none => rw [h1] at h; cases h
  | some c1 =>
    rw [h1] at h
    simp only at h
    obtain ⟨l1, e1, t1, o1, -, s1⟩ := setDefault_obj (by rfl) (by rfl) h1
    rw [e1] at h
    have hg : getProp (.obj l1) "framework".toList = fieldOf "framework".toList l1 := rfl
    rw [hg] at h
    cases hv : fieldOf "framework".toList l1 with
    | none => rw [hv] at h; cases h
    | some fv =>
      rw [hv] at h
      simp only at h
      cases hf : fixFrameworkValue fv with
      | none => rw [hf] at h; cases h
      | some f3 =>
        rw [hf] at h
        have h2 : some (CVal.obj (setField "framework".toList f3 l1)) = some r := h
        have e2 : setField "framework".toList f3 l1 = setField "framework".toList f3 l := by
          rcases s1 with s1 | s1
          · rw [s1]
          · rw [s1, setField_twice]
        rw [e2] at h2
        refine ⟨_, (Option.some.inj h2).symm, Or.inr ⟨_, rfl⟩, ?_⟩
        intro hj m hm
        rw [fieldOf_setField_same] at hm ⊢
        have jfv : json fv = true := by
          rcases s1 with s1 | s1
          · rw [s1] at hv
            exact hj _ hv
          · rw [s1, fieldOf_setField_same] at hv
            rw [← Option.some.inj hv]
            rfl
        have hk := fixFrameworkValue_sameKind _ _ hf
        have hm2 : fieldOf "framework".toList m = some (strip f3) := hm
        have ht : truthyU (getProp (.obj m) "framework".toList) = true := by
          show truthyU (fieldOf _ m) = true
          rw [hm2]
          exact truthy_strip_of_sameKind hk
        unfold fixFramework
        rw [setDefault_of_truthy ht]
        simp only
        have hg2 : getProp (.obj m) "framework".toList = some (strip f3) := hm2
        rw [hg2]
        simp only
        rw [fixFrameworkValue_refix fv f3 jfv hf]
        rfl

/-- Fix 5 on a record: the fix sets the field `application`, and on the clone
of the result it gives the field the same value again. -/
theorem fixApplication_top {l : List (Str × CVal)} {r : CVal}
    (h : fixApplication (.obj l) = some r) :
    ∃ l2, r = .obj l2 ∧ (l2 = l ∨ ∃ w, l2 = setField "application".toList w l) ∧
      ((∀ v, fieldOf "application".toList l = some v → json v = true) →
        Refixed fixApplication "application".toList (fieldOf "application".toList l2)) := by
  unfold fixApplication at h
  have hg : getProp (.obj l) "application".toList = fieldOf "application".toList l := rfl
  rw [hg] at h
  have key : ∀ app a : CVal, json app = true →
      setDefault "timeout".toList (.num 30000) app = some a →
      ∀ m : List (Str × CVal), fieldOf "application".toList m = some (strip a) →
        fixApplication (.obj m) = some (.obj (setField "application".toList a m)) := by
    intro app a ja hs m hm
    have hk := setDefault_sameKind hs
    have hr := timeout_refix app a ja hs
    have hg2 : getProp (.obj m) "application".toList = some (strip a) := hm
    unfold fixApplication
    rw [hg2]
    cases a with
    | null => cases app <;> exact hk.elim
    | bool b => cases app <;> exact hk.elim
    | num n => cases app <;> exact hk.elim
    | str s => cases app <;> exact hk.elim
    | arr xs ps =>
      rw [strip] at hr ⊢
      simp only
      rw [hr]
      rfl
    | obj kvs =>
      rw [strip] at hr ⊢
      simp only
      rw [hr]
      rfl
  cases hv : fieldOf "application".toList l with
  | none => rw [hv] at h; cases h
  | some app =>
    rw [hv] at h
    cases app with
    | null => cases h
    | bool b0 =>
      simp only at h
      cases hs : setDefault "timeout".toList (.num 30000) (.bool b0) with
      | none => rw [hs] at h; cases h
      | some a => exact (setDefault_sameKind hs).elim
    | num n0 =>
      simp only at h
      cases hs : setDefault "timeout".toList (.num 30000) (.num n0) with
      | none => rw [hs] at h; cases h
      | some a => exact (setDefault_sameKind hs).elim
    | str s0 =>
      simp only at h
      cases hs : setDefault "timeout".toList (.num 30000) (.str s0) with
      | none => rw [hs] at h; cases h
      | some a => exact (setDefault_sameKind hs).elim
    | arr xs ps =>
      simp only at h
      cases hs : setDefault "timeout".toList (.num 30000) (.arr xs ps) with
      | none => rw [hs] at h; cases h
      | some a =>
        rw [hs] at h
        have h2 : some (CVal.obj (setField "application".toList a l)) = some r := h
        refine ⟨_, (Option.some.inj h2).symm, Or.inr ⟨_, rfl⟩, ?_⟩
        intro hj m hm
        rw [fieldOf_setField_same] at hm ⊢
        exact key _ a (hj _ rfl) hs m hm
    | obj kvs =>
      simp only at h
      cases hs : setDefault "timeout".toList (.num 30000) (.obj kvs) with
      | none => rw [hs] at h; cases h
      | some a =>
        rw [hs] at h
        have h2 : some (CVal.obj (setField "application".toList a l)) = some r := h
        refine ⟨_, (Option.some.inj h2).symm, Or.inr ⟨_, rfl⟩, ?_⟩
        intro hj m hm
        rw [fieldOf_setField_same] at hm ⊢
        exact key _ a (hj _ rfl) hs m hm

/-! ## A second run of `autoFixIssues` on the content of a configuration -/

theorem realConfig_congr {l l2 : List (Str × CVal)}
    (h : fieldOf "project".toList l2 = fieldOf "project".toList l) :
    realConfig (.obj l2) = realConfig (.obj l) := by
  unfold realConfig isRealConfig
  have e1 : getProp (.obj l2) "project".toList = fieldOf "project".toList l2 := rfl
  have e2 : getProp (.obj l) "project".toList = fieldOf "project".toList l := rfl
  simp only [e1, e2, h]

/-- A fix that gives its field the same value again takes the clone, restored
at the keys in `K`, to the clone restored at one key more. -/
theorem refix_step {fix : CVal → Option CVal} {k : Str} {l : List (Str × CVal)}
    (R : Refixed fix k (fieldOf k l)) (K : Str → Bool) (hK : K k = false) :
    fix (.obj (restore K l)) = some (.obj (restore (fun x => K x || x == k) l)) := by
  rw [R (restore K l) (fieldOf_restore l K hK), restore_add]

theorem obj_of_json_prop {c : CVal} {k : Str} {v : CVal} (hj : json c = true)
    (h : getProp c k = some v) :
    ∃ l, c = .obj l ∧ jsonFields l = true ∧ fieldOf k l = some v := by
  cases c with
  | obj l => exact ⟨l, rfl, hj, h⟩
  | arr xs ps =>
    rw [json, Bool.and_eq_true] at hj
    cases ps with
    | nil => cases h
    | cons p r => exact absurd hj.1 (by simp)
  | null => cases h
  | bool b => cases h
  | num n => cases h
  | str s => cases h

theorem project_of_realConfig {c : CVal} {b : Bool} (h : realConfig c = some b) :
    ∃ p, getProp c "project".toList = some p := by
  unfold realConfig at h
  cases hi : isRealConfig c with
  | none => rw [hi] at h; cases h
  | some b2 =>
    rw [hi] at h
    simp only at h
    cases hp : getProp c "project".toList with
    | none => rw [hp] at h; cases h
    | some p => exact ⟨p, rfl⟩

/-- The five fixes on a record of JSON, step by step. -/
theorem fixAll_steps {lower : Str → Str} {b : Bool} {l0 : List (Str × CVal)} {r : CVal}
    (hj : jsonFields l0 = true) (h : fixAll lower b (.obj l0) = some r) :
    ∃ l1 l2 l3 l4 l5, r = .obj l5 ∧
      (l1 = l0 ∨ ∃ w, l1 = setField "testScenarios".toList w l0) ∧
      (l2 = l1 ∨ ∃ w, l2 = setField "apiEndpoints".toList w l1) ∧
      (l3 = l2 ∨ ∃ w, l3 = setField "testData".toList w l2) ∧
      (l4 = l3 ∨ ∃ w, l4 = setField "framework".toList w l3) ∧
      (l5 = l4 ∨ ∃ w, l5 = setField "application".toList w l4) ∧
      fixTestData lower b (.obj l2) = some (.obj l3) ∧
      Refixed (fixEach "testScenarios".toList fixScenario) "testScenarios".toList
        (fieldOf "testScenarios".toList l5) ∧
      Refixed (fixEach "apiEndpoints".toList fixEndpoint) "apiEndpoints".toList
        (fieldOf "apiEndpoints".toList l5) ∧
      Refixed (fixTestData lower b) "testData".toList (fieldOf "testData".toList l5) ∧
      Refixed fixFramework "framework".toList (fieldOf "framework".toList l5) ∧
      Refixed fixApplication "application".toList (fieldOf "application".toList l5) := by
  unfold fixAll at h
  cases h1 : fixEach "testScenarios".toList fixScenario (.obj l0) with
  | none => rw [h1] at h; cases h
  | some c1 =>
    rw [h1] at h
    simp only at h
    obtain ⟨l1, e1, s1, R1⟩ := fixEach_top fixScenario_refix h1
    rw [e1] at h
    cases h2 : fixEach "apiEndpoints".toList fixEndpoint (.obj l1) with
    | none => rw [h2] at h; cases h
    | some c2 =>
      rw [h2] at h
      simp only at h
      obtain ⟨l2, e2, s2, R2⟩ := fixEach_top fixEndpoint_refix h2
      rw [e2] at h
      cases h3 : fixTestData lower b (.obj l2) with
      | none => rw [h3] at h; cases h
      | some c3 =>
        rw [h3] at h
        simp only at h
        obtain ⟨l3, e3, s3, R3⟩ := fixTestData_top h3
        rw [e3] at h
        cases h4 : fixFramework (.obj l3) with
        | none => rw [h4] at h; cases h
        | some c4 =>
          rw [h4] at h
          simp only at h
          obtain ⟨l4, e4, s4, R4⟩ := fixFramework_top h4
          rw [e4] at h
          obtain ⟨l5, e5, s5, R5⟩ := fixApplication_top h
          have j0 : ∀ k v, fieldOf k l0 = some v → json v = true :=
            fun k v hv => json_of_fieldOf hj hv
          refine ⟨l1, l2, l3, l4, l5, e5, s1, s2, s3, s4, s5, by rw [h3, e3], ?_, ?_, ?_, ?_, ?_⟩
          · rw [fieldOf_of_shape s5 (by decide), fieldOf_of_shape s4 (by decide),
              fieldOf_of_shape s3 (by decide), fieldOf_of_shape s2 (by decide)]
            exact R1 (j0 _)
          · rw [fieldOf_of_shape s5 (by decide), fieldOf_of_shape s4 (by decide),
              fieldOf_of_shape s3 (by decide)]
            refine R2 ?_
            rw [fieldOf_of_shape s1 (by decide)]
            exact j0 _
          · rw [fieldOf_of_shape s5 (by decide), fieldOf_of_shape s4 (by decide)]
            refine R3 ?_
            rw [fieldOf_of_shape s2 (by decide), fieldOf_of_shape s1 (by decide)]
            exact j0 _
          · rw [fieldOf_of_shape s5 (by decide)]
            refine R4 ?_
            rw [fieldOf_of_shape s3 (by decide), fieldOf_of_shape s2 (by decide),
              fieldOf_of_shape s1 (by decide)]
            exact j0 _
          · refine R5 ?_
            rw [fieldOf_of_shape s4 (by decide), fieldOf_of_shape s3 (by decide),
              fieldOf_of_shape s2 (by decide), fieldOf_of_shape s1 (by decide)]
            exact j0 _

/-- The content that a run returns for a configuration of JSON is returned
again by a run on that content. -/
theorem fixedContent_idem (lower : Str → Str) (c r : CVal) (hj : json c = true)
    (h : fixedContent lower c = some r) : fixedContent lower r = some r := by
  unfold fixedContent at h
  cases hb : realConfig c with
  | none => rw [hb] at h; cases h
  | some b =>
    rw [hb] at h
    simp only at h
    obtain ⟨p, hp⟩ := project_of_realConfig hb
    obtain ⟨l0, e0, j0, -⟩ := obj_of_json_prop hj hp
    rw [strip_of_json c hj, e0] at h
    rw [e0] at hb
    obtain ⟨l1, l2, l3, l4, l5, e5, s1, s2, s3, s4, s5, -, R1, R2, R3, R4, R5⟩ :=
      fixAll_steps j0 h
    have hproj : fieldOf "project".toList l5 = fieldOf "project".toList l0 := by
      rw [fieldOf_of_shape s5 (by decide), fieldOf_of_shape s4 (by decide),
        fieldOf_of_shape s3 (by decide), fieldOf_of_shape s2 (by decide),
        fieldOf_of_shape s1 (by decide)]
    have hje : JsonExcept (fun x => ((((false || x == "testScenarios".toList) ||
        x == "apiEndpoints".toList) || x == "testData".toList) || x == "framework".toList) ||
        x == "application".toList) l5 :=
      jsonExcept_of_shape s5 (by decide) (jsonExcept_of_shape s4 (by decide)
        (jsonExcept_of_shape s3 (by decide) (jsonExcept_of_shape s2 (by decide)
          (jsonExcept_of_shape s1 (by decide) (jsonExcept_of_json l0 _ j0)))))
    rw [e5]
    unfold fixedContent
    rw [realConfig_congr hproj, hb]
    simp only
    rw [strip, ← restore_none]
    unfold fixAll
    rw [refix_step R1 _ rfl]
    simp only
    rw [refix_step R2 _ (by decide)]
    simp only
    rw [refix_step R3 _ (by decide)]
    simp only
    rw [refix_step R4 _ (by decide)]
    simp only
    rw [refix_step R5 _ (by decide), restore_eq l5 _ hje]

/-! ## The run in the store -/

theorem get?_append_last (heap : Heap) (v : CVal) : (heap ++ [v]).get? heap.length = some v := by
  induction heap with
  | nil => rfl
  | cons x r ih => exact ih

theorem get?_append_old (heap : Heap) (v : CVal) {a : Nat} (h : a < heap.length) :
    (heap ++ [v]).get? a = heap.get? a := by
  induction heap generalizing a with
  | nil => exact absurd h (Nat.not_lt_zero _)
  | cons x r ih =>
    cases a with
    | zero => rfl
    | succ n => exact ih (Nat.lt_of_succ_lt_succ h)

theorem set_append_last (heap : Heap) (v w : CVal) :
    (heap ++ [v]).set heap.length w = heap ++ [w] := by
  induction heap with
  | nil => rfl
  | cons x r ih =>
    show x :: (r ++ [v]).set r.length w = x :: (r ++ [w])
    rw [ih]

theorem lt_of_get? {heap : Heap} {a : Nat} {c : CVal} (h : heap.get? a = some c) :
    a < heap.length := by
  induction heap generalizing a with
  | nil => cases h
  | cons x r ih =>
    cases a with
    | zero => exact Nat.succ_pos _
    | succ n => exact Nat.succ_lt_succ (ih h)

/-- A statement through the reference of the clone changes the last object of
the store and no other. -/
theorem applyAt_last (f : CVal → Option CVal) (heap : Heap) (v : CVal) :
    applyAt f heap.length (heap ++ [v]) = (f v).map (fun v2 => heap ++ [v2]) := by
  unfold applyAt
  rw [get?_append_last]
  simp only
  cases f v with
  | none => rfl
  | some v2 =>
    simp only [Option.map_some']
    rw [set_append_last]

/-- The run in the store, by the content it returns: the store gains one
object, the returned configuration, and the reference returned is its
position. -/
theorem autoFixIssues_eq (lower : Str → Str) (heap : Heap) (config : Nat) :
    autoFixIssues lower heap config =
      (heap.get? config).bind (fun c =>
        (fixedContent lower c).map (fun r => (heap ++ [r], heap.length))) := by
  unfold autoFixIssues
  cases hc : heap.get? config with
  | none => rfl
  | some c =>
    simp only [Option.some_bind]
    rw [get?_append_old heap _ (lt_of_get? hc), hc]
    simp only [Option.some_bind]
    unfold fixedContent
    cases realConfig c with
    | none => rfl
    | some b =>
      simp only
      unfold fixAll
      rw [applyAt_last]
      cases fixEach "testScenarios".toList fixScenario (strip c) with
      | none => rfl
      | some c1 =>
        simp only [Option.map_some']
        rw [applyAt_last]
        cases fixEach "apiEndpoints".toList fixEndpoint c1 with
        | none => rfl
        | some c2 =>
          simp only [Option.map_some']
          rw [applyAt_last]
          cases fixTestData lower b c2 with
          | none => rfl
          | some c3 =>
            simp only [Option.map_some']
            rw [applyAt_last]
            cases fixFramework c3 with
            | none => rfl
            | some c4 =>
              simp only [Option.map_some']
              rw [applyAt_last]
              cases fixApplication c4 with
              | none => rfl
              | some c5 => rfl

/-! ## Runs on the sample configurations -/

/-- A scenario that is an array: the run completes, and the fixes set named
properties on the array. -/
theorem array_scenario_run :
    autoFixIssues asciiLower [cfgArrayScenario] 0 =
      some ([cfgArrayScenario, cfgArrayScenarioFixed], 1) :=
  rfl

/-- A field `__proto__` of `testData` is a field as any other: Fix 3 assigns the
array to it. -/
theorem proto_entry_run :
    autoFixIssues asciiLower [cfgProto] 0 = some ([cfgProto, cfgProtoFixed], 1) :=
  rfl

/-! ## C37: filled arrays of `testData` are kept -/

theorem fixTestData_keeps {lower : Str → Str} {b : Bool} {l2 l3 : List (Str × CVal)}
    {td : CVal} (h : fixTestData lower b (.obj l2) = some (.obj l3))
    (htd : fieldOf "testData".toList l2 = some td) :
    ∃ td2, fieldOf "testData".toList l3 = some td2 ∧
      (∀ k x xs ps, getProp td k = some (.arr (x :: xs) ps) →
        getProp td2 k = some (.arr (x :: xs) ps)) ∧
      (∀ ys qs i x xs ps, td = .arr ys qs → ys.get? i = some (.arr (x :: xs) ps) →
        ∃ ys2 qs2, td2 = .arr ys2 qs2 ∧ ys2.get? i = some (.arr (x :: xs) ps)) := by
  have same : some (CVal.obj l2) = some (CVal.obj l3) →
      ∃ td2, fieldOf "testData".toList l3 = some td2 ∧
      (∀ k x xs ps, getProp td k = some (.arr (x :: xs) ps) →
        getProp td2 k = some (.arr (x :: xs) ps)) ∧
      (∀ ys qs i x xs ps, td = .arr ys qs → ys.get? i = some (.arr (x :: xs) ps) →
        ∃ ys2 qs2, td2 = .arr ys2 qs2 ∧ ys2.get? i = some (.arr (x :: xs) ps)) := by
    intro e
    have e2 : l2 = l3 := CVal.obj.inj (Option.some.inj e)
    rw [← e2]
    exact ⟨td, htd, fun _ _ _ _ hk => hk, fun ys qs i x xs ps e hi => ⟨ys, qs, e, hi⟩⟩
  unfold fixTestData at h
  have hg : getProp (.obj l2) "testData".toList = some td := htd
  rw [hg] at h
  simp only at h
  by_cases ht : truthy td = true
  · rw [if_pos ht] at h
    cases td with
    | null => exact same h
    | bool c => exact same h
    | num n => exact same h
    | str s => cases h
    | obj kvs =>
      have h2 : some (CVal.obj (setField "testData".toList
          (.obj (fixFields lower b kvs)) l2)) = some (CVal.obj l3) := h
      have e2 := CVal.obj.inj (Option.some.inj h2)
      rw [← e2]
      refine ⟨_, fieldOf_setField_same _ _ _, ?_, ?_⟩
      · intro k x xs ps hk
        show fieldOf k (fixFields lower b kvs) = _
        have hk2 : fieldOf k kvs = some (.arr (x :: xs) ps) := hk
        rw [fieldOf_fixFields, hk2, Option.map_some', fixEntry_of_filled]
      · intro ys qs i x xs ps e
        cases e
    | arr zs rs =>
      have h2 : some (CVal.obj (setField "testData".toList
          (.arr (fixElems lower b 0 zs) (fixFields lower b rs)) l2)) = some (CVal.obj l3) := h
      have e2 := CVal.obj.inj (Option.some.inj h2)
      rw [← e2]
      refine ⟨_, fieldOf_setField_same _ _ _, ?_, ?_⟩
      · intro k x xs ps hk
        show fieldOf k (fixFields lower b rs) = _
        have hk2 : fieldOf k rs = some (.arr (x :: xs) ps) := hk
        rw [fieldOf_fixFields, hk2, Option.map_some', fixEntry_of_filled]
      · intro ys qs i x xs ps e hi
        have e3 := (CVal.arr.inj e).1
        rw [← e3] at hi
        exact ⟨_, _, rfl, fixElems_keeps_filled lower b x xs ps zs 0 i hi⟩
  · rw [if_neg ht] at h
    exact same h

/-- C37. For every configuration, a value of `JSON.parse`, in a store on which a
run of `autoFixIssues` completes: the configuration and every other object of
the store are after the run as they were before it, and the returned
configuration is an object of the store in which, for every entry of the
`testData` of the configuration whose value is a non-empty array (a field of the
record, or an element when `testData` is itself an array), `testData` has
exactly that value under the same key. -/
theorem filled_arrays_kept (lower : Str → Str) (heap : Heap) (config : Nat) (c : CVal)
    (heap2 : Heap) (fixed : Nat) (hj : json c = true) (hc : heap.get? config = some c)
    (h : autoFixIssues lower heap config = some (heap2, fixed)) :
    heap2.get? config = some c ∧
      (∀ a, a < heap.length → heap2.get? a = heap.get? a) ∧
      ∃ r, heap2.get? fixed = some r ∧
        ∀ td, getProp c "testData".toList = some td →
          ∃ td2, getProp r "testData".toList = some td2 ∧
            (∀ k x xs ps, getProp td k = some (.arr (x :: xs) ps) →
              getProp td2 k = some (.arr (x :: xs) ps)) ∧
            (∀ ys qs i x xs ps, td = .arr ys qs → ys.get? i = some (.arr (x :: xs) ps) →
              ∃ ys2 qs2, td2 = .arr ys2 qs2 ∧ ys2.get? i = some (.arr (x :: xs) ps)) := by
  rw [autoFixIssues_eq, hc] at h
  simp only [Option.some_bind] at h
  cases hf : fixedContent lower c with
  | none => rw [hf] at h; cases h
  | some r =>
    rw [hf] at h
    simp only [Option.map_some', Option.some.injEq, Prod.mk.injEq] at h
    obtain ⟨e1, e2⟩ := h
    rw [← e1, ← e2]
    refine ⟨?_, fun a ha => get?_append_old heap r ha, r, get?_append_last heap r, ?_⟩
    · rw [get?_append_old heap r (lt_of_get? hc)]
      exact hc
    · intro td htd
      obtain ⟨l0, e0, j0, htd0⟩ := obj_of_json_prop hj htd
      unfold fixedContent at hf
      cases hb : realConfig c with
      | none => rw [hb] at hf; cases hf
      | some b =>
        rw [hb] at hf
        simp only at hf
        rw [strip_of_json c hj, e0] at hf
        obtain ⟨l1, l2, l3, l4, l5, e5, s1, s2, s3, s4, s5, h3, -⟩ := fixAll_steps j0 hf
        have htd2 : fieldOf "testData".toList l2 = some td := by
          rw [fieldOf_of_shape s2 (by decide), fieldOf_of_shape s1 (by decide)]
          exact htd0
        obtain ⟨td2, ht3, hn, hi⟩ := fixTestData_keeps h3 htd2
        refine ⟨td2, ?_, hn, hi⟩
        rw [e5]
        show fieldOf _ l5 = _
        rw [fieldOf_of_shape s5 (by decide), fieldOf_of_shape s4 (by decide)]
        exact ht3

/-- C37, witness: the run on `cfgSample` and the entry `user_ids`. -/
theorem filled_arrays_kept_witness :
    ([cfgSample, cfgFixed] : Heap).get? 0 = some cfgSample ∧
      ∃ td2, getProp cfgFixed "testData".toList = some td2 ∧
        getProp td2 "user_ids".toList = some (.arr [.str "7".toList] []) := by
  obtain ⟨h1, -, r, hr, H⟩ :=
    filled_arrays_kept asciiLower [cfgSample] 0 cfgSample [cfgSample, cfgFixed] 1 rfl rfl rfl
  have e : cfgFixed = r := Option.some.inj hr
  obtain ⟨td2, h2, h3, -⟩ := H _ rfl
  rw [← e] at h2
  exact ⟨h1, td2, h2, h3 "user_ids".toList (.str "7".toList) [] [] rfl⟩

/-! ## C38: a weight of zero is replaced -/

theorem getProp_setProp_ne {k k2 : Str} {v x y : CVal} (h : setProp k v x = some y)
    (hk : k2 ≠ k) : getProp y k2 = getProp x k2 := by
  cases x with
  | obj l =>
    have e : some (CVal.obj (setField k v l)) = some y := h
    rw [← Option.some.inj e]
    exact fieldOf_setField_ne v hk l
  | arr xs ps =>
    have e : some (CVal.arr xs (setField k v ps)) = some y := h
    rw [← Option.some.inj e]
    exact fieldOf_setField_ne v hk ps
  | null => cases h
  | bool b => cases h
  | num n => cases h
  | str s => cases h

theorem getProp_setProp_same {k : Str} {v x y : CVal} (h : setProp k v x = some y) :
    getProp y k = some v := by
  cases x with
  | obj l =>
    have e : some (CVal.obj (setField k v l)) = some y := h
    rw [← Option.some.inj e]
    exact fieldOf_setField_same k v l
  | arr xs ps =>
    have e : some (CVal.arr xs (setField k v ps)) = some y := h
    rw [← Option.some.inj e]
    exact fieldOf_setField_same k v ps
  | null => cases h
  | bool b => cases h
  | num n => cases h
  | str s => cases h

theorem setDefaultMsg_other {k k2 : Str} {d : CVal} {n : Option CVal} {x y : CVal}
    (h : setDefaultMsg k d n x = some y) (hk : k2 ≠ k) : getProp y k2 = getProp x k2 := by
  unfold setDefaultMsg at h
  by_cases ht : truthyU (getProp x k) = true
  · rw [if_pos ht] at h
    rw [← Option.some.inj h]
  · rw [if_neg ht] at h
    cases hs : setProp k d x with
    | none => rw [hs] at h; cases h
    | some o2 =>
      rw [hs] at h
      simp only at h
      cases hn : cTextU n with
      | none => rw [hn] at h; cases h
      | some t =>
        rw [hn] at h
        rw [← Option.some.inj h]
        exact getProp_setProp_ne hs hk

/-- The weight of a scenario after Fix 1 is the weight that the first default
leaves. -/
theorem fixScenario_weight {s s2 : CVal} (h : fixScenario s = some s2) :
    ∃ s1, setDefaultMsg "weight".toList (.num 50) (getProp s "name".toList) s = some s1 ∧
      getProp s2 "weight".toList = getProp s1 "weight".toList := by
  obtain ⟨s1, s3, h1, h2, h3⟩ := fixScenario_steps h
  refine ⟨s1, h1, ?_⟩
  have e2 : getProp s3 "weight".toList = getProp s1 "weight".toList :=
    setDefaultMsg_other h2 (by decide)
  rcases h3 with ⟨-, e⟩ | ⟨-, t, -, hs⟩
  · rw [e, e2]
  · rw [getProp_setProp_ne hs (by decide), e2]

/-- A weight that is truthy is kept by Fix 1. -/
theorem fixScenario_keeps_weight {s s2 : CVal} (h : fixScenario s = some s2)
    (ht : truthyU (getProp s "weight".toList) = true) :
    getProp s2 "weight".toList = getProp s "weight".toList := by
  obtain ⟨s1, h1, e⟩ := fixScenario_weight h
  rw [setDefaultMsg_of_truthy ht] at h1
  rw [e, ← Option.some.inj h1]

/-- A weight that is falsy, the number zero among them, is replaced by 50, as a
missing weight is. -/
theorem fixScenario_replaces_falsy {s s2 : CVal} (h : fixScenario s = some s2)
    (ht : truthyU (getProp s "weight".toList) = false) :
    getProp s2 "weight".toList = some (.num 50) := by
  obtain ⟨s1, h1, e⟩ := fixScenario_weight h
  rw [e]
  unfold setDefaultMsg at h1
  rw [ht] at h1
  simp only [Bool.false_eq_true, if_false] at h1
  cases hs : setProp "weight".toList (.num 50) s with
  | none => rw [hs] at h1; cases h1
  | some o2 =>
    rw [hs] at h1
    simp only at h1
    cases hn : cTextU (getProp s "name".toList) with
    | none => rw [hn] at h1; cases h1
    | some t =>
      rw [hn] at h1
      rw [← Option.some.inj h1]
      exact getProp_setProp_same hs

/-- C38 (code bug). The scenario of `cfgSample` has the weight `0`; the run of
`autoFixIssues` on it returns `cfgFixed`, in which its weight is `50`. -/
theorem zero_weight_replaced :
    scenarioWeight cfgSample 0 = some (.num 0) ∧
      autoFixIssues asciiLower [cfgSample] 0 = some ([cfgSample, cfgFixed], 1) ∧
      scenarioWeight cfgFixed 0 = some (.num 50) :=
  ⟨rfl, rfl, rfl⟩

/-! ## C39: the keys of the sample table -/

/-- The keys of the table that `generateSampleData` maps to their own entry:
the two without an underscore. -/
theorem sample_table_own_entries :
    sampleData.map (fun e => decide (generateSampleData asciiLower e.1 = e.2)) =
      [false, false, false, false, false, false, false, true, true] := by
  decide

/-- A key in camel case finds the entry that the key of the table misses. -/
theorem sample_of_camel_case :
    generateSampleData asciiLower "userIds".toList =
      ["1".toList, "2".toList, "3".toList, "4".toList, "5".toList] := by
  decide

/-- C39 (code bug). For the key `user_ids`, a name of the sample table,
`generateSampleData` returns the fallback list and not the entry of the
table. -/
theorem sample_of_table_key_is_fallback :
    generateSampleData asciiLower "user_ids".toList = sampleFallback ∧
      ("user_ids".toList, sampleFallback) ∉ sampleData :=
  ⟨by decide, by decide⟩

/-! ## C40: a second run of `autoFixIssues` -/

/-- The second run on the configuration that the run on `cfgArrayScenario`
returned: the clone has lost the named properties of the array, and the fixes
set them again. -/
theorem array_scenario_second_run :
    autoFixIssues asciiLower [cfgArrayScenario, cfgArrayScenarioFixed] 1 =
      some ([cfgArrayScenario, cfgArrayScenarioFixed, cfgArrayScenarioFixed], 2) :=
  rfl

/-- C40. For every configuration, a value of `JSON.parse`, in a store on which a
run of `autoFixIssues` completes, the run on the returned configuration
completes as well, and the configuration it returns is equal to the one it was
given, which it has left as it was. -/
theorem autoFixIssues_idempotent (lower : Str → Str) (heap : Heap) (config : Nat) (c : CVal)
    (heap1 : Heap) (fixed : Nat) (hj : json c = true) (hc : heap.get? config = some c)
    (h : autoFixIssues lower heap config = some (heap1, fixed)) :
    ∃ r heap2 fixed2, heap1.get? fixed = some r ∧
      autoFixIssues lower heap1 fixed = some (heap2, fixed2) ∧
      heap2.get? fixed2 = some r ∧ heap2.get? fixed = some r := by
  rw [autoFixIssues_eq, hc] at h
  simp only [Option.some_bind] at h
  cases hf : fixedContent lower c with
  | none => rw [hf] at h; cases h
  | some r =>
    rw [hf] at h
    simp only [Option.map_some', Option.some.injEq, Prod.mk.injEq] at h
    obtain ⟨e1, e2⟩ := h
    have hr : heap1.get? fixed = some r := by
      rw [← e1, ← e2]
      exact get?_append_last heap r
    refine ⟨r, heap1 ++ [r], heap1.length, hr, ?_, get?_append_last heap1 r, ?_⟩
    · rw [autoFixIssues_eq, hr]
      simp only [Option.some_bind]
      rw [fixedContent_idem lower c r hj hf]
      rfl
    · rw [get?_append_old heap1 r (lt_of_get? hr)]
      exact hr

/-- C40, witness: the second run on the result for `cfgSample`. -/
theorem autoFixIssues_idempotent_witness :
    autoFixIssues asciiLower [cfgSample] 0 = some ([cfgSample, cfgFixed], 1) ∧
      ∃ heap2 fixed2, autoFixIssues asciiLower [cfgSample, cfgFixed] 1 = some (heap2, fixed2) ∧
        heap2.get? fixed2 = some cfgFixed ∧ heap2.get? 1 = some cfgFixed := by
  obtain ⟨r, heap2, fixed2, hr, h2, h3, h4⟩ :=
    autoFixIssues_idempotent asciiLower [cfgSample] 0 cfgSample [cfgSample, cfgFixed] 1
      rfl rfl rfl
  have e : cfgFixed = r := Option.some.inj hr
  rw [← e] at h3 h4
  exact ⟨rfl, heap2, fixed2, h2, h3, h4⟩

end K6Gen
